import Mathlib

/-!
# Inverse kinematics on an Acclaim skeleton

A shallow embedding of `src/simulation/kinematics.cpp` and `src/acclaim/skeleton.cpp`.

* `double` arithmetic is kept abstract: every function is written over a `Kernel`, a record
  of the scalar operations the C++ code uses.  IEEE doubles are one instance; the instance
  `exactKernel` (exact rationals plus one absorbing "not a finite number" value) is the one
  used to evaluate the definitions.
* A `Bone *` is a `Ptr`: the identity of the `std::vector<Bone>` buffer it points into and
  an array position.  Dereferencing a pointer outside the array is a `Run.fault`.
* Loops whose bound is not fixed by the code take a fuel argument and answer `Run.timeout`
  when it runs out.
-/

set_option autoImplicit false

/-! ## Outcomes -/

/-- Outcome of running a piece of the program. -/
inductive Run (α : Type) where
  /-- The code returned. -/
  | done (a : α) : Run α
  /-- Undefined behaviour: a null or out-of-bounds dereference. -/
  | fault : Run α
  /-- The fuel ran out before the code returned. -/
  | timeout : Run α
  deriving DecidableEq, Repr

namespace Run

/-- Sequencing of outcomes. -/
def bind {α β : Type} (r : Run α) (f : α → Run β) : Run β :=
  match r with
  | done a => f a
  | fault => fault
  | timeout => timeout

instance : Monad Run where
  pure := Run.done
  bind := Run.bind

/-- The value a run returned, or `d` when it did not return. -/
def getD {α : Type} (r : Run α) (d : α) : α :=
  match r with
  | done a => a
  | _ => d

/-- The code returned (no fault, no timeout). -/
def returns {α : Type} (r : Run α) : Bool :=
  match r with
  | done _ => true
  | _ => false

end Run

/-! ## Scalars and fixed-size vectors -/

/-- An `Eigen::Vector4d`. -/
structure Vec4 (S : Type) where
  x : S
  y : S
  z : S
  w : S
  deriving DecidableEq, Repr

/-- An `Eigen::Vector3d`. -/
structure Vec3 (S : Type) where
  x : S
  y : S
  z : S
  deriving DecidableEq, Repr

/-- An `Eigen::Matrix3d`, by rows. -/
structure Mat3 (S : Type) where
  r0 : Vec3 S
  r1 : Vec3 S
  r2 : Vec3 S
  deriving DecidableEq, Repr

/-- The arithmetic the code performs on `double` (type `S`) and on the bone's world
rotation (`Bone::rotation`, type `R`, declared in the absent `acclaim/bone.h`). -/
structure Kernel (S R : Type) where
  /-- The `double` denoted by a decimal literal. -/
  lit : ℚ → S
  add : S → S → S
  sub : S → S → S
  mul : S → S → S
  div : S → S → S
  sqrt : S → S
  /-- The comparison `a < b` on doubles. -/
  lt : S → S → Bool
  /-- The product `rotation * v` of a bone's world rotation and a `Vector4d`. -/
  rotate : R → Vec4 S → Vec4 S

namespace Kernel

variable {S R : Type} (K : Kernel S R)

/-- Componentwise `a - b` on `Vector4d`. -/
def sub4 (a b : Vec4 S) : Vec4 S :=
  ⟨K.sub a.x b.x, K.sub a.y b.y, K.sub a.z b.z, K.sub a.w b.w⟩

/-- Componentwise `a + b` on `Vector4d`. -/
def add4 (a b : Vec4 S) : Vec4 S :=
  ⟨K.add a.x b.x, K.add a.y b.y, K.add a.z b.z, K.add a.w b.w⟩

/-- The dot product `a.dot(b)` on `Vector4d`. -/
def dot4 (a b : Vec4 S) : S :=
  K.add (K.add (K.add (K.mul a.x b.x) (K.mul a.y b.y)) (K.mul a.z b.z)) (K.mul a.w b.w)

/-- Eigen `squaredNorm()` on `Vector4d`. -/
def squaredNorm4 (a : Vec4 S) : S := K.dot4 a a

/-- Eigen `norm()` on `Vector4d`. -/
def norm4 (a : Vec4 S) : S := K.sqrt (K.squaredNorm4 a)

/-- Eigen `normalized()`: divide by the norm when the squared norm is positive. -/
def normalized4 (a : Vec4 S) : Vec4 S :=
  let z := K.squaredNorm4 a
  if K.lt (K.lit 0) z then
    let n := K.sqrt z
    ⟨K.div a.x n, K.div a.y n, K.div a.z n, K.div a.w n⟩
  else a

/-- Eigen `cross3`: the cross product of the first three coefficients, fourth coefficient 0. -/
def cross3 (a b : Vec4 S) : Vec4 S :=
  ⟨K.sub (K.mul a.y b.z) (K.mul a.z b.y),
   K.sub (K.mul a.z b.x) (K.mul a.x b.z),
   K.sub (K.mul a.x b.y) (K.mul a.y b.x),
   K.lit 0⟩

/-- The zero `Vector4d` written by `setZero()`. -/
def zero4 : Vec4 S := ⟨K.lit 0, K.lit 0, K.lit 0, K.lit 0⟩

/-- The dot product on `Vector3d`. -/
def dot3 (a b : Vec3 S) : S :=
  K.add (K.add (K.mul a.x b.x) (K.mul a.y b.y)) (K.mul a.z b.z)

/-- Sum of a list of scalars, left to right, starting from 0. -/
def sum (l : List S) : S := l.foldl K.add (K.lit 0)

end Kernel

/-- `head<3>()` of a `Vector4d`, also the part of a column kept by `topRows(3)`. -/
def Vec4.head3 {S : Type} (v : Vec4 S) : Vec3 S := ⟨v.x, v.y, v.z⟩

/-- An `Eigen::Matrix4Xd`: four rows (fixed by the type), a list of columns. -/
abbrev Matrix4Xd (S : Type) := List (Vec4 S)

/-- An `Eigen::Matrix3Xd`: three rows, a list of columns. -/
abbrev Matrix3Xd (S : Type) := List (Vec3 S)

/-- An `Eigen::MatrixX3d`: a list of rows, three columns. -/
abbrev MatrixX3d (S : Type) := List (Vec3 S)

/-- An `Eigen::VectorXd`. -/
abbrev VectorXd (S : Type) := List S

/-- Row count of a `Matrix4Xd`. -/
def Matrix4Xd.rows {S : Type} (_J : Matrix4Xd S) : Nat := 4

/-- Column count of a `Matrix4Xd`. -/
def Matrix4Xd.cols {S : Type} (J : Matrix4Xd S) : Nat := J.length

/-- Row count of a `Matrix3Xd`. -/
def Matrix3Xd.rows {S : Type} (_J : Matrix3Xd S) : Nat := 3

/-- Column count of a `Matrix3Xd`. -/
def Matrix3Xd.cols {S : Type} (J : Matrix3Xd S) : Nat := J.length

/-- `Jacobian.topRows(3)`. -/
def Matrix4Xd.topRows3 {S : Type} (J : Matrix4Xd S) : Matrix3Xd S := J.map Vec4.head3

/-- `Matrix4Xd(4, n)` followed by `setZero()`. -/
def Matrix4Xd.zero {S R : Type} (K : Kernel S R) (n : Nat) : Matrix4Xd S :=
  List.replicate n K.zero4

/-- `J.col(j) = v`. -/
def Matrix4Xd.setCol {S : Type} (J : Matrix4Xd S) (j : Nat) (v : Vec4 S) : Matrix4Xd S :=
  J.set j v

/-! ## Bones, skeletons and postures -/

namespace acclaim

/-- A `Bone *` that is not null: the buffer of the `std::vector<Bone>` it points into and
the array position inside that buffer. -/
structure Ptr where
  store : Nat
  pos : Nat
  deriving DecidableEq, Repr

/-- The fields of `acclaim::Bone` the code reads and writes (`acclaim/bone.h` is absent;
the fields are those used in `skeleton.cpp` and `kinematics.cpp`).  The two rendering
fields `rot_parent_current` and `global_facing` are left out. -/
structure Bone (S R : Type) where
  name : String
  idx : Int
  parent : Option Ptr
  child : Option Ptr
  sibling : Option Ptr
  dir : Vec4 S
  axis : Vec4 S
  length : S
  dof : Int
  dofrx : Bool
  dofry : Bool
  dofrz : Bool
  doftx : Bool
  dofty : Bool
  doftz : Bool
  rotation : R
  start_position : Vec4 S
  end_position : Vec4 S
  deriving DecidableEq

/-- The data members of `acclaim::Skeleton` (without `bone_graphics`), together with the
identity `store` of the buffer that holds `bones`. -/
structure Skeleton (S R : Type) where
  store : Nat
  scale : S
  movableBones : Int
  bones : List (Bone S R)
  deriving DecidableEq

/-- The data of `acclaim::Posture` (`acclaim/posture.h` is absent): the per-bone rotation
vectors the solver writes, and the per-bone translations. -/
structure Posture (S : Type) where
  bone_rotations : List (Vec4 S)
  bone_translations : List (Vec4 S)
  deriving DecidableEq, Repr

/-- Reading `*p` in the memory made of the skeleton's bone array. -/
def Skeleton.deref {S R : Type} (sk : Skeleton S R) (p : Ptr) : Run (Bone S R) :=
  if p.store = sk.store then
    match sk.bones[p.pos]? with
    | some b => Run.done b
    | none => Run.fault
  else Run.fault

/-- Reading `*p` for a possibly null pointer. -/
def Skeleton.derefOpt {S R : Type} (sk : Skeleton S R) (p : Option Ptr) : Run (Bone S R) :=
  match p with
  | some q => sk.deref q
  | none => Run.fault

/-- Pointer arithmetic `p - k`: defined while the result stays inside the array (or one
past its end). -/
def Skeleton.ptrSub {S R : Type} (sk : Skeleton S R) (p : Ptr) (k : Int) : Run Ptr :=
  if p.store = sk.store ∧ 0 ≤ (p.pos : Int) - k ∧ (p.pos : Int) - k ≤ (sk.bones.length : Int) then
    Run.done ⟨p.store, ((p.pos : Int) - k).toNat⟩
  else Run.fault

/-- `posture.bone_rotations[bone_idx] += deltaRotation`. -/
def Posture.addRotation {S R : Type} (K : Kernel S R) (posture : Posture S) (bone_idx : Int)
    (deltaRotation : Vec4 S) : Run (Posture S) :=
  if 0 ≤ bone_idx then
    match posture.bone_rotations[bone_idx.toNat]? with
    | some r =>
      Run.done { posture with
        bone_rotations := posture.bone_rotations.set bone_idx.toNat (K.add4 r deltaRotation) }
    | none => Run.fault
  else Run.fault

end acclaim

/-! ## The solver -/

namespace kinematics

open acclaim

/-- The three fields of a bone that forward kinematics recomputes. -/
structure Transient (S R : Type) where
  rotation : R
  start_position : Vec4 S
  end_position : Vec4 S

/-- The values forward kinematics computes: from the posture, the bone array and the
position of the root bone, the transient fields of the bone at each array position. -/
abbrev ForwardMap (S R : Type) := Posture S → List (Bone S R) → Nat → Nat → Transient S R

/-- Overwriting the three transient fields of a bone. -/
def setTransient {S R : Type} (b : Bone S R) (t : Transient S R) : Bone S R :=
  { b with
    rotation := t.rotation
    start_position := t.start_position
    end_position := t.end_position }

/-- Modelled from the spec: `forwardSolver` is declared in `simulation/kinematics.h` and
its definition is not among the sources.  Section 4.2 says it recomputes every bone's world
orientation and segment start and end points and "mutates only the three transient per-bone
fields"; which values it writes is the parameter `fk`. -/
def forwardSolver {S R : Type} (fk : ForwardMap S R) (posture : Posture S)
    (sk : Skeleton S R) (root_bone : Ptr) : Skeleton S R :=
  { sk with
    bones := sk.bones.mapIdx (fun i b => setTransient b (fk posture sk.bones root_bone.pos i)) }

/-- The determinant as Eigen's 3-by-3 `inverse()` computes it: the cofactors of the first
column times the first column. -/
def det3 {S R : Type} (K : Kernel S R) (m : Mat3 S) : S :=
  let c00 := K.sub (K.mul m.r1.y m.r2.z) (K.mul m.r1.z m.r2.y)
  let c10 := K.sub (K.mul m.r2.y m.r0.z) (K.mul m.r2.z m.r0.y)
  let c20 := K.sub (K.mul m.r0.y m.r1.z) (K.mul m.r0.z m.r1.y)
  K.add (K.add (K.mul c00 m.r0.x) (K.mul c10 m.r1.x)) (K.mul c20 m.r2.x)

/-- Eigen `inverse()` of a fixed-size 3-by-3 matrix: the transposed cofactors times the
reciprocal of the determinant, with no test of the determinant. -/
def inverse3 {S R : Type} (K : Kernel S R) (m : Mat3 S) : Mat3 S :=
  let c00 := K.sub (K.mul m.r1.y m.r2.z) (K.mul m.r1.z m.r2.y)
  let c10 := K.sub (K.mul m.r2.y m.r0.z) (K.mul m.r2.z m.r0.y)
  let c20 := K.sub (K.mul m.r0.y m.r1.z) (K.mul m.r0.z m.r1.y)
  let c01 := K.sub (K.mul m.r1.z m.r2.x) (K.mul m.r1.x m.r2.z)
  let c11 := K.sub (K.mul m.r2.z m.r0.x) (K.mul m.r2.x m.r0.z)
  let c21 := K.sub (K.mul m.r0.z m.r1.x) (K.mul m.r0.x m.r1.z)
  let c02 := K.sub (K.mul m.r1.x m.r2.y) (K.mul m.r1.y m.r2.x)
  let c12 := K.sub (K.mul m.r2.x m.r0.y) (K.mul m.r2.y m.r0.x)
  let c22 := K.sub (K.mul m.r0.x m.r1.y) (K.mul m.r0.y m.r1.x)
  let invdet := K.div (K.lit 1) (det3 K m)
  ⟨⟨K.mul c00 invdet, K.mul c10 invdet, K.mul c20 invdet⟩,
   ⟨K.mul c01 invdet, K.mul c11 invdet, K.mul c21 invdet⟩,
   ⟨K.mul c02 invdet, K.mul c12 invdet, K.mul c22 invdet⟩⟩

/-- The product `newJacobian * newJacobian.transpose()`, a 3-by-3 matrix. -/
def gram {S R : Type} (K : Kernel S R) (J : Matrix3Xd S) : Mat3 S :=
  ⟨⟨K.sum (J.map fun c => K.mul c.x c.x), K.sum (J.map fun c => K.mul c.x c.y),
    K.sum (J.map fun c => K.mul c.x c.z)⟩,
   ⟨K.sum (J.map fun c => K.mul c.y c.x), K.sum (J.map fun c => K.mul c.y c.y),
    K.sum (J.map fun c => K.mul c.y c.z)⟩,
   ⟨K.sum (J.map fun c => K.mul c.z c.x), K.sum (J.map fun c => K.mul c.z c.y),
    K.sum (J.map fun c => K.mul c.z c.z)⟩⟩

/-- The product `newJacobian.transpose() * M` for a 3-by-3 matrix `M`: one row for each
column of `newJacobian`. -/
def transposeMul {S R : Type} (K : Kernel S R) (J : Matrix3Xd S) (M : Mat3 S) : MatrixX3d S :=
  J.map fun c =>
    ⟨K.add (K.add (K.mul c.x M.r0.x) (K.mul c.y M.r1.x)) (K.mul c.z M.r2.x),
     K.add (K.add (K.mul c.x M.r0.y) (K.mul c.y M.r1.y)) (K.mul c.z M.r2.y),
     K.add (K.add (K.mul c.x M.r0.z) (K.mul c.y M.r1.z)) (K.mul c.z M.r2.z)⟩

/-- The solve of `kinematics.cpp`: `x = J3ᵀ (J3 J3ᵀ)⁻¹ t3` on the top three rows of the
Jacobian and the first three coefficients of the target. -/
def pseudoInverseLinearSolver {S R : Type} (K : Kernel S R) (Jacobian : Matrix4Xd S)
    (target : Vec4 S) : VectorXd S :=
  let newJacobian : Matrix3Xd S := Jacobian.topRows3
  let newTarget : Vec3 S := target.head3
  let pseudoInverseJacobian : MatrixX3d S :=
    transposeMul K newJacobian (inverse3 K (gram K newJacobian))
  pseudoInverseJacobian.map fun row => K.dot3 row newTarget

/-- What a call of the solver leaves behind: the returned flag, the posture and the bones
as mutated, the value of the loop counter `iter` at the return, and the number of
forward-kinematics evaluations performed. -/
structure IKResult (S R : Type) where
  stable : Bool
  posture : Posture S
  skeleton : Skeleton S R
  iter : Nat
  fkCalls : Nat
  deriving DecidableEq

/-- The constant `max_iteration`. -/
def max_iteration : Nat := 1000

/-- The constant `epsilon`. -/
def epsilon {S R : Type} (K : Kernel S R) : S := K.lit (1 / 1000)

/-- The constant `step`. -/
def step {S R : Type} (K : Kernel S R) : S := K.lit (1 / 10)

/-- The file's own `#define M_PI 3.1415`. -/
def M_PI {S R : Type} (K : Kernel S R) : S := K.lit (31415 / 10000)

/-- The `while (temp_bone != start_bone)` loop that counts the chain: `temp` is
`temp_bone`, `bone_num` the count so far.  When `temp_bone` is the root, the (unused)
`targetStartingLength` reads `root_bone->start_position` before the `break`. -/
def chainWalk {S R : Type} (sk : Skeleton S R) (start_bone root_bone : Ptr) :
    Nat → Option Ptr → Nat → Run Nat
  | 0, _, _ => Run.timeout
  | fuel + 1, temp, bone_num =>
    if temp = some start_bone then Run.done bone_num
    else if temp = some root_bone then do
      let _ ← sk.deref root_bone
      Run.done bone_num
    else do
      let b ← sk.derefOpt temp
      chainWalk sk start_bone root_bone fuel b.parent (bone_num + 1)

/-- The columns written for one chain bone: for each enabled rotational DOF, the
normalized rotated unit axis crossed with `target_pos - start_position`. -/
def jacobianColumns {S R : Type} (K : Kernel S R) (target_pos : Vec4 S) (b : Bone S R)
    (jacobianCount : Nat) (J : Matrix4Xd S) : Matrix4Xd S :=
  let J1 :=
    if b.dofrx then
      let rotationAxisX := K.normalized4 (K.rotate b.rotation ⟨K.lit 1, K.lit 0, K.lit 0, K.lit 0⟩)
      J.setCol (jacobianCount + 0) (K.cross3 rotationAxisX (K.sub4 target_pos b.start_position))
    else J
  let J2 :=
    if b.dofry then
      let rotationAxisY := K.normalized4 (K.rotate b.rotation ⟨K.lit 0, K.lit 1, K.lit 0, K.lit 0⟩)
      J1.setCol (jacobianCount + 1) (K.cross3 rotationAxisY (K.sub4 target_pos b.start_position))
    else J1
  if b.dofrz then
    let rotationAxisZ := K.normalized4 (K.rotate b.rotation ⟨K.lit 0, K.lit 0, K.lit 1, K.lit 0⟩)
    J2.setCol (jacobianCount + 2) (K.cross3 rotationAxisZ (K.sub4 target_pos b.start_position))
  else J2

/-- The first `for (int i = 0; i < bone_num; i++)` loop: `n` iterations remain, `i` is the
loop counter, `temp` is `temp_bone`. -/
def jacobianLoop {S R : Type} (K : Kernel S R) (sk : Skeleton S R) (target_pos : Vec4 S) :
    Nat → Nat → Option Ptr → Matrix4Xd S → Run (Matrix4Xd S)
  | 0, _, _, J => Run.done J
  | n + 1, i, temp, J => do
    let b ← sk.derefOpt temp
    jacobianLoop K sk target_pos n (i + 1) b.parent (jacobianColumns K target_pos b (i * 3) J)

/-- The Jacobian of one iteration: `Matrix4Xd(4, 3 * bone_num)`, zeroed, then filled. -/
def buildJacobian {S R : Type} (K : Kernel S R) (sk : Skeleton S R) (target_pos : Vec4 S)
    (end_bone : Ptr) (bone_num : Nat) : Run (Matrix4Xd S) :=
  jacobianLoop K sk target_pos bone_num 0 (some end_bone) (Matrix4Xd.zero K (3 * bone_num))

/-- Reading `deltatheta[k]`. -/
def coeff {S : Type} (v : VectorXd S) (k : Nat) : Run S :=
  match v[k]? with
  | some a => Run.done a
  | none => Run.fault

/-- The second `for (int i = 0; i < bone_num; i++)` loop: add the step, converted with
`180 / M_PI`, to the rotation entry `bone_rotations[temp_bone->idx]`. -/
def updateLoop {S R : Type} (K : Kernel S R) (sk : Skeleton S R) (deltatheta : VectorXd S) :
    Nat → Nat → Option Ptr → Posture S → Run (Posture S)
  | 0, _, _, posture => Run.done posture
  | n + 1, i, temp, posture => do
    let b ← sk.derefOpt temp
    let d0 ← coeff deltatheta (i * 3 + 0)
    let d1 ← coeff deltatheta (i * 3 + 1)
    let d2 ← coeff deltatheta (i * 3 + 2)
    let deltaRotation : Vec4 S :=
      ⟨K.mul d0 (K.div (K.lit 180) (M_PI K)), K.mul d1 (K.div (K.lit 180) (M_PI K)),
       K.mul d2 (K.div (K.lit 180) (M_PI K)), K.lit 0⟩
    let posture1 ← posture.addRotation K b.idx deltaRotation
    updateLoop K sk deltatheta n (i + 1) b.parent posture1

/-- The part of an iteration after the convergence test: Jacobian, solve, posture update. -/
def ikUpdate {S R : Type} (K : Kernel S R) (sk : Skeleton S R) (target_pos desiredVector : Vec4 S)
    (end_bone : Ptr) (bone_num : Nat) (posture : Posture S) : Run (Posture S) := do
  let Jacobian ← buildJacobian K sk target_pos end_bone bone_num
  let deltatheta : VectorXd S :=
    (pseudoInverseLinearSolver K Jacobian desiredVector).map fun a => K.mul (step K) a
  updateLoop K sk deltatheta bone_num 0 (some end_bone) posture

/-- The loop `for (int iter = 0; iter < max_iteration; iter++)`: `n` iterations remain,
`iter` is the loop counter, `calls` the forward-kinematics evaluations made so far. -/
def ikLoop {S R : Type} (K : Kernel S R) (fk : ForwardMap S R) (target_pos : Vec4 S)
    (root_bone end_bone : Ptr) (bone_num : Nat) :
    Nat → Nat → Nat → Skeleton S R → Posture S → Run (IKResult S R)
  | 0, iter, calls, sk, posture => Run.done ⟨false, posture, sk, iter, calls⟩
  | n + 1, iter, calls, sk, posture =>
    let sk1 := forwardSolver fk posture sk root_bone
    match sk1.deref end_bone with
    | Run.done eb =>
      let desiredVector := K.sub4 target_pos eb.end_position
      if K.lt (K.norm4 desiredVector) (epsilon K) then
        Run.done ⟨true, posture, sk1, iter, calls + 1⟩
      else
        match ikUpdate K sk1 target_pos desiredVector end_bone bone_num posture with
        | Run.done posture1 =>
          ikLoop K fk target_pos root_bone end_bone bone_num n (iter + 1) (calls + 1) sk1 posture1
        | Run.fault => Run.fault
        | Run.timeout => Run.timeout
    | Run.fault => Run.fault
    | Run.timeout => Run.timeout

/-- The function `inverseJacobianIKSolver`.  The bones live in `sk`; `fuel` bounds the
chain-counting walk. -/
def inverseJacobianIKSolver {S R : Type} (K : Kernel S R) (fk : ForwardMap S R) (fuel : Nat)
    (target_pos : Vec4 S) (start_bone end_bone : Ptr) (sk : Skeleton S R)
    (posture : Posture S) : Run (IKResult S R) := do
  let sb ← sk.deref start_bone
  let root_bone ← sk.ptrSub start_bone sb.idx
  let bone_num ← chainWalk sk start_bone root_bone fuel (some end_bone) 1
  ikLoop K fk target_pos root_bone end_bone bone_num max_iteration 0 0 sk posture

end kinematics

/-! ## Well-formed hierarchies and chains -/

namespace acclaim

/-- The pointer `p` points at a bone of the skeleton's array. -/
def Skeleton.owns {S R : Type} (sk : Skeleton S R) (p : Ptr) : Prop :=
  p.store = sk.store ∧ p.pos < sk.bones.length

instance {S R : Type} (sk : Skeleton S R) (p : Ptr) : Decidable (sk.owns p) :=
  inferInstanceAs (Decidable (_ ∧ _))

/-- The pointer to the bone at array position `i`, `&bones[i]`. -/
def Skeleton.ptr {S R : Type} (sk : Skeleton S R) (i : Nat) : Ptr := ⟨sk.store, i⟩

/-- Following `parent` links `k` times from `p`; `none` when a link is null or dangling. -/
def Skeleton.climb {S R : Type} (sk : Skeleton S R) : Nat → Option Ptr → Option Ptr
  | 0, p => p
  | k + 1, p =>
    match sk.derefOpt p with
    | Run.done b => Skeleton.climb sk k b.parent
    | _ => none

/-- Every bone's `idx` is its array position (`bones[i].idx == i`). -/
def Skeleton.Indexed {S R : Type} (sk : Skeleton S R) : Prop :=
  ∀ (i : Nat) (b : Bone S R), sk.bones[i]? = some b → b.idx = (i : Int)

/-- A well-formed hierarchy: `idx` is the array position, every parent link points into
the array, and every parent chain reaches the root `bones[0]`. -/
structure Skeleton.WellFormed {S R : Type} (sk : Skeleton S R) : Prop where
  indexed : sk.Indexed
  parent_owned : ∀ (i : Nat) (b : Bone S R) (p : Ptr),
    sk.bones[i]? = some b → b.parent = some p → sk.owns p
  reaches_root : ∀ p : Ptr, sk.owns p → ∃ k, sk.climb k (some p) = some (sk.ptr 0)

/-- The bone `end_bone` is `start_bone` or one of its descendants: following parent links
from `end_bone` arrives at `start_bone`. -/
def Skeleton.Descends {S R : Type} (sk : Skeleton S R) (start_bone end_bone : Ptr) : Prop :=
  ∃ k, sk.climb k (some end_bone) = some start_bone

/-- The hierarchy path from `end_bone` up to `start_bone`, both inclusive, has `N` bones:
`N - 1` parent links lead from `end_bone` to `start_bone`, and no fewer do. -/
def Skeleton.PathLength {S R : Type} (sk : Skeleton S R) (start_bone end_bone : Ptr)
    (N : Nat) : Prop :=
  ∃ k, N = k + 1 ∧ sk.climb k (some end_bone) = some start_bone ∧
    ∀ j, j < k → sk.climb j (some end_bone) ≠ some start_bone

/-- The root `bones[0]` has no parent. -/
def Skeleton.RootTop {S R : Type} (sk : Skeleton S R) : Prop :=
  ∀ rb : Bone S R, sk.bones[0]? = some rb → rb.parent = none

/-- Every rotational DOF of every bone is disabled. -/
def Skeleton.Locked {S R : Type} (sk : Skeleton S R) : Prop :=
  ∀ b : Bone S R, b ∈ sk.bones → b.dofrx = false ∧ b.dofry = false ∧ b.dofrz = false

/-- The posture has one rotation entry per bone of the skeleton. -/
def Posture.Aligned {S R : Type} (posture : Posture S) (sk : Skeleton S R) : Prop :=
  posture.bone_rotations.length = sk.bones.length

end acclaim

namespace kinematics

open acclaim

/-- The convergence test of one iteration: run forward kinematics on the posture, then
compare the norm of `target_pos - end_bone->end_position` with `epsilon`. -/
def errorBelow {S R : Type} (K : Kernel S R) (fk : ForwardMap S R) (target_pos : Vec4 S)
    (root_bone end_bone : Ptr) (sk : Skeleton S R) (posture : Posture S) : Bool :=
  match (forwardSolver fk posture sk root_bone).deref end_bone with
  | Run.done eb => K.lt (K.norm4 (K.sub4 target_pos eb.end_position)) (epsilon K)
  | _ => false

/-- One iteration that does not return: forward kinematics, then the Jacobian step. -/
def ikStep {S R : Type} (K : Kernel S R) (fk : ForwardMap S R) (target_pos : Vec4 S)
    (root_bone end_bone : Ptr) (bone_num : Nat) (st : Skeleton S R × Posture S) :
    Run (Skeleton S R × Posture S) := do
  let sk1 := forwardSolver fk st.2 st.1 root_bone
  let eb ← sk1.deref end_bone
  let posture1 ← ikUpdate K sk1 target_pos (K.sub4 target_pos eb.end_position) end_bone
    bone_num st.2
  Run.done (sk1, posture1)

/-- The bones and the posture as left by `k` iterations that did not return. -/
def afterIterations {S R : Type} (K : Kernel S R) (fk : ForwardMap S R) (target_pos : Vec4 S)
    (root_bone end_bone : Ptr) (bone_num : Nat) :
    Nat → Skeleton S R × Posture S → Run (Skeleton S R × Posture S)
  | 0, st => Run.done st
  | k + 1, st => do
    let st1 ← ikStep K fk target_pos root_bone end_bone bone_num st
    afterIterations K fk target_pos root_bone end_bone bone_num k st1

/-- The error measured at iteration `k` (counted from 0) is below the threshold. -/
def belowAt {S R : Type} (K : Kernel S R) (fk : ForwardMap S R) (target_pos : Vec4 S)
    (root_bone end_bone : Ptr) (bone_num : Nat) (sk : Skeleton S R) (posture : Posture S)
    (k : Nat) : Prop :=
  ∃ st, afterIterations K fk target_pos root_bone end_bone bone_num k (sk, posture) = Run.done st ∧
    errorBelow K fk target_pos root_bone end_bone st.1 st.2 = true

/-- The shape `(rows, cols)` of the Jacobian a run produced. -/
def jacobianShape {S : Type} (r : Run (Matrix4Xd S)) : Run (Nat × Nat) :=
  match r with
  | Run.done J => Run.done (J.rows, J.cols)
  | Run.fault => Run.fault
  | Run.timeout => Run.timeout

/-- The flag and the posture a call of the solver returned. -/
def IKResult.summary {S R : Type} (r : Run (IKResult S R)) : Run (Bool × Posture S) :=
  match r with
  | Run.done a => Run.done (a.stable, a.posture)
  | Run.fault => Run.fault
  | Run.timeout => Run.timeout

/-- From `temp`, `n` successive bones can be read along parent links, and the `idx` of each
is a valid index into a rotation array of length `L`. -/
def Walkable {S R : Type} (sk : Skeleton S R) (L : Nat) : Nat → Option Ptr → Prop
  | 0, _ => True
  | n + 1, temp =>
    ∃ b, sk.derefOpt temp = Run.done b ∧ 0 ≤ b.idx ∧ b.idx.toNat < L ∧ Walkable sk L n b.parent

/-- The chain length the solver computes for a pair of bones, when the walk returns. -/
def chainLength {S R : Type} (sk : Skeleton S R) (fuel : Nat) (start_bone end_bone : Ptr) :
    Run Nat := do
  let sb ← sk.deref start_bone
  let root_bone ← sk.ptrSub start_bone sb.idx
  chainWalk sk start_bone root_bone fuel (some end_bone) 1

end kinematics

/-! ## Copying a skeleton -/

namespace acclaim

/-- The address `&bones[k]` in a buffer holding `len` bones, for an `int` index `k`. -/
def addrOf (store len : Nat) (k : Int) : Run Ptr :=
  if 0 ≤ k ∧ k < (len : Int) then Run.done ⟨store, k.toNat⟩ else Run.fault

/-- One of the three statements
`if (bones[i].rel != nullptr) bones[i].rel = &bones[other.bones[i].rel->idx];`:
`rel` is the relation of the bone being rewritten, `otherRel` the one of `other.bones[i]`. -/
def relink {S R : Type} (other : Skeleton S R) (newStore : Nat) (rel otherRel : Option Ptr) :
    Run (Option Ptr) :=
  match rel with
  | none => Run.done none
  | some _ => do
    let referred ← other.derefOpt otherRel
    let p ← addrOf newStore other.bones.length referred.idx
    Run.done (some p)

/-- The body of the relinking loop for one bone. -/
def relinkBone {S R : Type} (other : Skeleton S R) (newStore : Nat) (b ob : Bone S R) :
    Run (Bone S R) := do
  let parent ← relink other newStore b.parent ob.parent
  let child ← relink other newStore b.child ob.child
  let sibling ← relink other newStore b.sibling ob.sibling
  Run.done { b with parent := parent, child := child, sibling := sibling }

/-- The loop `for (std::size_t i = 0; i < bones.size(); ++i)` of the copy operations:
`n` iterations remain, `bones` is the copied array being rewritten. -/
def relinkLoop {S R : Type} (other : Skeleton S R) (newStore : Nat) :
    Nat → Nat → List (Bone S R) → Run (List (Bone S R))
  | 0, _, bones => Run.done bones
  | n + 1, i, bones =>
    match bones[i]?, other.bones[i]? with
    | some b, some ob => do
      let b1 ← relinkBone other newStore b ob
      relinkLoop other newStore n (i + 1) (bones.set i b1)
    | _, _ => Run.fault

/-- The copy constructor `Skeleton(const Skeleton &other)`; `newStore` is the buffer of the
new `bones` vector. -/
def Skeleton.copy {S R : Type} (other : Skeleton S R) (newStore : Nat) : Run (Skeleton S R) := do
  let bones ← relinkLoop other newStore other.bones.length 0 other.bones
  Run.done { store := newStore, scale := other.scale, movableBones := other.movableBones,
             bones := bones }

/-- The copy assignment `operator=(const Skeleton &other)`.  Two skeletons are the same
object when they hold the same buffer; `newStore` is the buffer `bones` has after
`bones = other.bones`. -/
def Skeleton.assign {S R : Type} (this other : Skeleton S R) (newStore : Nat) :
    Run (Skeleton S R) :=
  if this.store = other.store then Run.done this
  else do
    let bones ← relinkLoop other newStore other.bones.length 0 other.bones
    Run.done { store := newStore, scale := other.scale, movableBones := other.movableBones,
               bones := bones }

/-- Every relation of every bone points at a bone of the skeleton's own array. -/
def Skeleton.Linked {S R : Type} (sk : Skeleton S R) : Prop :=
  ∀ (i : Nat) (b : Bone S R) (p : Ptr), sk.bones[i]? = some b →
    (b.parent = some p ∨ b.child = some p ∨ b.sibling = some p) → sk.owns p

/-- The relation `rel` of a bone of the copy mirrors the relation `orig` of the original:
null when `orig` is null, and otherwise the bone of the buffer `store` at the array
position `orig` points at. -/
def Mirrors (store : Nat) (rel orig : Option Ptr) : Prop :=
  rel = orig.map fun p => ⟨store, p.pos⟩

/-- The three relations of every bone of `c` mirror those of the bone of `s` at the same
array position. -/
def Skeleton.MirrorOf {S R : Type} (c s : Skeleton S R) : Prop :=
  c.bones.length = s.bones.length ∧
  ∀ (i : Nat) (b : Bone S R), s.bones[i]? = some b →
    ∃ b1, c.bones[i]? = some b1 ∧ Mirrors c.store b1.parent b.parent ∧
      Mirrors c.store b1.child b.child ∧ Mirrors c.store b1.sibling b.sibling

/-- The parent links of a run's skeleton, by array position. -/
def parentLinks {S R : Type} (r : Run (Skeleton S R)) : Run (List (Option Ptr)) :=
  match r with
  | Run.done c => Run.done (c.bones.map fun b => b.parent)
  | Run.fault => Run.fault
  | Run.timeout => Run.timeout

end acclaim

/-! ## Input streams -/

/-- A `std::istream` reading a character sequence: the characters not yet extracted and
the state flags `eofbit` and `failbit`. -/
structure IStream where
  rest : List Char
  eof : Bool
  fail : Bool
  deriving DecidableEq, Repr

namespace IStream

/-- A freshly opened stream on a text. -/
def ofText (text : List Char) : IStream := ⟨text, false, false⟩

/-- The test `good()`: no state flag is set. -/
def good (s : IStream) : Bool := !s.eof && !s.fail

/-- The whitespace of the "C" locale (`isspace`). -/
def isSpace (c : Char) : Bool :=
  c = ' ' || c = '\t' || c = '\n' || c = '\r' || c = Char.ofNat 11 || c = Char.ofNat 12

/-- `std::getline(stream, str)`: with a flag set, only `failbit` is raised and `str` is
kept; otherwise `str` receives the characters up to the next newline, which is extracted
and dropped; reaching the end of the text raises `eofbit`, and `failbit` too when nothing
at all was extracted. -/
def getline (s : IStream) (str : String) : IStream × String :=
  if s.good then
    match s.rest.dropWhile (fun c => c != '\n') with
    | [] =>
      (⟨[], true, (s.rest.takeWhile (fun c => c != '\n')).isEmpty⟩,
        String.mk (s.rest.takeWhile (fun c => c != '\n')))
    | _ :: r => (⟨r, false, false⟩, String.mk (s.rest.takeWhile (fun c => c != '\n')))
  else ({ s with fail := true }, str)

/-- The extraction loop of `ignore(n, '\n')`. -/
def ignoreAux : Nat → List Char → IStream
  | 0, r => ⟨r, false, false⟩
  | _ + 1, [] => ⟨[], true, false⟩
  | n + 1, c :: r => if c = '\n' then ⟨r, false, false⟩ else ignoreAux n r

/-- The call `stream.ignore(1024, '\n')`. -/
def ignoreLine (s : IStream) : IStream :=
  if s.good then ignoreAux 1024 s.rest else { s with fail := true }

/-- The extraction `stream >> word` into a `std::string`: with a flag set, or when only
whitespace is left, the variable keeps its value and `failbit` is raised. -/
def readWord (s : IStream) (old : String) : IStream × String :=
  if s.good then
    match s.rest.dropWhile isSpace with
    | [] => (⟨[], true, true⟩, old)
    | c :: r =>
      (⟨(c :: r).dropWhile (fun a => !isSpace a),
        ((c :: r).dropWhile (fun a => !isSpace a)).isEmpty, false⟩,
       String.mk ((c :: r).takeWhile (fun a => !isSpace a)))
  else ({ s with fail := true }, old)

/-- The value of a sequence of decimal digits. -/
def digitsValue (ds : List Char) : Nat :=
  ds.foldl (fun acc c => 10 * acc + (c.toNat - 48)) 0

/-- The result of converting a sign and a nonempty digit sequence to `int`: the value, or
the nearest bound of the 32-bit range together with `failbit`. -/
def toInt32 (negative : Bool) (ds : List Char) : Int × Bool :=
  let v : Int := if negative then -(digitsValue ds : Int) else (digitsValue ds : Int)
  if v < -2147483648 then (-2147483648, true)
  else if 2147483647 < v then (2147483647, true)
  else (v, false)

/-- The digits of an `int` extraction after the optional sign. -/
def readDigits (negative : Bool) (r : List Char) : IStream × Int :=
  if (r.takeWhile Char.isDigit).isEmpty then
    (⟨r, r.isEmpty, true⟩, 0)
  else
    (⟨r.dropWhile Char.isDigit, (r.dropWhile Char.isDigit).isEmpty,
      (toInt32 negative (r.takeWhile Char.isDigit)).2⟩,
     (toInt32 negative (r.takeWhile Char.isDigit)).1)

/-- The extraction `stream >> n` into an `int`: optional sign and decimal digits; without
digits the value is 0 and `failbit` is raised. -/
def readInt (s : IStream) (old : Int) : IStream × Int :=
  if s.good then
    match s.rest.dropWhile isSpace with
    | [] => (⟨[], true, true⟩, old)
    | '-' :: r => readDigits true r
    | '+' :: r => readDigits false r
    | c :: r => readDigits false (c :: r)
  else ({ s with fail := true }, old)

/-- The characters a floating-point extraction accumulates. -/
def isFloatChar (c : Char) : Bool :=
  c.isDigit || c = '+' || c = '-' || c = '.' || c = 'e' || c = 'E'

/-- The extraction `stream >> x` into a `double`: the run of floating-point characters
after the whitespace is converted by `scan` (the library conversion); when it does not
convert, the value is 0 and `failbit` is raised.  This is the library's extraction for a
numeral that is followed by white space or by the end of the text, as the numbers of a
description are.  Inside a run of these characters that is not one numeral (`1+2`) the
library stops where the numeral ends; such runs are not followed here. -/
def readDouble {S : Type} (scan : List Char → Option S) (zero : S) (s : IStream) (old : S) :
    IStream × S :=
  if s.good then
    match s.rest.dropWhile isSpace with
    | [] => (⟨[], true, true⟩, old)
    | c :: r =>
      match scan ((c :: r).takeWhile isFloatChar) with
      | some v =>
        (⟨(c :: r).dropWhile isFloatChar, ((c :: r).dropWhile isFloatChar).isEmpty, false⟩, v)
      | none =>
        (⟨(c :: r).dropWhile isFloatChar, ((c :: r).dropWhile isFloatChar).isEmpty, true⟩, zero)
  else ({ s with fail := true }, old)

/-- The words of a line, as the loop `while (iss >> token)` over a
`std::istringstream` of the line extracts them: `cur` is the word being read, reversed. -/
def wordsAux : List Char → List Char → List String
  | [], cur => if cur.isEmpty then [] else [String.mk cur.reverse]
  | c :: r, cur =>
    if isSpace c then
      if cur.isEmpty then wordsAux r [] else String.mk cur.reverse :: wordsAux r []
    else wordsAux r (c :: cur)

/-- The whitespace-separated words of a line. -/
def words (line : String) : List String := wordsAux line.data []

end IStream

/-! ## Loading a skeleton -/

namespace acclaim

/-- The variables of `readASFFile` while the bone records are read: the stream, the
strings `str` and `keyword`, the bones stored before `current_bone`, and `movableBones`. -/
structure ReadState (S R : Type) where
  input : IStream
  str : String
  keyword : String
  bones : List (Bone S R)
  movableBones : Int
  deriving DecidableEq

/-- The effect of one token of a `dof` line on `current_bone`: the first two characters
select the flag (`token.compare(0, 2, "rx") == 0`, ...); any other token only produces the
"Unknown token" message. -/
def dofToken {S R : Type} (b : Bone S R) (token : String) : Bone S R :=
  if token.data.take 2 = "rx".data then { b with dofrx := true, dof := b.dof + 1 }
  else if token.data.take 2 = "ry".data then { b with dofry := true, dof := b.dof + 1 }
  else if token.data.take 2 = "rz".data then { b with dofrz := true, dof := b.dof + 1 }
  else if token.data.take 2 = "tx".data then { b with doftx := true, dof := b.dof + 1 }
  else if token.data.take 2 = "ty".data then { b with dofty := true, dof := b.dof + 1 }
  else if token.data.take 2 = "tz".data then { b with doftz := true, dof := b.dof + 1 }
  else b

/-- What one pass through the body of a loop does: go on with a new state, or leave the
loop with a result. -/
inductive Step (σ ρ : Type) where
  | next (s : σ) : Step σ ρ
  | exit (r : ρ) : Step σ ρ
  deriving DecidableEq

/-- One pass through the body of the inner `while (true)` loop that reads a bone record.
`cur` is `current_bone`, the element `emplace_back` appended.  The flag of an exit is
`done`: true when the loop is left at `:hierarchy` (where `pop_back` drops `cur`), false
when it is left at `end`. -/
def recordStep {S R : Type} (K : Kernel S R) (scan : List Char → Option S) (scale : S)
    (st : ReadState S R) (cur : Bone S R) :
    Step (ReadState S R × Bone S R) (ReadState S R × Bone S R × Bool) :=
  let kw := (st.input.readWord st.keyword).2
  let st1 : ReadState S R :=
    { st with input := (st.input.readWord st.keyword).1, keyword := kw }
  if kw = "end" then Step.exit (st1, cur, false)
  else if kw = ":hierarchy" then Step.exit (st1, cur, true)
  else if kw = "id" then
    let r := st1.input.readInt cur.idx
    Step.next ({ st1 with input := r.1 }, { cur with idx := r.2 })
  else if kw = "name" then
    let r := st1.input.readWord cur.name
    Step.next ({ st1 with input := r.1 }, { cur with name := r.2 })
  else if kw = "direction" then
    let x := st1.input.readDouble scan (K.lit 0) cur.dir.x
    let y := x.1.readDouble scan (K.lit 0) cur.dir.y
    let z := y.1.readDouble scan (K.lit 0) cur.dir.z
    Step.next ({ st1 with input := z.1 }, { cur with dir := ⟨x.2, y.2, z.2, cur.dir.w⟩ })
  else if kw = "length" then
    let r := st1.input.readDouble scan (K.lit 0) cur.length
    Step.next ({ st1 with input := r.1 }, { cur with length := K.mul r.2 scale })
  else if kw = "axis" then
    let x := st1.input.readDouble scan (K.lit 0) cur.axis.x
    let y := x.1.readDouble scan (K.lit 0) cur.axis.y
    let z := y.1.readDouble scan (K.lit 0) cur.axis.z
    Step.next ({ st1 with input := z.1 }, { cur with axis := ⟨x.2, y.2, z.2, cur.axis.w⟩ })
  else if kw = "dof" then
    let r := st1.input.getline st1.str
    Step.next
      ({ st1 with input := r.1, str := r.2, movableBones := st1.movableBones + 1 },
       (IStream.words r.2).foldl dofToken { cur with dof := 0 })
  else Step.next (st1, cur)

/-- The inner `while (true)` loop that reads one bone record. -/
def recordLoop {S R : Type} (K : Kernel S R) (scan : List Char → Option S) (scale : S) :
    Nat → ReadState S R → Bone S R → Run (ReadState S R × Bone S R × Bool)
  | 0, _, _ => Run.timeout
  | fuel + 1, st, cur =>
    match recordStep K scan scale st cur with
    | Step.next s => recordLoop K scan scale fuel s.1 s.2
    | Step.exit r => Run.done r

/-- The loop `while (!done)` over the bone records; `blank` is the value-initialized
`Bone` that `emplace_back()` appends. -/
def boneDataLoop {S R : Type} (K : Kernel S R) (scan : List Char → Option S) (scale : S)
    (blank : Bone S R) : Nat → ReadState S R → Run (ReadState S R)
  | 0, _ => Run.timeout
  | fuel + 1, st =>
    match recordLoop K scan scale fuel st blank with
    | Run.done (st1, cur, finished) =>
      if finished then Run.done st1
      else boneDataLoop K scan scale blank fuel { st1 with bones := st1.bones ++ [cur] }
    | Run.fault => Run.fault
    | Run.timeout => Run.timeout

/-- The loop over the bone records, entered in the middle of a record: the rest of the
inner loop for `cur` (with fuel `inner`), then the outer loop (with fuel `outer`). -/
def boneDataFrom {S R : Type} (K : Kernel S R) (scan : List Char → Option S) (scale : S)
    (blank : Bone S R) (inner outer : Nat) (st : ReadState S R) (cur : Bone S R) :
    Run (ReadState S R) :=
  match recordLoop K scan scale inner st cur with
  | Run.done (st1, c, finished) =>
    if finished then Run.done st1
    else boneDataLoop K scan scale blank outer { st1 with bones := st1.bones ++ [c] }
  | Run.fault => Run.fault
  | Run.timeout => Run.timeout

/-- The first loop of `readASFFile`: read lines until one starts with `:bonedata`. -/
def headerLoop : Nat → IStream → String → Run (IStream × String)
  | 0, _, _ => Run.timeout
  | fuel + 1, s, str =>
    if (s.getline str).2.data.take 9 = ":bonedata".data then Run.done (s.getline str)
    else headerLoop fuel (s.getline str).1 (s.getline str).2

/-- The position of the first bone with the given name. -/
def findName {S R : Type} (name : String) : List (Bone S R) → Nat → Option Nat
  | [], _ => none
  | b :: r, i => if name = b.name then some i else findName name r (i + 1)

/-- The lookup `getBonePointer(const std::string &name)`. -/
def Skeleton.getBonePointer {S R : Type} (sk : Skeleton S R) (name : String) : Option Ptr :=
  (findName name sk.bones 0).map fun i => ⟨sk.store, i⟩

/-- The lookup `getBonePointer(const int bone_idx)`, `&bones[bone_idx]`. -/
def Skeleton.getBonePointerAt {S R : Type} (sk : Skeleton S R) (bone_idx : Int) : Run Ptr :=
  addrOf sk.store sk.bones.length bone_idx

/-- A write through a bone pointer. -/
def Skeleton.update {S R : Type} (sk : Skeleton S R) (p : Ptr) (f : Bone S R → Bone S R) :
    Run (Skeleton S R) := do
  let b ← sk.deref p
  Run.done { sk with bones := sk.bones.set p.pos (f b) }

/-- The loop `while (current->sibling != nullptr) current = current->sibling;`. -/
def siblingEnd {S R : Type} (sk : Skeleton S R) : Nat → Ptr → Run Ptr
  | 0, _ => Run.timeout
  | fuel + 1, current => do
    let c ← sk.deref current
    match c.sibling with
    | none => Run.done current
    | some next => siblingEnd sk fuel next

/-- The function `setBoneHierarchy(parent, child)`. -/
def setBoneHierarchy {S R : Type} (fuel : Nat) (sk : Skeleton S R) (parent child : Option Ptr) :
    Run (Skeleton S R) :=
  match parent with
  | none => Run.done sk
  | some p =>
    match child with
    | none => Run.fault
    | some c => do
      let sk1 ← sk.update c fun b => { b with parent := some p }
      let pb ← sk1.deref p
      match pb.child with
      | none => sk1.update p fun b => { b with child := some c }
      | some first => do
        let current ← siblingEnd sk1 fuel first
        sk1.update current fun b => { b with sibling := some c }

/-- The loop `while (iss >> keyword) setBoneHierarchy(parent, getBonePointer(keyword));`
over the remaining words of a hierarchy line. -/
def linkChildren {S R : Type} (fuel : Nat) (parent : Option Ptr) :
    List String → Skeleton S R → Run (Skeleton S R)
  | [], sk => Run.done sk
  | name :: rest, sk => do
    let sk1 ← setBoneHierarchy fuel sk parent (sk.getBonePointer name)
    linkChildren fuel parent rest sk1

/-- The last loop of `readASFFile`, over the lines of the hierarchy section.  A line
without a word leaves `keyword` as the previous line left it. -/
def hierarchyLoop {S R : Type} :
    Nat → IStream → String → String → Skeleton S R → Run (Skeleton S R)
  | 0, _, _, _, _ => Run.timeout
  | fuel + 1, s, str, keyword, sk =>
    let line := (s.getline str).2
    let first := (IStream.words line).head?.getD keyword
    if first = "end" then Run.done sk
    else do
      let sk1 ← linkChildren fuel (sk.getBonePointer first) (IStream.words line).tail sk
      hierarchyLoop fuel (s.getline str).1 line ((IStream.words line).getLast?.getD keyword) sk1

/-- The function `readASFFile`.  `file` is the content of the file, `none` when it cannot
be opened; the result is the returned flag and the skeleton as the call leaves it. -/
def readASFFile {S R : Type} (K : Kernel S R) (scan : List Char → Option S) (blank : Bone S R)
    (fuel : Nat) (file : Option (List Char)) (sk : Skeleton S R) :
    Run (Bool × Skeleton S R) :=
  match file with
  | none => Run.done (false, sk)
  | some text => do
    let h ← headerLoop fuel (IStream.ofText text) ""
    let st ← boneDataLoop K scan sk.scale blank fuel
      ⟨h.1.ignoreLine, h.2, "", sk.bones, sk.movableBones⟩
    let sk1 ← hierarchyLoop fuel st.input.ignoreLine.ignoreLine st.str st.keyword
      { sk with bones := st.bones, movableBones := st.movableBones }
    Run.done (true, sk1)

/-- The root bone the constructor writes into `bones[0]`. -/
def rootBone {S R : Type} (K : Kernel S R) (blank : Bone S R) : Bone S R :=
  { blank with
    name := "root", idx := 0, parent := none, sibling := none, child := none,
    dir := K.zero4, axis := K.zero4, length := K.lit 0, dof := 6,
    dofrx := true, dofry := true, dofrz := true, doftx := true, dofty := true, doftz := true }

/-- The function `computeLocalDirection`; `toLocal axis dir` stands for
`Affine3d(util::rotateDegreeXYZ(-axis)) * dir` (`util/helper.h` is absent). -/
def computeLocalDirection {S R : Type} (toLocal : Vec4 S → Vec4 S → Vec4 S)
    (sk : Skeleton S R) : Skeleton S R :=
  { sk with bones := sk.bones.mapIdx fun i b =>
      if i = 0 then b else { b with dir := toLocal b.axis b.dir } }

/-- The walk `for (current = ...; current != nullptr; current = current->sibling)`. -/
def siblingWalk {S R : Type} (sk : Skeleton S R) : Nat → Option Ptr → Run Unit
  | 0, _ => Run.timeout
  | _ + 1, none => Run.done ()
  | fuel + 1, some p => do
    let b ← sk.deref p
    siblingWalk sk fuel b.sibling

/-- The traversal of `computeLocalRotation` over the bones `bs`: the function writes only
`rot_parent_current`, a field left out of `Bone`, so what remains is whether it returns. -/
def computeLocalRotation {S R : Type} (fuel : Nat) (sk : Skeleton S R) :
    List (Bone S R) → Run Unit
  | [] => Run.done ()
  | b :: bs =>
    match b.child with
    | none => computeLocalRotation fuel sk bs
    | some c => do
      let cb ← sk.deref c
      siblingWalk sk fuel cb.sibling
      computeLocalRotation fuel sk bs

/-- The constructor `Skeleton(file_name, _scale)`: the value returned by `readASFFile` is
not used.  (`setBoneGraphics` only fills the rendering data.) -/
def Skeleton.load {S R : Type} (K : Kernel S R) (scan : List Char → Option S)
    (toLocal : Vec4 S → Vec4 S → Vec4 S) (blank : Bone S R) (fuel : Nat)
    (file : Option (List Char)) (scale : S) (store : Nat) : Run (Skeleton S R) := do
  let r ← readASFFile K scan blank fuel file
    { store := store, scale := scale, movableBones := 1, bones := [rootBone K blank] }
  let sk := computeLocalDirection toLocal r.2
  computeLocalRotation fuel sk sk.bones
  Run.done sk

end acclaim

/-! ## Hierarchy descriptions -/

namespace acclaim

/-- A bone record of a hierarchy description, by its tokens: `id`, `name`, the three
numerals of `direction`, the numeral of `length`, the three numerals and the order word of
`axis`, and, when the record has a `dof` line, what follows the keyword on that line. -/
structure BoneDecl where
  id : List Char
  name : List Char
  dx : List Char
  dy : List Char
  dz : List Char
  length : List Char
  ax : List Char
  ay : List Char
  az : List Char
  order : List Char
  dof : Option (List Char)

/-- The `dof` line of a record, if any, in front of the text `k`. -/
def BoneDecl.dofLine (d : BoneDecl) (k : List Char) : List Char :=
  match d.dof with
  | none => k
  | some line => "dof".data ++ (line ++ '\n' :: k)

/-- The lines of a record after `begin`, one field per line, in front of the text `k`. -/
def BoneDecl.fields (d : BoneDecl) (k : List Char) : List Char :=
  "id".data ++ ' ' :: (d.id ++ '\n' ::
  ("name".data ++ ' ' :: (d.name ++ '\n' ::
  ("direction".data ++ ' ' :: (d.dx ++ ' ' :: (d.dy ++ ' ' :: (d.dz ++ '\n' ::
  ("length".data ++ ' ' :: (d.length ++ '\n' ::
  ("axis".data ++ ' ' :: (d.ax ++ ' ' :: (d.ay ++ ' ' :: (d.az ++ ' ' :: (d.order ++ '\n' ::
  d.dofLine ("end".data ++ '\n' :: k)))))))))))))))

/-- A record, from `begin` to `end`, in front of the text `k`. -/
def BoneDecl.render (d : BoneDecl) (k : List Char) : List Char :=
  "begin".data ++ '\n' :: d.fields k

/-- The records of a bone-data section, in file order, in front of the text `k`. -/
def renderRecords : List BoneDecl → List Char → List Char
  | [], k => k
  | d :: ds, k => d.render (renderRecords ds k)

/-- A description: the `:bonedata` line, the records, and the `:hierarchy` keyword followed
by the text `hierarchy` of the hierarchy section. -/
def renderDescription (ds : List BoneDecl) (hierarchy : List Char) : List Char :=
  ":bonedata".data ++ '\n' :: renderRecords ds (":hierarchy".data ++ hierarchy)

/-- A word: not empty, no whitespace in it. -/
def IsWord (w : List Char) : Prop := w ≠ [] ∧ ∀ x ∈ w, IStream.isSpace x = false

/-- A numeral the conversion `scan` accepts: not empty, made of floating-point characters. -/
def IsNumeral {S : Type} (scan : List Char → Option S) (w : List Char) : Prop :=
  w ≠ [] ∧ (∀ x ∈ w, IStream.isFloatChar x = true) ∧ (scan w).isSome

/-- The keywords the record loop acts on. -/
def keywords : List String :=
  ["end", ":hierarchy", "id", "name", "direction", "length", "axis", "dof"]

/-- The tokens of the record are what the canonical layout needs: the id is a run of
digits within the `int` range, the name and the order word are words (the order word not a
keyword), the numerals convert, and what follows `dof` on its line has no line break in it
and starts, if not empty, with whitespace. -/
structure BoneDecl.WellFormed {S : Type} (scan : List Char → Option S) (d : BoneDecl) :
    Prop where
  id_digits : d.id ≠ [] ∧ ∀ x ∈ d.id, Char.isDigit x = true
  id_range : IStream.digitsValue d.id ≤ 2147483647
  name_word : IsWord d.name
  dx_num : IsNumeral scan d.dx
  dy_num : IsNumeral scan d.dy
  dz_num : IsNumeral scan d.dz
  length_num : IsNumeral scan d.length
  ax_num : IsNumeral scan d.ax
  ay_num : IsNumeral scan d.ay
  az_num : IsNumeral scan d.az
  order_word : IsWord d.order ∧ String.mk d.order ∉ keywords
  dof_line : ∀ line, d.dof = some line →
    (∀ x ∈ line, (x != '\n') = true) ∧ ∀ a t, line = a :: t → IStream.isSpace a = true

/-- The value of the declared id. -/
def BoneDecl.idValue (d : BoneDecl) : Int := (IStream.digitsValue d.id : Int)

/-- The name found at a bone index after a load: `getBonePointer(bone_idx)->name`. -/
def nameAt {S R : Type} (r : Run (Skeleton S R)) (bone_idx : Int) : Run String := do
  let sk ← r
  let p ← sk.getBonePointerAt bone_idx
  let b ← sk.deref p
  Run.done b.name

end acclaim

/-! ## Exact arithmetic -/

/-- A scalar of the exact model of `double`: a rational, or `none` for a value that is not
a finite number (the quotient by zero, and whatever is computed from one). -/
abbrev Exact := Option ℚ

/-- Exact arithmetic on `Exact`: rational operations, a division by zero gives `none`,
`none` is absorbing and compares below nothing.  The square root of a rational is the
parameter `root`. -/
def exactKernel (R : Type) (root : ℚ → ℚ) (rotate : R → Vec4 Exact → Vec4 Exact) :
    Kernel Exact R where
  lit q := some q
  add a b := match a, b with
    | some x, some y => some (x + y)
    | _, _ => none
  sub a b := match a, b with
    | some x, some y => some (x - y)
    | _, _ => none
  mul a b := match a, b with
    | some x, some y => some (x * y)
    | _, _ => none
  div a b := match a, b with
    | some x, some y => if y = 0 then none else some (x / y)
    | _, _ => none
  sqrt a := match a with
    | some x => if x < 0 then none else some (root x)
    | none => none
  lt a b := match a, b with
    | some x, some y => decide (x < y)
    | _, _ => false
  rotate := rotate

/-- Arithmetic on the rationals themselves: the exact model without the value that is not
a finite number (a quotient by zero is 0 here, as everywhere in the library). -/
def ratKernel (R : Type) (root : ℚ → ℚ) (rotate : R → Vec4 ℚ → Vec4 ℚ) : Kernel ℚ R where
  lit q := q
  add a b := a + b
  sub a b := a - b
  mul a b := a * b
  div a b := a / b
  sqrt a := root a
  lt a b := decide (a < b)
  rotate := rotate

/-- A rational 3-vector as a vector of the exact model. -/
def Vec3.lift (v : Vec3 ℚ) : Vec3 Exact := ⟨some v.x, some v.y, some v.z⟩

/-- A rational 3-by-3 matrix as a matrix of the exact model. -/
def Mat3.lift (m : Mat3 ℚ) : Mat3 Exact := ⟨m.r0.lift, m.r1.lift, m.r2.lift⟩

/-- The product of a rational 3-by-3 matrix and a 3-vector. -/
def Mat3.mulVec (M : Mat3 ℚ) (v : Vec3 ℚ) : Vec3 ℚ :=
  ⟨M.r0.x * v.x + M.r0.y * v.y + M.r0.z * v.z,
   M.r1.x * v.x + M.r1.y * v.y + M.r1.z * v.z,
   M.r2.x * v.x + M.r2.y * v.y + M.r2.z * v.z⟩

/-- The determinant of `J3 * J3ᵀ` for a rational Jacobian. -/
def gramDet (J : List (Vec4 ℚ)) : ℚ :=
  kinematics.det3 (ratKernel Unit (fun q => q) (fun _ v => v))
    (kinematics.gram (ratKernel Unit (fun q => q) (fun _ v => v)) (Matrix4Xd.topRows3 J))

/-- The integer part of the square root of a rational, by search: the square root itself
on the squares of the natural numbers, which is where the demonstrations take roots whose
value matters.  It is not the rounded root of `double` (for that see `Binary64.sqrt`): a
norm below 1 has root 0 here. -/
def floorRoot (q : ℚ) : ℚ :=
  ((Nat.findGreatest (fun k => ((k * k : Nat) : ℚ) ≤ q) q.num.toNat : Nat) : ℚ)

/-- The exact kernel with the identity as its only rotation. -/
def demoKernel : Kernel Exact Unit := exactKernel Unit floorRoot (fun _ v => v)

/-! ## The least-squares problem of the solve, over the rationals -/

/-- The product `J3 * x` of the top three rows of `J` with a vector `x`. -/
def applyTop3 (J : List (Vec4 ℚ)) (x : List ℚ) : Vec3 ℚ :=
  ⟨(List.zipWith (fun c a => c.x * a) J x).sum,
   (List.zipWith (fun c a => c.y * a) J x).sum,
   (List.zipWith (fun c a => c.z * a) J x).sum⟩

/-- The squared residual `|J3 * x - t3|²`. -/
def residualSq (J : List (Vec4 ℚ)) (t : Vec4 ℚ) (x : List ℚ) : ℚ :=
  ((applyTop3 J x).x - t.x) ^ 2 + ((applyTop3 J x).y - t.y) ^ 2 + ((applyTop3 J x).z - t.z) ^ 2

/-- The squared norm `|x|²`. -/
def normSq (x : List ℚ) : ℚ := (x.map fun a => a * a).sum

/-- The vector `x` is the minimum-norm vector that minimizes `|J3 * x - t3|`: no vector has
a smaller residual, and none with a residual as small has a smaller norm. -/
def IsMinNormLeastSquares (J : List (Vec4 ℚ)) (t : Vec4 ℚ) (x : List ℚ) : Prop :=
  x.length = J.length ∧
  (∀ y : List ℚ, y.length = J.length → residualSq J t x ≤ residualSq J t y) ∧
  (∀ y : List ℚ, y.length = J.length → residualSq J t y ≤ residualSq J t x →
    normSq x ≤ normSq y)

/-- A rational vector as a vector of the exact model. -/
def Vec4.lift (v : Vec4 ℚ) : Vec4 Exact := ⟨some v.x, some v.y, some v.z, some v.w⟩

/-- A 4-by-3 Jacobian whose top three rows have rank 1. -/
def rankOneJacobian : List (Vec4 ℚ) := [⟨1, 0, 0, 0⟩, ⟨0, 0, 0, 0⟩, ⟨0, 0, 0, 0⟩]

/-- The right-hand side used with `rankOneJacobian`. -/
def rankOneTarget : Vec4 ℚ := ⟨1, 0, 0, 0⟩

/-! ## A three-bone chain used to evaluate the definitions -/

/-- The zero vector of the exact model. -/
def demoZero : Vec4 Exact := ⟨some 0, some 0, some 0, some 0⟩

/-- A bone of the demonstration chain with all three rotational DOFs enabled. -/
def demoBone (name : String) (idx : Int) (parent child : Option acclaim.Ptr) :
    acclaim.Bone Exact Unit :=
  { name := name, idx := idx, parent := parent, child := child, sibling := none,
    dir := ⟨some 0, some 0, some 1, some 0⟩, axis := demoZero, length := some 1, dof := 3,
    dofrx := true, dofry := true, dofrz := true, doftx := false, dofty := false, doftz := false,
    rotation := (), start_position := demoZero, end_position := demoZero }

/-- A straight chain `root - a - b` stored in buffer 0. -/
def demoSkeleton : acclaim.Skeleton Exact Unit :=
  { store := 0, scale := some 1, movableBones := 3,
    bones := [demoBone "root" 0 none (some ⟨0, 1⟩), demoBone "a" 1 (some ⟨0, 0⟩) (some ⟨0, 2⟩),
      demoBone "b" 2 (some ⟨0, 1⟩) none] }

/-- A bone of the demonstration chain with every DOF disabled. -/
def lockedBone (name : String) (idx : Int) (parent child : Option acclaim.Ptr) :
    acclaim.Bone Exact Unit :=
  { demoBone name idx parent child with
    dof := 0, dofrx := false, dofry := false, dofrz := false }

/-- The demonstration chain with every DOF of every bone disabled. -/
def lockedSkeleton : acclaim.Skeleton Exact Unit :=
  { store := 0, scale := some 1, movableBones := 1,
    bones := [lockedBone "root" 0 none (some ⟨0, 1⟩),
      lockedBone "a" 1 (some ⟨0, 0⟩) (some ⟨0, 2⟩), lockedBone "b" 2 (some ⟨0, 1⟩) none] }

/-- The demonstration chain as loaded from a description that declares id 2 for the first
bone record and id 1 for the second. -/
def swappedSkeleton : acclaim.Skeleton Exact Unit :=
  { store := 0, scale := some 1, movableBones := 3,
    bones := [demoBone "root" 0 none (some ⟨0, 1⟩), demoBone "a" 2 (some ⟨0, 0⟩) (some ⟨0, 2⟩),
      demoBone "b" 1 (some ⟨0, 1⟩) none] }

/-- A conversion of numerals for the exact model: the digits of the token read as a
natural number.  It is the library conversion on the numerals without sign, point and
exponent, the only ones in the demonstration texts; it is not the library conversion on
`-1`, `0.5` or `1e2`. -/
def scanDemo (w : List Char) : Option Exact :=
  if w.isEmpty then none else some (some (IStream.digitsValue (w.filter Char.isDigit) : ℚ))

/-- A value-initialized bone of the exact model: empty name, zero numbers, null relations,
every flag false. -/
def blankBone : acclaim.Bone Exact Unit :=
  { name := "", idx := 0, parent := none, child := none, sibling := none,
    dir := demoZero, axis := demoZero, length := some 0, dof := 0,
    dofrx := false, dofry := false, dofrz := false, doftx := false, dofty := false,
    doftz := false, rotation := (), start_position := demoZero, end_position := demoZero }

/-- The skeleton the constructor starts from, and all that is left when nothing is read:
the root bone alone, in buffer 0 with scale 1. -/
def rootOnly : acclaim.Skeleton Exact Unit :=
  { store := 0, scale := some 1, movableBones := 1,
    bones := [acclaim.rootBone demoKernel blankBone] }

/-- A description of the empty hierarchy: no bone record, no hierarchy line. -/
def emptyHierarchyText : String := ":bonedata\n\n:hierarchy\nbegin\nend\n"

/-- A text without any line that starts with `:bonedata`. -/
def noBonedataText : String := "# a header\n:units\n  mass 1.0\n"

/-- A text whose bone-data section ends without `:hierarchy`. -/
def noHierarchyText : String := ":bonedata\nbegin\nid 1\nname a\nend\n"

/-- A text whose hierarchy section has no `end` line. -/
def noEndText : String := ":bonedata\nbegin\nid 1\nname a\nend\n:hierarchy\nbegin\nroot a\n"

/-- A description that declares id 2 for its first bone record and id 1 for its second. -/
def swappedIdsText : String :=
  ":bonedata\nbegin\nid 2\nname a\nend\nbegin\nid 1\nname b\nend\n:hierarchy\nbegin\nroot a\na b\nend\n"

/-- The record of a bone `a` with id 1 and a `dof` line. -/
def declA : acclaim.BoneDecl :=
  { id := "1".data, name := "a".data, dx := "0".data, dy := "1".data, dz := "0".data,
    length := "2".data, ax := "0".data, ay := "0".data, az := "0".data, order := "XYZ".data,
    dof := some " rx ry rz".data }

/-- The record of a bone `b` with id 2 and no `dof` line. -/
def declB : acclaim.BoneDecl :=
  { id := "2".data, name := "b".data, dx := "0".data, dy := "1".data, dz := "0".data,
    length := "3".data, ax := "0".data, ay := "0".data, az := "0".data, order := "XYZ".data,
    dof := none }

/-- A hierarchy section for the bones `a` and `b`, as it follows the `:hierarchy` keyword. -/
def chainHierarchy : List Char := "\nbegin\nroot a\na b\nend\n".data

/-- A posture with one zero rotation per bone of the demonstration chain. -/
def demoPosture : acclaim.Posture Exact :=
  { bone_rotations := [demoZero, demoZero, demoZero],
    bone_translations := [demoZero, demoZero, demoZero] }

/-- The posture the solver leaves on the locked chain: the rotation entries of the two chain
bones hold values that are not finite numbers. -/
def poisonedPosture : acclaim.Posture Exact :=
  { bone_rotations := [demoZero, ⟨none, none, none, some 0⟩, ⟨none, none, none, some 0⟩],
    bone_translations := [demoZero, demoZero, demoZero] }

/-- A forward map for the demonstration chain: the bone at position `i` spans from height
`i - 1` to height `i` on the z axis, whatever the posture. -/
def demoForward : kinematics.ForwardMap Exact Unit :=
  fun _ _ _ i =>
    { rotation := (),
      start_position := ⟨some 0, some 0, some ((i : ℚ) - 1), some 0⟩,
      end_position := ⟨some 0, some 0, some (i : ℚ), some 0⟩ }

/-! ## What forward kinematics leaves of a skeleton -/

namespace kinematics

open acclaim

/-- The skeleton `sk1` holds the bones of `sk` with at most their three transient fields
rewritten: what forward kinematics leaves of a skeleton. -/
def Reposed {S R : Type} (sk sk1 : Skeleton S R) : Prop :=
  sk1.store = sk.store ∧ sk1.bones.length = sk.bones.length ∧
  ∀ (i : Nat) (b : Bone S R), sk.bones[i]? = some b →
    ∃ t : Transient S R, sk1.bones[i]? = some (setTransient b t)

end kinematics

/-- A bone of the demonstration chain that turns about x and y only: `dofrz` is false. -/
def hingeBone (name : String) (idx : Int) (parent child : Option acclaim.Ptr) :
    acclaim.Bone Exact Unit :=
  { demoBone name idx parent child with dof := 2, dofrz := false }

/-- The demonstration chain with the z rotation of its last bone disabled. -/
def hingeSkeleton : acclaim.Skeleton Exact Unit :=
  { store := 0, scale := some 1, movableBones := 3,
    bones := [demoBone "root" 0 none (some ⟨0, 1⟩), demoBone "a" 1 (some ⟨0, 0⟩) (some ⟨0, 2⟩),
      hingeBone "b" 2 (some ⟨0, 1⟩) none] }

/-- The Jacobian of the first iteration on the demonstration chain for the target (5, 0, 0)
and the chain of the bones `b` and `a`. -/
def demoJacobian : Matrix4Xd Exact :=
  [⟨some 0, some 1, some 0, some 0⟩, ⟨some (-1), some 0, some (-5), some 0⟩,
   ⟨some 0, some 5, some 0, some 0⟩, ⟨some 0, some 0, some 0, some 0⟩,
   ⟨some 0, some 0, some (-5), some 0⟩, ⟨some 0, some 5, some 0, some 0⟩]

/-- The posture after the first iteration on the demonstration chain for the target
(5, 0, 0). -/
def steppedPosture : acclaim.Posture Exact :=
  { bone_rotations := [demoZero, ⟨some 0, some (194400 / 6283), some 0, some 0⟩,
      ⟨some 0, some (-180000 / 6283), some 0, some 0⟩],
    bone_translations := [demoZero, demoZero, demoZero] }

/-- The posture the solver leaves when the chain is the last bone of `hingeSkeleton` alone:
all three rotation entries of that bone are not finite numbers. -/
def hingePoisoned : acclaim.Posture Exact :=
  { bone_rotations := [demoZero, demoZero, ⟨none, none, none, some 0⟩],
    bone_translations := [demoZero, demoZero, demoZero] }

/-! ## The DOF line of a bone record -/

namespace acclaim

/-- The DOF flag a token of a `dof` line selects, by the comparisons
`token.compare(0, 2, "rx") == 0`, ... in the order of the code: 0 to 5 for `rx`, `ry`, `rz`,
`tx`, `ty`, `tz`; `none` for a token the code reports as unknown. -/
def dofAxis (token : String) : Option (Fin 6) :=
  if token.data.take 2 = "rx".data then some 0
  else if token.data.take 2 = "ry".data then some 1
  else if token.data.take 2 = "rz".data then some 2
  else if token.data.take 2 = "tx".data then some 3
  else if token.data.take 2 = "ty".data then some 4
  else if token.data.take 2 = "tz".data then some 5
  else none

/-- The six DOF flags of a bone, in the order `dofrx`, `dofry`, `dofrz`, `doftx`, `dofty`,
`doftz`. -/
def Bone.dofFlag {S R : Type} (b : Bone S R) (a : Fin 6) : Bool :=
  match a with
  | 0 => b.dofrx
  | 1 => b.dofry
  | 2 => b.dofrz
  | 3 => b.doftx
  | 4 => b.dofty
  | 5 => b.doftz

/-- The number of DOF flags of a bone that are set. -/
def Bone.flagCount {S R : Type} (b : Bone S R) : Nat :=
  ((List.finRange 6).filter fun a => b.dofFlag a).length

/-- The DOF count and the six DOF flags of the bone a record loop returned. -/
def dofOfRecord {S R : Type} (r : Run (ReadState S R × Bone S R × Bool)) :
    Run (Int × List Bool) :=
  match r with
  | Run.done a => Run.done (a.2.1.dof, (List.finRange 6).map a.2.1.dofFlag)
  | Run.fault => Run.fault
  | Run.timeout => Run.timeout

end acclaim

/-- The rest of a bone record whose `dof` line names `rx` twice and has the token `rzz`. -/
def repeatedDofText : String := "dof rx rx rzz\nend\n"

/-! ## Linking the children of a bone -/

namespace acclaim

/-- The calls `setBoneHierarchy(parent, c)` for the bones `c` of a list, in order, as the
loop over the child names of a hierarchy line makes them. -/
def setBoneHierarchyAll {S R : Type} (fuel : Nat) (parent : Option Ptr) :
    List Ptr → Skeleton S R → Run (Skeleton S R)
  | [], sk => Run.done sk
  | c :: rest, sk => do
    let sk1 ← setBoneHierarchy fuel sk parent (some c)
    setBoneHierarchyAll fuel parent rest sk1

/-- The bones of the list have `p` as parent and are chained by their sibling links in the
order of the list, the last one having no sibling. -/
def SiblingChain {S R : Type} (sk : Skeleton S R) (p : Ptr) : List Ptr → Prop
  | [] => True
  | c :: rest =>
    (∃ b, sk.deref c = Run.done b ∧ b.parent = some p ∧ b.sibling = rest.head?) ∧
      SiblingChain sk p rest

end acclaim

/-- Four bones without any link between them, in buffer 0. -/
def looseSkeleton : acclaim.Skeleton Exact Unit :=
  { store := 0, scale := some 1, movableBones := 1,
    bones := [demoBone "root" 0 none none, demoBone "a" 1 none none, demoBone "b" 2 none none,
      demoBone "c" 3 none none] }

/-! ## The root bone of a loaded skeleton -/

/-- The lines of a text: the runs of characters between line breaks. -/
def IStream.lines : List Char → List (List Char)
  | [] => [[]]
  | c :: r =>
    if c = '\n' then [] :: IStream.lines r
    else
      match IStream.lines r with
      | [] => [[c]]
      | l :: ls => (c :: l) :: ls

namespace acclaim

/-- A line of the hierarchy section names `root` as a child: `root` is among the words
after the first. -/
def listsRootAsChild (line : String) : Bool := (IStream.words line).tail.contains "root"

/-- The bone at array position 0 is the bone named `root` and has no parent. -/
def Skeleton.RootFirst {S R : Type} (sk : Skeleton S R) : Prop :=
  ∃ rb, sk.bones[0]? = some rb ∧ rb.name = "root" ∧ rb.parent = none

/-- The `idx` fields of a run's skeleton, by array position. -/
def idxList {S R : Type} (r : Run (Skeleton S R)) : Run (List Int) :=
  match r with
  | Run.done c => Run.done (c.bones.map fun b => b.idx)
  | Run.fault => Run.fault
  | Run.timeout => Run.timeout

end acclaim

/-- A description whose hierarchy section lists `root` as a child of the bone `a`. -/
def rootChildText : String :=
  ":bonedata\nbegin\nid 1\nname a\nend\n:hierarchy\nbegin\nroot a\na root\nend\n"

/-! ## IEEE double arithmetic on finite values -/

/-- An `Eigen::Affine3d` (the type of a bone's world rotation), by the four columns of its
4-by-4 matrix. -/
structure Affine3d (S : Type) where
  c0 : Vec4 S
  c1 : Vec4 S
  c2 : Vec4 S
  c3 : Vec4 S
  deriving DecidableEq, Repr

namespace Binary64

/-- The quotient `a / b` of two naturals rounded to the nearest integer, a tie to the even
one. -/
def roundDiv (a b : Nat) : Nat :=
  if b < 2 * (a % b) ∨ (2 * (a % b) = b ∧ (a / b) % 2 = 1) then a / b + 1 else a / b

/-- The number of binary digits of `n`, for `n` at most the fuel. -/
def bitLength : Nat → Nat → Nat
  | 0, _ => 0
  | fuel + 1, n => if n = 0 then 0 else bitLength fuel (n / 2) + 1

/-- The position of the leading binary digit of a positive natural number: the `l` with
`2 ^ l ≤ n < 2 ^ (l + 1)`. -/
def log2 (n : Nat) : Nat := bitLength n n - 1

/-- The binary exponent of the positive rational `a / b`: the `e` with
`2 ^ e ≤ a / b < 2 ^ (e + 1)`. -/
def exponent (a b : Nat) : Int :=
  if b * 2 ^ (log2 a - log2 b) ≤ a * 2 ^ (log2 b - log2 a) then (log2 a : Int) - (log2 b : Int)
  else (log2 a : Int) - (log2 b : Int) - 1

/-- The 53-bit significand of the positive rational `a / b` of binary exponent `e`: the
quotient of `a / b` by `2 ^ (e - 52)`, rounded to nearest, a tie to even. -/
def significand (a b : Nat) (e : Int) : Nat :=
  roundDiv (a * 2 ^ (52 - e).toNat) (b * 2 ^ (e - 52).toNat)

/-- The number `m * 2 ^ (e - 52)`. -/
def scaled (m : Nat) (e : Int) : ℚ :=
  ((m * 2 ^ (e - 52).toNat : Nat) : ℚ) / ((2 ^ (52 - e).toNat : Nat) : ℚ)

/-- The `double` nearest to a rational, a tie to the even significand (the default rounding
of IEEE 754), for magnitudes in the range of the normal numbers. -/
def round (q : ℚ) : ℚ :=
  if q = 0 then 0
  else if q < 0 then
    -scaled (significand q.num.natAbs q.den (exponent q.num.natAbs q.den))
      (exponent q.num.natAbs q.den)
  else
    scaled (significand q.num.natAbs q.den (exponent q.num.natAbs q.den))
      (exponent q.num.natAbs q.den)

/-- Newton's iteration for the integer square root of `n`, from a guess `g` above it. -/
def isqrtStep (n : Nat) : Nat → Nat → Nat
  | 0, g => g
  | fuel + 1, g => if (g + n / g) / 2 < g then isqrtStep n fuel ((g + n / g) / 2) else g

/-- The integer part of the square root of a natural number. -/
def isqrt (n : Nat) : Nat :=
  if n = 0 then 0 else isqrtStep n (log2 n + 2) (2 ^ (log2 n / 2 + 1))

/-- The `double` nearest to the square root of a positive rational `q` (the correctly rounded
`sqrt` of IEEE 754).  With `t = 55 + log2 (den q)` the root of `q * 4 ^ t` is at least
`2 ^ 54`; `N` is its integer part.  When the root is not the integer `N` it lies strictly
between `N` and `N + 1`, where no `double` and no midpoint of two `double`s lies, so that it
rounds as `N + 1 / 2` does. -/
def sqrt (q : ℚ) : ℚ :=
  if q ≤ 0 then 0
  else if isqrt (q.num.natAbs * 4 ^ (55 + log2 q.den) / q.den)
        * isqrt (q.num.natAbs * 4 ^ (55 + log2 q.den) / q.den) * q.den
      = q.num.natAbs * 4 ^ (55 + log2 q.den) then
    round ((isqrt (q.num.natAbs * 4 ^ (55 + log2 q.den) / q.den) : ℚ)
      / ((2 ^ (55 + log2 q.den) : Nat) : ℚ))
  else
    round (((2 * isqrt (q.num.natAbs * 4 ^ (55 + log2 q.den) / q.den) + 1 : Nat) : ℚ)
      / ((2 ^ (56 + log2 q.den) : Nat) : ℚ))

/-- The sum of two `double`s. -/
def add (a b : Exact) : Exact :=
  match a, b with
  | some x, some y => some (round (x + y))
  | _, _ => none

/-- The product of two `double`s. -/
def mul (a b : Exact) : Exact :=
  match a, b with
  | some x, some y => some (round (x * y))
  | _, _ => none

/-- The product `rotation * v` of an `Affine3d` and a `Vector4d`, as Eigen forms it for an
affine transform: the first three coefficients are the first three rows of the matrix times
`v` (the four products of a row are added from left to right here), the fourth is the
fourth coefficient of `v`. -/
def rotate (m : Affine3d Exact) (v : Vec4 Exact) : Vec4 Exact :=
  ⟨add (add (add (mul m.c0.x v.x) (mul m.c1.x v.y)) (mul m.c2.x v.z)) (mul m.c3.x v.w),
   add (add (add (mul m.c0.y v.x) (mul m.c1.y v.y)) (mul m.c2.y v.z)) (mul m.c3.y v.w),
   add (add (add (mul m.c0.z v.x) (mul m.c1.z v.y)) (mul m.c2.z v.z)) (mul m.c3.z v.w),
   v.w⟩

end Binary64

/-- The arithmetic of IEEE `double` on finite values: every operation returns the exact
result rounded to the nearest `double`, each operation on its own (no fused multiply-add);
`none` is a value that is not a finite number (a quotient by zero, the root of a negative
number, and whatever is computed from one).  Overflow and the subnormal range are left out.
A bone's world rotation is an `Affine3d`. -/
def doubleKernel : Kernel Exact (Affine3d Exact) where
  lit q := some (Binary64.round q)
  add := Binary64.add
  sub a b := match a, b with
    | some x, some y => some (Binary64.round (x - y))
    | _, _ => none
  mul := Binary64.mul
  div a b := match a, b with
    | some x, some y => if y = 0 then none else some (Binary64.round (x / y))
    | _, _ => none
  sqrt a := match a with
    | some x => if x < 0 then none else some (Binary64.sqrt x)
    | none => none
  lt a b := match a, b with
    | some x, some y => decide (x < y)
    | _, _ => false
  rotate := Binary64.rotate

/-! ## A bone turned by 10 degrees -/

/-- The `double` `0x1.f838b8c811c17p-1`, the cosine of 10 degrees. -/
def cos10 : ℚ := 8870359658994711 / 9007199254740992

/-- The `double` `0x1.63a1a7e0b7389p-3`, the sine of 10 degrees. -/
def sin10 : ℚ := 6256334945874825 / 36028797018963968

/-- The identity transform. -/
def identityTurn : Affine3d Exact :=
  ⟨⟨some 1, some 0, some 0, some 0⟩, ⟨some 0, some 1, some 0, some 0⟩,
   ⟨some 0, some 0, some 1, some 0⟩, ⟨some 0, some 0, some 0, some 1⟩⟩

/-- The rotation by 10 degrees about the z axis, as a matrix of `double`s. -/
def turnZ10 : Affine3d Exact :=
  ⟨⟨some cos10, some sin10, some 0, some 0⟩, ⟨some (-sin10), some cos10, some 0, some 0⟩,
   ⟨some 0, some 0, some 1, some 0⟩, ⟨some 0, some 0, some 0, some 1⟩⟩

/-- A bone with all three rotational DOFs enabled, for the arithmetic of `double`. -/
def turnedBone (name : String) (idx : Int) (parent child : Option acclaim.Ptr) :
    acclaim.Bone Exact (Affine3d Exact) :=
  { name := name, idx := idx, parent := parent, child := child, sibling := none,
    dir := ⟨some 1, some 0, some 0, some 0⟩, axis := demoZero, length := some 1, dof := 3,
    dofrx := true, dofry := true, dofrz := true, doftx := false, dofty := false, doftz := false,
    rotation := identityTurn, start_position := demoZero, end_position := demoZero }

/-- The root and one bone `a` below it, in buffer 0. -/
def turnedSkeleton : acclaim.Skeleton Exact (Affine3d Exact) :=
  { store := 0, scale := some 1, movableBones := 2,
    bones := [turnedBone "root" 0 none (some ⟨0, 1⟩), turnedBone "a" 1 (some ⟨0, 0⟩) none] }

/-- A posture with one zero rotation per bone of `turnedSkeleton`. -/
def turnedPosture : acclaim.Posture Exact :=
  { bone_rotations := [demoZero, demoZero], bone_translations := [demoZero, demoZero] }

/-- A forward map for `turnedSkeleton`: the root stays at the origin unturned, and every
other bone starts at the origin, is turned by 10 degrees about z and ends where the turn
takes the unit vector of the x axis. -/
def turnedForward : kinematics.ForwardMap Exact (Affine3d Exact) :=
  fun _ _ _ i =>
    if i = 0 then
      { rotation := identityTurn, start_position := demoZero, end_position := demoZero }
    else
      { rotation := turnZ10, start_position := demoZero,
        end_position := ⟨some cos10, some sin10, some 0, some 0⟩ }

/-! # Theorems -/

namespace Run

@[simp] theorem bind_done {α β : Type} (a : α) (f : α → Run β) : (Run.done a >>= f) = f a := rfl
@[simp] theorem bind_fault {α β : Type} (f : α → Run β) : ((Run.fault : Run α) >>= f) = Run.fault := rfl
@[simp] theorem bind_timeout {α β : Type} (f : α → Run β) : ((Run.timeout : Run α) >>= f) = Run.timeout := rfl
@[simp] theorem pure_eq {α : Type} (a : α) : (pure a : Run α) = Run.done a := rfl

theorem bind_eq_done {α β : Type} {r : Run α} {f : α → Run β} {b : β}
    (h : (r >>= f) = Run.done b) : ∃ a, r = Run.done a ∧ f a = Run.done b := by
  cases r with
  | done a => exact ⟨a, rfl, h⟩
  | fault => cases h
  | timeout => cases h

end Run

namespace acclaim

theorem Skeleton.deref_eq_done {S R : Type} {sk : Skeleton S R} {p : Ptr} {b : Bone S R} :
    sk.deref p = Run.done b ↔ p.store = sk.store ∧ sk.bones[p.pos]? = some b := by
  unfold Skeleton.deref
  by_cases h : p.store = sk.store
  · simp only [h, if_true, true_and]
    cases hb : sk.bones[p.pos]? with
    | none => simp
    | some c => simp
  · simp [h]

end acclaim

namespace kinematics
open acclaim

theorem forwardSolver_deref {S R : Type} (fk : ForwardMap S R) (posture : Posture S)
    (sk : Skeleton S R) (root_bone p : Ptr) (b : Bone S R) (h : sk.deref p = Run.done b) :
    (forwardSolver fk posture sk root_bone).deref p =
      Run.done (setTransient b (fk posture sk.bones root_bone.pos p.pos)) := by
  rw [Skeleton.deref_eq_done] at h
  obtain ⟨hs, hb⟩ := h
  rw [Skeleton.deref_eq_done]
  refine ⟨hs, ?_⟩
  simp only [forwardSolver, List.getElem?_mapIdx, hb, Option.map_some']

theorem forwardSolver_derefOpt {S R : Type} (fk : ForwardMap S R) (posture : Posture S)
    (sk : Skeleton S R) (root_bone : Ptr) (p : Option Ptr) (b : Bone S R)
    (h : sk.derefOpt p = Run.done b) :
    ∃ b1, (forwardSolver fk posture sk root_bone).derefOpt p = Run.done b1 ∧
      b1.parent = b.parent ∧ b1.idx = b.idx := by
  cases p with
  | none => cases h
  | some q => exact ⟨_, forwardSolver_deref fk posture sk root_bone q b h, rfl, rfl⟩

end kinematics

namespace kinematics
open acclaim

theorem walkable_forward {S R : Type} (fk : ForwardMap S R) (posture : Posture S)
    (sk : Skeleton S R) (root_bone : Ptr) (L : Nat) :
    ∀ (n : Nat) (temp : Option Ptr), Walkable sk L n temp →
      Walkable (forwardSolver fk posture sk root_bone) L n temp := by
  intro n
  induction n with
  | zero => intro temp _; trivial
  | succ n ih =>
    intro temp h
    obtain ⟨b, hb, h0, hL, hrest⟩ := h
    obtain ⟨b1, hb1, hp, hi⟩ := forwardSolver_derefOpt fk posture sk root_bone temp b hb
    exact ⟨b1, hb1, hi ▸ h0, hi ▸ hL, hp ▸ ih _ hrest⟩

theorem jacobianColumns_length {S R : Type} (K : Kernel S R) (t : Vec4 S) (b : Bone S R)
    (c : Nat) (J : Matrix4Xd S) : (jacobianColumns K t b c J).length = J.length := by
  unfold jacobianColumns
  simp only [Matrix4Xd.setCol]
  split_ifs <;> simp

theorem jacobianLoop_done {S R : Type} (K : Kernel S R) (sk : Skeleton S R) (t : Vec4 S)
    (L : Nat) : ∀ (n i : Nat) (temp : Option Ptr) (J : Matrix4Xd S), Walkable sk L n temp →
      ∃ J1, jacobianLoop K sk t n i temp J = Run.done J1 ∧ J1.length = J.length := by
  intro n
  induction n with
  | zero => intro i temp J _; exact ⟨J, rfl, rfl⟩
  | succ n ih =>
    intro i temp J h
    obtain ⟨b, hb, _, _, hrest⟩ := h
    obtain ⟨J1, h1, h2⟩ := ih (i + 1) b.parent (jacobianColumns K t b (i * 3) J) hrest
    refine ⟨J1, ?_, ?_⟩
    · simp only [jacobianLoop, hb, Run.bind_done, h1]
    · rw [h2, jacobianColumns_length]

theorem pseudoInverseLinearSolver_length {S R : Type} (K : Kernel S R) (J : Matrix4Xd S)
    (t : Vec4 S) : (pseudoInverseLinearSolver K J t).length = J.length := by
  simp [pseudoInverseLinearSolver, transposeMul, Matrix4Xd.topRows3]

theorem addRotation_done {S R : Type} (K : Kernel S R) (posture : Posture S) (idx : Int)
    (d : Vec4 S) (h0 : 0 ≤ idx) (hL : idx.toNat < posture.bone_rotations.length) :
    ∃ p1, posture.addRotation K idx d = Run.done p1 ∧
      p1.bone_rotations.length = posture.bone_rotations.length ∧
      p1.bone_translations = posture.bone_translations := by
  unfold Posture.addRotation
  rw [if_pos h0]
  have : posture.bone_rotations[idx.toNat]? = some (posture.bone_rotations[idx.toNat]) :=
    List.getElem?_eq_getElem hL
  rw [this]
  exact ⟨_, rfl, by simp, rfl⟩

theorem coeff_done {S : Type} (v : VectorXd S) (k : Nat) (h : k < v.length) :
    coeff v k = Run.done v[k] := by
  unfold coeff
  rw [List.getElem?_eq_getElem h]

theorem updateLoop_done {S R : Type} (K : Kernel S R) (sk : Skeleton S R) (dt : VectorXd S)
    (L : Nat) : ∀ (n i : Nat) (temp : Option Ptr) (posture : Posture S),
      Walkable sk L n temp → posture.bone_rotations.length = L → 3 * (i + n) ≤ dt.length →
      ∃ p1, updateLoop K sk dt n i temp posture = Run.done p1 ∧
        p1.bone_rotations.length = L ∧ p1.bone_translations = posture.bone_translations := by
  intro n
  induction n with
  | zero => intro i temp posture _ hL _; exact ⟨posture, rfl, hL, rfl⟩
  | succ n ih =>
    intro i temp posture h hL hdt
    obtain ⟨b, hb, h0, hi, hrest⟩ := h
    have c0 := coeff_done dt (i * 3 + 0) (by omega)
    have c1 := coeff_done dt (i * 3 + 1) (by omega)
    have c2 := coeff_done dt (i * 3 + 2) (by omega)
    obtain ⟨p1, hp1, hl1, ht1⟩ := addRotation_done K posture b.idx
      ⟨K.mul dt[i * 3 + 0] (K.div (K.lit 180) (M_PI K)),
       K.mul dt[i * 3 + 1] (K.div (K.lit 180) (M_PI K)),
       K.mul dt[i * 3 + 2] (K.div (K.lit 180) (M_PI K)), K.lit 0⟩ h0 (hL ▸ hi)
    obtain ⟨p2, hp2, hl2, ht2⟩ := ih (i + 1) b.parent p1 hrest (hl1.trans hL) (by omega)
    refine ⟨p2, ?_, hl2, ht2.trans ht1⟩
    simp only [updateLoop, hb, Run.bind_done, c0, c1, c2, hp1, hp2]

theorem jacobian_zero_length {S R : Type} (K : Kernel S R) (n : Nat) :
    (Matrix4Xd.zero K n).length = n := by
  simp [Matrix4Xd.zero]

theorem ikUpdate_done {S R : Type} (K : Kernel S R) (sk : Skeleton S R) (t d : Vec4 S)
    (end_bone : Ptr) (n L : Nat) (posture : Posture S)
    (h : Walkable sk L n (some end_bone)) (hL : posture.bone_rotations.length = L) :
    ∃ p1, ikUpdate K sk t d end_bone n posture = Run.done p1 ∧
      p1.bone_rotations.length = L ∧ p1.bone_translations = posture.bone_translations := by
  obtain ⟨J, hJ, hJl⟩ := jacobianLoop_done K sk t L n 0 (some end_bone)
    (Matrix4Xd.zero K (3 * n)) h
  have hlen : 3 * (0 + n) ≤
      ((pseudoInverseLinearSolver K J d).map fun a => K.mul (step K) a).length := by
    rw [List.length_map, pseudoInverseLinearSolver_length, hJl, jacobian_zero_length]
    omega
  obtain ⟨p1, hp1, hl1, ht1⟩ := updateLoop_done K sk _ L n 0 (some end_bone) posture h hL hlen
  exact ⟨p1, by simp only [ikUpdate, buildJacobian, hJ, Run.bind_done, hp1], hl1, ht1⟩

end kinematics

namespace kinematics
open acclaim

/-- The invariant of the main loop: the chain can be read and the posture has `L` rotation entries. -/
theorem ikStep_done {S R : Type} (K : Kernel S R) (fk : ForwardMap S R) (t : Vec4 S)
    (root_bone end_bone : Ptr) (n L : Nat) (sk : Skeleton S R) (posture : Posture S)
    (h : Walkable sk L (n + 1) (some end_bone)) (hL : posture.bone_rotations.length = L) :
    ∃ eb p1, (forwardSolver fk posture sk root_bone).deref end_bone = Run.done eb ∧
      ikUpdate K (forwardSolver fk posture sk root_bone) t (K.sub4 t eb.end_position)
        end_bone (n + 1) posture = Run.done p1 ∧
      ikStep K fk t root_bone end_bone (n + 1) (sk, posture) =
        Run.done (forwardSolver fk posture sk root_bone, p1) ∧
      Walkable (forwardSolver fk posture sk root_bone) L (n + 1) (some end_bone) ∧
      p1.bone_rotations.length = L ∧ p1.bone_translations = posture.bone_translations := by
  have hw := walkable_forward fk posture sk root_bone L (n + 1) (some end_bone) h
  obtain ⟨eb, heb, _, _, _⟩ := hw
  obtain ⟨p1, hp1, hl1, ht1⟩ := ikUpdate_done K (forwardSolver fk posture sk root_bone) t
    (K.sub4 t eb.end_position) end_bone (n + 1) L posture
    (walkable_forward fk posture sk root_bone L (n + 1) (some end_bone) h) hL
  refine ⟨eb, p1, heb, hp1, ?_, walkable_forward fk posture sk root_bone L (n + 1) _ h, hl1, ht1⟩
  have heb2 : (forwardSolver fk posture sk root_bone).deref end_bone = Run.done eb := heb
  simp only [ikStep, heb2, Run.bind_done, hp1]

theorem belowAt_zero {S R : Type} (K : Kernel S R) (fk : ForwardMap S R) (t : Vec4 S)
    (root_bone end_bone : Ptr) (n : Nat) (sk : Skeleton S R) (posture : Posture S) :
    belowAt K fk t root_bone end_bone n sk posture 0 ↔
      errorBelow K fk t root_bone end_bone sk posture = true := by
  unfold belowAt
  constructor
  · rintro ⟨st, h1, h2⟩
    simp only [afterIterations, Run.done.injEq] at h1
    subst h1
    exact h2
  · intro h
    exact ⟨(sk, posture), rfl, h⟩

theorem belowAt_succ {S R : Type} (K : Kernel S R) (fk : ForwardMap S R) (t : Vec4 S)
    (root_bone end_bone : Ptr) (n : Nat) (sk sk1 : Skeleton S R) (posture p1 : Posture S)
    (k : Nat) (h : ikStep K fk t root_bone end_bone n (sk, posture) = Run.done (sk1, p1)) :
    belowAt K fk t root_bone end_bone n sk posture (k + 1) ↔
      belowAt K fk t root_bone end_bone n sk1 p1 k := by
  unfold belowAt
  simp only [afterIterations, h, Run.bind_done]

theorem ikLoop_spec {S R : Type} (K : Kernel S R) (fk : ForwardMap S R) (t : Vec4 S)
    (root_bone end_bone : Ptr) (n L : Nat) :
    ∀ (m iter calls : Nat) (sk : Skeleton S R) (posture : Posture S),
      Walkable sk L (n + 1) (some end_bone) → posture.bone_rotations.length = L →
      ∃ r, ikLoop K fk t root_bone end_bone (n + 1) m iter calls sk posture = Run.done r ∧
        ((r.stable = true ∧ ∃ k, k < m ∧ belowAt K fk t root_bone end_bone (n + 1) sk posture k ∧
            (∀ j, j < k → ¬ belowAt K fk t root_bone end_bone (n + 1) sk posture j) ∧
            r.iter = iter + k ∧ r.fkCalls = calls + k + 1) ∨
         (r.stable = false ∧
            (∀ k, k < m → ¬ belowAt K fk t root_bone end_bone (n + 1) sk posture k) ∧
            r.iter = iter + m ∧ r.fkCalls = calls + m)) := by
  intro m
  induction m with
  | zero =>
    intro iter calls sk posture _ _
    exact ⟨⟨false, posture, sk, iter, calls⟩, rfl, Or.inr ⟨rfl, by intro k hk; omega, rfl, rfl⟩⟩
  | succ m ih =>
    intro iter calls sk posture hw hL
    obtain ⟨eb, p1, heb, hup, hstep, hw1, hl1, _⟩ :=
      ikStep_done K fk t root_bone end_bone n L sk posture hw hL
    have herr : errorBelow K fk t root_bone end_bone sk posture =
        K.lt (K.norm4 (K.sub4 t eb.end_position)) (epsilon K) := by
      simp only [errorBelow, heb]
    by_cases hlt : K.lt (K.norm4 (K.sub4 t eb.end_position)) (epsilon K) = true
    · refine ⟨⟨true, posture, forwardSolver fk posture sk root_bone, iter, calls + 1⟩, ?_, ?_⟩
      · simp only [ikLoop, heb, hlt, if_true]
      · refine Or.inl ⟨rfl, 0, Nat.succ_pos m, ?_, by intro j hj; omega, rfl, rfl⟩
        rw [belowAt_zero, herr, hlt]
    · obtain ⟨r, hr, hcase⟩ := ih (iter + 1) (calls + 1) (forwardSolver fk posture sk root_bone)
        p1 hw1 hl1
      have h0 : ¬ belowAt K fk t root_bone end_bone (n + 1) sk posture 0 := by
        rw [belowAt_zero, herr]; exact hlt
      refine ⟨r, ?_, ?_⟩
      · simp only [ikLoop, heb, hlt, hup, hr]
        simp
      · rcases hcase with ⟨hs, k, hk, hb, hmin, hi, hc⟩ | ⟨hs, hnone, hi, hc⟩
        · refine Or.inl ⟨hs, k + 1, by omega, ?_, ?_, by omega, by omega⟩
          · rw [belowAt_succ K fk t root_bone end_bone (n + 1) sk _ posture p1 k hstep]
            exact hb
          · intro j hj
            cases j with
            | zero => exact h0
            | succ j =>
              rw [belowAt_succ K fk t root_bone end_bone (n + 1) sk _ posture p1 j hstep]
              exact hmin j (by omega)
        · refine Or.inr ⟨hs, ?_, by omega, by omega⟩
          intro k hk
          cases k with
          | zero => exact h0
          | succ k =>
            rw [belowAt_succ K fk t root_bone end_bone (n + 1) sk _ posture p1 k hstep]
            exact hnone k (by omega)

end kinematics

namespace kinematics
open acclaim

theorem deref_idx_valid {S R : Type} (sk : Skeleton S R) (hI : sk.Indexed) (p : Ptr)
    (b : Bone S R) (h : sk.deref p = Run.done b) :
    0 ≤ b.idx ∧ b.idx.toNat < sk.bones.length ∧ b.idx = (p.pos : Int) := by
  rw [Skeleton.deref_eq_done] at h
  have hi := hI p.pos b h.2
  have hlt : p.pos < sk.bones.length := by
    by_contra hc
    rw [List.getElem?_eq_none (by omega)] at h
    cases h.2
  rw [hi]
  refine ⟨by omega, by simpa using hlt, rfl⟩

theorem derefOpt_idx_valid {S R : Type} (sk : Skeleton S R) (hI : sk.Indexed) (p : Option Ptr)
    (b : Bone S R) (h : sk.derefOpt p = Run.done b) :
    0 ≤ b.idx ∧ b.idx.toNat < sk.bones.length := by
  cases p with
  | none => cases h
  | some q => exact ⟨(deref_idx_valid sk hI q b h).1, (deref_idx_valid sk hI q b h).2.1⟩

theorem owns_deref {S R : Type} (sk : Skeleton S R) (p : Ptr) (h : sk.owns p) :
    ∃ b, sk.deref p = Run.done b := by
  obtain ⟨hs, hp⟩ := h
  exact ⟨sk.bones[p.pos], by rw [Skeleton.deref_eq_done]; exact ⟨hs, List.getElem?_eq_getElem hp⟩⟩

/-- A chain walk that returns has read as many bones as it reports. -/
theorem chainWalk_walkable {S R : Type} (sk : Skeleton S R) (hI : sk.Indexed)
    (start_bone root_bone : Ptr) (hs : ∃ b, sk.deref start_bone = Run.done b) :
    ∀ (fuel : Nat) (temp : Option Ptr) (n m : Nat),
      chainWalk sk start_bone root_bone fuel temp n = Run.done m →
      n ≤ m ∧ Walkable sk sk.bones.length (m - n + 1) temp := by
  intro fuel
  induction fuel with
  | zero => intro temp n m h; cases h
  | succ fuel ih =>
    intro temp n m h
    unfold chainWalk at h
    by_cases h1 : temp = some start_bone
    · rw [if_pos h1] at h
      cases h
      obtain ⟨b, hb⟩ := hs
      refine ⟨le_refl _, ?_⟩
      rw [Nat.sub_self]
      exact ⟨b, by rw [h1]; exact hb, (deref_idx_valid sk hI _ b hb).1,
        (deref_idx_valid sk hI _ b hb).2.1, trivial⟩
    · rw [if_neg h1] at h
      by_cases h2 : temp = some root_bone
      · rw [if_pos h2] at h
        obtain ⟨b, hb, hm⟩ := Run.bind_eq_done h
        cases hm
        refine ⟨le_refl _, ?_⟩
        rw [Nat.sub_self]
        exact ⟨b, by rw [h2]; exact hb, (deref_idx_valid sk hI _ b hb).1,
          (deref_idx_valid sk hI _ b hb).2.1, trivial⟩
      · rw [if_neg h2] at h
        obtain ⟨b, hb, hm⟩ := Run.bind_eq_done h
        obtain ⟨hle, hw⟩ := ih b.parent (n + 1) m hm
        refine ⟨by omega, ?_⟩
        have : m - n + 1 = (m - (n + 1) + 1) + 1 := by omega
        rw [this]
        exact ⟨b, hb, (derefOpt_idx_valid sk hI temp b hb).1,
          (derefOpt_idx_valid sk hI temp b hb).2, hw⟩

/-- When the parent links from `temp` arrive at the start bone or at the root, the chain
walk returns, with the same count for every sufficient fuel. -/
theorem chainWalk_returns {S R : Type} (sk : Skeleton S R) (start_bone root_bone : Ptr)
    (hr : start_bone ≠ root_bone → ∃ b, sk.deref root_bone = Run.done b) :
    ∀ (k : Nat) (temp : Option Ptr) (n : Nat),
      (sk.climb k temp = some start_bone ∨ sk.climb k temp = some root_bone) →
      ∃ m, m ≤ n + k ∧ ∀ fuel, k < fuel →
        chainWalk sk start_bone root_bone fuel temp n = Run.done m := by
  intro k
  induction k with
  | zero =>
    intro temp n h
    refine ⟨n, le_refl _, ?_⟩
    intro fuel hf
    obtain ⟨f, rfl⟩ : ∃ f, fuel = f + 1 := ⟨fuel - 1, by omega⟩
    unfold chainWalk
    simp only [Skeleton.climb] at h
    by_cases h1 : temp = some start_bone
    · rw [if_pos h1]
    · rw [if_neg h1]
      have h2 : temp = some root_bone := by
        rcases h with h | h
        · exact absurd h h1
        · exact h
      rw [if_pos h2]
      obtain ⟨b, hb⟩ := hr (by rintro rfl; exact h1 h2)
      simp only [hb, Run.bind_done]
  | succ k ih =>
    intro temp n h
    by_cases h1 : temp = some start_bone
    · refine ⟨n, by omega, ?_⟩
      intro fuel hf
      obtain ⟨f, rfl⟩ : ∃ f, fuel = f + 1 := ⟨fuel - 1, by omega⟩
      unfold chainWalk
      rw [if_pos h1]
    · by_cases h2 : temp = some root_bone
      · refine ⟨n, by omega, ?_⟩
        intro fuel hf
        obtain ⟨f, rfl⟩ : ∃ f, fuel = f + 1 := ⟨fuel - 1, by omega⟩
        unfold chainWalk
        rw [if_neg h1, if_pos h2]
        obtain ⟨b, hb⟩ := hr (by rintro rfl; exact h1 h2)
        simp only [hb, Run.bind_done]
      · have hd : ∃ b, sk.derefOpt temp = Run.done b ∧
            (sk.climb k b.parent = some start_bone ∨ sk.climb k b.parent = some root_bone) := by
          simp only [Skeleton.climb] at h
          cases hb : sk.derefOpt temp with
          | done b => rw [hb] at h; exact ⟨b, rfl, h⟩
          | fault => rw [hb] at h; simp at h
          | timeout => rw [hb] at h; simp at h
        obtain ⟨b, hb, hc⟩ := hd
        obtain ⟨m, hm, hrun⟩ := ih b.parent (n + 1) hc
        refine ⟨m, by omega, ?_⟩
        intro fuel hf
        obtain ⟨f, rfl⟩ : ∃ f, fuel = f + 1 := ⟨fuel - 1, by omega⟩
        unfold chainWalk
        rw [if_neg h1, if_neg h2]
        simp only [hb, Run.bind_done]
        exact hrun f (by omega)

end kinematics

namespace kinematics
open acclaim

/-- The preamble of the solver in an indexed skeleton: the root pointer is `&bones[0]`. -/
theorem solver_preamble {S R : Type} (sk : Skeleton S R) (hI : sk.Indexed) (start_bone : Ptr)
    (hs : sk.owns start_bone) :
    ∃ sb, sk.deref start_bone = Run.done sb ∧ sk.ptrSub start_bone sb.idx = Run.done (sk.ptr 0) ∧
      ∃ rb, sk.deref (sk.ptr 0) = Run.done rb := by
  obtain ⟨sb, hsb⟩ := owns_deref sk start_bone hs
  have hidx := (deref_idx_valid sk hI start_bone sb hsb).2.2
  refine ⟨sb, hsb, ?_, ?_⟩
  · unfold Skeleton.ptrSub
    rw [hidx, if_pos ⟨hs.1, by omega, by omega⟩]
    simp [Skeleton.ptr, hs.1]
  · exact owns_deref sk (sk.ptr 0) ⟨rfl, by have := hs.2; simp only [Skeleton.ptr]; omega⟩

/-- The solver in an indexed skeleton whose walk from the end bone meets the start bone or
the root: it returns, and the flag, the counter and the call count are as the loop fixes them. -/
theorem solver_spec {S R : Type} (K : Kernel S R) (fk : ForwardMap S R) (t : Vec4 S)
    (start_bone end_bone : Ptr) (sk : Skeleton S R) (posture : Posture S)
    (hI : sk.Indexed) (hA : posture.Aligned sk) (hs : sk.owns start_bone)
    (hreach : ∃ k, sk.climb k (some end_bone) = some start_bone ∨
      sk.climb k (some end_bone) = some (sk.ptr 0)) :
    ∃ fuel0 n, 0 < n ∧ ∀ fuel, fuel0 ≤ fuel →
      chainLength sk fuel start_bone end_bone = Run.done n ∧
      ∃ r, inverseJacobianIKSolver K fk fuel t start_bone end_bone sk posture = Run.done r ∧
        ((r.stable = true ∧ ∃ k, k < max_iteration ∧
            belowAt K fk t (sk.ptr 0) end_bone n sk posture k ∧
            (∀ j, j < k → ¬ belowAt K fk t (sk.ptr 0) end_bone n sk posture j) ∧
            r.iter = k ∧ r.fkCalls = k + 1) ∨
         (r.stable = false ∧
            (∀ k, k < max_iteration → ¬ belowAt K fk t (sk.ptr 0) end_bone n sk posture k) ∧
            r.iter = max_iteration ∧ r.fkCalls = max_iteration)) := by
  obtain ⟨sb, hsb, hroot, rb, hrb⟩ := solver_preamble sk hI start_bone hs
  obtain ⟨k, hk⟩ := hreach
  obtain ⟨m, _, hrun⟩ := chainWalk_returns sk start_bone (sk.ptr 0) (fun _ => ⟨rb, hrb⟩) k
    (some end_bone) 1 hk
  obtain ⟨hle, hw⟩ := chainWalk_walkable sk hI start_bone (sk.ptr 0) ⟨sb, hsb⟩ (k + 1)
    (some end_bone) 1 m (hrun (k + 1) (by omega))
  obtain ⟨n, rfl⟩ : ∃ n, m = n + 1 := ⟨m - 1, by omega⟩
  have hw1 : Walkable sk sk.bones.length (n + 1) (some end_bone) := by
    have : n + 1 - 1 + 1 = n + 1 := by omega
    rw [this] at hw
    exact hw
  refine ⟨k + 1, n + 1, by omega, ?_⟩
  intro fuel hf
  have hcw := hrun fuel (by omega)
  refine ⟨by simp only [chainLength, hsb, hroot, Run.bind_done, hcw], ?_⟩
  obtain ⟨r, hr, hcase⟩ := ikLoop_spec K fk t (sk.ptr 0) end_bone n sk.bones.length
    max_iteration 0 0 sk posture hw1 hA
  refine ⟨r, by simp only [inverseJacobianIKSolver, hsb, hroot, Run.bind_done, hcw, hr], ?_⟩
  simpa using hcase

end kinematics

theorem demoSkeleton_indexed : demoSkeleton.Indexed := by
  intro i b h
  match i with
  | 0 => simp [demoSkeleton] at h; subst h; rfl
  | 1 => simp [demoSkeleton] at h; subst h; rfl
  | 2 => simp [demoSkeleton] at h; subst h; rfl
  | _ + 3 => simp [demoSkeleton] at h

theorem demoSkeleton_wellFormed : demoSkeleton.WellFormed := by
  refine ⟨demoSkeleton_indexed, ?_, ?_⟩
  · intro i b p h hp
    match i with
    | 0 => simp [demoSkeleton] at h; subst h; cases hp
    | 1 => simp [demoSkeleton] at h; subst h; cases hp; decide
    | 2 => simp [demoSkeleton] at h; subst h; cases hp; decide
    | _ + 3 => simp [demoSkeleton] at h
  · rintro ⟨s, j⟩ ⟨hs, hj⟩
    simp only [demoSkeleton] at hs hj
    subst hs
    match j, hj with
    | 0, _ => exact ⟨0, rfl⟩
    | 1, _ => exact ⟨1, rfl⟩
    | 2, _ => exact ⟨2, rfl⟩
    | _ + 3, h => simp at h

namespace kinematics
open acclaim

/-- The convergence test at iteration `k`, written out: the bones and the posture left by
`k` iterations exist, forward kinematics on them gives the end bone `eb`, and the square
root of the sum of the four squared coefficients of `target_pos - eb.end_position` is below
the literal `1e-3`. -/
theorem belowAt_iff {S R : Type} (K : Kernel S R) (fk : ForwardMap S R) (target_pos : Vec4 S)
    (root_bone end_bone : Ptr) (bone_num : Nat) (sk : Skeleton S R) (posture : Posture S)
    (k : Nat) :
    belowAt K fk target_pos root_bone end_bone bone_num sk posture k ↔
      ∃ st eb,
        afterIterations K fk target_pos root_bone end_bone bone_num k (sk, posture)
          = Run.done st ∧
        (forwardSolver fk st.2 st.1 root_bone).deref end_bone = Run.done eb ∧
        K.lt
          (K.sqrt (K.add (K.add (K.add
            (K.mul (K.sub target_pos.x eb.end_position.x) (K.sub target_pos.x eb.end_position.x))
            (K.mul (K.sub target_pos.y eb.end_position.y) (K.sub target_pos.y eb.end_position.y)))
            (K.mul (K.sub target_pos.z eb.end_position.z) (K.sub target_pos.z eb.end_position.z)))
            (K.mul (K.sub target_pos.w eb.end_position.w) (K.sub target_pos.w eb.end_position.w))))
          (K.lit (1 / 1000)) = true := by
  constructor
  · rintro ⟨st, hst, he⟩
    unfold errorBelow at he
    cases hd : (forwardSolver fk st.2 st.1 root_bone).deref end_bone with
    | done eb =>
      rw [hd] at he
      exact ⟨st, eb, hst, hd, he⟩
    | fault => rw [hd] at he; cases he
    | timeout => rw [hd] at he; cases he
  · rintro ⟨st, eb, hst, hd, he⟩
    refine ⟨st, hst, ?_⟩
    unfold errorBelow
    rw [hd]
    exact he

/-- C1: in a skeleton whose bones are indexed by position, with a posture that has one
rotation entry per bone and an end bone that descends from the start bone, the solver
returns; it returns true exactly when at some iteration `k < 1000` the norm of
`target_pos - end_bone.end_position`, taken right after forward kinematics on the bones and
the posture as left by the previous `k` iterations, is strictly below `1e-3` (the square
root of the sum of the four squared coefficients of the difference compares below the
literal `1e-3`); and when it returns false the loop counter and the number of
forward-kinematics evaluations are both 1000. -/
theorem ik_stable_iff_error_below {S R : Type} (K : Kernel S R) (fk : ForwardMap S R)
    (target_pos : Vec4 S) (start_bone end_bone : Ptr) (sk : Skeleton S R) (posture : Posture S)
    (hI : sk.Indexed) (hA : posture.Aligned sk) (hs : sk.owns start_bone)
    (hd : sk.Descends start_bone end_bone) :
    ∃ fuel0 n, ∀ fuel, fuel0 ≤ fuel →
      chainLength sk fuel start_bone end_bone = Run.done n ∧
      ∃ r, inverseJacobianIKSolver K fk fuel target_pos start_bone end_bone sk posture
          = Run.done r ∧
        (r.stable = true ↔
          ∃ k, k < 1000 ∧ ∃ st eb,
            afterIterations K fk target_pos (sk.ptr 0) end_bone n k (sk, posture)
              = Run.done st ∧
            (forwardSolver fk st.2 st.1 (sk.ptr 0)).deref end_bone = Run.done eb ∧
            K.lt
              (K.sqrt (K.add (K.add (K.add
                (K.mul (K.sub target_pos.x eb.end_position.x)
                  (K.sub target_pos.x eb.end_position.x))
                (K.mul (K.sub target_pos.y eb.end_position.y)
                  (K.sub target_pos.y eb.end_position.y)))
                (K.mul (K.sub target_pos.z eb.end_position.z)
                  (K.sub target_pos.z eb.end_position.z)))
                (K.mul (K.sub target_pos.w eb.end_position.w)
                  (K.sub target_pos.w eb.end_position.w))))
              (K.lit (1 / 1000)) = true) ∧
        (r.stable = false → r.iter = 1000 ∧ r.fkCalls = 1000) := by
  obtain ⟨k, hk⟩ := hd
  obtain ⟨fuel0, n, _, h⟩ := solver_spec K fk target_pos start_bone end_bone sk posture hI hA hs
    ⟨k, Or.inl hk⟩
  refine ⟨fuel0, n, fun fuel hf => ?_⟩
  obtain ⟨hc, r, hr, hcase⟩ := h fuel hf
  refine ⟨hc, r, hr, ?_, ?_⟩
  · rcases hcase with ⟨hst, j, hj, hb, _⟩ | ⟨hst, hnone, _⟩
    · exact ⟨fun _ => ⟨j, hj,
        (belowAt_iff K fk target_pos (sk.ptr 0) end_bone n sk posture j).mp hb⟩, fun _ => hst⟩
    · constructor
      · intro h1; rw [hst] at h1; cases h1
      · rintro ⟨j, hj, hb⟩
        exact absurd ((belowAt_iff K fk target_pos (sk.ptr 0) end_bone n sk posture j).mpr hb)
          (hnone j hj)
  · intro hf
    rcases hcase with ⟨hst, _⟩ | ⟨_, _, hi, hc⟩
    · rw [hst] at hf; cases hf
    · exact ⟨hi, hc⟩

theorem ik_stable_iff_error_below_witness :
    (demoSkeleton.Indexed ∧ demoPosture.Aligned demoSkeleton ∧ demoSkeleton.owns ⟨0, 1⟩ ∧
      demoSkeleton.Descends ⟨0, 1⟩ ⟨0, 2⟩) ∧
    ∃ fuel0 n, ∀ fuel, fuel0 ≤ fuel →
      chainLength demoSkeleton fuel ⟨0, 1⟩ ⟨0, 2⟩ = Run.done n ∧
      ∃ r, inverseJacobianIKSolver demoKernel demoForward fuel ⟨some 5, some 0, some 0, some 0⟩
          ⟨0, 1⟩ ⟨0, 2⟩ demoSkeleton demoPosture = Run.done r ∧
        (r.stable = true ↔
          ∃ k, k < 1000 ∧ ∃ st eb,
            afterIterations demoKernel demoForward ⟨some 5, some 0, some 0, some 0⟩
              (demoSkeleton.ptr 0) ⟨0, 2⟩ n k (demoSkeleton, demoPosture) = Run.done st ∧
            (forwardSolver demoForward st.2 st.1 (demoSkeleton.ptr 0)).deref ⟨0, 2⟩
              = Run.done eb ∧
            demoKernel.lt
              (demoKernel.sqrt (demoKernel.add (demoKernel.add (demoKernel.add
                (demoKernel.mul (demoKernel.sub (some 5) eb.end_position.x)
                  (demoKernel.sub (some 5) eb.end_position.x))
                (demoKernel.mul (demoKernel.sub (some 0) eb.end_position.y)
                  (demoKernel.sub (some 0) eb.end_position.y)))
                (demoKernel.mul (demoKernel.sub (some 0) eb.end_position.z)
                  (demoKernel.sub (some 0) eb.end_position.z)))
                (demoKernel.mul (demoKernel.sub (some 0) eb.end_position.w)
                  (demoKernel.sub (some 0) eb.end_position.w))))
              (demoKernel.lit (1 / 1000)) = true) ∧
        (r.stable = false → r.iter = 1000 ∧ r.fkCalls = 1000) :=
  ⟨⟨demoSkeleton_indexed, rfl, by decide, ⟨1, rfl⟩⟩,
   ik_stable_iff_error_below demoKernel demoForward ⟨some 5, some 0, some 0, some 0⟩
    ⟨0, 1⟩ ⟨0, 2⟩ demoSkeleton demoPosture demoSkeleton_indexed rfl (by decide) ⟨1, rfl⟩⟩

/-- C3: in a well-formed hierarchy (every parent chain reaches the root, `idx` is the array
position), for every target, posture with one rotation entry per bone, and start and end
bone, the solver terminates: the chain-counting walk returns for every sufficient fuel, the
main loop runs at most 1000 iterations with one forward-kinematics evaluation each, and
when the error is below the threshold at no iteration the result is false. -/
theorem ik_terminates {S R : Type} (K : Kernel S R) (fk : ForwardMap S R)
    (target_pos : Vec4 S) (start_bone end_bone : Ptr) (sk : Skeleton S R) (posture : Posture S)
    (hW : sk.WellFormed) (hA : posture.Aligned sk) (hs : sk.owns start_bone)
    (he : sk.owns end_bone) :
    ∃ fuel0 n, ∀ fuel, fuel0 ≤ fuel →
      chainLength sk fuel start_bone end_bone = Run.done n ∧
      ∃ r, inverseJacobianIKSolver K fk fuel target_pos start_bone end_bone sk posture
          = Run.done r ∧
        r.iter ≤ 1000 ∧ r.fkCalls ≤ 1000 ∧
        r.fkCalls = r.iter + (if r.stable then 1 else 0) ∧
        ((∀ k, k < 1000 → ¬ belowAt K fk target_pos (sk.ptr 0) end_bone n sk posture k) →
          r.stable = false ∧ r.iter = 1000 ∧ r.fkCalls = 1000) := by
  obtain ⟨k, hk⟩ := hW.reaches_root end_bone he
  obtain ⟨fuel0, n, _, h⟩ := solver_spec K fk target_pos start_bone end_bone sk posture
    hW.indexed hA hs ⟨k, Or.inr hk⟩
  refine ⟨fuel0, n, fun fuel hf => ?_⟩
  obtain ⟨hc, r, hr, hcase⟩ := h fuel hf
  refine ⟨hc, r, hr, ?_⟩
  simp only [max_iteration] at hcase
  rcases hcase with ⟨hst, j, hj, hb, _, hi, hcalls⟩ | ⟨hst, hnone, hi, hcalls⟩
  · refine ⟨by omega, by omega, by simp [hst, hi, hcalls], ?_⟩
    intro hno
    exact absurd hb (hno j hj)
  · exact ⟨by omega, by omega, by simp [hst, hi, hcalls], fun _ => ⟨hst, hi, hcalls⟩⟩

theorem ik_terminates_witness :
    (demoSkeleton.WellFormed ∧ demoPosture.Aligned demoSkeleton ∧ demoSkeleton.owns ⟨0, 1⟩ ∧
      demoSkeleton.owns ⟨0, 2⟩) ∧
    ∃ fuel0 n, ∀ fuel, fuel0 ≤ fuel →
      chainLength demoSkeleton fuel ⟨0, 1⟩ ⟨0, 2⟩ = Run.done n ∧
      ∃ r, inverseJacobianIKSolver demoKernel demoForward fuel
          ⟨some 100, some 0, some 0, some 0⟩ ⟨0, 1⟩ ⟨0, 2⟩ demoSkeleton demoPosture
          = Run.done r ∧
        r.iter ≤ 1000 ∧ r.fkCalls ≤ 1000 ∧
        r.fkCalls = r.iter + (if r.stable then 1 else 0) ∧
        ((∀ k, k < 1000 → ¬ belowAt demoKernel demoForward ⟨some 100, some 0, some 0, some 0⟩
            (demoSkeleton.ptr 0) ⟨0, 2⟩ n demoSkeleton demoPosture k) →
          r.stable = false ∧ r.iter = 1000 ∧ r.fkCalls = 1000) :=
  ⟨⟨demoSkeleton_wellFormed, rfl, by decide, by decide⟩,
   ik_terminates demoKernel demoForward ⟨some 100, some 0, some 0, some 0⟩ ⟨0, 1⟩ ⟨0, 2⟩
    demoSkeleton demoPosture demoSkeleton_wellFormed rfl (by decide) (by decide)⟩

end kinematics

namespace kinematics
open acclaim

theorem climb_succ {S R : Type} (sk : Skeleton S R) (k : Nat) (temp : Option Ptr) (b : Bone S R)
    (h : sk.derefOpt temp = Run.done b) : sk.climb (k + 1) temp = sk.climb k b.parent := by
  simp only [Skeleton.climb, h]

theorem climb_none {S R : Type} (sk : Skeleton S R) (k : Nat) : sk.climb k none = none := by
  cases k with
  | zero => rfl
  | succ k => simp [Skeleton.climb, Skeleton.derefOpt]

theorem climb_succ_some {S R : Type} (sk : Skeleton S R) (k : Nat) (temp : Option Ptr) (q : Ptr)
    (h : sk.climb (k + 1) temp = some q) :
    ∃ b, sk.derefOpt temp = Run.done b ∧ sk.climb k b.parent = some q := by
  simp only [Skeleton.climb] at h
  cases hb : sk.derefOpt temp with
  | done b => rw [hb] at h; exact ⟨b, rfl, h⟩
  | fault => rw [hb] at h; simp at h
  | timeout => rw [hb] at h; simp at h

theorem climb_add {S R : Type} (sk : Skeleton S R) (i : Nat) :
    ∀ (j : Nat) (temp : Option Ptr), sk.climb (j + i) temp = sk.climb i (sk.climb j temp) := by
  intro j
  induction j with
  | zero => intro temp; simp [Skeleton.climb]
  | succ j ih =>
    intro temp
    have : j + 1 + i = (j + i) + 1 := by omega
    rw [this]
    cases hb : sk.derefOpt temp with
    | done b => rw [climb_succ sk _ temp b hb, climb_succ sk _ temp b hb, ih]
    | fault => simp [Skeleton.climb, hb, climb_none]
    | timeout => simp [Skeleton.climb, hb, climb_none]

/-- Below the start bone of a path the walk does not meet the root, when the root has no parent. -/
theorem path_avoids_root {S R : Type} (sk : Skeleton S R) (hroot : sk.RootTop)
    (start_bone : Ptr) (temp : Option Ptr) (k j : Nat) (hj : j < k)
    (hk : sk.climb k temp = some start_bone) : sk.climb j temp ≠ some (sk.ptr 0) := by
  intro h
  obtain ⟨i, rfl⟩ : ∃ i, k = j + (i + 1) := ⟨k - j - 1, by omega⟩
  rw [climb_add, h] at hk
  obtain ⟨b, hb, _⟩ := climb_succ_some sk i _ _ hk
  have hb2 : sk.deref (sk.ptr 0) = Run.done b := hb
  rw [Skeleton.deref_eq_done] at hb2
  have hp := hroot b hb2.2
  rw [climb_succ sk i _ b hb, hp, climb_none] at hk
  cases hk

/-- The chain walk along a path that first meets the start bone after `k` links counts
`k` more bones. -/
theorem chainWalk_first {S R : Type} (sk : Skeleton S R) (start_bone root_bone : Ptr) :
    ∀ (k : Nat) (temp : Option Ptr) (n : Nat),
      sk.climb k temp = some start_bone →
      (∀ j, j < k → sk.climb j temp ≠ some start_bone ∧ sk.climb j temp ≠ some root_bone) →
      ∀ fuel, k < fuel → chainWalk sk start_bone root_bone fuel temp n = Run.done (n + k) := by
  intro k
  induction k with
  | zero =>
    intro temp n h _ fuel hf
    obtain ⟨f, rfl⟩ : ∃ f, fuel = f + 1 := ⟨fuel - 1, by omega⟩
    simp only [Skeleton.climb] at h
    unfold chainWalk
    rw [if_pos h]
    rfl
  | succ k ih =>
    intro temp n h hmin fuel hf
    obtain ⟨f, rfl⟩ : ∃ f, fuel = f + 1 := ⟨fuel - 1, by omega⟩
    obtain ⟨b, hb, hc⟩ := climb_succ_some sk k temp start_bone h
    have h0 := hmin 0 (by omega)
    simp only [Skeleton.climb] at h0
    unfold chainWalk
    rw [if_neg h0.1, if_neg h0.2]
    simp only [hb, Run.bind_done]
    have := ih b.parent (n + 1) hc (fun j hj => by
      have := hmin (j + 1) (by omega)
      rwa [climb_succ sk j temp b hb] at this) f (by omega)
    rw [this]
    congr 1
    omega

/-- The chain length of a path of `N` bones is `N`. -/
theorem chainLength_of_path {S R : Type} (sk : Skeleton S R) (hI : sk.Indexed)
    (hroot : sk.RootTop) (start_bone end_bone : Ptr) (hs : sk.owns start_bone) (N : Nat)
    (hp : sk.PathLength start_bone end_bone N) :
    ∃ fuel0, ∀ fuel, fuel0 ≤ fuel → chainLength sk fuel start_bone end_bone = Run.done N := by
  obtain ⟨k, rfl, hk, hmin⟩ := hp
  obtain ⟨sb, hsb, hrb, _⟩ := solver_preamble sk hI start_bone hs
  refine ⟨k + 1, fun fuel hf => ?_⟩
  simp only [chainLength, hsb, hrb, Run.bind_done]
  rw [chainWalk_first sk start_bone (sk.ptr 0) k (some end_bone) 1 hk
    (fun j hj => ⟨hmin j hj, path_avoids_root sk hroot start_bone _ k j hj hk⟩) fuel (by omega)]
  congr 1
  omega

theorem ikStep_skeleton {S R : Type} (K : Kernel S R) (fk : ForwardMap S R) (t : Vec4 S)
    (root_bone end_bone : Ptr) (n : Nat) (st st1 : Skeleton S R × Posture S)
    (h : ikStep K fk t root_bone end_bone n st = Run.done st1) :
    st1.1 = forwardSolver fk st.2 st.1 root_bone := by
  unfold ikStep at h
  obtain ⟨eb, _, h1⟩ := Run.bind_eq_done h
  obtain ⟨p1, _, h2⟩ := Run.bind_eq_done h1
  cases h2
  rfl

theorem afterIterations_walkable {S R : Type} (K : Kernel S R) (fk : ForwardMap S R) (t : Vec4 S)
    (root_bone end_bone : Ptr) (n L N : Nat) (temp : Option Ptr) :
    ∀ (k : Nat) (st st1 : Skeleton S R × Posture S), Walkable st.1 L N temp →
      afterIterations K fk t root_bone end_bone n k st = Run.done st1 →
      Walkable st1.1 L N temp := by
  intro k
  induction k with
  | zero =>
    intro st st1 hw h
    cases h
    exact hw
  | succ k ih =>
    intro st st1 hw h
    unfold afterIterations at h
    obtain ⟨st2, h2, h3⟩ := Run.bind_eq_done h
    refine ih st2 st1 ?_ h3
    rw [ikStep_skeleton K fk t root_bone end_bone n st st2 h2]
    exact walkable_forward fk st.2 st.1 root_bone L N temp hw

theorem buildJacobian_shape {S R : Type} (K : Kernel S R) (sk : Skeleton S R) (t : Vec4 S)
    (end_bone : Ptr) (N L : Nat) (h : Walkable sk L N (some end_bone)) :
    ∃ J, buildJacobian K sk t end_bone N = Run.done J ∧ J.rows = 4 ∧ J.cols = 3 * N ∧
      J.topRows3.rows = 3 ∧ J.topRows3.cols = 3 * N := by
  obtain ⟨J, hJ, hl⟩ := jacobianLoop_done K sk t L N 0 (some end_bone)
    (Matrix4Xd.zero K (3 * N)) h
  rw [jacobian_zero_length] at hl
  exact ⟨J, hJ, rfl, hl, rfl, by simp [Matrix3Xd.cols, Matrix4Xd.topRows3, hl]⟩

/-- C6 (as amended): for a hierarchy path of `N` bones from end bone to start bone the chain
length is `N`, and the Jacobian built in every iteration has 4 rows (the three spatial rows
and the homogeneous row) and `3 * N` columns, its top three rows forming the 3-by-`3 * N`
matrix of the solve, whatever DOF flags the bones carry. -/
theorem jacobian_shape_every_iteration {S R : Type} (K : Kernel S R) (fk : ForwardMap S R)
    (target_pos : Vec4 S) (start_bone end_bone : Ptr) (sk : Skeleton S R) (posture : Posture S)
    (N : Nat) (hI : sk.Indexed) (hroot : sk.RootTop) (hs : sk.owns start_bone)
    (hp : sk.PathLength start_bone end_bone N) :
    ∃ fuel0, ∀ fuel, fuel0 ≤ fuel →
      chainLength sk fuel start_bone end_bone = Run.done N ∧
      ∀ (k : Nat) (st : Skeleton S R × Posture S),
        afterIterations K fk target_pos (sk.ptr 0) end_bone N k (sk, posture) = Run.done st →
        ∃ J, buildJacobian K (forwardSolver fk st.2 st.1 (sk.ptr 0)) target_pos end_bone N
            = Run.done J ∧
          J.rows = 4 ∧ J.cols = 3 * N ∧ J.topRows3.rows = 3 ∧ J.topRows3.cols = 3 * N := by
  obtain ⟨fuel0, hfuel⟩ := chainLength_of_path sk hI hroot start_bone end_bone hs N hp
  obtain ⟨sb, hsb, hrb, _⟩ := solver_preamble sk hI start_bone hs
  have hcl := hfuel fuel0 (le_refl _)
  simp only [chainLength, hsb, hrb, Run.bind_done] at hcl
  obtain ⟨hle, hw⟩ := chainWalk_walkable sk hI start_bone (sk.ptr 0) ⟨sb, hsb⟩ fuel0
    (some end_bone) 1 N hcl
  have hw1 : Walkable sk sk.bones.length N (some end_bone) := by
    have : N - 1 + 1 = N := by omega
    rwa [this] at hw
  refine ⟨fuel0, fun fuel hf => ⟨hfuel fuel hf, fun k st hst => ?_⟩⟩
  have hw2 := afterIterations_walkable K fk target_pos (sk.ptr 0) end_bone N sk.bones.length N
    (some end_bone) k (sk, posture) st hw1 hst
  exact buildJacobian_shape K _ target_pos end_bone N sk.bones.length
    (walkable_forward fk st.2 st.1 (sk.ptr 0) _ N _ hw2)

theorem demoSkeleton_rootTop : demoSkeleton.RootTop := by
  intro rb h
  simp [demoSkeleton] at h
  subst h
  rfl

theorem jacobian_shape_every_iteration_witness :
    (demoSkeleton.Indexed ∧ demoSkeleton.RootTop ∧ demoSkeleton.owns ⟨0, 1⟩ ∧
      demoSkeleton.PathLength ⟨0, 1⟩ ⟨0, 2⟩ 2) ∧
    ∃ fuel0, ∀ fuel, fuel0 ≤ fuel →
      chainLength demoSkeleton fuel ⟨0, 1⟩ ⟨0, 2⟩ = Run.done 2 ∧
      ∀ (k : Nat) (st : Skeleton Exact Unit × Posture Exact),
        afterIterations demoKernel demoForward ⟨some 5, some 0, some 0, some 0⟩
          (demoSkeleton.ptr 0) ⟨0, 2⟩ 2 k (demoSkeleton, demoPosture) = Run.done st →
        ∃ J, buildJacobian demoKernel (forwardSolver demoForward st.2 st.1 (demoSkeleton.ptr 0))
            ⟨some 5, some 0, some 0, some 0⟩ ⟨0, 2⟩ 2 = Run.done J ∧
          J.rows = 4 ∧ J.cols = 3 * 2 ∧ J.topRows3.rows = 3 ∧ J.topRows3.cols = 3 * 2 :=
  ⟨⟨demoSkeleton_indexed, demoSkeleton_rootTop, by decide,
      ⟨1, rfl, rfl, by intro j hj; interval_cases j; decide⟩⟩,
   jacobian_shape_every_iteration demoKernel demoForward ⟨some 5, some 0, some 0, some 0⟩
    ⟨0, 1⟩ ⟨0, 2⟩ demoSkeleton demoPosture 2 demoSkeleton_indexed demoSkeleton_rootTop
    (by decide) ⟨1, rfl, rfl, by intro j hj; interval_cases j; decide⟩⟩

/-- C6 (counterexample): on the three-bone chain with a path of 2 bones the Jacobian of the
first iteration has shape 4 by 6, not 3 by 6. -/
theorem jacobian_rows_counterexample :
    jacobianShape (buildJacobian demoKernel
        (forwardSolver demoForward demoPosture demoSkeleton (demoSkeleton.ptr 0))
        ⟨some 5, some 0, some 0, some 0⟩ ⟨0, 2⟩ 2) = Run.done (4, 6) ∧
    jacobianShape (buildJacobian demoKernel
        (forwardSolver demoForward demoPosture demoSkeleton (demoSkeleton.ptr 0))
        ⟨some 5, some 0, some 0, some 0⟩ ⟨0, 2⟩ 2) ≠ Run.done (3, 3 * 2) := by
  decide!

end kinematics

namespace kinematics
open acclaim

/-- An iteration whose error test fails continues with the state its step produced. -/
theorem ikLoop_step {S R : Type} (K : Kernel S R) (fk : ForwardMap S R) (t : Vec4 S)
    (root_bone end_bone : Ptr) (n m iter calls : Nat) (sk sk1 : Skeleton S R)
    (posture p1 : Posture S)
    (herr : errorBelow K fk t root_bone end_bone sk posture = false)
    (hstep : ikStep K fk t root_bone end_bone n (sk, posture) = Run.done (sk1, p1)) :
    ikLoop K fk t root_bone end_bone n (m + 1) iter calls sk posture =
      ikLoop K fk t root_bone end_bone n m (iter + 1) (calls + 1) sk1 p1 := by
  unfold ikStep at hstep
  obtain ⟨eb, heb, h1⟩ := Run.bind_eq_done hstep
  obtain ⟨p2, hp2, h2⟩ := Run.bind_eq_done h1
  simp only [Run.done.injEq, Prod.mk.injEq] at h2
  obtain ⟨hsk, hp⟩ := h2
  subst hp
  have heb2 : (forwardSolver fk posture sk root_bone).deref end_bone = Run.done eb := heb
  have hlt : K.lt (K.norm4 (K.sub4 t eb.end_position)) (epsilon K) = false := by
    simpa only [errorBelow, heb2] using herr
  have hp3 : ikUpdate K (forwardSolver fk posture sk root_bone) t (K.sub4 t eb.end_position)
      end_bone n posture = Run.done p2 := hp2
  simp only [ikLoop, heb2, hlt, hp3]
  simp [hsk]

/-- A state that an iteration leaves unchanged and that fails the error test is what the
loop returns, with the flag false. -/
theorem ikLoop_fixed {S R : Type} (K : Kernel S R) (fk : ForwardMap S R) (t : Vec4 S)
    (root_bone end_bone : Ptr) (n : Nat) (sk : Skeleton S R) (posture : Posture S)
    (herr : errorBelow K fk t root_bone end_bone sk posture = false)
    (hstep : ikStep K fk t root_bone end_bone n (sk, posture) = Run.done (sk, posture)) :
    ∀ m iter calls, ikLoop K fk t root_bone end_bone n m iter calls sk posture =
      Run.done ⟨false, posture, sk, iter + m, calls + m⟩ := by
  intro m
  induction m with
  | zero => intro iter calls; rfl
  | succ m ih =>
    intro iter calls
    rw [ikLoop_step K fk t root_bone end_bone n m iter calls sk sk posture posture herr hstep,
      ih]
    congr 2 <;> omega

/-- The solver is its main loop once the preamble has returned. -/
theorem solver_unfold {S R : Type} (K : Kernel S R) (fk : ForwardMap S R) (fuel : Nat)
    (t : Vec4 S) (start_bone end_bone root_bone : Ptr) (sk : Skeleton S R) (posture : Posture S)
    (sb : Bone S R) (n : Nat) (hsb : sk.deref start_bone = Run.done sb)
    (hroot : sk.ptrSub start_bone sb.idx = Run.done root_bone)
    (hcw : chainWalk sk start_bone root_bone fuel (some end_bone) 1 = Run.done n) :
    inverseJacobianIKSolver K fk fuel t start_bone end_bone sk posture =
      ikLoop K fk t root_bone end_bone n max_iteration 0 0 sk posture := by
  simp only [inverseJacobianIKSolver, hsb, hroot, hcw, Run.bind_done]

/-- C5 (the code at the failing input): on the chain with every DOF disabled the solver
returns false and leaves rotation entries that are not finite numbers in the posture. -/
theorem locked_chain_poisons_posture :
    IKResult.summary (inverseJacobianIKSolver demoKernel demoForward 10
        ⟨some 5, some 0, some 0, some 0⟩ ⟨0, 1⟩ ⟨0, 2⟩ lockedSkeleton demoPosture) =
      Run.done (false, poisonedPosture) := by
  rw [solver_unfold demoKernel demoForward 10 ⟨some 5, some 0, some 0, some 0⟩ ⟨0, 1⟩ ⟨0, 2⟩
    ⟨0, 0⟩ lockedSkeleton demoPosture (lockedBone "a" 1 (some ⟨0, 0⟩) (some ⟨0, 2⟩)) 2
    (by decide!) (by decide!) (by decide!)]
  have hmax : max_iteration = 999 + 1 := rfl
  rw [hmax, ikLoop_step demoKernel demoForward ⟨some 5, some 0, some 0, some 0⟩ ⟨0, 0⟩ ⟨0, 2⟩ 2
    999 0 0 lockedSkeleton (forwardSolver demoForward demoPosture lockedSkeleton ⟨0, 0⟩)
    demoPosture poisonedPosture (by decide!) (by decide!),
    ikLoop_fixed demoKernel demoForward ⟨some 5, some 0, some 0, some 0⟩ ⟨0, 0⟩ ⟨0, 2⟩ 2
      (forwardSolver demoForward demoPosture lockedSkeleton ⟨0, 0⟩) poisonedPosture
      (by decide!) (by decide!)]
  rfl

end kinematics

namespace kinematics

/-- C4 (the code at the failing input): for a Jacobian whose top three rows have rank 1 the
solve divides by the zero determinant of `J3 * J3ᵀ` and every coefficient it returns is not
a finite number, while the minimum-norm least-squares solution of that system is (1, 0, 0). -/
theorem pseudoInverse_rank_deficient :
    pseudoInverseLinearSolver demoKernel (rankOneJacobian.map Vec4.lift) rankOneTarget.lift
      = [none, none, none] ∧
    IsMinNormLeastSquares rankOneJacobian rankOneTarget [1, 0, 0] := by
  refine ⟨by decide!, rfl, ?_, ?_⟩
  · intro y hy
    obtain ⟨a, b, c, rfl⟩ := List.length_eq_three.mp hy
    simp only [residualSq, applyTop3, rankOneJacobian, rankOneTarget, List.zipWith_cons_cons,
      List.zipWith_nil_right, List.sum_cons, List.sum_nil]
    nlinarith [sq_nonneg (a - 1)]
  · intro y hy hres
    obtain ⟨a, b, c, rfl⟩ := List.length_eq_three.mp hy
    simp only [residualSq, applyTop3, rankOneJacobian, rankOneTarget, List.zipWith_cons_cons,
      List.zipWith_nil_right, List.sum_cons, List.sum_nil] at hres
    have ha : a = 1 := by nlinarith [sq_nonneg (a - 1)]
    subst ha
    simp only [normSq, List.map_cons, List.map_nil, List.sum_cons, List.sum_nil]
    nlinarith [sq_nonneg b, sq_nonneg c]

end kinematics

namespace acclaim

theorem addrOf_done (store len : Nat) (k : Nat) (h : k < len) :
    addrOf store len (k : Int) = Run.done ⟨store, k⟩ := by
  unfold addrOf
  rw [if_pos ⟨by omega, by omega⟩]
  simp

theorem relink_mirrors {S R : Type} (other : Skeleton S R) (hI : other.Indexed)
    (newStore : Nat) (rel : Option Ptr) (hown : ∀ p, rel = some p → other.owns p) :
    ∃ out, relink other newStore rel rel = Run.done out ∧ Mirrors newStore out rel := by
  cases rel with
  | none => exact ⟨none, rfl, rfl⟩
  | some p =>
    obtain ⟨hs, hp⟩ := hown p rfl
    have hb : other.deref p = Run.done other.bones[p.pos] := by
      rw [Skeleton.deref_eq_done]
      exact ⟨hs, List.getElem?_eq_getElem hp⟩
    have hidx : (other.bones[p.pos]).idx = (p.pos : Int) :=
      hI p.pos _ (List.getElem?_eq_getElem hp)
    refine ⟨some ⟨newStore, p.pos⟩, ?_, rfl⟩
    simp only [relink, Skeleton.derefOpt, hb, Run.bind_done, hidx, addrOf_done newStore _ _ hp]

theorem relinkBone_mirrors {S R : Type} (other : Skeleton S R) (hI : other.Indexed)
    (hL : other.Linked) (newStore i : Nat) (ob : Bone S R) (hob : other.bones[i]? = some ob) :
    ∃ b1, relinkBone other newStore ob ob = Run.done b1 ∧
      Mirrors newStore b1.parent ob.parent ∧ Mirrors newStore b1.child ob.child ∧
      Mirrors newStore b1.sibling ob.sibling := by
  obtain ⟨p1, h1, m1⟩ := relink_mirrors other hI newStore ob.parent
    (fun p hp => hL i ob p hob (Or.inl hp))
  obtain ⟨p2, h2, m2⟩ := relink_mirrors other hI newStore ob.child
    (fun p hp => hL i ob p hob (Or.inr (Or.inl hp)))
  obtain ⟨p3, h3, m3⟩ := relink_mirrors other hI newStore ob.sibling
    (fun p hp => hL i ob p hob (Or.inr (Or.inr hp)))
  exact ⟨{ ob with parent := p1, child := p2, sibling := p3 },
    by simp only [relinkBone, h1, h2, h3, Run.bind_done], m1, m2, m3⟩

/-- The relinking loop started at position `i` on an array that agrees with the original
from `i` on: positions below `i` are kept, the others are relinked. -/
theorem relinkLoop_spec {S R : Type} (other : Skeleton S R) (hI : other.Indexed)
    (hL : other.Linked) (newStore : Nat) :
    ∀ (n i : Nat) (bones : List (Bone S R)), bones.length = other.bones.length →
      i + n = bones.length → (∀ j, i ≤ j → bones[j]? = other.bones[j]?) →
      ∃ out, relinkLoop other newStore n i bones = Run.done out ∧
        out.length = bones.length ∧ (∀ j, j < i → out[j]? = bones[j]?) ∧
        ∀ (j : Nat) (ob : Bone S R), i ≤ j → other.bones[j]? = some ob →
          ∃ b1, out[j]? = some b1 ∧ Mirrors newStore b1.parent ob.parent ∧
            Mirrors newStore b1.child ob.child ∧ Mirrors newStore b1.sibling ob.sibling := by
  intro n
  induction n with
  | zero =>
    intro i bones hlen hi _
    refine ⟨bones, rfl, rfl, fun _ _ => rfl, ?_⟩
    intro j ob hj hob
    have : j < other.bones.length := by
      by_contra hc
      rw [List.getElem?_eq_none (by omega)] at hob
      cases hob
    omega
  | succ n ih =>
    intro i bones hlen hi hsame
    have hilt : i < other.bones.length := by omega
    have hob : other.bones[i]? = some other.bones[i] := List.getElem?_eq_getElem hilt
    have hb : bones[i]? = some other.bones[i] := by rw [hsame i (le_refl _), hob]
    obtain ⟨b1, hb1, m1, m2, m3⟩ := relinkBone_mirrors other hI hL newStore i _ hob
    obtain ⟨out, hout, hlen2, hkeep, hrest⟩ := ih (i + 1) (bones.set i b1)
      (by simp [hlen]) (by simp; omega)
      (fun j hj => by rw [List.getElem?_set_ne (by omega)]; exact hsame j (by omega))
    refine ⟨out, ?_, by simpa using hlen2, ?_, ?_⟩
    · simp only [relinkLoop, hb, hob, hb1, Run.bind_done, hout]
    · intro j hj
      rw [hkeep j (by omega), List.getElem?_set_ne (by omega)]
    · intro j ob hj hjob
      by_cases hji : j = i
      · subst hji
        rw [hob] at hjob
        cases hjob
        refine ⟨b1, ?_, m1, m2, m3⟩
        rw [hkeep j (by omega), List.getElem?_set_self (by omega)]
      · exact hrest j ob (by omega) hjob

/-- Where the copy operations do relink as a deep copy must: for a skeleton whose bones
carry their array position as `idx` and whose relations point into its own array, the
copy-constructed skeleton, and the skeleton copy-assigned to a different object, live in the
new buffer and have, at every bone position, each of parent, child and sibling null exactly
when the original's is null and otherwise pointing at the bone of the copy (a buffer other
than the original's) at the array position the original's relation points at. -/
theorem copy_relinks_within_copy {S R : Type} (s this : Skeleton S R) (newStore : Nat)
    (hI : s.Indexed) (hL : s.Linked) (hne : this.store ≠ s.store) (hfresh : newStore ≠ s.store) :
    (∃ c, s.copy newStore = Run.done c ∧ c.store ≠ s.store ∧ c.MirrorOf s) ∧
    (∃ c, this.assign s newStore = Run.done c ∧ c.store ≠ s.store ∧ c.MirrorOf s) := by
  obtain ⟨out, hout, hlen, _, hrest⟩ := relinkLoop_spec s hI hL newStore s.bones.length 0
    s.bones rfl (by simp) (fun _ _ => rfl)
  constructor
  · refine ⟨⟨newStore, s.scale, s.movableBones, out⟩,
      by simp only [Skeleton.copy, hout, Run.bind_done], hfresh, hlen, ?_⟩
    intro i b hb
    exact hrest i b (Nat.zero_le _) hb
  · refine ⟨⟨newStore, s.scale, s.movableBones, out⟩,
      by simp only [Skeleton.assign, if_neg hne, hout, Run.bind_done], hfresh, hlen, ?_⟩
    intro i b hb
    exact hrest i b (Nat.zero_le _) hb

end acclaim

theorem demoSkeleton_linked : demoSkeleton.Linked := by
  intro i b p h hp
  match i with
  | 0 => simp [demoSkeleton] at h; subst h; simp [demoBone] at hp; subst hp; decide
  | 1 =>
    simp [demoSkeleton] at h; subst h; simp [demoBone] at hp
    rcases hp with hp | hp
    · subst hp; decide
    · subst hp; decide
  | 2 => simp [demoSkeleton] at h; subst h; simp [demoBone] at hp; subst hp; decide
  | _ + 3 => simp [demoSkeleton] at h

namespace acclaim

theorem copy_relinks_within_copy_witness :
    (demoSkeleton.Indexed ∧ demoSkeleton.Linked ∧
      lockedSkeleton.store + 7 ≠ demoSkeleton.store ∧ 1 ≠ demoSkeleton.store) ∧
    (∃ c, demoSkeleton.copy 1 = Run.done c ∧ c.store ≠ demoSkeleton.store ∧
      c.MirrorOf demoSkeleton) ∧
    (∃ c, Skeleton.assign { lockedSkeleton with store := lockedSkeleton.store + 7 } demoSkeleton 1
        = Run.done c ∧ c.store ≠ demoSkeleton.store ∧ c.MirrorOf demoSkeleton) :=
  ⟨⟨demoSkeleton_indexed, demoSkeleton_linked, by decide, by decide⟩,
   copy_relinks_within_copy demoSkeleton { lockedSkeleton with store := lockedSkeleton.store + 7 }
    1 demoSkeleton_indexed demoSkeleton_linked (by decide) (by decide)⟩

/-- C7 (the code at the failing input): the skeleton loaded from a description that
declares the ids 2 and 1 for its two bone records has the bone at position 1 as parent of the
bone at position 2; in its copy, constructed or assigned, the parent of the bone at position
2 is the copy's bone at position 2, the bone itself, and not the copy's bone at position 1.
The same holds of the skeleton `swappedSkeleton`, written out bone by bone. -/
theorem copy_makes_bone_its_own_parent :
    parentLinks (Skeleton.load demoKernel scanDemo (fun _ d => d) blankBone 100
      (some swappedIdsText.data) (some 1) 0) = Run.done [none, some ⟨0, 0⟩, some ⟨0, 1⟩] ∧
    parentLinks ((Skeleton.load demoKernel scanDemo (fun _ d => d) blankBone 100
      (some swappedIdsText.data) (some 1) 0).bind fun s => s.copy 1)
      = Run.done [none, some ⟨1, 0⟩, some ⟨1, 2⟩] ∧
    parentLinks ((Skeleton.load demoKernel scanDemo (fun _ d => d) blankBone 100
      (some swappedIdsText.data) (some 1) 0).bind fun s =>
        Skeleton.assign { lockedSkeleton with store := 7 } s 1)
      = Run.done [none, some ⟨1, 0⟩, some ⟨1, 2⟩] ∧
    parentLinks (Run.done swappedSkeleton) = Run.done [none, some ⟨0, 0⟩, some ⟨0, 1⟩] ∧
    parentLinks (swappedSkeleton.copy 1) = Run.done [none, some ⟨1, 0⟩, some ⟨1, 2⟩] ∧
    parentLinks (Skeleton.assign { lockedSkeleton with store := 7 } swappedSkeleton 1)
      = Run.done [none, some ⟨1, 0⟩, some ⟨1, 2⟩] := by
  decide!

end acclaim

namespace IStream

theorem readWord_bad (s : IStream) (old : String) (h : s.good = false) :
    s.readWord old = ({ s with fail := true }, old) := by
  simp [readWord, h]

theorem readInt_bad (s : IStream) (old : Int) (h : s.good = false) :
    s.readInt old = ({ s with fail := true }, old) := by
  simp [readInt, h]

theorem readDouble_bad {S : Type} (scan : List Char → Option S) (zero : S) (s : IStream)
    (old : S) (h : s.good = false) :
    s.readDouble scan zero old = ({ s with fail := true }, old) := by
  simp [readDouble, h]

theorem getline_bad (s : IStream) (str : String) (h : s.good = false) :
    s.getline str = ({ s with fail := true }, str) := by
  simp [getline, h]

theorem good_fail (s : IStream) : ({ s with fail := true } : IStream).good = false := by
  simp [good]

end IStream

namespace acclaim

theorem boneDataLoop_succ {S R : Type} (K : Kernel S R) (scan : List Char → Option S)
    (scale : S) (blank : Bone S R) (f : Nat) (st : ReadState S R) :
    boneDataLoop K scan scale blank (f + 1) st =
      boneDataFrom K scan scale blank f f st blank := by
  rfl

theorem boneDataFrom_zero {S R : Type} (K : Kernel S R) (scan : List Char → Option S)
    (scale : S) (blank : Bone S R) (outer : Nat) (st : ReadState S R) (cur : Bone S R) :
    boneDataFrom K scan scale blank 0 outer st cur = Run.timeout := by
  rfl

theorem boneDataFrom_next {S R : Type} (K : Kernel S R) (scan : List Char → Option S)
    (scale : S) (blank : Bone S R) (fi fo : Nat) (st st1 : ReadState S R)
    (cur cur1 : Bone S R) (h : recordStep K scan scale st cur = Step.next (st1, cur1)) :
    boneDataFrom K scan scale blank (fi + 1) fo st cur =
      boneDataFrom K scan scale blank fi fo st1 cur1 := by
  simp only [boneDataFrom, recordLoop, h]

theorem boneDataFrom_exit {S R : Type} (K : Kernel S R) (scan : List Char → Option S)
    (scale : S) (blank : Bone S R) (fi fo : Nat) (st st1 : ReadState S R) (cur c : Bone S R)
    (h : recordStep K scan scale st cur = Step.exit (st1, c, false)) :
    boneDataFrom K scan scale blank (fi + 1) fo st cur =
      boneDataLoop K scan scale blank fo { st1 with bones := st1.bones ++ [c] } := by
  simp only [boneDataFrom, recordLoop, h]
  simp

theorem boneDataFrom_finish {S R : Type} (K : Kernel S R) (scan : List Char → Option S)
    (scale : S) (blank : Bone S R) (fi fo : Nat) (st st1 : ReadState S R) (cur c : Bone S R)
    (h : recordStep K scan scale st cur = Step.exit (st1, c, true)) :
    boneDataFrom K scan scale blank (fi + 1) fo st cur = Run.done st1 := by
  simp only [boneDataFrom, recordLoop, h]
  simp

/-- With the stream exhausted and `keyword` still holding `end`, every pass of the outer
loop appends a bone and goes on: the loop over the bone records does not return. -/
theorem boneDataLoop_stuck {S R : Type} (K : Kernel S R) (scan : List Char → Option S)
    (scale : S) (blank : Bone S R) :
    ∀ (f : Nat) (st : ReadState S R), st.input.good = false → st.keyword = "end" →
      boneDataLoop K scan scale blank f st = Run.timeout := by
  intro f
  induction f with
  | zero => intro st _ _; rfl
  | succ f ih =>
    intro st hbad hkw
    rw [boneDataLoop_succ]
    cases f with
    | zero => rfl
    | succ f =>
      have hstep : recordStep K scan scale st blank =
          Step.exit ({ st with input := { st.input with fail := true }, keyword := "end" },
            blank, false) := by
        simp only [recordStep, hkw, IStream.readWord_bad st.input "end" hbad, if_true]
      rw [boneDataFrom_exit K scan scale blank f (f + 1) st _ blank blank hstep]
      exact ih _ (IStream.good_fail _) rfl

/-- With the stream exhausted on an empty line and `keyword` not `end`, the loop over the
hierarchy lines does not return. -/
theorem hierarchyLoop_stuck {S R : Type} :
    ∀ (f : Nat) (s : IStream) (str keyword : String) (sk : Skeleton S R),
      s.good = false → IStream.words str = [] → keyword ≠ "end" →
      hierarchyLoop f s str keyword sk = Run.timeout := by
  intro f
  induction f with
  | zero => intro s str keyword sk _ _ _; rfl
  | succ f ih =>
    intro s str keyword sk hbad hw hkw
    have h1 : hierarchyLoop (f + 1) s str keyword sk =
        hierarchyLoop f { s with fail := true } str keyword sk := by
      simp only [hierarchyLoop, IStream.getline_bad s str hbad, hw, List.head?_nil,
        Option.getD_none, hkw, if_false, List.tail_nil, linkChildren, Run.bind_done,
        List.getLast?_nil]
    rw [h1]
    exact ih _ str keyword sk (IStream.good_fail _) hw hkw

/-- Once a line has failed the test and the stream is exhausted, the header loop does not
return. -/
theorem headerLoop_stuck :
    ∀ (f : Nat) (s : IStream) (str : String), s.good = false →
      str.data.take 9 ≠ ":bonedata".data → headerLoop f s str = Run.timeout := by
  intro f
  induction f with
  | zero => intro s str _ _; rfl
  | succ f ih =>
    intro s str hbad hstr
    simp only [headerLoop, IStream.getline_bad s str hbad, hstr, if_false]
    exact ih _ str (IStream.good_fail _) hstr

theorem headerLoop_next (f : Nat) (s s1 : IStream) (str str1 : String)
    (h : s.getline str = (s1, str1)) (hne : str1.data.take 9 ≠ ":bonedata".data) :
    headerLoop (f + 1) s str = headerLoop f s1 str1 := by
  simp only [headerLoop, h, hne, if_false]

theorem headerLoop_found (f : Nat) (s s1 : IStream) (str str1 : String)
    (h : s.getline str = (s1, str1)) (heq : str1.data.take 9 = ":bonedata".data) :
    headerLoop (f + 1) s str = Run.done (s1, str1) := by
  simp only [headerLoop, h, heq, if_true]

end acclaim

namespace Run

theorem eq_done_of_returns {α : Type} (r : Run α) (d : α) (h : r.returns = true) :
    r = Run.done (r.getD d) := by
  cases r with
  | done a => rfl
  | fault => cases h
  | timeout => cases h

end Run

namespace acclaim

/-- Fuel does not change what the record loop returns. -/
theorem recordLoop_fuel {S R : Type} (K : Kernel S R) (scan : List Char → Option S) (scale : S) :
    ∀ (k : Nat) (st : ReadState S R) (cur : Bone S R) (r : ReadState S R × Bone S R × Bool),
      recordLoop K scan scale k st cur = Run.done r →
      ∀ f, recordLoop K scan scale f st cur = Run.timeout ∨
        recordLoop K scan scale f st cur = Run.done r := by
  intro k
  induction k with
  | zero => intro st cur r h; cases h
  | succ k ih =>
    intro st cur r h f
    cases f with
    | zero => exact Or.inl rfl
    | succ f =>
      simp only [recordLoop] at h ⊢
      cases hs : recordStep K scan scale st cur with
      | next s =>
        rw [hs] at h
        exact ih s.1 s.2 r h f
      | exit e =>
        rw [hs] at h
        exact Or.inr h

/-- A record that ends at `end` hands the outer loop on to the next record: when the loop
over the remaining records hangs, so does the loop entered at this record. -/
theorem boneDataLoop_hangs_after {S R : Type} (K : Kernel S R) (scan : List Char → Option S)
    (scale : S) (blank : Bone S R) (k : Nat) (st : ReadState S R)
    (d : ReadState S R × Bone S R × Bool)
    (hret : (recordLoop K scan scale k st blank).returns = true)
    (hfin : ((recordLoop K scan scale k st blank).getD d).2.2 = false)
    (hrest : ∀ f, boneDataLoop K scan scale blank f
      { ((recordLoop K scan scale k st blank).getD d).1 with
        bones := ((recordLoop K scan scale k st blank).getD d).1.bones ++
          [((recordLoop K scan scale k st blank).getD d).2.1] } = Run.timeout) :
    ∀ f, boneDataLoop K scan scale blank f st = Run.timeout := by
  intro f
  cases f with
  | zero => rfl
  | succ f =>
    have hdone := Run.eq_done_of_returns _ d hret
    rcases recordLoop_fuel K scan scale k st blank _ hdone f with h | h
    · simp only [boneDataLoop, h]
    · simp only [boneDataLoop, h, hfin]
      exact hrest f

/-- Fuel does not change what the loop over the bone records returns. -/
theorem boneDataLoop_fuel {S R : Type} (K : Kernel S R) (scan : List Char → Option S)
    (scale : S) (blank : Bone S R) :
    ∀ (k : Nat) (st r : ReadState S R), boneDataLoop K scan scale blank k st = Run.done r →
      ∀ f, boneDataLoop K scan scale blank f st = Run.timeout ∨
        boneDataLoop K scan scale blank f st = Run.done r := by
  intro k
  induction k with
  | zero => intro st r h; cases h
  | succ k ih =>
    intro st r h f
    cases f with
    | zero => exact Or.inl rfl
    | succ f =>
      simp only [boneDataLoop] at h ⊢
      cases hk : recordLoop K scan scale k st blank with
      | done e =>
        rw [hk] at h
        rcases recordLoop_fuel K scan scale k st blank e hk f with h1 | h1
        · rw [h1]; exact Or.inl rfl
        · rw [h1]
          obtain ⟨st1, c, fin⟩ := e
          cases fin with
          | true => simpa using h
          | false =>
            simp only [Bool.false_eq_true, if_false] at h ⊢
            exact ih _ r h f
      | fault => rw [hk] at h; cases h
      | timeout => rw [hk] at h; cases h

theorem headerLoop_hangs_after (s : IStream) (str : String)
    (hne : (s.getline str).2.data.take 9 ≠ ":bonedata".data)
    (hrest : ∀ f, headerLoop f (s.getline str).1 (s.getline str).2 = Run.timeout) :
    ∀ f, headerLoop f s str = Run.timeout := by
  intro f
  cases f with
  | zero => rfl
  | succ f =>
    simp only [headerLoop, hne, if_false]
    exact hrest f

theorem headerLoop_break (s : IStream) (str : String)
    (heq : (s.getline str).2.data.take 9 = ":bonedata".data) (f : Nat) :
    headerLoop (f + 1) s str = Run.done (s.getline str) := by
  simp only [headerLoop, heq, if_true]

end acclaim

namespace acclaim

/-- Fuel does not change what the walk to the end of a sibling chain returns. -/
theorem siblingEnd_fuel {S R : Type} (sk : Skeleton S R) :
    ∀ (k : Nat) (p r : Ptr), siblingEnd sk k p = Run.done r →
      ∀ f, siblingEnd sk f p = Run.timeout ∨ siblingEnd sk f p = Run.done r := by
  intro k
  induction k with
  | zero => intro p r h; cases h
  | succ k ih =>
    intro p r h f
    cases f with
    | zero => exact Or.inl rfl
    | succ f =>
      simp only [siblingEnd] at h ⊢
      cases hd : sk.deref p with
      | done c =>
        rw [hd] at h
        simp only [Run.bind_done] at h ⊢
        cases hs : c.sibling with
        | none => rw [hs] at h; exact Or.inr h
        | some next => rw [hs] at h; exact ih next r h f
      | fault => rw [hd] at h; cases h
      | timeout => rw [hd] at h; cases h

/-- Fuel does not change what `setBoneHierarchy` returns. -/
theorem setBoneHierarchy_fuel {S R : Type} (k : Nat) (sk r : Skeleton S R)
    (parent child : Option Ptr) (h : setBoneHierarchy k sk parent child = Run.done r) :
    ∀ f, setBoneHierarchy f sk parent child = Run.timeout ∨
      setBoneHierarchy f sk parent child = Run.done r := by
  intro f
  cases parent with
  | none => exact Or.inr h
  | some p =>
    cases child with
    | none => cases h
    | some c =>
      simp only [setBoneHierarchy] at h ⊢
      cases h1 : sk.update c fun b => { b with parent := some p } with
      | done sk1 =>
        rw [h1] at h
        simp only [Run.bind_done] at h ⊢
        cases h2 : sk1.deref p with
        | done pb =>
          rw [h2] at h
          simp only [Run.bind_done] at h ⊢
          cases h3 : pb.child with
          | none => rw [h3] at h; exact Or.inr h
          | some first =>
            rw [h3] at h
            simp only at h ⊢
            cases h4 : siblingEnd sk1 k first with
            | done cur =>
              rw [h4] at h
              rcases siblingEnd_fuel sk1 k first cur h4 f with h5 | h5
              · rw [h5]; exact Or.inl rfl
              · rw [h5]; exact Or.inr h
            | fault => rw [h4] at h; cases h
            | timeout => rw [h4] at h; cases h
        | fault => rw [h2] at h; cases h
        | timeout => rw [h2] at h; cases h
      | fault => rw [h1] at h; cases h
      | timeout => rw [h1] at h; cases h

/-- Fuel does not change what the loop over the children of a hierarchy line returns. -/
theorem linkChildren_fuel {S R : Type} (k : Nat) (parent : Option Ptr) :
    ∀ (names : List String) (sk r : Skeleton S R),
      linkChildren k parent names sk = Run.done r →
      ∀ f, linkChildren f parent names sk = Run.timeout ∨
        linkChildren f parent names sk = Run.done r := by
  intro names
  induction names with
  | nil => intro sk r h f; exact Or.inr h
  | cons name rest ih =>
    intro sk r h f
    simp only [linkChildren] at h ⊢
    cases h1 : setBoneHierarchy k sk parent (sk.getBonePointer name) with
    | done sk1 =>
      rw [h1] at h
      rcases setBoneHierarchy_fuel k sk sk1 parent _ h1 f with h2 | h2
      · rw [h2]; exact Or.inl rfl
      · rw [h2]
        simp only [Run.bind_done] at h ⊢
        exact ih sk1 r h f
    | fault => rw [h1] at h; cases h
    | timeout => rw [h1] at h; cases h

/-- A hierarchy line that is not `end` hands the loop on to the next line: when the loop
hangs from there, it hangs from this line. -/
theorem hierarchyLoop_hangs_after {S R : Type} (k : Nat) (s : IStream) (str keyword : String)
    (sk : Skeleton S R)
    (hne : (IStream.words (s.getline str).2).head?.getD keyword ≠ "end")
    (hret : (linkChildren k
      (sk.getBonePointer ((IStream.words (s.getline str).2).head?.getD keyword))
      (IStream.words (s.getline str).2).tail sk).returns = true)
    (hrest : ∀ f, hierarchyLoop f (s.getline str).1 (s.getline str).2
      ((IStream.words (s.getline str).2).getLast?.getD keyword)
      ((linkChildren k
        (sk.getBonePointer ((IStream.words (s.getline str).2).head?.getD keyword))
        (IStream.words (s.getline str).2).tail sk).getD sk) = Run.timeout) :
    ∀ f, hierarchyLoop f s str keyword sk = Run.timeout := by
  intro f
  cases f with
  | zero => rfl
  | succ f =>
    have hdone := Run.eq_done_of_returns _ sk hret
    simp only [hierarchyLoop, hne, if_false]
    rcases linkChildren_fuel k _ _ sk _ hdone f with h | h
    · rw [h]; rfl
    · rw [h]
      simp only [Run.bind_done]
      exact hrest f

/-- The reader after the header loop has returned. -/
theorem readASFFile_after_header {S R : Type} (K : Kernel S R) (scan : List Char → Option S)
    (blank : Bone S R) (f : Nat) (text : List Char) (sk : Skeleton S R)
    (heq : ((IStream.ofText text).getline "").2.data.take 9 = ":bonedata".data) :
    readASFFile K scan blank (f + 1) (some text) sk =
      (do
        let st ← boneDataLoop K scan sk.scale blank (f + 1)
          ⟨((IStream.ofText text).getline "").1.ignoreLine,
            ((IStream.ofText text).getline "").2, "", sk.bones, sk.movableBones⟩
        let sk1 ← hierarchyLoop (f + 1) st.input.ignoreLine.ignoreLine st.str st.keyword
          { sk with bones := st.bones, movableBones := st.movableBones }
        Run.done (true, sk1)) := by
  simp only [readASFFile, headerLoop_break _ _ heq f, Run.bind_done]

/-- C10 (the code at the failing inputs): on a text without a `:bonedata` line, on a text
whose bone-data section never reaches `:hierarchy`, and on a text whose hierarchy section
has no `end` line, `readASFFile` does not return, whatever fuel it is given. -/
theorem readASFFile_reads_forever :
    (∀ fuel, readASFFile demoKernel scanDemo blankBone fuel (some noBonedataText.data) rootOnly
      = Run.timeout) ∧
    (∀ fuel, readASFFile demoKernel scanDemo blankBone fuel (some noHierarchyText.data) rootOnly
      = Run.timeout) ∧
    (∀ fuel, readASFFile demoKernel scanDemo blankBone fuel (some noEndText.data) rootOnly
      = Run.timeout) := by
  refine ⟨?_, ?_, ?_⟩
  · intro fuel
    have h : ∀ f, headerLoop f (IStream.ofText noBonedataText.data) "" = Run.timeout :=
      headerLoop_hangs_after _ _ (by decide!)
        (headerLoop_hangs_after _ _ (by decide!)
          (headerLoop_hangs_after _ _ (by decide!)
            (headerLoop_hangs_after _ _ (by decide!)
              (fun f => headerLoop_stuck f _ _ (by decide!) (by decide!)))))
    simp only [readASFFile, h fuel]
    rfl
  · intro fuel
    cases fuel with
    | zero => rfl
    | succ f =>
      rw [readASFFile_after_header _ _ _ f _ _ (by decide!)]
      have h : ∀ f, boneDataLoop demoKernel scanDemo rootOnly.scale blankBone f
          ⟨((IStream.ofText noHierarchyText.data).getline "").1.ignoreLine,
            ((IStream.ofText noHierarchyText.data).getline "").2, "", rootOnly.bones,
            rootOnly.movableBones⟩ = Run.timeout :=
        boneDataLoop_hangs_after _ _ _ _ 8 _ (⟨IStream.ofText [], "", "", [], 0⟩, blankBone, false)
          (by decide!) (by decide!)
          (boneDataLoop_hangs_after _ _ _ _ 8 _
            (⟨IStream.ofText [], "", "", [], 0⟩, blankBone, false) (by decide!) (by decide!)
            (fun f => boneDataLoop_stuck _ _ _ _ f _ (by decide!) (by decide!)))
      rw [h (f + 1)]
      rfl
  · intro fuel
    cases fuel with
    | zero => rfl
    | succ f =>
      rw [readASFFile_after_header _ _ _ f _ _ (by decide!)]
      have hb : (boneDataLoop demoKernel scanDemo rootOnly.scale blankBone 8
          ⟨((IStream.ofText noEndText.data).getline "").1.ignoreLine,
            ((IStream.ofText noEndText.data).getline "").2, "", rootOnly.bones,
            rootOnly.movableBones⟩).returns = true := by decide!
      have hdone := Run.eq_done_of_returns _ ⟨IStream.ofText [], "", "", [], 0⟩ hb
      rcases boneDataLoop_fuel _ _ _ _ 8 _ _ hdone (f + 1) with h | h
      · rw [h]; rfl
      · rw [h]
        simp only [Run.bind_done]
        have hh : ∀ f, hierarchyLoop f
            ((boneDataLoop demoKernel scanDemo rootOnly.scale blankBone 8
              ⟨((IStream.ofText noEndText.data).getline "").1.ignoreLine,
                ((IStream.ofText noEndText.data).getline "").2, "", rootOnly.bones,
                rootOnly.movableBones⟩).getD ⟨IStream.ofText [], "", "", [], 0⟩).input.ignoreLine.ignoreLine
            ((boneDataLoop demoKernel scanDemo rootOnly.scale blankBone 8
              ⟨((IStream.ofText noEndText.data).getline "").1.ignoreLine,
                ((IStream.ofText noEndText.data).getline "").2, "", rootOnly.bones,
                rootOnly.movableBones⟩).getD ⟨IStream.ofText [], "", "", [], 0⟩).str
            ((boneDataLoop demoKernel scanDemo rootOnly.scale blankBone 8
              ⟨((IStream.ofText noEndText.data).getline "").1.ignoreLine,
                ((IStream.ofText noEndText.data).getline "").2, "", rootOnly.bones,
                rootOnly.movableBones⟩).getD ⟨IStream.ofText [], "", "", [], 0⟩).keyword
            { rootOnly with
              bones := ((boneDataLoop demoKernel scanDemo rootOnly.scale blankBone 8
                ⟨((IStream.ofText noEndText.data).getline "").1.ignoreLine,
                  ((IStream.ofText noEndText.data).getline "").2, "", rootOnly.bones,
                  rootOnly.movableBones⟩).getD ⟨IStream.ofText [], "", "", [], 0⟩).bones,
              movableBones := ((boneDataLoop demoKernel scanDemo rootOnly.scale blankBone 8
                ⟨((IStream.ofText noEndText.data).getline "").1.ignoreLine,
                  ((IStream.ofText noEndText.data).getline "").2, "", rootOnly.bones,
                  rootOnly.movableBones⟩).getD ⟨IStream.ofText [], "", "", [], 0⟩).movableBones }
              = Run.timeout :=
          hierarchyLoop_hangs_after 4 _ _ _ _ (by decide!) (by decide!)
            (hierarchyLoop_hangs_after 4 _ _ _ _ (by decide!) (by decide!)
              (fun f => hierarchyLoop_stuck f _ _ _ _ (by decide!) (by decide!) (by decide!)))
        rw [hh (f + 1)]
        rfl

end acclaim

namespace acclaim

/-- C9 (the code at the failing input): for a file that cannot be opened `readASFFile`
answers false, but the constructor drops the answer and returns a skeleton all the same:
the root bone alone, which is also what it returns for a readable description of the empty
hierarchy. -/
theorem load_failure_not_reported :
    (∀ (S R : Type) (K : Kernel S R) (scan : List Char → Option S)
        (toLocal : Vec4 S → Vec4 S → Vec4 S) (blank : Bone S R) (fuel : Nat) (scale : S)
        (store : Nat),
      readASFFile K scan blank fuel none ⟨store, scale, 1, [rootBone K blank]⟩
        = Run.done (false, ⟨store, scale, 1, [rootBone K blank]⟩) ∧
      Skeleton.load K scan toLocal blank fuel none scale store
        = Run.done ⟨store, scale, 1, [rootBone K blank]⟩) ∧
    Skeleton.load demoKernel scanDemo (fun _ d => d) blankBone 100 none (some 1) 0
      = Run.done rootOnly ∧
    Skeleton.load demoKernel scanDemo (fun _ d => d) blankBone 100
      (some emptyHierarchyText.data) (some 1) 0 = Run.done rootOnly := by
  refine ⟨?_, by decide!, by decide!⟩
  intro S R K scan toLocal blank fuel scale store
  refine ⟨rfl, ?_⟩
  simp [Skeleton.load, readASFFile, computeLocalDirection, computeLocalRotation, rootBone,
    List.mapIdx_cons]

/-- C8 (the code at the failing input): a description that declares id 2 for its first
bone record, named `a`, and id 1 for its second, named `b`, loads with `a` at bone index 1
and `b` at bone index 2, while the `idx` fields are 2 and 1: `getBonePointer(1)->name` is
`a`, not the name `b` declared for id 1, and `getBonePointer(2)->name` is `b`, not the name
`a` declared for id 2.  Bone index 0 is named `root`. -/
theorem bone_index_ignores_declared_id :
    nameAt (Skeleton.load demoKernel scanDemo (fun _ d => d) blankBone 100
      (some swappedIdsText.data) (some 1) 0) 0 = Run.done "root" ∧
    nameAt (Skeleton.load demoKernel scanDemo (fun _ d => d) blankBone 100
      (some swappedIdsText.data) (some 1) 0) 1 = Run.done "a" ∧
    nameAt (Skeleton.load demoKernel scanDemo (fun _ d => d) blankBone 100
      (some swappedIdsText.data) (some 1) 0) 2 = Run.done "b" ∧
    idxList (Skeleton.load demoKernel scanDemo (fun _ d => d) blankBone 100
      (some swappedIdsText.data) (some 1) 0) = Run.done [0, 2, 1] := by
  decide!

end acclaim

namespace IStream

theorem dropWhile_all {p : Char → Bool} (pre t : List Char) (h : ∀ x ∈ pre, p x = true) :
    (pre ++ t).dropWhile p = t.dropWhile p := by
  induction pre with
  | nil => rfl
  | cons a pre ih =>
    have ha : p a = true := h a (List.mem_cons_self _ _)
    simp only [List.cons_append, List.dropWhile_cons, ha, if_true]
    exact ih (fun x hx => h x (List.mem_cons_of_mem _ hx))

theorem takeWhile_all {p : Char → Bool} (w : List Char) (c : Char) (r : List Char)
    (h : ∀ x ∈ w, p x = true) (hc : p c = false) : (w ++ c :: r).takeWhile p = w := by
  induction w with
  | nil => simp [List.takeWhile_cons, hc]
  | cons a w ih =>
    have ha : p a = true := h a (List.mem_cons_self _ _)
    simp only [List.cons_append, List.takeWhile_cons, ha, if_true]
    rw [ih (fun x hx => h x (List.mem_cons_of_mem _ hx))]

theorem dropWhile_stop {p : Char → Bool} (w : List Char) (c : Char) (r : List Char)
    (h : ∀ x ∈ w, p x = true) (hc : p c = false) : (w ++ c :: r).dropWhile p = c :: r := by
  rw [dropWhile_all w (c :: r) h]
  simp [List.dropWhile_cons, hc]

/-- Extracting a word: leading whitespace is skipped, the word is read up to the
whitespace character that follows it. -/
theorem readWord_token (pre w : List Char) (a c : Char) (r : List Char) (old : String)
    (hpre : ∀ x ∈ pre, isSpace x = true) (hw : ∀ x ∈ a :: w, isSpace x = false)
    (hc : isSpace c = true) :
    readWord ⟨pre ++ (a :: w ++ c :: r), false, false⟩ old =
      (⟨c :: r, false, false⟩, String.mk (a :: w)) := by
  have ha : isSpace a = false := hw a (List.mem_cons_self _ _)
  have h1 : (pre ++ (a :: w ++ c :: r)).dropWhile isSpace = a :: (w ++ c :: r) := by
    rw [dropWhile_all pre _ hpre]
    simp [List.dropWhile_cons, ha]
  have hw2 : ∀ x ∈ a :: w, (fun y => !isSpace y) x = true := by
    intro x hx; simp [hw x hx]
  have h2 : (a :: (w ++ c :: r)).takeWhile (fun y => !isSpace y) = a :: w :=
    takeWhile_all (a :: w) c r hw2 (by simp [hc])
  have h3 : (a :: (w ++ c :: r)).dropWhile (fun y => !isSpace y) = c :: r :=
    dropWhile_stop (a :: w) c r hw2 (by simp [hc])
  simp only [readWord, good, Bool.not_false, Bool.and_self, if_true, h1, h2, h3]
  rfl

theorem digit_not_space (x : Char) (h : Char.isDigit x = true) : isSpace x = false := by
  simp only [isSpace, Bool.or_eq_false_iff, decide_eq_false_iff_not]
  refine ⟨⟨⟨⟨⟨?_, ?_⟩, ?_⟩, ?_⟩, ?_⟩, ?_⟩ <;> (rintro rfl; revert h; decide)

theorem digit_not_sign (x : Char) (h : Char.isDigit x = true) : x ≠ '-' ∧ x ≠ '+' := by
  constructor <;> (rintro rfl; revert h; decide)

theorem toInt32_inRange (ds : List Char) (h : digitsValue ds ≤ 2147483647) :
    toInt32 false ds = ((digitsValue ds : Int), false) := by
  simp only [toInt32, Bool.false_eq_true, if_false]
  rw [if_neg (by omega), if_neg (by omega)]

/-- Extracting an `int` written as digits. -/
theorem readInt_token (pre ds : List Char) (a c : Char) (r : List Char) (old : Int)
    (hpre : ∀ x ∈ pre, isSpace x = true) (hd : ∀ x ∈ a :: ds, Char.isDigit x = true)
    (hc : Char.isDigit c = false) (hrange : digitsValue (a :: ds) ≤ 2147483647) :
    readInt ⟨pre ++ (a :: ds ++ c :: r), false, false⟩ old =
      (⟨c :: r, false, false⟩, (digitsValue (a :: ds) : Int)) := by
  have ha : Char.isDigit a = true := hd a (List.mem_cons_self _ _)
  have h1 : (pre ++ (a :: ds ++ c :: r)).dropWhile isSpace = a :: (ds ++ c :: r) := by
    rw [dropWhile_all pre _ hpre]
    simp [List.dropWhile_cons, digit_not_space a ha]
  have h2 : (a :: (ds ++ c :: r)).takeWhile Char.isDigit = a :: ds :=
    takeWhile_all (a :: ds) c r hd hc
  have h3 : (a :: (ds ++ c :: r)).dropWhile Char.isDigit = c :: r :=
    dropWhile_stop (a :: ds) c r hd hc
  have hdig : readDigits false (a :: (ds ++ c :: r)) =
      (⟨c :: r, false, false⟩, (digitsValue (a :: ds) : Int)) := by
    simp only [readDigits, h2, h3, toInt32_inRange _ hrange]
    rfl
  simp only [readInt, good, Bool.not_false, Bool.and_self, if_true, h1]
  split
  · rename_i heq; cases heq
  · rename_i heq
    simp only [List.cons.injEq] at heq
    exact absurd heq.1 (digit_not_sign a ha).1
  · rename_i heq
    simp only [List.cons.injEq] at heq
    exact absurd heq.1 (digit_not_sign a ha).2
  · rename_i c2 r2 _ _ heq
    simp only [List.cons.injEq] at heq
    obtain ⟨rfl, rfl⟩ := heq
    exact hdig

theorem floatChar_not_space (x : Char) (h : isFloatChar x = true) : isSpace x = false := by
  simp only [isSpace, Bool.or_eq_false_iff, decide_eq_false_iff_not]
  refine ⟨⟨⟨⟨⟨?_, ?_⟩, ?_⟩, ?_⟩, ?_⟩, ?_⟩ <;> (rintro rfl; revert h; decide)

/-- Extracting a `double` written with floating-point characters that convert. -/
theorem readDouble_token {S : Type} (scan : List Char → Option S) (zero : S)
    (pre w : List Char) (a c : Char) (r : List Char) (old v : S)
    (hpre : ∀ x ∈ pre, isSpace x = true) (hw : ∀ x ∈ a :: w, isFloatChar x = true)
    (hc : isFloatChar c = false) (hscan : scan (a :: w) = some v) :
    readDouble scan zero ⟨pre ++ (a :: w ++ c :: r), false, false⟩ old =
      (⟨c :: r, false, false⟩, v) := by
  have ha : isFloatChar a = true := hw a (List.mem_cons_self _ _)
  have h1 : (pre ++ (a :: w ++ c :: r)).dropWhile isSpace = a :: (w ++ c :: r) := by
    rw [dropWhile_all pre _ hpre]
    simp [List.dropWhile_cons, floatChar_not_space a ha]
  have h2 : (a :: (w ++ c :: r)).takeWhile isFloatChar = a :: w :=
    takeWhile_all (a :: w) c r hw hc
  have h3 : (a :: (w ++ c :: r)).dropWhile isFloatChar = c :: r :=
    dropWhile_stop (a :: w) c r hw hc
  simp only [readDouble, good, Bool.not_false, Bool.and_self, if_true, h1, h2, h3, hscan]
  rfl

/-- Reading a line that ends with a newline. -/
theorem getline_line (line r : List Char) (str : String)
    (hline : ∀ x ∈ line, (x != '\n') = true) :
    getline ⟨line ++ '\n' :: r, false, false⟩ str = (⟨r, false, false⟩, String.mk line) := by
  have h2 : (line ++ '\n' :: r).takeWhile (fun c => c != '\n') = line :=
    takeWhile_all line '\n' r hline (by decide)
  have h3 : (line ++ '\n' :: r).dropWhile (fun c => c != '\n') = '\n' :: r :=
    dropWhile_stop line '\n' r hline (by decide)
  simp only [getline, good, Bool.not_false, Bool.and_self, if_true, h2, h3]

end IStream

namespace IStream

theorem readWord_literal (pre word : List Char) (c : Char) (r : List Char) (old : String)
    (hpre : ∀ x ∈ pre, isSpace x = true) (hw : acclaim.IsWord word) (hc : isSpace c = true) :
    readWord ⟨pre ++ (word ++ c :: r), false, false⟩ old =
      (⟨c :: r, false, false⟩, String.mk word) := by
  obtain ⟨hne, hns⟩ := hw
  cases word with
  | nil => exact absurd rfl hne
  | cons a w => exact readWord_token pre w a c r old hpre hns hc

theorem readInt_literal (pre ds : List Char) (c : Char) (r : List Char) (old : Int)
    (hpre : ∀ x ∈ pre, isSpace x = true) (hne : ds ≠ [])
    (hd : ∀ x ∈ ds, Char.isDigit x = true) (hc : Char.isDigit c = false)
    (hrange : digitsValue ds ≤ 2147483647) :
    readInt ⟨pre ++ (ds ++ c :: r), false, false⟩ old =
      (⟨c :: r, false, false⟩, (digitsValue ds : Int)) := by
  cases ds with
  | nil => exact absurd rfl hne
  | cons a w => exact readInt_token pre w a c r old hpre hd hc hrange

theorem readDouble_literal {S : Type} (scan : List Char → Option S) (zero : S)
    (pre w : List Char) (c : Char) (r : List Char) (old : S)
    (hpre : ∀ x ∈ pre, isSpace x = true) (hw : acclaim.IsNumeral scan w)
    (hc : isFloatChar c = false) :
    ∃ v, scan w = some v ∧
      readDouble scan zero ⟨pre ++ (w ++ c :: r), false, false⟩ old =
        (⟨c :: r, false, false⟩, v) := by
  obtain ⟨hne, hf, hs⟩ := hw
  obtain ⟨v, hv⟩ := Option.isSome_iff_exists.mp hs
  cases w with
  | nil => exact absurd rfl hne
  | cons a w => exact ⟨v, hv, readDouble_token scan zero pre w a c r old v hpre hf hc hv⟩

end IStream

namespace acclaim

theorem isWord_keyword :
    IsWord "id".data ∧ IsWord "name".data ∧ IsWord "direction".data ∧ IsWord "length".data ∧
    IsWord "axis".data ∧ IsWord "dof".data ∧ IsWord "end".data ∧ IsWord "begin".data ∧
    IsWord ":hierarchy".data := by
  refine ⟨?_, ?_, ?_, ?_, ?_, ?_, ?_, ?_, ?_⟩ <;> exact ⟨by decide, by decide⟩

theorem space_pre (c : Char) (h : IStream.isSpace c = true) :
    ∀ x ∈ [c], IStream.isSpace x = true := by
  intro x hx
  simp only [List.mem_singleton] at hx
  subst hx
  exact h

/-- The `id` field of a record sets `idx`. -/
theorem recordStep_id {S R : Type} (K : Kernel S R) (scan : List Char → Option S) (scale : S)
    (pre ds r : List Char) (c : Char) (str kw : String) (bones : List (Bone S R)) (mb : Int)
    (cur : Bone S R) (hpre : ∀ x ∈ pre, IStream.isSpace x = true) (hne : ds ≠ [])
    (hd : ∀ x ∈ ds, Char.isDigit x = true) (hc : c = '\n')
    (hrange : IStream.digitsValue ds ≤ 2147483647) :
    recordStep K scan scale
        ⟨⟨pre ++ ("id".data ++ ' ' :: (ds ++ c :: r)), false, false⟩, str, kw, bones, mb⟩ cur =
      Step.next (⟨⟨c :: r, false, false⟩, str, "id", bones, mb⟩,
        { cur with idx := (IStream.digitsValue ds : Int) }) := by
  subst hc
  have h1 := IStream.readWord_literal pre "id".data ' ' (ds ++ '\n' :: r) kw hpre
    isWord_keyword.1 (by decide)
  have h2 := IStream.readInt_literal [' '] ds '\n' r cur.idx (space_pre ' ' (by decide)) hne hd
    (by decide) hrange
  simp only [recordStep, h1]
  simp only [List.singleton_append] at h2
  simp [h2]

end acclaim

namespace acclaim

/-- The `name` field of a record sets `name`. -/
theorem recordStep_name {S R : Type} (K : Kernel S R) (scan : List Char → Option S) (scale : S)
    (pre w r : List Char) (c : Char) (str kw : String) (bones : List (Bone S R)) (mb : Int)
    (cur : Bone S R) (hpre : ∀ x ∈ pre, IStream.isSpace x = true) (hw : IsWord w)
    (hc : c = '\n') :
    recordStep K scan scale
        ⟨⟨pre ++ ("name".data ++ ' ' :: (w ++ c :: r)), false, false⟩, str, kw, bones, mb⟩ cur =
      Step.next (⟨⟨c :: r, false, false⟩, str, "name", bones, mb⟩,
        { cur with name := String.mk w }) := by
  subst hc
  have h1 := IStream.readWord_literal pre "name".data ' ' (w ++ '\n' :: r) kw hpre
    isWord_keyword.2.1 (by decide)
  have h2 := IStream.readWord_literal [' '] w '\n' r cur.name (space_pre ' ' (by decide)) hw
    (by decide)
  simp only [recordStep, h1]
  simp only [List.singleton_append] at h2
  simp [h2]

/-- The `length` field of a record changes neither `name` nor `idx`. -/
theorem recordStep_length {S R : Type} (K : Kernel S R) (scan : List Char → Option S)
    (scale : S) (pre w r : List Char) (c : Char) (str kw : String) (bones : List (Bone S R))
    (mb : Int) (cur : Bone S R) (hpre : ∀ x ∈ pre, IStream.isSpace x = true)
    (hw : IsNumeral scan w) (hc : c = '\n') :
    ∃ cur1 : Bone S R, cur1.name = cur.name ∧ cur1.idx = cur.idx ∧
      recordStep K scan scale
          ⟨⟨pre ++ ("length".data ++ ' ' :: (w ++ c :: r)), false, false⟩, str, kw, bones, mb⟩
          cur =
        Step.next (⟨⟨c :: r, false, false⟩, str, "length", bones, mb⟩, cur1) := by
  subst hc
  have h1 := IStream.readWord_literal pre "length".data ' ' (w ++ '\n' :: r) kw hpre
    isWord_keyword.2.2.2.1 (by decide)
  obtain ⟨v, _, h2⟩ := IStream.readDouble_literal scan (K.lit 0) [' '] w '\n' r cur.length
    (space_pre ' ' (by decide)) hw (by decide)
  simp only [List.singleton_append] at h2
  refine ⟨{ cur with length := K.mul v scale }, rfl, rfl, ?_⟩
  simp only [recordStep, h1]
  simp [h2]

/-- Three numerals on a line, read one after the other. -/
theorem readDouble_three {S : Type} (scan : List Char → Option S) (zero : S)
    (x y z r : List Char) (c : Char) (o1 o2 o3 : S) (hx : IsNumeral scan x)
    (hy : IsNumeral scan y) (hz : IsNumeral scan z) (hc : IStream.isFloatChar c = false) :
    ∃ v1 v2 v3,
      IStream.readDouble scan zero ⟨' ' :: (x ++ ' ' :: (y ++ ' ' :: (z ++ c :: r))), false, false⟩
        o1 = (⟨' ' :: (y ++ ' ' :: (z ++ c :: r)), false, false⟩, v1) ∧
      IStream.readDouble scan zero ⟨' ' :: (y ++ ' ' :: (z ++ c :: r)), false, false⟩ o2
        = (⟨' ' :: (z ++ c :: r), false, false⟩, v2) ∧
      IStream.readDouble scan zero ⟨' ' :: (z ++ c :: r), false, false⟩ o3
        = (⟨c :: r, false, false⟩, v3) := by
  obtain ⟨v1, _, h1⟩ := IStream.readDouble_literal scan zero [' '] x ' '
    (y ++ ' ' :: (z ++ c :: r)) o1 (space_pre ' ' (by decide)) hx (by decide)
  obtain ⟨v2, _, h2⟩ := IStream.readDouble_literal scan zero [' '] y ' ' (z ++ c :: r) o2
    (space_pre ' ' (by decide)) hy (by decide)
  obtain ⟨v3, _, h3⟩ := IStream.readDouble_literal scan zero [' '] z c r o3
    (space_pre ' ' (by decide)) hz hc
  simp only [List.singleton_append] at h1 h2 h3
  exact ⟨v1, v2, v3, h1, h2, h3⟩

/-- The `direction` field of a record changes neither `name` nor `idx`. -/
theorem recordStep_direction {S R : Type} (K : Kernel S R) (scan : List Char → Option S)
    (scale : S) (pre x y z r : List Char) (c : Char) (str kw : String)
    (bones : List (Bone S R)) (mb : Int) (cur : Bone S R)
    (hpre : ∀ a ∈ pre, IStream.isSpace a = true) (hx : IsNumeral scan x)
    (hy : IsNumeral scan y) (hz : IsNumeral scan z) (hc : c = '\n') :
    ∃ cur1 : Bone S R, cur1.name = cur.name ∧ cur1.idx = cur.idx ∧
      recordStep K scan scale
          ⟨⟨pre ++ ("direction".data ++ ' ' :: (x ++ ' ' :: (y ++ ' ' :: (z ++ c :: r)))),
            false, false⟩, str, kw, bones, mb⟩ cur =
        Step.next (⟨⟨c :: r, false, false⟩, str, "direction", bones, mb⟩, cur1) := by
  subst hc
  have h1 := IStream.readWord_literal pre "direction".data ' '
    (x ++ ' ' :: (y ++ ' ' :: (z ++ '\n' :: r))) kw hpre isWord_keyword.2.2.1 (by decide)
  obtain ⟨v1, v2, v3, e1, e2, e3⟩ := readDouble_three scan (K.lit 0) x y z r '\n'
    cur.dir.x cur.dir.y cur.dir.z hx hy hz (by decide)
  refine ⟨{ cur with dir := ⟨v1, v2, v3, cur.dir.w⟩ }, rfl, rfl, ?_⟩
  simp only [recordStep, h1]
  simp [e1, e2, e3]

/-- The `axis` field of a record, up to its order word, changes neither `name` nor `idx`. -/
theorem recordStep_axis {S R : Type} (K : Kernel S R) (scan : List Char → Option S)
    (scale : S) (pre x y z r : List Char) (str kw : String)
    (bones : List (Bone S R)) (mb : Int) (cur : Bone S R)
    (hpre : ∀ a ∈ pre, IStream.isSpace a = true) (hx : IsNumeral scan x)
    (hy : IsNumeral scan y) (hz : IsNumeral scan z) :
    ∃ cur1 : Bone S R, cur1.name = cur.name ∧ cur1.idx = cur.idx ∧
      recordStep K scan scale
          ⟨⟨pre ++ ("axis".data ++ ' ' :: (x ++ ' ' :: (y ++ ' ' :: (z ++ ' ' :: r)))),
            false, false⟩, str, kw, bones, mb⟩ cur =
        Step.next (⟨⟨' ' :: r, false, false⟩, str, "axis", bones, mb⟩, cur1) := by
  have h1 := IStream.readWord_literal pre "axis".data ' '
    (x ++ ' ' :: (y ++ ' ' :: (z ++ ' ' :: r))) kw hpre isWord_keyword.2.2.2.2.1 (by decide)
  obtain ⟨v1, v2, v3, e1, e2, e3⟩ := readDouble_three scan (K.lit 0) x y z r ' '
    cur.axis.x cur.axis.y cur.axis.z hx hy hz (by decide)
  refine ⟨{ cur with axis := ⟨v1, v2, v3, cur.axis.w⟩ }, rfl, rfl, ?_⟩
  simp only [recordStep, h1]
  simp [e1, e2, e3]

/-- A word that is no keyword is passed over. -/
theorem recordStep_other {S R : Type} (K : Kernel S R) (scan : List Char → Option S)
    (scale : S) (pre w r : List Char) (c : Char) (str kw : String)
    (bones : List (Bone S R)) (mb : Int) (cur : Bone S R)
    (hpre : ∀ a ∈ pre, IStream.isSpace a = true) (hw : IsWord w)
    (hk : String.mk w ∉ keywords) (hc : IStream.isSpace c = true) :
    recordStep K scan scale ⟨⟨pre ++ (w ++ c :: r), false, false⟩, str, kw, bones, mb⟩ cur =
      Step.next (⟨⟨c :: r, false, false⟩, str, String.mk w, bones, mb⟩, cur) := by
  have h1 := IStream.readWord_literal pre w c r kw hpre hw hc
  simp only [keywords, List.mem_cons, List.mem_singleton, List.not_mem_nil, or_false,
    not_or] at hk
  obtain ⟨k1, k2, k3, k4, k5, k6, k7, k8⟩ := hk
  simp only [recordStep, h1, k1, k2, k3, k4, k5, k6, k7, k8, if_false]

/-- The keyword `end` leaves the record loop with the flag false. -/
theorem recordStep_end {S R : Type} (K : Kernel S R) (scan : List Char → Option S)
    (scale : S) (pre r : List Char) (c : Char) (str kw : String)
    (bones : List (Bone S R)) (mb : Int) (cur : Bone S R)
    (hpre : ∀ a ∈ pre, IStream.isSpace a = true) (hc : IStream.isSpace c = true) :
    recordStep K scan scale
        ⟨⟨pre ++ ("end".data ++ c :: r), false, false⟩, str, kw, bones, mb⟩ cur =
      Step.exit (⟨⟨c :: r, false, false⟩, str, "end", bones, mb⟩, cur, false) := by
  have h1 := IStream.readWord_literal pre "end".data c r kw hpre isWord_keyword.2.2.2.2.2.2.1 hc
  simp only [recordStep, h1]
  simp

/-- The keyword `:hierarchy` leaves the record loop with the flag true. -/
theorem recordStep_hierarchy {S R : Type} (K : Kernel S R) (scan : List Char → Option S)
    (scale : S) (pre r : List Char) (c : Char) (str kw : String)
    (bones : List (Bone S R)) (mb : Int) (cur : Bone S R)
    (hpre : ∀ a ∈ pre, IStream.isSpace a = true) (hc : IStream.isSpace c = true) :
    recordStep K scan scale
        ⟨⟨pre ++ (":hierarchy".data ++ c :: r), false, false⟩, str, kw, bones, mb⟩ cur =
      Step.exit (⟨⟨c :: r, false, false⟩, str, ":hierarchy", bones, mb⟩, cur, true) := by
  have h1 := IStream.readWord_literal pre ":hierarchy".data c r kw hpre
    isWord_keyword.2.2.2.2.2.2.2.2 hc
  simp only [recordStep, h1]
  simp

theorem dofToken_keeps {S R : Type} (b : Bone S R) (token : String) :
    (dofToken b token).name = b.name ∧ (dofToken b token).idx = b.idx := by
  unfold dofToken
  split_ifs <;> exact ⟨rfl, rfl⟩

theorem dofTokens_keep {S R : Type} (tokens : List String) :
    ∀ b : Bone S R, (tokens.foldl dofToken b).name = b.name ∧
      (tokens.foldl dofToken b).idx = b.idx := by
  induction tokens with
  | nil => intro b; exact ⟨rfl, rfl⟩
  | cons t ts ih =>
    intro b
    simp only [List.foldl_cons]
    exact ⟨(ih _).1.trans (dofToken_keeps b t).1, (ih _).2.trans (dofToken_keeps b t).2⟩

/-- The `dof` line of a record changes neither `name` nor `idx`. -/
theorem recordStep_dof {S R : Type} (K : Kernel S R) (scan : List Char → Option S)
    (scale : S) (pre line r : List Char) (str kw : String)
    (bones : List (Bone S R)) (mb : Int) (cur : Bone S R)
    (hpre : ∀ a ∈ pre, IStream.isSpace a = true)
    (hline : ∀ x ∈ line, (x != '\n') = true)
    (hhead : ∀ a t, line = a :: t → IStream.isSpace a = true) :
    ∃ cur1 : Bone S R, cur1.name = cur.name ∧ cur1.idx = cur.idx ∧
      recordStep K scan scale
          ⟨⟨pre ++ ("dof".data ++ (line ++ '\n' :: r)), false, false⟩, str, kw, bones, mb⟩ cur =
        Step.next (⟨⟨r, false, false⟩, String.mk line, "dof", bones, mb + 1⟩, cur1) := by
  obtain ⟨c, t, hct, hcs⟩ : ∃ c t, line ++ '\n' :: r = c :: t ∧ IStream.isSpace c = true := by
    cases line with
    | nil => exact ⟨'\n', r, rfl, by decide⟩
    | cons a t => exact ⟨a, t ++ '\n' :: r, rfl, hhead a t rfl⟩
  have h1 := IStream.readWord_literal pre "dof".data c t kw hpre
    isWord_keyword.2.2.2.2.2.1 hcs
  rw [← hct] at h1
  have h2 := IStream.getline_line line r str hline
  refine ⟨(IStream.words (String.mk line)).foldl dofToken { cur with dof := 0 },
    (dofTokens_keep _ _).1, (dofTokens_keep _ _).2, ?_⟩
  simp only [recordStep, h1]
  simp [h2]

end acclaim

namespace acclaim

theorem recordLoop_next {S R : Type} (K : Kernel S R) (scan : List Char → Option S) (scale : S)
    (f : Nat) (st st1 : ReadState S R) (cur cur1 : Bone S R)
    (h : recordStep K scan scale st cur = Step.next (st1, cur1)) :
    recordLoop K scan scale (f + 1) st cur = recordLoop K scan scale f st1 cur1 := by
  simp only [recordLoop, h]

theorem recordLoop_exit {S R : Type} (K : Kernel S R) (scan : List Char → Option S) (scale : S)
    (f : Nat) (st : ReadState S R) (cur : Bone S R) (r : ReadState S R × Bone S R × Bool)
    (h : recordStep K scan scale st cur = Step.exit r) :
    recordLoop K scan scale (f + 1) st cur = Run.done r := by
  simp only [recordLoop, h]

theorem newline_pre : ∀ x ∈ ['\n'], IStream.isSpace x = true := space_pre '\n' (by decide)

theorem nil_pre : ∀ x ∈ ([] : List Char), IStream.isSpace x = true := by
  intro x hx; cases hx

/-- The end of a record, from its optional `dof` line on. -/
theorem record_tail_spec {S R : Type} (K : Kernel S R) (scan : List Char → Option S)
    (scale : S) (d : BoneDecl) (hd : d.WellFormed scan) (k : List Char) (f : Nat)
    (str kw : String) (bones : List (Bone S R)) (mb : Int) (cur : Bone S R) :
    ∃ (str1 : String) (mb1 : Int) (cur1 : Bone S R), cur1.name = cur.name ∧ cur1.idx = cur.idx ∧
      recordLoop K scan scale (f + 2)
          ⟨⟨'\n' :: d.dofLine ("end".data ++ '\n' :: k), false, false⟩, str, kw, bones, mb⟩ cur =
        Run.done (⟨⟨'\n' :: k, false, false⟩, str1, "end", bones, mb1⟩, cur1, false) := by
  cases hdof : d.dof with
  | none =>
    have h1 := recordStep_end K scan scale ['\n'] k '\n' str kw bones mb cur newline_pre
      (by decide)
    simp only [List.singleton_append] at h1
    refine ⟨str, mb, cur, rfl, rfl, ?_⟩
    simp only [BoneDecl.dofLine, hdof]
    exact recordLoop_exit K scan scale (f + 1) _ cur _ h1
  | some line =>
    obtain ⟨hl1, hl2⟩ := hd.dof_line line hdof
    obtain ⟨cur1, hn, hi, h1⟩ := recordStep_dof K scan scale ['\n'] line
      ("end".data ++ '\n' :: k) str kw bones mb cur newline_pre hl1 hl2
    simp only [List.singleton_append] at h1
    have h2 := recordStep_end K scan scale [] k '\n' (String.mk line) "dof" bones (mb + 1) cur1
      nil_pre (by decide)
    simp only [List.nil_append] at h2
    refine ⟨String.mk line, mb + 1, cur1, hn, hi, ?_⟩
    simp only [BoneDecl.dofLine, hdof]
    rw [recordLoop_next K scan scale (f + 1) _ _ cur cur1 h1]
    exact recordLoop_exit K scan scale f _ cur1 _ h2

/-- The fields of a well-formed record: the record loop leaves at `end` with the declared
name and id in `current_bone`. -/
theorem record_fields_spec {S R : Type} (K : Kernel S R) (scan : List Char → Option S)
    (scale : S) (d : BoneDecl) (hd : d.WellFormed scan) (pre k : List Char)
    (hpre : ∀ x ∈ pre, IStream.isSpace x = true) (f : Nat)
    (str kw : String) (bones : List (Bone S R)) (mb : Int) (cur : Bone S R) :
    ∃ (str1 : String) (mb1 : Int) (cur1 : Bone S R),
      cur1.name = String.mk d.name ∧ cur1.idx = d.idValue ∧
      recordLoop K scan scale (f + 8)
          ⟨⟨pre ++ d.fields k, false, false⟩, str, kw, bones, mb⟩ cur =
        Run.done (⟨⟨'\n' :: k, false, false⟩, str1, "end", bones, mb1⟩, cur1, false) := by
  have s1 := recordStep_id K scan scale pre d.id
    ("name".data ++ ' ' :: (d.name ++ '\n' ::
      ("direction".data ++ ' ' :: (d.dx ++ ' ' :: (d.dy ++ ' ' :: (d.dz ++ '\n' ::
      ("length".data ++ ' ' :: (d.length ++ '\n' ::
      ("axis".data ++ ' ' :: (d.ax ++ ' ' :: (d.ay ++ ' ' :: (d.az ++ ' ' :: (d.order ++ '\n' ::
      d.dofLine ("end".data ++ '\n' :: k))))))))))))))
    '\n' str kw bones mb cur hpre hd.id_digits.1 hd.id_digits.2 rfl hd.id_range
  have s2 := recordStep_name K scan scale ['\n'] d.name
    ("direction".data ++ ' ' :: (d.dx ++ ' ' :: (d.dy ++ ' ' :: (d.dz ++ '\n' ::
      ("length".data ++ ' ' :: (d.length ++ '\n' ::
      ("axis".data ++ ' ' :: (d.ax ++ ' ' :: (d.ay ++ ' ' :: (d.az ++ ' ' :: (d.order ++ '\n' ::
      d.dofLine ("end".data ++ '\n' :: k))))))))))))
    '\n' str "id" bones mb { cur with idx := (IStream.digitsValue d.id : Int) } newline_pre
    hd.name_word rfl
  simp only [List.singleton_append] at s2
  obtain ⟨c3, n3, i3, s3⟩ := recordStep_direction K scan scale ['\n'] d.dx d.dy d.dz
    ("length".data ++ ' ' :: (d.length ++ '\n' ::
      ("axis".data ++ ' ' :: (d.ax ++ ' ' :: (d.ay ++ ' ' :: (d.az ++ ' ' :: (d.order ++ '\n' ::
      d.dofLine ("end".data ++ '\n' :: k))))))))
    '\n' str "name" bones mb
    { cur with idx := (IStream.digitsValue d.id : Int), name := String.mk d.name } newline_pre
    hd.dx_num hd.dy_num hd.dz_num rfl
  simp only [List.singleton_append] at s3
  obtain ⟨c4, n4, i4, s4⟩ := recordStep_length K scan scale ['\n'] d.length
    ("axis".data ++ ' ' :: (d.ax ++ ' ' :: (d.ay ++ ' ' :: (d.az ++ ' ' :: (d.order ++ '\n' ::
      d.dofLine ("end".data ++ '\n' :: k))))))
    '\n' str "direction" bones mb c3 newline_pre hd.length_num rfl
  simp only [List.singleton_append] at s4
  obtain ⟨c5, n5, i5, s5⟩ := recordStep_axis K scan scale ['\n'] d.ax d.ay d.az
    (d.order ++ '\n' :: d.dofLine ("end".data ++ '\n' :: k))
    str "length" bones mb c4 newline_pre hd.ax_num hd.ay_num hd.az_num
  simp only [List.singleton_append] at s5
  have s6 := recordStep_other K scan scale [' '] d.order
    (d.dofLine ("end".data ++ '\n' :: k)) '\n' str "axis" bones mb c5
    (space_pre ' ' (by decide)) hd.order_word.1 hd.order_word.2 (by decide)
  simp only [List.singleton_append] at s6
  obtain ⟨str1, mb1, c7, n7, i7, s7⟩ := record_tail_spec K scan scale d hd k f str
    (String.mk d.order) bones mb c5
  refine ⟨str1, mb1, c7, ?_, ?_, ?_⟩
  · rw [n7, n5, n4, n3]
  · rw [i7, i5, i4, i3]; rfl
  · have e1 : f + 8 = (f + 7) + 1 := rfl
    rw [e1]
    simp only [BoneDecl.fields]
    rw [recordLoop_next K scan scale (f + 7) _ _ cur _ s1,
      recordLoop_next K scan scale (f + 6) _ _ _ _ s2,
      recordLoop_next K scan scale (f + 5) _ _ _ _ s3,
      recordLoop_next K scan scale (f + 4) _ _ _ _ s4,
      recordLoop_next K scan scale (f + 3) _ _ _ _ s5,
      recordLoop_next K scan scale (f + 2) _ _ _ _ s6]
    exact s7

end acclaim

namespace acclaim

theorem begin_not_keyword : String.mk "begin".data ∉ keywords := by decide

/-- A whole record, from `begin` on. -/
theorem record_spec {S R : Type} (K : Kernel S R) (scan : List Char → Option S)
    (scale : S) (d : BoneDecl) (hd : d.WellFormed scan) (pre k : List Char)
    (hpre : ∀ x ∈ pre, IStream.isSpace x = true) (f : Nat)
    (str kw : String) (bones : List (Bone S R)) (mb : Int) (cur : Bone S R) :
    ∃ (str1 : String) (mb1 : Int) (cur1 : Bone S R),
      cur1.name = String.mk d.name ∧ cur1.idx = d.idValue ∧
      recordLoop K scan scale (f + 9)
          ⟨⟨pre ++ d.render k, false, false⟩, str, kw, bones, mb⟩ cur =
        Run.done (⟨⟨'\n' :: k, false, false⟩, str1, "end", bones, mb1⟩, cur1, false) := by
  have s0 := recordStep_other K scan scale pre "begin".data (d.fields k) '\n' str kw bones mb cur
    hpre isWord_keyword.2.2.2.2.2.2.2.1 begin_not_keyword (by decide)
  obtain ⟨str1, mb1, cur1, hn, hi, h⟩ := record_fields_spec K scan scale d hd ['\n'] k
    newline_pre f str (String.mk "begin".data) bones mb cur
  simp only [List.singleton_append] at h
  refine ⟨str1, mb1, cur1, hn, hi, ?_⟩
  have e1 : f + 9 = (f + 8) + 1 := rfl
  rw [e1]
  simp only [BoneDecl.render]
  rw [recordLoop_next K scan scale (f + 8) _ _ cur _ s0]
  exact h

/-- The loop over the records of a bone-data section that is followed by `:hierarchy`:
with enough fuel it returns at the text after the keyword, having appended one bone per
record, in file order, with the declared names and ids. -/
theorem boneDataLoop_spec {S R : Type} (K : Kernel S R) (scan : List Char → Option S)
    (scale : S) (blank : Bone S R) (c : Char) (tail : List Char)
    (hc : IStream.isSpace c = true) :
    ∀ (ds : List BoneDecl), (∀ x ∈ ds, x.WellFormed scan) →
      ∃ f0, ∀ (pre : List Char), (∀ x ∈ pre, IStream.isSpace x = true) →
      ∀ (str kw : String) (bones : List (Bone S R)) (mb : Int) (f : Nat), f0 ≤ f →
      ∃ res : ReadState S R,
        boneDataLoop K scan scale blank f
          ⟨⟨pre ++ renderRecords ds (":hierarchy".data ++ c :: tail), false, false⟩,
            str, kw, bones, mb⟩ = Run.done res ∧
        res.input = ⟨c :: tail, false, false⟩ ∧
        res.bones.map (fun b => b.name) =
          bones.map (fun b => b.name) ++ ds.map (fun x => String.mk x.name) ∧
        res.bones.map (fun b => b.idx) = bones.map (fun b => b.idx) ++ ds.map BoneDecl.idValue := by
  intro ds
  induction ds with
  | nil =>
    intro _
    refine ⟨2, fun pre hpre str kw bones mb f hf => ?_⟩
    obtain ⟨g, rfl⟩ : ∃ g, f = g + 2 := ⟨f - 2, by omega⟩
    have h1 := recordStep_hierarchy K scan scale pre tail c str kw bones mb blank hpre hc
    refine ⟨⟨⟨c :: tail, false, false⟩, str, ":hierarchy", bones, mb⟩, ?_, rfl, by simp, by simp⟩
    simp only [renderRecords]
    have e1 : g + 2 = (g + 1) + 1 := rfl
    rw [e1, boneDataLoop_succ, boneDataFrom_finish K scan scale blank g (g + 1) _ _ blank blank h1]
  | cons d ds ih =>
    intro hwf
    have hd : d.WellFormed scan := hwf d (List.mem_cons_self _ _)
    have hds : ∀ x ∈ ds, x.WellFormed scan := fun x hx => hwf x (List.mem_cons_of_mem _ hx)
    obtain ⟨f0, hf0⟩ := ih hds
    refine ⟨f0 + 10, fun pre hpre str kw bones mb f hf => ?_⟩
    obtain ⟨g, rfl⟩ : ∃ g, f = g + 10 := ⟨f - 10, by omega⟩
    obtain ⟨str1, mb1, cur1, hn, hi, hrec⟩ := record_spec K scan scale d hd pre
      (renderRecords ds (":hierarchy".data ++ c :: tail)) hpre g str kw bones mb blank
    obtain ⟨res, hres, hin, hnames, hidx⟩ := hf0 ['\n'] newline_pre str1 "end"
      (bones ++ [cur1]) mb1 (g + 9) (by omega)
    simp only [List.singleton_append] at hres
    refine ⟨res, ?_, hin, ?_, ?_⟩
    · have e1 : g + 10 = (g + 9) + 1 := rfl
      rw [e1]
      simp only [renderRecords, boneDataLoop, hrec]
      simpa using hres
    · rw [hnames]; simp [hn]
    · rw [hidx]; simp [hi]

end acclaim

namespace acclaim

theorem set_keeps {α β : Type} (f : α → β) (l : List α) (i : Nat) (a x : α)
    (ha : l[i]? = some a) (hx : f x = f a) : (l.set i x).map f = l.map f := by
  apply List.ext_getElem?
  intro j
  by_cases hj : i = j
  · subst hj
    simp [List.getElem?_set_self', ha, hx]
  · simp only [List.getElem?_map, List.getElem?_set_ne hj]

/-- A write through a bone pointer that changes neither name nor idx keeps the names and
the ids of the array. -/
theorem update_keeps {S R : Type} (sk sk1 : Skeleton S R) (p : Ptr) (g : Bone S R → Bone S R)
    (h : sk.update p g = Run.done sk1) (hg : ∀ b, (g b).name = b.name ∧ (g b).idx = b.idx) :
    sk1.bones.map (fun b => b.name) = sk.bones.map (fun b => b.name) ∧
    sk1.bones.map (fun b => b.idx) = sk.bones.map (fun b => b.idx) := by
  unfold Skeleton.update at h
  obtain ⟨b, hb, h1⟩ := Run.bind_eq_done h
  cases h1
  rw [Skeleton.deref_eq_done] at hb
  exact ⟨set_keeps _ _ _ b _ hb.2 (hg b).1, set_keeps _ _ _ b _ hb.2 (hg b).2⟩

theorem setBoneHierarchy_keeps {S R : Type} (f : Nat) (sk sk1 : Skeleton S R)
    (parent child : Option Ptr) (h : setBoneHierarchy f sk parent child = Run.done sk1) :
    sk1.bones.map (fun b => b.name) = sk.bones.map (fun b => b.name) ∧
    sk1.bones.map (fun b => b.idx) = sk.bones.map (fun b => b.idx) := by
  cases parent with
  | none => cases h; exact ⟨rfl, rfl⟩
  | some p =>
    cases child with
    | none => cases h
    | some c =>
      simp only [setBoneHierarchy] at h
      obtain ⟨sk2, h2, h3⟩ := Run.bind_eq_done h
      have k2 := update_keeps sk sk2 c _ h2 (fun b => ⟨rfl, rfl⟩)
      obtain ⟨pb, _, h4⟩ := Run.bind_eq_done h3
      cases hch : pb.child with
      | none =>
        rw [hch] at h4
        simp only at h4
        have k3 := update_keeps sk2 sk1 p _ h4 (fun b => ⟨rfl, rfl⟩)
        exact ⟨k3.1.trans k2.1, k3.2.trans k2.2⟩
      | some first =>
        rw [hch] at h4
        simp only at h4
        obtain ⟨cur, _, h5⟩ := Run.bind_eq_done h4
        have k3 := update_keeps sk2 sk1 cur _ h5 (fun b => ⟨rfl, rfl⟩)
        exact ⟨k3.1.trans k2.1, k3.2.trans k2.2⟩

theorem linkChildren_keeps {S R : Type} (f : Nat) (parent : Option Ptr) :
    ∀ (names : List String) (sk sk1 : Skeleton S R),
      linkChildren f parent names sk = Run.done sk1 →
      sk1.bones.map (fun b => b.name) = sk.bones.map (fun b => b.name) ∧
      sk1.bones.map (fun b => b.idx) = sk.bones.map (fun b => b.idx) := by
  intro names
  induction names with
  | nil => intro sk sk1 h; cases h; exact ⟨rfl, rfl⟩
  | cons n rest ih =>
    intro sk sk1 h
    simp only [linkChildren] at h
    obtain ⟨sk2, h2, h3⟩ := Run.bind_eq_done h
    have k2 := setBoneHierarchy_keeps f sk sk2 parent _ h2
    have k3 := ih sk2 sk1 h3
    exact ⟨k3.1.trans k2.1, k3.2.trans k2.2⟩

/-- The hierarchy section changes links only: names and ids stay as the bone-data section
left them. -/
theorem hierarchyLoop_keeps {S R : Type} :
    ∀ (f : Nat) (s : IStream) (str kw : String) (sk sk1 : Skeleton S R),
      hierarchyLoop f s str kw sk = Run.done sk1 →
      sk1.bones.map (fun b => b.name) = sk.bones.map (fun b => b.name) ∧
      sk1.bones.map (fun b => b.idx) = sk.bones.map (fun b => b.idx) := by
  intro f
  induction f with
  | zero => intro s str kw sk sk1 h; cases h
  | succ f ih =>
    intro s str kw sk sk1 h
    simp only [hierarchyLoop] at h
    split_ifs at h with hend
    · cases h; exact ⟨rfl, rfl⟩
    · obtain ⟨sk2, h2, h3⟩ := Run.bind_eq_done h
      have k2 := linkChildren_keeps f _ _ sk sk2 h2
      have k3 := ih _ _ _ sk2 sk1 h3
      exact ⟨k3.1.trans k2.1, k3.2.trans k2.2⟩

theorem computeLocalDirection_keeps {S R : Type} (toLocal : Vec4 S → Vec4 S → Vec4 S)
    (sk : Skeleton S R) :
    (computeLocalDirection toLocal sk).bones.map (fun b => b.name)
      = sk.bones.map (fun b => b.name) ∧
    (computeLocalDirection toLocal sk).bones.map (fun b => b.idx)
      = sk.bones.map (fun b => b.idx) ∧
    (computeLocalDirection toLocal sk).store = sk.store := by
  refine ⟨?_, ?_, rfl⟩
  · apply List.ext_getElem?
    intro j
    simp only [computeLocalDirection, List.getElem?_map, List.getElem?_mapIdx]
    cases sk.bones[j]? with
    | none => rfl
    | some b => simp only [Option.map_some']; split_ifs <;> rfl
  · apply List.ext_getElem?
    intro j
    simp only [computeLocalDirection, List.getElem?_map, List.getElem?_mapIdx]
    cases sk.bones[j]? with
    | none => rfl
    | some b => simp only [Option.map_some']; split_ifs <;> rfl

/-- The text of a description with at least one record, once the header loop and the
`ignore` after it have run: with enough fuel the loop over the records returns with one
bone per record behind the bones it started from. -/
theorem boneData_first_spec {S R : Type} (K : Kernel S R) (scan : List Char → Option S)
    (scale : S) (blank : Bone S R) (c : Char) (tail : List Char)
    (hc : IStream.isSpace c = true) (d : BoneDecl) (ds : List BoneDecl)
    (hwf : ∀ x ∈ d :: ds, x.WellFormed scan) (str kw : String) (bones : List (Bone S R))
    (mb : Int) :
    ∃ f0, ∀ f, f0 ≤ f → ∃ res : ReadState S R,
      boneDataLoop K scan scale blank f
        ⟨⟨d.fields (renderRecords ds (":hierarchy".data ++ c :: tail)), false, false⟩,
          str, kw, bones, mb⟩ = Run.done res ∧
      res.bones.map (fun b => b.name) =
        bones.map (fun b => b.name) ++ (d :: ds).map (fun x => String.mk x.name) ∧
      res.bones.map (fun b => b.idx) =
        bones.map (fun b => b.idx) ++ (d :: ds).map BoneDecl.idValue := by
  have hd : d.WellFormed scan := hwf d (List.mem_cons_self _ _)
  have hds : ∀ x ∈ ds, x.WellFormed scan := fun x hx => hwf x (List.mem_cons_of_mem _ hx)
  obtain ⟨f0, hf0⟩ := boneDataLoop_spec K scan scale blank c tail hc ds hds
  refine ⟨f0 + 9, fun f hf => ?_⟩
  obtain ⟨g, rfl⟩ : ∃ g, f = g + 9 := ⟨f - 9, by omega⟩
  obtain ⟨str1, mb1, cur1, hn, hi, hrec⟩ := record_fields_spec K scan scale d hd []
    (renderRecords ds (":hierarchy".data ++ c :: tail)) nil_pre g str kw bones mb blank
  simp only [List.nil_append] at hrec
  obtain ⟨res, hres, _, hnames, hidx⟩ := hf0 ['\n'] newline_pre str1 "end" (bones ++ [cur1])
    mb1 (g + 8) (by omega)
  simp only [List.singleton_append] at hres
  refine ⟨res, ?_, ?_, ?_⟩
  · have e1 : g + 9 = (g + 8) + 1 := rfl
    rw [e1]
    simp only [boneDataLoop, hrec]
    simpa using hres
  · rw [hnames]; simp [hn]
  · rw [hidx]; simp [hi]

theorem header_of_description (ds : List BoneDecl) (hier : List Char) (d : BoneDecl) :
    (IStream.ofText (renderDescription (d :: ds) hier)).getline "" =
      (⟨"begin".data ++ '\n' :: d.fields (renderRecords ds (":hierarchy".data ++ hier)),
        false, false⟩, ":bonedata") := by
  have h := IStream.getline_line ":bonedata".data
    ("begin".data ++ '\n' :: d.fields (renderRecords ds (":hierarchy".data ++ hier))) ""
    (by decide)
  simpa [renderDescription, renderRecords, BoneDecl.render, IStream.ofText] using h

theorem ignoreLine_begin (X : List Char) :
    IStream.ignoreLine ⟨"begin".data ++ '\n' :: X, false, false⟩ = ⟨X, false, false⟩ := by
  simp [IStream.ignoreLine, IStream.good, IStream.ignoreAux]

end acclaim

namespace acclaim

theorem nameAt_of_names {S R : Type} (sk : Skeleton S R) (L : List String) (i : Nat)
    (n : String) (hL : sk.bones.map (fun b => b.name) = L) (hi : L[i]? = some n) :
    nameAt (Run.done sk) (i : Int) = Run.done n := by
  rw [← hL, List.getElem?_map] at hi
  cases hb : sk.bones[i]? with
  | none => rw [hb] at hi; cases hi
  | some b =>
    rw [hb] at hi
    simp only [Option.map_some', Option.some.injEq] at hi
    have hlt : i < sk.bones.length := by
      by_contra hc
      rw [List.getElem?_eq_none (by omega)] at hb
      cases hb
    have hd : sk.deref ⟨sk.store, i⟩ = Run.done b := by
      rw [Skeleton.deref_eq_done]; exact ⟨rfl, hb⟩
    simp only [nameAt, Run.bind_done, Skeleton.getBonePointerAt, addrOf_done sk.store _ i hlt,
      hd, hi]

/-- Where the lookup by bone index does return the declared names: after a description in
the canonical layout has been loaded, bone index 0 is named `root` and bone index k, for k
from 1 on, carries the name declared by the k-th bone record in file order, so that the
names over all positions are `root` and the declared names; hence `getBonePointer(i)->name`
is the name declared for id `i` whenever the records declare the ids 1, 2, ... in file
order. -/
theorem load_names_follow_file_order {S R : Type} (K : Kernel S R)
    (scan : List Char → Option S) (toLocal : Vec4 S → Vec4 S → Vec4 S) (blank : Bone S R)
    (d : BoneDecl) (ds : List BoneDecl) (c : Char) (tail : List Char) (fuel : Nat) (scale : S)
    (store : Nat) (sk : Skeleton S R) (hc : IStream.isSpace c = true)
    (hwf : ∀ x ∈ d :: ds, x.WellFormed scan)
    (hload : Skeleton.load K scan toLocal blank fuel
      (some (renderDescription (d :: ds) (c :: tail))) scale store = Run.done sk) :
    sk.bones.map (fun b => b.name) = "root" :: (d :: ds).map (fun x => String.mk x.name) ∧
    nameAt (Run.done sk) 0 = Run.done "root" ∧
    (∀ (i : Nat) (x : BoneDecl), (d :: ds)[i]? = some x →
      nameAt (Run.done sk) ((i : Int) + 1) = Run.done (String.mk x.name)) ∧
    ((∀ (i : Nat) (x : BoneDecl), (d :: ds)[i]? = some x → x.idValue = (i : Int) + 1) →
      ∀ (i : Nat) (x : BoneDecl), (d :: ds)[i]? = some x →
        nameAt (Run.done sk) x.idValue = Run.done (String.mk x.name)) := by
  -- the constructor
  unfold Skeleton.load at hload
  obtain ⟨r, hread, h1⟩ := Run.bind_eq_done hload
  obtain ⟨_, _, h2⟩ := Run.bind_eq_done h1
  cases h2
  -- the reader
  have hhead := header_of_description ds (c :: tail) d
  cases fuel with
  | zero => cases hread
  | succ f =>
    rw [readASFFile_after_header K scan blank f _ _ (by rw [hhead]; rfl)] at hread
    obtain ⟨st, hbd, h3⟩ := Run.bind_eq_done hread
    obtain ⟨sk1, hh, h4⟩ := Run.bind_eq_done h3
    cases h4
    rw [hhead] at hbd
    have hbd1 : boneDataLoop K scan scale blank (f + 1)
        ⟨⟨d.fields (renderRecords ds (":hierarchy".data ++ c :: tail)), false, false⟩,
          ":bonedata", "", [rootBone K blank], 1⟩ = Run.done st := by
      rw [← ignoreLine_begin (d.fields (renderRecords ds (":hierarchy".data ++ c :: tail)))]
      exact hbd
    -- the bone-data section
    obtain ⟨f0, hf0⟩ := boneData_first_spec K scan scale blank c tail hc d ds hwf ":bonedata" ""
      [rootBone K blank] 1
    obtain ⟨res, hres, hnames, _⟩ := hf0 f0 (le_refl _)
    have hst : st = res := by
      rcases boneDataLoop_fuel K scan scale blank f0 _ res hres (f + 1) with h | h
      · rw [h] at hbd1; cases hbd1
      · rw [h] at hbd1; cases hbd1; rfl
    subst hst
    -- the hierarchy section and the local directions
    have hk := hierarchyLoop_keeps (f + 1) _ _ _ _ sk1 hh
    have hcd := computeLocalDirection_keeps toLocal sk1
    have hall : (computeLocalDirection toLocal sk1).bones.map (fun b => b.name) =
        "root" :: (d :: ds).map (fun x => String.mk x.name) := by
      rw [hcd.1, hk.1]
      simpa [rootBone] using hnames
    refine ⟨hall, ?_, ?_, ?_⟩
    · exact nameAt_of_names _ _ 0 "root" hall rfl
    · intro i x hx
      have := nameAt_of_names _ _ (i + 1) (String.mk x.name) hall (by
        simp only [List.getElem?_cons_succ, List.getElem?_map, hx, Option.map_some'])
      simpa using this
    · intro hids i x hx
      rw [hids i x hx]
      have := nameAt_of_names _ _ (i + 1) (String.mk x.name) hall (by
        simp only [List.getElem?_cons_succ, List.getElem?_map, hx, Option.map_some'])
      simpa using this

end acclaim

theorem declA_wellFormed : declA.WellFormed scanDemo := by
  refine ⟨by decide, by decide, ⟨by decide, by decide⟩, ?_, ?_, ?_, ?_, ?_, ?_, ?_,
    ⟨⟨by decide, by decide⟩, by decide⟩, ?_⟩
  all_goals first
    | exact ⟨by decide, by decide, by decide⟩
    | (intro line h
       simp only [declA, Option.some.injEq] at h
       subst h
       exact ⟨by decide, by intro a t ht; cases ht; decide⟩)

theorem declB_wellFormed : declB.WellFormed scanDemo := by
  refine ⟨by decide, by decide, ⟨by decide, by decide⟩, ?_, ?_, ?_, ?_, ?_, ?_, ?_,
    ⟨⟨by decide, by decide⟩, by decide⟩, ?_⟩
  all_goals first
    | exact ⟨by decide, by decide, by decide⟩
    | (intro line h; cases h)

namespace acclaim

theorem load_names_follow_file_order_witness :
    (IStream.isSpace '\n' = true ∧ (∀ x ∈ [declA, declB], x.WellFormed scanDemo) ∧
      (Skeleton.load demoKernel scanDemo (fun _ v => v) blankBone 40
        (some (renderDescription [declA, declB] chainHierarchy)) (some 1) 0).returns = true) ∧
    ((Skeleton.load demoKernel scanDemo (fun _ v => v) blankBone 40
        (some (renderDescription [declA, declB] chainHierarchy)) (some 1) 0).getD rootOnly
      ).bones.map (fun b => b.name) = ["root", "a", "b"] :=
  ⟨⟨by decide, by
      intro x hx
      simp only [List.mem_cons, List.mem_singleton, List.not_mem_nil, or_false] at hx
      rcases hx with rfl | rfl
      · exact declA_wellFormed
      · exact declB_wellFormed,
    by decide!⟩,
   (load_names_follow_file_order demoKernel scanDemo (fun _ v => v) blankBone declA [declB] '\n'
      "begin\nroot a\na b\nend\n".data 40 (some 1) 0 _ (by decide)
      (by
        intro x hx
        simp only [List.mem_cons, List.mem_singleton, List.not_mem_nil, or_false] at hx
        rcases hx with rfl | rfl
        · exact declA_wellFormed
        · exact declB_wellFormed)
      (Run.eq_done_of_returns _ rootOnly (by decide!))).1⟩

end acclaim

/-! ## The solve when `J3 J3ᵀ` is invertible -/

namespace kinematics

section FullRank

variable (R : Type) (root : ℚ → ℚ) (rot : R → Vec4 Exact → Vec4 Exact)
  (rotQ : R → Vec4 ℚ → Vec4 ℚ)

theorem exact_foldl_some (l : List ℚ) :
    ∀ acc : ℚ, List.foldl (exactKernel R root rot).add (some acc) (l.map some)
      = some (List.foldl (fun a b => a + b) acc l) := by
  induction l with
  | nil => intro acc; rfl
  | cons a l ih => intro acc; simp only [List.map_cons, List.foldl_cons]; exact ih (acc + a)

theorem exact_sum_some (l : List ℚ) :
    (exactKernel R root rot).sum (l.map some) = some l.sum := by
  rw [List.sum_eq_foldl]
  exact exact_foldl_some R root rot l 0

theorem rat_sum (l : List ℚ) : (ratKernel R root rotQ).sum l = l.sum := by
  simp only [Kernel.sum, ratKernel]
  rw [List.sum_eq_foldl]

theorem topRows3_lift (J : List (Vec4 ℚ)) :
    Matrix4Xd.topRows3 (J.map Vec4.lift) = (Matrix4Xd.topRows3 J).map Vec3.lift := by
  simp only [Matrix4Xd.topRows3, List.map_map]
  rfl

/-- The product `J3 * J3ᵀ` of finite entries is computed exactly. -/
theorem gram_lift (J : List (Vec3 ℚ)) :
    gram (exactKernel R root rot) (J.map Vec3.lift) = (gram (ratKernel R root rotQ) J).lift := by
  have key : ∀ (p q : Vec3 ℚ → ℚ) (p1 q1 : Vec3 Exact → Exact),
      (∀ c, p1 (Vec3.lift c) = some (p c)) → (∀ c, q1 (Vec3.lift c) = some (q c)) →
      (exactKernel R root rot).sum
        ((J.map Vec3.lift).map fun c => (exactKernel R root rot).mul (p1 c) (q1 c)) =
      some ((ratKernel R root rotQ).sum (J.map fun c => (ratKernel R root rotQ).mul (p c) (q c))) := by
    intro p q p1 q1 hp hq
    rw [rat_sum, ← exact_sum_some R root rot, List.map_map, List.map_map]
    congr 1
    apply List.map_congr_left
    intro c _
    simp only [Function.comp, hp, hq]
    rfl
  simp only [gram, Mat3.lift, Vec3.lift]
  rw [key (fun c => c.x) (fun c => c.x) _ _ (fun _ => rfl) (fun _ => rfl),
    key (fun c => c.x) (fun c => c.y) _ _ (fun _ => rfl) (fun _ => rfl),
    key (fun c => c.x) (fun c => c.z) _ _ (fun _ => rfl) (fun _ => rfl),
    key (fun c => c.y) (fun c => c.x) _ _ (fun _ => rfl) (fun _ => rfl),
    key (fun c => c.y) (fun c => c.y) _ _ (fun _ => rfl) (fun _ => rfl),
    key (fun c => c.y) (fun c => c.z) _ _ (fun _ => rfl) (fun _ => rfl),
    key (fun c => c.z) (fun c => c.x) _ _ (fun _ => rfl) (fun _ => rfl),
    key (fun c => c.z) (fun c => c.y) _ _ (fun _ => rfl) (fun _ => rfl),
    key (fun c => c.z) (fun c => c.z) _ _ (fun _ => rfl) (fun _ => rfl)]

/-- With a determinant that is not zero the inverse of finite entries is computed exactly. -/
theorem inverse3_lift (G : Mat3 ℚ) (hdet : det3 (ratKernel R root rotQ) G ≠ 0) :
    inverse3 (exactKernel R root rot) G.lift = (inverse3 (ratKernel R root rotQ) G).lift := by
  have hd : det3 (exactKernel R root rot) G.lift = some (det3 (ratKernel R root rotQ) G) := rfl
  have hinv : (exactKernel R root rot).div ((exactKernel R root rot).lit 1)
      (det3 (exactKernel R root rot) G.lift) = some (1 / det3 (ratKernel R root rotQ) G) := by
    rw [hd]
    simp only [exactKernel, hdet, if_false]
  simp only [inverse3, hinv]
  rfl

/-- With a zero determinant every entry of the inverse is not a finite number. -/
theorem inverse3_singular (G : Mat3 ℚ) (hdet : det3 (ratKernel R root rotQ) G = 0) :
    inverse3 (exactKernel R root rot) G.lift = ⟨⟨none, none, none⟩, ⟨none, none, none⟩,
      ⟨none, none, none⟩⟩ := by
  have hd : det3 (exactKernel R root rot) G.lift = some (det3 (ratKernel R root rotQ) G) := rfl
  have hinv : (exactKernel R root rot).div ((exactKernel R root rot).lit 1)
      (det3 (exactKernel R root rot) G.lift) = none := by
    rw [hd]
    simp only [exactKernel, hdet, if_true]
  simp only [inverse3, hinv]
  rfl

theorem transposeMul_lift (J : List (Vec3 ℚ)) (M : Mat3 ℚ) :
    transposeMul (exactKernel R root rot) (J.map Vec3.lift) M.lift =
      (transposeMul (ratKernel R root rotQ) J M).map Vec3.lift := by
  simp only [transposeMul, List.map_map]
  rfl

/-- For finite entries and a determinant of `J3 * J3ᵀ` that is not zero, the solve in the
exact model is the solve over the rationals. -/
theorem pseudoInverse_lift (J : List (Vec4 ℚ)) (t : Vec4 ℚ)
    (hdet : det3 (ratKernel R root rotQ) (gram (ratKernel R root rotQ) (Matrix4Xd.topRows3 J))
      ≠ 0) :
    pseudoInverseLinearSolver (exactKernel R root rot) (J.map Vec4.lift) t.lift =
      (pseudoInverseLinearSolver (ratKernel R root rotQ) J t).map some := by
  simp only [pseudoInverseLinearSolver, topRows3_lift, gram_lift R root rot rotQ,
    inverse3_lift R root rot rotQ _ hdet, transposeMul_lift R root rot rotQ, List.map_map]
  rfl

end FullRank

end kinematics

namespace kinematics

section Algebra

variable (R : Type) (root : ℚ → ℚ) (rotQ : R → Vec4 ℚ → Vec4 ℚ)

/-- The matrix the cofactor formula returns is a right inverse when the determinant is not
zero: `G (G⁻¹ t) = t`. -/
theorem inverse3_right (G : Mat3 ℚ) (t : Vec3 ℚ) (hdet : det3 (ratKernel R root rotQ) G ≠ 0) :
    G.r0.x * ((inverse3 (ratKernel R root rotQ) G).r0.x * t.x
        + (inverse3 (ratKernel R root rotQ) G).r0.y * t.y
        + (inverse3 (ratKernel R root rotQ) G).r0.z * t.z)
      + G.r0.y * ((inverse3 (ratKernel R root rotQ) G).r1.x * t.x
        + (inverse3 (ratKernel R root rotQ) G).r1.y * t.y
        + (inverse3 (ratKernel R root rotQ) G).r1.z * t.z)
      + G.r0.z * ((inverse3 (ratKernel R root rotQ) G).r2.x * t.x
        + (inverse3 (ratKernel R root rotQ) G).r2.y * t.y
        + (inverse3 (ratKernel R root rotQ) G).r2.z * t.z) = t.x ∧
    G.r1.x * ((inverse3 (ratKernel R root rotQ) G).r0.x * t.x
        + (inverse3 (ratKernel R root rotQ) G).r0.y * t.y
        + (inverse3 (ratKernel R root rotQ) G).r0.z * t.z)
      + G.r1.y * ((inverse3 (ratKernel R root rotQ) G).r1.x * t.x
        + (inverse3 (ratKernel R root rotQ) G).r1.y * t.y
        + (inverse3 (ratKernel R root rotQ) G).r1.z * t.z)
      + G.r1.z * ((inverse3 (ratKernel R root rotQ) G).r2.x * t.x
        + (inverse3 (ratKernel R root rotQ) G).r2.y * t.y
        + (inverse3 (ratKernel R root rotQ) G).r2.z * t.z) = t.y ∧
    G.r2.x * ((inverse3 (ratKernel R root rotQ) G).r0.x * t.x
        + (inverse3 (ratKernel R root rotQ) G).r0.y * t.y
        + (inverse3 (ratKernel R root rotQ) G).r0.z * t.z)
      + G.r2.y * ((inverse3 (ratKernel R root rotQ) G).r1.x * t.x
        + (inverse3 (ratKernel R root rotQ) G).r1.y * t.y
        + (inverse3 (ratKernel R root rotQ) G).r1.z * t.z)
      + G.r2.z * ((inverse3 (ratKernel R root rotQ) G).r2.x * t.x
        + (inverse3 (ratKernel R root rotQ) G).r2.y * t.y
        + (inverse3 (ratKernel R root rotQ) G).r2.z * t.z) = t.z := by
  obtain ⟨⟨a, b, c⟩, ⟨d, e, f⟩, ⟨g, h, i⟩⟩ := G
  obtain ⟨t1, t2, t3⟩ := t
  simp only [det3, ratKernel] at hdet
  simp only [inverse3, det3, ratKernel]
  refine ⟨?_, ?_, ?_⟩
  · field_simp
    ring
  · field_simp
    ring
  · field_simp
    ring

end Algebra

end kinematics

namespace kinematics

section LeastSquares

variable (R : Type) (root : ℚ → ℚ) (rotQ : R → Vec4 ℚ → Vec4 ℚ)

theorem gram_entries (J : List (Vec4 ℚ)) :
    gram (ratKernel R root rotQ) (Matrix4Xd.topRows3 J) =
      ⟨⟨(J.map fun c => c.x * c.x).sum, (J.map fun c => c.x * c.y).sum,
        (J.map fun c => c.x * c.z).sum⟩,
       ⟨(J.map fun c => c.y * c.x).sum, (J.map fun c => c.y * c.y).sum,
        (J.map fun c => c.y * c.z).sum⟩,
       ⟨(J.map fun c => c.z * c.x).sum, (J.map fun c => c.z * c.y).sum,
        (J.map fun c => c.z * c.z).sum⟩⟩ := by
  simp only [gram, rat_sum, Matrix4Xd.topRows3, List.map_map]
  rfl

/-- The solve over the rationals: coefficient `j` is the `j`-th column of `J3` dotted with
`w = (J3 J3ᵀ)⁻¹ t3`. -/
theorem solver_as_dot (J : List (Vec4 ℚ)) (t : Vec4 ℚ) :
    pseudoInverseLinearSolver (ratKernel R root rotQ) J t =
      J.map (fun c =>
        c.x * (Mat3.mulVec (inverse3 (ratKernel R root rotQ)
            (gram (ratKernel R root rotQ) (Matrix4Xd.topRows3 J))) t.head3).x
        + c.y * (Mat3.mulVec (inverse3 (ratKernel R root rotQ)
            (gram (ratKernel R root rotQ) (Matrix4Xd.topRows3 J))) t.head3).y
        + c.z * (Mat3.mulVec (inverse3 (ratKernel R root rotQ)
            (gram (ratKernel R root rotQ) (Matrix4Xd.topRows3 J))) t.head3).z) := by
  simp only [pseudoInverseLinearSolver, transposeMul, Matrix4Xd.topRows3, List.map_map]
  apply List.map_congr_left
  intro c _
  simp only [Function.comp, Kernel.dot3, ratKernel, Mat3.mulVec, Vec4.head3]
  ring

theorem zipWith_map_self (f : Vec4 ℚ → ℚ → ℚ) (g : Vec4 ℚ → ℚ) (J : List (Vec4 ℚ)) :
    List.zipWith f J (J.map g) = J.map (fun c => f c (g c)) := by
  induction J with
  | nil => rfl
  | cons c J ih => simp only [List.map_cons, List.zipWith_cons_cons, ih]

theorem sum_mul_dot (p : Vec4 ℚ → ℚ) (w : Vec3 ℚ) (J : List (Vec4 ℚ)) :
    (J.map fun c => p c * (c.x * w.x + c.y * w.y + c.z * w.z)).sum =
      (J.map fun c => p c * c.x).sum * w.x + (J.map fun c => p c * c.y).sum * w.y
        + (J.map fun c => p c * c.z).sum * w.z := by
  induction J with
  | nil => simp
  | cons c J ih =>
    simp only [List.map_cons, List.sum_cons, ih]
    ring

/-- The product `J3 * x` for the coefficients `x_j = column_j · w` is `(J3 J3ᵀ) w`. -/
theorem applyTop3_dot (J : List (Vec4 ℚ)) (w : Vec3 ℚ) :
    applyTop3 J (J.map fun c => c.x * w.x + c.y * w.y + c.z * w.z) =
      Mat3.mulVec (gram (ratKernel R root rotQ) (Matrix4Xd.topRows3 J)) w := by
  rw [gram_entries]
  simp only [applyTop3, zipWith_map_self, sum_mul_dot, Mat3.mulVec]

/-- The sum of `x_j * y_j` for the coefficients `x_j = column_j · w` is `w · (J3 * y)`. -/
theorem cross_dot (w : Vec3 ℚ) (J : List (Vec4 ℚ)) :
    ∀ y : List ℚ,
      (List.zipWith (fun a b => a * b) (J.map fun c => c.x * w.x + c.y * w.y + c.z * w.z) y).sum
        = w.x * (applyTop3 J y).x + w.y * (applyTop3 J y).y + w.z * (applyTop3 J y).z := by
  induction J with
  | nil => intro y; simp [applyTop3]
  | cons c J ih =>
    intro y
    cases y with
    | nil => simp [applyTop3]
    | cons a y =>
      have h := ih y
      simp only [applyTop3] at h ⊢
      simp only [List.map_cons, List.zipWith_cons_cons, List.sum_cons, h]
      ring

theorem normSq_expand :
    ∀ x y : List ℚ, x.length = y.length →
      normSq y = normSq x
        + 2 * ((List.zipWith (fun a b => a * b) x y).sum
            - (List.zipWith (fun a b => a * b) x x).sum)
        + (List.zipWith (fun a b => (b - a) ^ 2) x y).sum := by
  intro x
  induction x with
  | nil =>
    intro y hy
    cases y with
    | nil => simp [normSq]
    | cons b y => cases hy
  | cons a x ih =>
    intro y hy
    cases y with
    | nil => cases hy
    | cons b y =>
      have h := ih y (by simpa using hy)
      simp only [normSq] at h ⊢
      simp only [List.map_cons, List.zipWith_cons_cons, List.sum_cons, h]
      ring

theorem sqdist_nonneg :
    ∀ x y : List ℚ, 0 ≤ (List.zipWith (fun a b => (b - a) ^ 2) x y).sum := by
  intro x
  induction x with
  | nil => intro y; simp
  | cons a x ih =>
    intro y
    cases y with
    | nil => simp
    | cons b y =>
      simp only [List.zipWith_cons_cons, List.sum_cons]
      have := ih y
      positivity

theorem residualSq_nonneg (J : List (Vec4 ℚ)) (t : Vec4 ℚ) (y : List ℚ) :
    0 ≤ residualSq J t y := by
  unfold residualSq
  positivity

theorem residualSq_zero (J : List (Vec4 ℚ)) (t : Vec4 ℚ) (y : List ℚ)
    (h : residualSq J t y ≤ 0) :
    (applyTop3 J y).x = t.x ∧ (applyTop3 J y).y = t.y ∧ (applyTop3 J y).z = t.z := by
  unfold residualSq at h
  have h1 := sq_nonneg ((applyTop3 J y).x - t.x)
  have h2 := sq_nonneg ((applyTop3 J y).y - t.y)
  have h3 := sq_nonneg ((applyTop3 J y).z - t.z)
  refine ⟨?_, ?_, ?_⟩
  · have : ((applyTop3 J y).x - t.x) ^ 2 = 0 := by linarith
    have := pow_eq_zero_iff (two_ne_zero) |>.mp this
    linarith
  · have : ((applyTop3 J y).y - t.y) ^ 2 = 0 := by linarith
    have := pow_eq_zero_iff (two_ne_zero) |>.mp this
    linarith
  · have : ((applyTop3 J y).z - t.z) ^ 2 = 0 := by linarith
    have := pow_eq_zero_iff (two_ne_zero) |>.mp this
    linarith

/-- When `J3 J3ᵀ` is invertible, the solve over the rationals returns the minimum-norm
vector that minimizes `|J3 x - t3|`; it solves `J3 x = t3` exactly. -/
theorem pseudoInverse_minNorm (J : List (Vec4 ℚ)) (t : Vec4 ℚ)
    (hdet : det3 (ratKernel R root rotQ) (gram (ratKernel R root rotQ) (Matrix4Xd.topRows3 J))
      ≠ 0) :
    IsMinNormLeastSquares J t (pseudoInverseLinearSolver (ratKernel R root rotQ) J t) := by
  have hx := solver_as_dot R root rotQ J t
  have hright := inverse3_right R root rotQ _ t.head3 hdet
  have happly := applyTop3_dot R root rotQ J
    (Mat3.mulVec (inverse3 (ratKernel R root rotQ)
      (gram (ratKernel R root rotQ) (Matrix4Xd.topRows3 J))) t.head3)
  rw [← hx] at happly
  have hsolve : (applyTop3 J (pseudoInverseLinearSolver (ratKernel R root rotQ) J t)).x = t.x ∧
      (applyTop3 J (pseudoInverseLinearSolver (ratKernel R root rotQ) J t)).y = t.y ∧
      (applyTop3 J (pseudoInverseLinearSolver (ratKernel R root rotQ) J t)).z = t.z := by
    rw [happly]
    simp only [Mat3.mulVec, Vec4.head3] at hright ⊢
    exact hright
  have hres : residualSq J t (pseudoInverseLinearSolver (ratKernel R root rotQ) J t) = 0 := by
    unfold residualSq
    rw [hsolve.1, hsolve.2.1, hsolve.2.2]
    ring
  refine ⟨by rw [hx, List.length_map], ?_, ?_⟩
  · intro y _
    rw [hres]
    exact residualSq_nonneg J t y
  · intro y hy hle
    rw [hres] at hle
    obtain ⟨y1, y2, y3⟩ := residualSq_zero J t y hle
    have hlen : (pseudoInverseLinearSolver (ratKernel R root rotQ) J t).length = y.length := by
      rw [hx, List.length_map, hy]
    have hexp := normSq_expand _ y hlen
    have hc1 := cross_dot (Mat3.mulVec (inverse3 (ratKernel R root rotQ)
      (gram (ratKernel R root rotQ) (Matrix4Xd.topRows3 J))) t.head3) J y
    have hc2 := cross_dot (Mat3.mulVec (inverse3 (ratKernel R root rotQ)
      (gram (ratKernel R root rotQ) (Matrix4Xd.topRows3 J))) t.head3) J
      (pseudoInverseLinearSolver (ratKernel R root rotQ) J t)
    rw [← hx] at hc1 hc2
    rw [y1, y2, y3] at hc1
    rw [hsolve.1, hsolve.2.1, hsolve.2.2] at hc2
    rw [hexp, hc1, hc2]
    have := sqdist_nonneg (pseudoInverseLinearSolver (ratKernel R root rotQ) J t) y
    linarith

end LeastSquares

end kinematics

namespace kinematics

section FullRankSolve

variable (R : Type) (root : ℚ → ℚ) (rot : R → Vec4 Exact → Vec4 Exact)

theorem gramDet_eq (rotQ : R → Vec4 ℚ → Vec4 ℚ) (J : List (Vec4 ℚ)) :
    det3 (ratKernel R root rotQ) (gram (ratKernel R root rotQ) (Matrix4Xd.topRows3 J))
      = gramDet J := by
  simp only [gramDet, gram_entries]
  rfl

/-- When `J3 J3ᵀ` is invertible, the solve in the exact model returns finite coefficients,
and they are the minimum-norm vector that minimizes `|J3 x - t3|`. -/
theorem pseudoInverse_full_rank (J : List (Vec4 ℚ)) (t : Vec4 ℚ) (hdet : gramDet J ≠ 0) :
    ∃ x : List ℚ,
      pseudoInverseLinearSolver (exactKernel R root rot) (J.map Vec4.lift) t.lift = x.map some ∧
      IsMinNormLeastSquares J t x := by
  have h : det3 (ratKernel R root (fun _ v => v))
      (gram (ratKernel R root (fun _ v => v)) (Matrix4Xd.topRows3 J)) ≠ 0 := by
    rw [gramDet_eq]
    exact hdet
  exact ⟨_, pseudoInverse_lift R root rot (fun _ v => v) J t h,
    pseudoInverse_minNorm R root (fun _ v => v) J t h⟩

theorem pseudoInverse_full_rank_witness :
    gramDet [⟨1, 0, 0, 0⟩, ⟨0, 1, 0, 0⟩, ⟨0, 0, 1, 0⟩] ≠ 0 ∧
    ∃ x : List ℚ,
      pseudoInverseLinearSolver demoKernel
        (([⟨1, 0, 0, 0⟩, ⟨0, 1, 0, 0⟩, ⟨0, 0, 1, 0⟩] : List (Vec4 ℚ)).map Vec4.lift)
        (Vec4.lift ⟨1, 2, 3, 0⟩) = x.map some ∧
      IsMinNormLeastSquares [⟨1, 0, 0, 0⟩, ⟨0, 1, 0, 0⟩, ⟨0, 0, 1, 0⟩] ⟨1, 2, 3, 0⟩ x :=
  ⟨by decide!, pseudoInverse_full_rank Unit floorRoot (fun _ v => v)
    [⟨1, 0, 0, 0⟩, ⟨0, 1, 0, 0⟩, ⟨0, 0, 1, 0⟩] ⟨1, 2, 3, 0⟩ (by decide!)⟩

end FullRankSolve

end kinematics

namespace kinematics

/-- The solve reads only the top three rows of the Jacobian and the first three components
of the target: replacing every fourth coefficient leaves the result unchanged. -/
theorem pseudoInverse_ignores_fourth {S R : Type} (K : Kernel S R) (J : Matrix4Xd S)
    (t : Vec4 S) (f : Vec4 S → S) (b : S) :
    pseudoInverseLinearSolver K (J.map fun c => ⟨c.x, c.y, c.z, f c⟩) ⟨t.x, t.y, t.z, b⟩
      = pseudoInverseLinearSolver K J t := by
  have h : Matrix4Xd.topRows3 (J.map fun c => (⟨c.x, c.y, c.z, f c⟩ : Vec4 S))
      = Matrix4Xd.topRows3 J := by
    simp only [Matrix4Xd.topRows3, List.map_map]
    rfl
  simp only [pseudoInverseLinearSolver, h]
  rfl

end kinematics

namespace kinematics
open acclaim

theorem reposed_refl {S R : Type} (sk : Skeleton S R) : Reposed sk sk :=
  ⟨rfl, rfl, fun _ b h => ⟨⟨b.rotation, b.start_position, b.end_position⟩, h⟩⟩

theorem reposed_forward {S R : Type} (fk : ForwardMap S R) (posture : Posture S)
    (sk : Skeleton S R) (root_bone : Ptr) : Reposed sk (forwardSolver fk posture sk root_bone) := by
  refine ⟨rfl, by simp [forwardSolver], fun i b h => ⟨fk posture sk.bones root_bone.pos i, ?_⟩⟩
  simp only [forwardSolver, List.getElem?_mapIdx, h, Option.map_some']

theorem reposed_trans {S R : Type} (sk sk1 sk2 : Skeleton S R) (h1 : Reposed sk sk1)
    (h2 : Reposed sk1 sk2) : Reposed sk sk2 := by
  refine ⟨h2.1.trans h1.1, h2.2.1.trans h1.2.1, fun i b h => ?_⟩
  obtain ⟨t, ht⟩ := h1.2.2 i b h
  obtain ⟨t2, ht2⟩ := h2.2.2 i _ ht
  exact ⟨t2, ht2⟩

theorem derefOpt_cases {S R : Type} (sk : Skeleton S R) (p : Option Ptr) :
    (∃ q b, p = some q ∧ q.store = sk.store ∧ sk.bones[q.pos]? = some b ∧
      sk.derefOpt p = Run.done b) ∨ sk.derefOpt p = Run.fault := by
  cases p with
  | none => exact Or.inr rfl
  | some q =>
    simp only [Skeleton.derefOpt, Skeleton.deref]
    by_cases hs : q.store = sk.store
    · rw [if_pos hs]
      cases hb : sk.bones[q.pos]? with
      | none => exact Or.inr rfl
      | some b => exact Or.inl ⟨q, b, rfl, hs, hb, rfl⟩
    · rw [if_neg hs]
      exact Or.inr rfl

theorem reposed_derefOpt {S R : Type} (sk sk1 : Skeleton S R) (h : Reposed sk sk1)
    (p : Option Ptr) :
    (∃ b t, sk.derefOpt p = Run.done b ∧ sk1.derefOpt p = Run.done (setTransient b t)) ∨
    (sk.derefOpt p = Run.fault ∧ sk1.derefOpt p = Run.fault) := by
  cases p with
  | none => exact Or.inr ⟨rfl, rfl⟩
  | some q =>
    by_cases hs : q.store = sk.store
    · cases hb : sk.bones[q.pos]? with
      | none =>
        have hb1 : sk1.bones[q.pos]? = none := by
          rw [List.getElem?_eq_none_iff] at hb ⊢
          rw [h.2.1]
          exact hb
        refine Or.inr ⟨?_, ?_⟩
        · simp only [Skeleton.derefOpt, Skeleton.deref, if_pos hs, hb]
        · simp only [Skeleton.derefOpt, Skeleton.deref, h.1, if_pos hs, hb1]
      | some b =>
        obtain ⟨t, ht⟩ := h.2.2 q.pos b hb
        refine Or.inl ⟨b, t, ?_, ?_⟩
        · simp only [Skeleton.derefOpt, Skeleton.deref, if_pos hs, hb]
        · simp only [Skeleton.derefOpt, Skeleton.deref, h.1, if_pos hs, ht]
    · refine Or.inr ⟨?_, ?_⟩
      · simp only [Skeleton.derefOpt, Skeleton.deref, if_neg hs]
      · simp only [Skeleton.derefOpt, Skeleton.deref, h.1, if_neg hs]

theorem reposed_climb {S R : Type} (sk sk1 : Skeleton S R) (h : Reposed sk sk1) :
    ∀ (k : Nat) (temp : Option Ptr), sk1.climb k temp = sk.climb k temp := by
  intro k
  induction k with
  | zero => intro temp; rfl
  | succ k ih =>
    intro temp
    rcases reposed_derefOpt sk sk1 h temp with ⟨b, t, hb, hb1⟩ | ⟨hb, hb1⟩
    · simp only [Skeleton.climb, hb, hb1]
      exact ih b.parent
    · simp only [Skeleton.climb, hb, hb1]

theorem reposed_indexed {S R : Type} (sk sk1 : Skeleton S R) (h : Reposed sk sk1)
    (hI : sk.Indexed) : sk1.Indexed := by
  intro i b1 hb1
  have hlt : i < sk.bones.length := by
    rw [← h.2.1]
    by_contra hc
    rw [List.getElem?_eq_none (by omega)] at hb1
    cases hb1
  obtain ⟨t, ht⟩ := h.2.2 i sk.bones[i] (List.getElem?_eq_getElem hlt)
  rw [ht] at hb1
  cases hb1
  exact hI i sk.bones[i] (List.getElem?_eq_getElem hlt)

theorem afterIterations_reposed {S R : Type} (K : Kernel S R) (fk : ForwardMap S R) (t : Vec4 S)
    (root_bone end_bone : Ptr) (n : Nat) :
    ∀ (k : Nat) (st st1 : Skeleton S R × Posture S),
      afterIterations K fk t root_bone end_bone n k st = Run.done st1 → Reposed st.1 st1.1 := by
  intro k
  induction k with
  | zero =>
    intro st st1 h
    cases h
    exact reposed_refl _
  | succ k ih =>
    intro st st1 h
    unfold afterIterations at h
    obtain ⟨st2, h2, h3⟩ := Run.bind_eq_done h
    have := ih st2 st1 h3
    rw [ikStep_skeleton K fk t root_bone end_bone n st st2 h2] at this
    exact reposed_trans _ _ _ (reposed_forward fk st.2 st.1 root_bone) this

/-- The columns `jacobianColumns` writes: the three columns of the bone, each only when its
DOF flag is set; every other column is left as it was. -/
theorem jacobianColumns_get {S R : Type} (K : Kernel S R) (t : Vec4 S) (b : Bone S R)
    (c : Nat) (J : Matrix4Xd S) (hc : c + 2 < J.length) :
    (∀ j, j ≠ c → j ≠ c + 1 → j ≠ c + 2 → (jacobianColumns K t b c J)[j]? = J[j]?) ∧
    (jacobianColumns K t b c J)[c]? =
      (if b.dofrx then
        some (K.cross3 (K.normalized4 (K.rotate b.rotation ⟨K.lit 1, K.lit 0, K.lit 0, K.lit 0⟩))
          (K.sub4 t b.start_position))
       else J[c]?) ∧
    (jacobianColumns K t b c J)[c + 1]? =
      (if b.dofry then
        some (K.cross3 (K.normalized4 (K.rotate b.rotation ⟨K.lit 0, K.lit 1, K.lit 0, K.lit 0⟩))
          (K.sub4 t b.start_position))
       else J[c + 1]?) ∧
    (jacobianColumns K t b c J)[c + 2]? =
      (if b.dofrz then
        some (K.cross3 (K.normalized4 (K.rotate b.rotation ⟨K.lit 0, K.lit 0, K.lit 1, K.lit 0⟩))
          (K.sub4 t b.start_position))
       else J[c + 2]?) := by
  have h0 : c < J.length := by omega
  have h1 : c + 1 < J.length := by omega
  unfold jacobianColumns
  simp only [Matrix4Xd.setCol, Nat.add_zero]
  refine ⟨?_, ?_, ?_, ?_⟩
  · intro j j0 j1 j2
    split_ifs <;> simp [List.getElem?_set, Ne.symm j0, Ne.symm j1, Ne.symm j2]
  · split_ifs <;> simp [List.getElem?_set, h0]
  · split_ifs <;> simp [List.getElem?_set, h1]
  · split_ifs <;> simp [List.getElem?_set, hc]

end kinematics

namespace kinematics
open acclaim

/-- The columns of the Jacobian after the filling loop: the bone read at step `j` accounts
for the columns `(i + j) * 3 + a`, each written only when the DOF flag of the axis is set;
the columns outside the range of the loop are left as they were. -/
theorem jacobianLoop_columns {S R : Type} (K : Kernel S R) (sk : Skeleton S R) (t : Vec4 S) :
    ∀ (n i : Nat) (temp : Option Ptr) (J J1 : Matrix4Xd S), (i + n) * 3 ≤ J.length →
      jacobianLoop K sk t n i temp J = Run.done J1 →
      (∀ c, c < i * 3 ∨ (i + n) * 3 ≤ c → J1[c]? = J[c]?) ∧
      ∀ j, j < n → ∃ b, sk.derefOpt (sk.climb j temp) = Run.done b ∧
        J1[(i + j) * 3]? =
          (if b.dofrx then
            some (K.cross3
              (K.normalized4 (K.rotate b.rotation ⟨K.lit 1, K.lit 0, K.lit 0, K.lit 0⟩))
              (K.sub4 t b.start_position))
           else J[(i + j) * 3]?) ∧
        J1[(i + j) * 3 + 1]? =
          (if b.dofry then
            some (K.cross3
              (K.normalized4 (K.rotate b.rotation ⟨K.lit 0, K.lit 1, K.lit 0, K.lit 0⟩))
              (K.sub4 t b.start_position))
           else J[(i + j) * 3 + 1]?) ∧
        J1[(i + j) * 3 + 2]? =
          (if b.dofrz then
            some (K.cross3
              (K.normalized4 (K.rotate b.rotation ⟨K.lit 0, K.lit 0, K.lit 1, K.lit 0⟩))
              (K.sub4 t b.start_position))
           else J[(i + j) * 3 + 2]?) := by
  intro n
  induction n with
  | zero =>
    intro i temp J J1 _ h
    cases h
    exact ⟨fun _ _ => rfl, fun j hj => absurd hj (Nat.not_lt_zero j)⟩
  | succ n ih =>
    intro i temp J J1 hlen h
    unfold jacobianLoop at h
    obtain ⟨b, hb, hrest⟩ := Run.bind_eq_done h
    have hcols := jacobianColumns_get K t b (i * 3) J (by omega)
    obtain ⟨hout, hin⟩ := ih (i + 1) b.parent (jacobianColumns K t b (i * 3) J) J1
      (by rw [jacobianColumns_length]; omega) hrest
    refine ⟨?_, ?_⟩
    · intro c hc
      rw [hout c (by omega)]
      exact hcols.1 c (by omega) (by omega) (by omega)
    · intro j hj
      cases j with
      | zero =>
        refine ⟨b, hb, ?_, ?_, ?_⟩
        · rw [Nat.add_zero, hout _ (by omega)]
          exact hcols.2.1
        · rw [Nat.add_zero, hout _ (by omega)]
          exact hcols.2.2.1
        · rw [Nat.add_zero, hout _ (by omega)]
          exact hcols.2.2.2
      | succ j =>
        obtain ⟨b1, hb1, hx, hy, hz⟩ := hin j (by omega)
        have e : i + (j + 1) = i + 1 + j := by omega
        refine ⟨b1, ?_, ?_, ?_, ?_⟩
        · rw [climb_succ sk j temp b hb]
          exact hb1
        · rw [e, hx, hcols.1 _ (by omega) (by omega) (by omega)]
        · rw [e, hy, hcols.1 _ (by omega) (by omega) (by omega)]
        · rw [e, hz, hcols.1 _ (by omega) (by omega) (by omega)]

theorem zero_get {S R : Type} (K : Kernel S R) (n c : Nat) (h : c < n) :
    (Matrix4Xd.zero K n)[c]? = some K.zero4 := by
  simp [Matrix4Xd.zero, List.getElem?_replicate, h]

/-- The columns of the Jacobian of one iteration: column `3 * k + a` is the cross product
for the bone read at step `k` when the DOF flag of axis `a` is set, and zero otherwise. -/
theorem buildJacobian_columns {S R : Type} (K : Kernel S R) (sk : Skeleton S R) (t : Vec4 S)
    (end_bone : Ptr) (N : Nat) (J : Matrix4Xd S)
    (h : buildJacobian K sk t end_bone N = Run.done J) :
    ∀ k, k < N → ∃ b, sk.derefOpt (sk.climb k (some end_bone)) = Run.done b ∧
      J[3 * k]? =
        (if b.dofrx then
          some (K.cross3
            (K.normalized4 (K.rotate b.rotation ⟨K.lit 1, K.lit 0, K.lit 0, K.lit 0⟩))
            (K.sub4 t b.start_position))
         else some K.zero4) ∧
      J[3 * k + 1]? =
        (if b.dofry then
          some (K.cross3
            (K.normalized4 (K.rotate b.rotation ⟨K.lit 0, K.lit 1, K.lit 0, K.lit 0⟩))
            (K.sub4 t b.start_position))
         else some K.zero4) ∧
      J[3 * k + 2]? =
        (if b.dofrz then
          some (K.cross3
            (K.normalized4 (K.rotate b.rotation ⟨K.lit 0, K.lit 0, K.lit 1, K.lit 0⟩))
            (K.sub4 t b.start_position))
         else some K.zero4) := by
  intro k hk
  unfold buildJacobian at h
  obtain ⟨_, hin⟩ := jacobianLoop_columns K sk t N 0 (some end_bone) _ J
    (by rw [jacobian_zero_length]; omega) h
  obtain ⟨b, hb, hx, hy, hz⟩ := hin k hk
  have e : (0 + k) * 3 = 3 * k := by omega
  rw [e] at hx hy hz
  rw [zero_get K _ _ (by omega)] at hx hy hz
  exact ⟨b, hb, hx, hy, hz⟩

theorem coeff_eq_done {S : Type} (v : VectorXd S) (k : Nat) (a : S)
    (h : coeff v k = Run.done a) : v[k]? = some a := by
  unfold coeff at h
  cases hv : v[k]? with
  | none => rw [hv] at h; cases h
  | some b => rw [hv] at h; cases h; rfl

theorem addRotation_eq_done {S R : Type} (K : Kernel S R) (posture p1 : Posture S) (idx : Int)
    (d : Vec4 S) (h : posture.addRotation K idx d = Run.done p1) :
    0 ≤ idx ∧ ∃ r, posture.bone_rotations[idx.toNat]? = some r ∧
      p1 = { posture with bone_rotations := posture.bone_rotations.set idx.toNat (K.add4 r d) } := by
  unfold Posture.addRotation at h
  by_cases h0 : 0 ≤ idx
  · rw [if_pos h0] at h
    cases hr : posture.bone_rotations[idx.toNat]? with
    | none => rw [hr] at h; cases h
    | some r => rw [hr] at h; cases h; exact ⟨h0, r, rfl, rfl⟩
  · rw [if_neg h0] at h
    cases h

/-- The rotation entries after the update loop.  An entry at a position that no bone of the
walk has as its `idx` keeps its value; the entry of the bone read at step `j`, when no other
bone of the walk shares its `idx`, has the converted coefficients `(i + j) * 3 + a` added. -/
theorem updateLoop_entries {S R : Type} (K : Kernel S R) (sk : Skeleton S R)
    (dt : VectorXd S) :
    ∀ (n i : Nat) (temp : Option Ptr) (posture p1 : Posture S),
      updateLoop K sk dt n i temp posture = Run.done p1 →
      p1.bone_translations = posture.bone_translations ∧
      p1.bone_rotations.length = posture.bone_rotations.length ∧
      (∀ q : Nat, (∀ j, j < n → ∀ b, sk.derefOpt (sk.climb j temp) = Run.done b →
          b.idx ≠ (q : Int)) → p1.bone_rotations[q]? = posture.bone_rotations[q]?) ∧
      ∀ j, j < n → ∃ b d0 d1 d2, sk.derefOpt (sk.climb j temp) = Run.done b ∧
        0 ≤ b.idx ∧
        dt[(i + j) * 3]? = some d0 ∧ dt[(i + j) * 3 + 1]? = some d1 ∧
        dt[(i + j) * 3 + 2]? = some d2 ∧
        ((∀ j1, j1 < n → j1 ≠ j → ∀ b1, sk.derefOpt (sk.climb j1 temp) = Run.done b1 →
            b1.idx ≠ b.idx) →
          ∃ r, posture.bone_rotations[b.idx.toNat]? = some r ∧
            p1.bone_rotations[b.idx.toNat]? = some (K.add4 r
              ⟨K.mul d0 (K.div (K.lit 180) (M_PI K)), K.mul d1 (K.div (K.lit 180) (M_PI K)),
               K.mul d2 (K.div (K.lit 180) (M_PI K)), K.lit 0⟩)) := by
  intro n
  induction n with
  | zero =>
    intro i temp posture p1 h
    cases h
    exact ⟨rfl, rfl, fun _ _ => rfl, fun j hj => absurd hj (Nat.not_lt_zero j)⟩
  | succ n ih =>
    intro i temp posture p1 h
    unfold updateLoop at h
    obtain ⟨b, hb, h1⟩ := Run.bind_eq_done h
    obtain ⟨d0, hd0, h2⟩ := Run.bind_eq_done h1
    obtain ⟨d1, hd1, h3⟩ := Run.bind_eq_done h2
    obtain ⟨d2, hd2, h4⟩ := Run.bind_eq_done h3
    obtain ⟨posture1, hp, hrest⟩ := Run.bind_eq_done h4
    obtain ⟨h0, r, hr, hp1⟩ := addRotation_eq_done K posture posture1 b.idx _ hp
    obtain ⟨htr, hlen, hframe, hent⟩ := ih (i + 1) b.parent posture1 p1 hrest
    have hcl : ∀ j, sk.climb (j + 1) temp = sk.climb j b.parent :=
      fun j => climb_succ sk j temp b hb
    have hlt : b.idx.toNat < posture.bone_rotations.length := by
      by_contra hc
      rw [List.getElem?_eq_none (by omega)] at hr
      cases hr
    have hset : ∀ q : Nat, b.idx ≠ (q : Int) →
        posture1.bone_rotations[q]? = posture.bone_rotations[q]? := by
      intro q hq
      rw [hp1]
      simp only
      rw [List.getElem?_set_ne]
      intro hc
      apply hq
      rw [← hc]
      exact (Int.toNat_of_nonneg h0).symm
    refine ⟨?_, ?_, ?_, ?_⟩
    · rw [htr, hp1]
    · rw [hlen, hp1]
      simp
    · intro q hq
      rw [hframe q (fun j hj b1 hb1 => hq (j + 1) (by omega) b1 (by rw [hcl]; exact hb1))]
      exact hset q (hq 0 (by omega) b hb)
    · intro j hj
      cases j with
      | zero =>
        refine ⟨b, d0, d1, d2, hb, h0, ?_, ?_, ?_, ?_⟩
        · exact coeff_eq_done _ _ _ hd0
        · exact coeff_eq_done _ _ _ hd1
        · exact coeff_eq_done _ _ _ hd2
        · intro hdis
          refine ⟨r, hr, ?_⟩
          rw [hframe b.idx.toNat (fun j hj b1 hb1 => by
            rw [Int.toNat_of_nonneg h0]
            exact hdis (j + 1) (by omega) (by omega) b1 (by rw [hcl]; exact hb1))]
          rw [hp1]
          simp only
          rw [List.getElem?_set_self hlt]
      | succ j =>
        obtain ⟨b1, e0, e1, e2, hb1, h01, he0, he1, he2, himp⟩ := hent j (by omega)
        have e : i + (j + 1) = i + 1 + j := by omega
        refine ⟨b1, e0, e1, e2, by rw [hcl]; exact hb1, h01, by rw [e]; exact he0,
          by rw [e]; exact he1, by rw [e]; exact he2, ?_⟩
        intro hdis
        obtain ⟨r1, hr1, hp2⟩ := himp (fun j1 hj1 hne b2 hb2 =>
          hdis (j1 + 1) (by omega) (by omega) b2 (by rw [hcl]; exact hb2))
        refine ⟨r1, ?_, hp2⟩
        rw [← hset b1.idx.toNat ?_]
        · exact hr1
        · rw [Int.toNat_of_nonneg h01]
          exact hdis 0 (by omega) (by omega) b hb

end kinematics

namespace kinematics
open acclaim

theorem derefOpt_owns {S R : Type} (sk : Skeleton S R) (p : Option Ptr) (b : Bone S R)
    (h : sk.derefOpt p = Run.done b) :
    ∃ q, p = some q ∧ q.store = sk.store ∧ sk.bones[q.pos]? = some b := by
  rcases derefOpt_cases sk p with ⟨q, b1, hp, hs, hb, hd⟩ | hf
  · rw [hd] at h
    cases h
    exact ⟨q, hp, hs, hb⟩
  · rw [hf] at h
    cases h

theorem deref_owns {S R : Type} (sk : Skeleton S R) (p : Ptr) (b : Bone S R)
    (h : sk.deref p = Run.done b) : sk.owns p := by
  rw [Skeleton.deref_eq_done] at h
  refine ⟨h.1, ?_⟩
  by_contra hc
  rw [List.getElem?_eq_none (by omega)] at h
  cases h.2

/-- The first step at which the walk along parent links meets one of two bones. -/
theorem climb_first {S R : Type} (sk : Skeleton S R) (temp : Option Ptr) (a c : Ptr)
    (h : ∃ k, sk.climb k temp = some a ∨ sk.climb k temp = some c) :
    ∃ k, (sk.climb k temp = some a ∨ sk.climb k temp = some c) ∧
      ∀ j, j < k → sk.climb j temp ≠ some a ∧ sk.climb j temp ≠ some c := by
  classical
  refine ⟨Nat.find h, Nat.find_spec h, fun j hj => ?_⟩
  have := Nat.find_min h hj
  exact ⟨fun h1 => this (Or.inl h1), fun h2 => this (Or.inr h2)⟩

/-- Before the walk first meets one of its two stopping bones it visits no bone twice. -/
theorem climb_distinct {S R : Type} (sk : Skeleton S R) (temp : Option Ptr) (a c : Ptr) (k : Nat)
    (hk : sk.climb k temp = some a ∨ sk.climb k temp = some c)
    (hmin : ∀ j, j < k → sk.climb j temp ≠ some a ∧ sk.climb j temp ≠ some c) :
    ∀ i j, i < j → j ≤ k → sk.climb i temp ≠ sk.climb j temp := by
  intro i j hij hjk heq
  have h1 : sk.climb (i + (k - j)) temp = sk.climb k temp := by
    rw [climb_add, heq, ← climb_add]
    congr 1
    omega
  have h2 := hmin (i + (k - j)) (by omega)
  rw [h1] at h2
  rcases hk with hk | hk
  · exact h2.1 hk
  · exact h2.2 hk

/-- In a skeleton indexed by position, bones read through different pointers of the
skeleton have different `idx`. -/
theorem idx_distinct {S R : Type} (sk : Skeleton S R) (hI : sk.Indexed) (p q : Option Ptr)
    (b c : Bone S R) (hp : sk.derefOpt p = Run.done b) (hq : sk.derefOpt q = Run.done c)
    (hne : p ≠ q) : b.idx ≠ c.idx := by
  obtain ⟨p1, rfl, hps, hpb⟩ := derefOpt_owns sk p b hp
  obtain ⟨q1, rfl, hqs, hqb⟩ := derefOpt_owns sk q c hq
  rw [hI _ _ hpb, hI _ _ hqb]
  intro h
  apply hne
  have : p1.pos = q1.pos := by exact_mod_cast h
  cases p1
  cases q1
  simp only at hps hqs this
  subst hps hqs this
  rfl

/-- The chain walk along a path that first meets the start bone or the root after `k`
links counts `k` more bones. -/
theorem chainWalk_stop {S R : Type} (sk : Skeleton S R) (start_bone root_bone : Ptr)
    (hr : ∃ b, sk.deref root_bone = Run.done b) :
    ∀ (k : Nat) (temp : Option Ptr) (n : Nat),
      (sk.climb k temp = some start_bone ∨ sk.climb k temp = some root_bone) →
      (∀ j, j < k → sk.climb j temp ≠ some start_bone ∧ sk.climb j temp ≠ some root_bone) →
      ∀ fuel, k < fuel → chainWalk sk start_bone root_bone fuel temp n = Run.done (n + k) := by
  intro k
  induction k with
  | zero =>
    intro temp n h _ fuel hf
    obtain ⟨f, rfl⟩ : ∃ f, fuel = f + 1 := ⟨fuel - 1, by omega⟩
    simp only [Skeleton.climb] at h
    unfold chainWalk
    by_cases h1 : temp = some start_bone
    · rw [if_pos h1]
      rfl
    · rw [if_neg h1]
      have h2 : temp = some root_bone := by
        rcases h with h | h
        · exact absurd h h1
        · exact h
      obtain ⟨b, hb⟩ := hr
      rw [if_pos h2]
      simp only [hb, Run.bind_done]
      rfl
  | succ k ih =>
    intro temp n h hmin fuel hf
    obtain ⟨f, rfl⟩ : ∃ f, fuel = f + 1 := ⟨fuel - 1, by omega⟩
    have hd : ∃ b, sk.derefOpt temp = Run.done b ∧
        (sk.climb k b.parent = some start_bone ∨ sk.climb k b.parent = some root_bone) := by
      rcases h with h | h
      · obtain ⟨b, hb, hc⟩ := climb_succ_some sk k temp _ h
        exact ⟨b, hb, Or.inl hc⟩
      · obtain ⟨b, hb, hc⟩ := climb_succ_some sk k temp _ h
        exact ⟨b, hb, Or.inr hc⟩
    obtain ⟨b, hb, hc⟩ := hd
    have h0 := hmin 0 (by omega)
    simp only [Skeleton.climb] at h0
    unfold chainWalk
    rw [if_neg h0.1, if_neg h0.2]
    simp only [hb, Run.bind_done]
    have := ih b.parent (n + 1) hc (fun j hj => by
      have := hmin (j + 1) (by omega)
      rwa [climb_succ sk j temp b hb] at this) f (by omega)
    rw [this]
    congr 1
    omega

/-- What a returned chain length tells: the start bone can be read, the root pointer is
`&bones[0]`, the walk returned the count, and the chain can be walked. -/
theorem chainLength_done {S R : Type} (sk : Skeleton S R) (hI : sk.Indexed) (fuel : Nat)
    (start_bone end_bone : Ptr) (N : Nat)
    (h : chainLength sk fuel start_bone end_bone = Run.done N) :
    ∃ sb, sk.deref start_bone = Run.done sb ∧ sk.ptrSub start_bone sb.idx = Run.done (sk.ptr 0) ∧
      chainWalk sk start_bone (sk.ptr 0) fuel (some end_bone) 1 = Run.done N ∧
      0 < N ∧ Walkable sk sk.bones.length N (some end_bone) := by
  unfold chainLength at h
  obtain ⟨sb, hsb, h1⟩ := Run.bind_eq_done h
  obtain ⟨sb2, hsb2, hroot, _⟩ := solver_preamble sk hI start_bone (deref_owns sk _ _ hsb)
  rw [hsb] at hsb2
  cases hsb2
  rw [hroot] at h1
  have hcw : chainWalk sk start_bone (sk.ptr 0) fuel (some end_bone) 1 = Run.done N := h1
  obtain ⟨hle, hw⟩ := chainWalk_walkable sk hI start_bone (sk.ptr 0) ⟨sb, hsb⟩ fuel
    (some end_bone) 1 N hcw
  refine ⟨sb, hsb, hroot, hcw, by omega, ?_⟩
  have : N - 1 + 1 = N := by omega
  rwa [this] at hw

/-- The skeleton an iteration works on, after any number of earlier iterations: it holds the
bones of the initial skeleton with their transient fields recomputed, and the chain can be
walked in it. -/
theorem iteration_skeleton {S R : Type} (K : Kernel S R) (fk : ForwardMap S R) (t : Vec4 S)
    (end_bone : Ptr) (sk : Skeleton S R) (posture : Posture S) (N : Nat)
    (hw : Walkable sk sk.bones.length N (some end_bone)) (m : Nat)
    (st : Skeleton S R × Posture S)
    (hst : afterIterations K fk t (sk.ptr 0) end_bone N m (sk, posture) = Run.done st) :
    Reposed sk (forwardSolver fk st.2 st.1 (sk.ptr 0)) ∧
    Walkable (forwardSolver fk st.2 st.1 (sk.ptr 0)) sk.bones.length N (some end_bone) := by
  refine ⟨reposed_trans _ _ _ (afterIterations_reposed K fk t _ end_bone N m _ st hst)
    (reposed_forward fk st.2 st.1 _), ?_⟩
  exact walkable_forward fk st.2 st.1 _ _ N _
    (afterIterations_walkable K fk t (sk.ptr 0) end_bone N sk.bones.length N (some end_bone) m
      (sk, posture) st hw hst)

end kinematics

theorem hingeSkeleton_indexed : hingeSkeleton.Indexed := by
  intro i b h
  match i with
  | 0 => simp [hingeSkeleton] at h; subst h; rfl
  | 1 => simp [hingeSkeleton] at h; subst h; rfl
  | 2 => simp [hingeSkeleton] at h; subst h; rfl
  | _ + 3 => simp [hingeSkeleton] at h

namespace kinematics
open acclaim

/-- C11: when the end bone is the start bone or one of its descendants (in a skeleton whose
bones carry their position as `idx` and whose root has no parent), the chain length
`bone_num` the solver computes is the number `N` of bones on the parent-link path from the
end bone up to and including the start bone, and the main loop runs with that `bone_num`;
`N` is 1 when the end bone is the start bone. -/
theorem chain_length_counts_path {S R : Type} (K : Kernel S R) (fk : ForwardMap S R)
    (target_pos : Vec4 S) (start_bone end_bone : Ptr) (sk : Skeleton S R) (posture : Posture S)
    (hI : sk.Indexed) (hroot : sk.RootTop) (hs : sk.owns start_bone)
    (hd : sk.Descends start_bone end_bone) :
    ∃ N, sk.PathLength start_bone end_bone N ∧ (end_bone = start_bone → N = 1) ∧
      ∃ fuel0, ∀ fuel, fuel0 ≤ fuel →
        chainLength sk fuel start_bone end_bone = Run.done N ∧
        inverseJacobianIKSolver K fk fuel target_pos start_bone end_bone sk posture =
          ikLoop K fk target_pos (sk.ptr 0) end_bone N max_iteration 0 0 sk posture := by
  obtain ⟨k0, hk0⟩ := hd
  obtain ⟨k, hk, hmin⟩ := climb_first sk (some end_bone) start_bone start_bone
    ⟨k0, Or.inl hk0⟩
  have hk1 : sk.climb k (some end_bone) = some start_bone := by
    rcases hk with h | h <;> exact h
  have hp : sk.PathLength start_bone end_bone (k + 1) :=
    ⟨k, rfl, hk1, fun j hj => (hmin j hj).1⟩
  refine ⟨k + 1, hp, ?_, ?_⟩
  · intro he
    cases k with
    | zero => rfl
    | succ k =>
      have := (hmin 0 (by omega)).1
      simp only [Skeleton.climb, he] at this
      exact absurd rfl this
  · obtain ⟨fuel0, hfuel⟩ := chainLength_of_path sk hI hroot start_bone end_bone hs (k + 1) hp
    refine ⟨fuel0, fun fuel hf => ⟨hfuel fuel hf, ?_⟩⟩
    obtain ⟨sb, hsb, hrb, hcw, _, _⟩ :=
      chainLength_done sk hI fuel start_bone end_bone (k + 1) (hfuel fuel hf)
    exact solver_unfold K fk fuel target_pos start_bone end_bone (sk.ptr 0) sk posture sb
      (k + 1) hsb hrb hcw

theorem chain_length_counts_path_witness :
    (demoSkeleton.Indexed ∧ demoSkeleton.RootTop ∧ demoSkeleton.owns ⟨0, 1⟩ ∧
      demoSkeleton.Descends ⟨0, 1⟩ ⟨0, 2⟩) ∧
    ∃ N, demoSkeleton.PathLength ⟨0, 1⟩ ⟨0, 2⟩ N ∧ ((⟨0, 2⟩ : Ptr) = ⟨0, 1⟩ → N = 1) ∧
      ∃ fuel0, ∀ fuel, fuel0 ≤ fuel →
        chainLength demoSkeleton fuel ⟨0, 1⟩ ⟨0, 2⟩ = Run.done N ∧
        inverseJacobianIKSolver demoKernel demoForward fuel ⟨some 5, some 0, some 0, some 0⟩
            ⟨0, 1⟩ ⟨0, 2⟩ demoSkeleton demoPosture =
          ikLoop demoKernel demoForward ⟨some 5, some 0, some 0, some 0⟩ (demoSkeleton.ptr 0)
            ⟨0, 2⟩ N max_iteration 0 0 demoSkeleton demoPosture :=
  ⟨⟨demoSkeleton_indexed, demoSkeleton_rootTop, by decide, ⟨1, rfl⟩⟩,
   chain_length_counts_path demoKernel demoForward ⟨some 5, some 0, some 0, some 0⟩ ⟨0, 1⟩
    ⟨0, 2⟩ demoSkeleton demoPosture demoSkeleton_indexed demoSkeleton_rootTop (by decide)
    ⟨1, rfl⟩⟩

/-- The Jacobian of every iteration, column by column, as the code writes it: for the bone
read at step `k` of the chain, column `3 * k + a` is the normalized rotated unit axis `e_a`
crossed with `target_pos - start_position` when the DOF flag of the axis is set, and the
zero column otherwise. -/
theorem jacobian_every_iteration {S R : Type} (K : Kernel S R) (fk : ForwardMap S R)
    (target_pos : Vec4 S) (start_bone end_bone : Ptr) (sk : Skeleton S R) (posture : Posture S)
    (fuel N : Nat) (hI : sk.Indexed)
    (hN : chainLength sk fuel start_bone end_bone = Run.done N)
    (m : Nat) (st : Skeleton S R × Posture S)
    (hst : afterIterations K fk target_pos (sk.ptr 0) end_bone N m (sk, posture) = Run.done st) :
    ∃ J, buildJacobian K (forwardSolver fk st.2 st.1 (sk.ptr 0)) target_pos end_bone N
        = Run.done J ∧
      ∀ k, k < N → ∃ b,
        (forwardSolver fk st.2 st.1 (sk.ptr 0)).derefOpt (sk.climb k (some end_bone))
          = Run.done b ∧
        J[3 * k]? =
          (if b.dofrx then
            some (K.cross3
              (K.normalized4 (K.rotate b.rotation ⟨K.lit 1, K.lit 0, K.lit 0, K.lit 0⟩))
              (K.sub4 target_pos b.start_position))
           else some K.zero4) ∧
        J[3 * k + 1]? =
          (if b.dofry then
            some (K.cross3
              (K.normalized4 (K.rotate b.rotation ⟨K.lit 0, K.lit 1, K.lit 0, K.lit 0⟩))
              (K.sub4 target_pos b.start_position))
           else some K.zero4) ∧
        J[3 * k + 2]? =
          (if b.dofrz then
            some (K.cross3
              (K.normalized4 (K.rotate b.rotation ⟨K.lit 0, K.lit 0, K.lit 1, K.lit 0⟩))
              (K.sub4 target_pos b.start_position))
           else some K.zero4) := by
  obtain ⟨_, _, _, _, _, hw⟩ := chainLength_done sk hI fuel start_bone end_bone N hN
  obtain ⟨hrep, hw1⟩ := iteration_skeleton K fk target_pos end_bone sk posture N hw m st hst
  obtain ⟨J, hJ, _⟩ := buildJacobian_shape K _ target_pos end_bone N sk.bones.length hw1
  refine ⟨J, hJ, fun k hk => ?_⟩
  have := buildJacobian_columns K _ target_pos end_bone N J hJ k hk
  rw [reposed_climb sk _ hrep] at this
  exact this

/-- In an arithmetic where `normalized()` returns the rotated unit axes as they are
(hypothesis `hrot`; exact arithmetic with an exact rotation is one, the arithmetic of
`double` is not), the column `3 * k + a` of an enabled axis is in every iteration the bone's
world rotation applied to the unit axis `e_a`, crossed with `target_pos` minus the bone's
world start position. -/
theorem jacobian_column_is_axis_cross {S R : Type} (K : Kernel S R) (fk : ForwardMap S R)
    (target_pos : Vec4 S) (start_bone end_bone : Ptr) (sk : Skeleton S R) (posture : Posture S)
    (fuel N : Nat) (hI : sk.Indexed)
    (hN : chainLength sk fuel start_bone end_bone = Run.done N)
    (hrot : ∀ (r : R) (e : Vec4 S),
      e = ⟨K.lit 1, K.lit 0, K.lit 0, K.lit 0⟩ ∨ e = ⟨K.lit 0, K.lit 1, K.lit 0, K.lit 0⟩ ∨
        e = ⟨K.lit 0, K.lit 0, K.lit 1, K.lit 0⟩ →
      K.normalized4 (K.rotate r e) = K.rotate r e) :
    ∀ (m : Nat) (st : Skeleton S R × Posture S),
      afterIterations K fk target_pos (sk.ptr 0) end_bone N m (sk, posture) = Run.done st →
      ∃ J, buildJacobian K (forwardSolver fk st.2 st.1 (sk.ptr 0)) target_pos end_bone N
          = Run.done J ∧
        ∀ k, k < N → ∃ b,
          (forwardSolver fk st.2 st.1 (sk.ptr 0)).derefOpt (sk.climb k (some end_bone))
            = Run.done b ∧
          (b.dofrx = true → J[3 * k]? = some (K.cross3
            (K.rotate b.rotation ⟨K.lit 1, K.lit 0, K.lit 0, K.lit 0⟩)
            (K.sub4 target_pos b.start_position))) ∧
          (b.dofry = true → J[3 * k + 1]? = some (K.cross3
            (K.rotate b.rotation ⟨K.lit 0, K.lit 1, K.lit 0, K.lit 0⟩)
            (K.sub4 target_pos b.start_position))) ∧
          (b.dofrz = true → J[3 * k + 2]? = some (K.cross3
            (K.rotate b.rotation ⟨K.lit 0, K.lit 0, K.lit 1, K.lit 0⟩)
            (K.sub4 target_pos b.start_position))) := by
  intro m st hst
  obtain ⟨J, hJ, hcols⟩ := jacobian_every_iteration K fk target_pos start_bone end_bone sk
    posture fuel N hI hN m st hst
  refine ⟨J, hJ, fun k hk => ?_⟩
  obtain ⟨b, hb, hx, hy, hz⟩ := hcols k hk
  refine ⟨b, hb, fun h => ?_, fun h => ?_, fun h => ?_⟩
  · rw [hx, if_pos h, hrot _ _ (Or.inl rfl)]
  · rw [hy, if_pos h, hrot _ _ (Or.inr (Or.inl rfl))]
  · rw [hz, if_pos h, hrot _ _ (Or.inr (Or.inr rfl))]

theorem demoKernel_keeps_axes (r : Unit) (e : Vec4 Exact)
    (h : e = ⟨demoKernel.lit 1, demoKernel.lit 0, demoKernel.lit 0, demoKernel.lit 0⟩ ∨
      e = ⟨demoKernel.lit 0, demoKernel.lit 1, demoKernel.lit 0, demoKernel.lit 0⟩ ∨
      e = ⟨demoKernel.lit 0, demoKernel.lit 0, demoKernel.lit 1, demoKernel.lit 0⟩) :
    demoKernel.normalized4 (demoKernel.rotate r e) = demoKernel.rotate r e := by
  cases r
  rcases h with rfl | rfl | rfl <;> decide!

theorem jacobian_column_is_axis_cross_witness :
    (hingeSkeleton.Indexed ∧ chainLength hingeSkeleton 3 ⟨0, 1⟩ ⟨0, 2⟩ = Run.done 2) ∧
    ∀ (m : Nat) (st : Skeleton Exact Unit × Posture Exact),
      afterIterations demoKernel demoForward ⟨some 5, some 0, some 0, some 0⟩
        (hingeSkeleton.ptr 0) ⟨0, 2⟩ 2 m (hingeSkeleton, demoPosture) = Run.done st →
      ∃ J, buildJacobian demoKernel (forwardSolver demoForward st.2 st.1 (hingeSkeleton.ptr 0))
          ⟨some 5, some 0, some 0, some 0⟩ ⟨0, 2⟩ 2 = Run.done J ∧
        ∀ k, k < 2 → ∃ b,
          (forwardSolver demoForward st.2 st.1 (hingeSkeleton.ptr 0)).derefOpt
            (hingeSkeleton.climb k (some ⟨0, 2⟩)) = Run.done b ∧
          (b.dofrx = true → J[3 * k]? = some (demoKernel.cross3
            (demoKernel.rotate b.rotation
              ⟨demoKernel.lit 1, demoKernel.lit 0, demoKernel.lit 0, demoKernel.lit 0⟩)
            (demoKernel.sub4 ⟨some 5, some 0, some 0, some 0⟩ b.start_position))) ∧
          (b.dofry = true → J[3 * k + 1]? = some (demoKernel.cross3
            (demoKernel.rotate b.rotation
              ⟨demoKernel.lit 0, demoKernel.lit 1, demoKernel.lit 0, demoKernel.lit 0⟩)
            (demoKernel.sub4 ⟨some 5, some 0, some 0, some 0⟩ b.start_position))) ∧
          (b.dofrz = true → J[3 * k + 2]? = some (demoKernel.cross3
            (demoKernel.rotate b.rotation
              ⟨demoKernel.lit 0, demoKernel.lit 0, demoKernel.lit 1, demoKernel.lit 0⟩)
            (demoKernel.sub4 ⟨some 5, some 0, some 0, some 0⟩ b.start_position))) :=
  ⟨⟨hingeSkeleton_indexed, by decide⟩,
   jacobian_column_is_axis_cross demoKernel demoForward ⟨some 5, some 0, some 0, some 0⟩
    ⟨0, 1⟩ ⟨0, 2⟩ hingeSkeleton demoPosture 3 2 hingeSkeleton_indexed (by decide)
    demoKernel_keeps_axes⟩

theorem turnedSkeleton_indexed : turnedSkeleton.Indexed := by
  intro i b h
  match i with
  | 0 => simp [turnedSkeleton] at h; subst h; rfl
  | 1 => simp [turnedSkeleton] at h; subst h; rfl
  | _ + 2 => simp [turnedSkeleton] at h

/-- C12 (as amended): in every iteration, for the bone read at step `k` of the chain (counted
from the end bone, `k < N`) and each rotational axis `a` whose DOF flag is set, column
`3 * k + a` of the Jacobian is the normalized rotated axis `u` crossed with
`target_pos - start_position`, with fourth coefficient 0.  Here `v` is the bone's world
rotation applied to the unit axis `e_a`, `z` is the sum of the squares of the four
coefficients of `v`, and `u` is `v` divided by the square root of `z` when `0 < z`, and `v`
itself otherwise. -/
theorem jacobian_column_is_normalized_axis_cross {S R : Type} (K : Kernel S R)
    (fk : ForwardMap S R) (target_pos : Vec4 S) (start_bone end_bone : Ptr) (sk : Skeleton S R)
    (posture : Posture S) (fuel N : Nat) (hI : sk.Indexed)
    (hN : chainLength sk fuel start_bone end_bone = Run.done N) :
    ∀ (m : Nat) (st : Skeleton S R × Posture S),
      afterIterations K fk target_pos (sk.ptr 0) end_bone N m (sk, posture) = Run.done st →
      ∃ J, buildJacobian K (forwardSolver fk st.2 st.1 (sk.ptr 0)) target_pos end_bone N
          = Run.done J ∧
        ∀ k, k < N → ∃ b,
          (forwardSolver fk st.2 st.1 (sk.ptr 0)).derefOpt (sk.climb k (some end_bone))
            = Run.done b ∧
          ∀ (a : Nat) (e : Vec4 S),
            (a = 0 ∧ b.dofrx = true ∧ e = ⟨K.lit 1, K.lit 0, K.lit 0, K.lit 0⟩) ∨
            (a = 1 ∧ b.dofry = true ∧ e = ⟨K.lit 0, K.lit 1, K.lit 0, K.lit 0⟩) ∨
            (a = 2 ∧ b.dofrz = true ∧ e = ⟨K.lit 0, K.lit 0, K.lit 1, K.lit 0⟩) →
            ∃ (v : Vec4 S) (z : S) (u : Vec4 S),
              v = K.rotate b.rotation e ∧
              z = K.add (K.add (K.add (K.mul v.x v.x) (K.mul v.y v.y)) (K.mul v.z v.z))
                (K.mul v.w v.w) ∧
              u = (if K.lt (K.lit 0) z = true then
                  ⟨K.div v.x (K.sqrt z), K.div v.y (K.sqrt z), K.div v.z (K.sqrt z),
                    K.div v.w (K.sqrt z)⟩
                else v) ∧
              J[3 * k + a]? = some
                ⟨K.sub (K.mul u.y (K.sub target_pos.z b.start_position.z))
                    (K.mul u.z (K.sub target_pos.y b.start_position.y)),
                 K.sub (K.mul u.z (K.sub target_pos.x b.start_position.x))
                    (K.mul u.x (K.sub target_pos.z b.start_position.z)),
                 K.sub (K.mul u.x (K.sub target_pos.y b.start_position.y))
                    (K.mul u.y (K.sub target_pos.x b.start_position.x)),
                 K.lit 0⟩ := by
  intro m st hst
  obtain ⟨J, hJ, hcols⟩ := jacobian_every_iteration K fk target_pos start_bone end_bone sk
    posture fuel N hI hN m st hst
  refine ⟨J, hJ, fun k hk => ?_⟩
  obtain ⟨b, hb, hx, hy, hz⟩ := hcols k hk
  refine ⟨b, hb, fun a e h => ?_⟩
  rcases h with ⟨rfl, h, rfl⟩ | ⟨rfl, h, rfl⟩ | ⟨rfl, h, rfl⟩
  · refine ⟨_, _, _, rfl, rfl, rfl, ?_⟩
    rw [Nat.add_zero, hx, if_pos h]
    rfl
  · refine ⟨_, _, _, rfl, rfl, rfl, ?_⟩
    rw [hy, if_pos h]
    rfl
  · refine ⟨_, _, _, rfl, rfl, rfl, ?_⟩
    rw [hz, if_pos h]
    rfl

theorem jacobian_column_is_normalized_axis_cross_witness :
    (turnedSkeleton.Indexed ∧ chainLength turnedSkeleton 2 ⟨0, 1⟩ ⟨0, 1⟩ = Run.done 1) ∧
    ∀ (m : Nat) (st : Skeleton Exact (Affine3d Exact) × Posture Exact),
      afterIterations doubleKernel turnedForward ⟨some 0, some 0, some 1, some 0⟩
        (turnedSkeleton.ptr 0) ⟨0, 1⟩ 1 m (turnedSkeleton, turnedPosture) = Run.done st →
      ∃ J, buildJacobian doubleKernel
          (forwardSolver turnedForward st.2 st.1 (turnedSkeleton.ptr 0))
          ⟨some 0, some 0, some 1, some 0⟩ ⟨0, 1⟩ 1 = Run.done J ∧
        ∀ k, k < 1 → ∃ b,
          (forwardSolver turnedForward st.2 st.1 (turnedSkeleton.ptr 0)).derefOpt
            (turnedSkeleton.climb k (some ⟨0, 1⟩)) = Run.done b ∧
          ∀ (a : Nat) (e : Vec4 Exact),
            (a = 0 ∧ b.dofrx = true ∧
              e = ⟨doubleKernel.lit 1, doubleKernel.lit 0, doubleKernel.lit 0,
                doubleKernel.lit 0⟩) ∨
            (a = 1 ∧ b.dofry = true ∧
              e = ⟨doubleKernel.lit 0, doubleKernel.lit 1, doubleKernel.lit 0,
                doubleKernel.lit 0⟩) ∨
            (a = 2 ∧ b.dofrz = true ∧
              e = ⟨doubleKernel.lit 0, doubleKernel.lit 0, doubleKernel.lit 1,
                doubleKernel.lit 0⟩) →
            ∃ (v : Vec4 Exact) (z : Exact) (u : Vec4 Exact),
              v = doubleKernel.rotate b.rotation e ∧
              z = doubleKernel.add (doubleKernel.add (doubleKernel.add
                  (doubleKernel.mul v.x v.x) (doubleKernel.mul v.y v.y))
                  (doubleKernel.mul v.z v.z)) (doubleKernel.mul v.w v.w) ∧
              u = (if doubleKernel.lt (doubleKernel.lit 0) z = true then
                  ⟨doubleKernel.div v.x (doubleKernel.sqrt z),
                    doubleKernel.div v.y (doubleKernel.sqrt z),
                    doubleKernel.div v.z (doubleKernel.sqrt z),
                    doubleKernel.div v.w (doubleKernel.sqrt z)⟩
                else v) ∧
              J[3 * k + a]? = some
                ⟨doubleKernel.sub
                    (doubleKernel.mul u.y (doubleKernel.sub (some 1) b.start_position.z))
                    (doubleKernel.mul u.z (doubleKernel.sub (some 0) b.start_position.y)),
                 doubleKernel.sub
                    (doubleKernel.mul u.z (doubleKernel.sub (some 0) b.start_position.x))
                    (doubleKernel.mul u.x (doubleKernel.sub (some 1) b.start_position.z)),
                 doubleKernel.sub
                    (doubleKernel.mul u.x (doubleKernel.sub (some 0) b.start_position.y))
                    (doubleKernel.mul u.y (doubleKernel.sub (some 0) b.start_position.x)),
                 doubleKernel.lit 0⟩ :=
  ⟨⟨turnedSkeleton_indexed, by decide⟩,
   jacobian_column_is_normalized_axis_cross doubleKernel turnedForward
    ⟨some 0, some 0, some 1, some 0⟩ ⟨0, 1⟩ ⟨0, 1⟩ turnedSkeleton turnedPosture 2 1
    turnedSkeleton_indexed (by decide)⟩

/-- C12 (counterexample): in the arithmetic of `double`, for the chain of the one bone `a`
turned by 10 degrees about z, with its start at the origin and the target (0, 0, 1), the
first iteration does not converge and builds a Jacobian whose column 0 is the normalized
rotated x axis crossed with the target; the rotated x axis has the computed squared norm
`1 - 2 ^ (-53)`, and the column differs in the last binary digit of both its coefficients
from the rotated x axis crossed with the target. -/
theorem jacobian_column_axis_cross_counterexample :
    chainLength turnedSkeleton 2 ⟨0, 1⟩ ⟨0, 1⟩ = Run.done 1 ∧
    errorBelow doubleKernel turnedForward ⟨some 0, some 0, some 1, some 0⟩
      (turnedSkeleton.ptr 0) ⟨0, 1⟩ turnedSkeleton turnedPosture = false ∧
    (forwardSolver turnedForward turnedPosture turnedSkeleton (turnedSkeleton.ptr 0)).deref ⟨0, 1⟩
      = Run.done { turnedBone "a" 1 (some ⟨0, 0⟩) none with
          rotation := turnZ10, end_position := ⟨some cos10, some sin10, some 0, some 0⟩ } ∧
    buildJacobian doubleKernel
        (forwardSolver turnedForward turnedPosture turnedSkeleton (turnedSkeleton.ptr 0))
        ⟨some 0, some 0, some 1, some 0⟩ ⟨0, 1⟩ 1 =
      Run.done [⟨some (3128167472937413 / 18014398509481984),
          some (-1108794957374339 / 1125899906842624), some 0, some 0⟩,
        ⟨some (1108794957374339 / 1125899906842624),
          some (3128167472937413 / 18014398509481984), some 0, some 0⟩,
        ⟨some 0, some 0, some 0, some 0⟩] ∧
    doubleKernel.cross3
        (doubleKernel.rotate turnZ10
          ⟨doubleKernel.lit 1, doubleKernel.lit 0, doubleKernel.lit 0, doubleKernel.lit 0⟩)
        (doubleKernel.sub4 ⟨some 0, some 0, some 1, some 0⟩ demoZero) =
      ⟨some (6256334945874825 / 36028797018963968), some (-8870359658994711 / 9007199254740992),
        some 0, some 0⟩ ∧
    (⟨some (3128167472937413 / 18014398509481984), some (-1108794957374339 / 1125899906842624),
        some 0, some 0⟩ : Vec4 Exact) ≠
      doubleKernel.cross3
        (doubleKernel.rotate turnZ10
          ⟨doubleKernel.lit 1, doubleKernel.lit 0, doubleKernel.lit 0, doubleKernel.lit 0⟩)
        (doubleKernel.sub4 ⟨some 0, some 0, some 1, some 0⟩ demoZero) := by
  decide!

/-- C13: in every iteration, for the bone read at step `k` of the chain (`k < N`) and every
rotational axis whose DOF flag is false, column `3 * k + a` of the Jacobian is the zero
column: all four of its coefficients are 0. -/
theorem jacobian_column_zero_when_disabled {S R : Type} (K : Kernel S R) (fk : ForwardMap S R)
    (target_pos : Vec4 S) (start_bone end_bone : Ptr) (sk : Skeleton S R) (posture : Posture S)
    (fuel N : Nat) (hI : sk.Indexed)
    (hN : chainLength sk fuel start_bone end_bone = Run.done N) :
    ∀ (m : Nat) (st : Skeleton S R × Posture S),
      afterIterations K fk target_pos (sk.ptr 0) end_bone N m (sk, posture) = Run.done st →
      ∃ J, buildJacobian K (forwardSolver fk st.2 st.1 (sk.ptr 0)) target_pos end_bone N
          = Run.done J ∧
        ∀ k, k < N → ∃ b,
          (forwardSolver fk st.2 st.1 (sk.ptr 0)).derefOpt (sk.climb k (some end_bone))
            = Run.done b ∧
          (b.dofrx = false → J[3 * k]? = some ⟨K.lit 0, K.lit 0, K.lit 0, K.lit 0⟩) ∧
          (b.dofry = false → J[3 * k + 1]? = some ⟨K.lit 0, K.lit 0, K.lit 0, K.lit 0⟩) ∧
          (b.dofrz = false → J[3 * k + 2]? = some ⟨K.lit 0, K.lit 0, K.lit 0, K.lit 0⟩) := by
  intro m st hst
  obtain ⟨J, hJ, hcols⟩ := jacobian_every_iteration K fk target_pos start_bone end_bone sk
    posture fuel N hI hN m st hst
  refine ⟨J, hJ, fun k hk => ?_⟩
  obtain ⟨b, hb, hx, hy, hz⟩ := hcols k hk
  refine ⟨b, hb, fun h => ?_, fun h => ?_, fun h => ?_⟩
  · rw [hx, h]; rfl
  · rw [hy, h]; rfl
  · rw [hz, h]; rfl

theorem jacobian_column_zero_when_disabled_witness :
    (hingeSkeleton.Indexed ∧ chainLength hingeSkeleton 3 ⟨0, 1⟩ ⟨0, 2⟩ = Run.done 2) ∧
    ∀ (m : Nat) (st : Skeleton Exact Unit × Posture Exact),
      afterIterations demoKernel demoForward ⟨some 5, some 0, some 0, some 0⟩
        (hingeSkeleton.ptr 0) ⟨0, 2⟩ 2 m (hingeSkeleton, demoPosture) = Run.done st →
      ∃ J, buildJacobian demoKernel (forwardSolver demoForward st.2 st.1 (hingeSkeleton.ptr 0))
          ⟨some 5, some 0, some 0, some 0⟩ ⟨0, 2⟩ 2 = Run.done J ∧
        ∀ k, k < 2 → ∃ b,
          (forwardSolver demoForward st.2 st.1 (hingeSkeleton.ptr 0)).derefOpt
            (hingeSkeleton.climb k (some ⟨0, 2⟩)) = Run.done b ∧
          (b.dofrx = false → J[3 * k]? =
            some ⟨demoKernel.lit 0, demoKernel.lit 0, demoKernel.lit 0, demoKernel.lit 0⟩) ∧
          (b.dofry = false → J[3 * k + 1]? =
            some ⟨demoKernel.lit 0, demoKernel.lit 0, demoKernel.lit 0, demoKernel.lit 0⟩) ∧
          (b.dofrz = false → J[3 * k + 2]? =
            some ⟨demoKernel.lit 0, demoKernel.lit 0, demoKernel.lit 0, demoKernel.lit 0⟩) :=
  ⟨⟨hingeSkeleton_indexed, by decide⟩,
   jacobian_column_zero_when_disabled demoKernel demoForward ⟨some 5, some 0, some 0, some 0⟩
    ⟨0, 1⟩ ⟨0, 2⟩ hingeSkeleton demoPosture 3 2 hingeSkeleton_indexed (by decide)⟩

/-- The Jacobian of the first iteration on the chain whose last bone has `dofrz` disabled:
the columns of the enabled axes are the cross products and column 2 is zero. -/
theorem hinge_jacobian_first_iteration :
    buildJacobian demoKernel
        (forwardSolver demoForward demoPosture hingeSkeleton (hingeSkeleton.ptr 0))
        ⟨some 5, some 0, some 0, some 0⟩ ⟨0, 2⟩ 2 =
      Run.done [⟨some 0, some 1, some 0, some 0⟩, ⟨some (-1), some 0, some (-5), some 0⟩,
        ⟨some 0, some 0, some 0, some 0⟩, ⟨some 0, some 0, some 0, some 0⟩,
        ⟨some 0, some 0, some (-5), some 0⟩, ⟨some 0, some 5, some 0, some 0⟩] := by
  decide!

end kinematics

namespace kinematics
open acclaim

/-- A chain walk that returned stopped where the parent links first meet the start bone or
the root, and counted the links up to there. -/
theorem chainWalk_done_stop {S R : Type} (sk : Skeleton S R) (start_bone root_bone : Ptr) :
    ∀ (fuel : Nat) (temp : Option Ptr) (n m : Nat),
      chainWalk sk start_bone root_bone fuel temp n = Run.done m →
      ∃ k, m = n + k ∧
        (sk.climb k temp = some start_bone ∨ sk.climb k temp = some root_bone) ∧
        ∀ j, j < k → sk.climb j temp ≠ some start_bone ∧ sk.climb j temp ≠ some root_bone := by
  intro fuel
  induction fuel with
  | zero => intro temp n m h; cases h
  | succ fuel ih =>
    intro temp n m h
    unfold chainWalk at h
    by_cases h1 : temp = some start_bone
    · rw [if_pos h1] at h
      cases h
      exact ⟨0, rfl, Or.inl h1, fun j hj => absurd hj (Nat.not_lt_zero j)⟩
    · rw [if_neg h1] at h
      by_cases h2 : temp = some root_bone
      · rw [if_pos h2] at h
        obtain ⟨b, _, hm⟩ := Run.bind_eq_done h
        cases hm
        exact ⟨0, rfl, Or.inr h2, fun j hj => absurd hj (Nat.not_lt_zero j)⟩
      · rw [if_neg h2] at h
        obtain ⟨b, hb, hm⟩ := Run.bind_eq_done h
        obtain ⟨k, hk, hstop, hmin⟩ := ih b.parent (n + 1) m hm
        refine ⟨k + 1, by omega, ?_, ?_⟩
        · rw [climb_succ sk k temp b hb]
          exact hstop
        · intro j hj
          cases j with
          | zero => exact ⟨h1, h2⟩
          | succ j =>
            rw [climb_succ sk j temp b hb]
            exact hmin j (by omega)

/-- The chain of a returned chain length visits no bone twice. -/
theorem chainLength_distinct {S R : Type} (sk : Skeleton S R) (hI : sk.Indexed) (fuel : Nat)
    (start_bone end_bone : Ptr) (N : Nat)
    (h : chainLength sk fuel start_bone end_bone = Run.done N) :
    ∀ i j, i < j → j < N → sk.climb i (some end_bone) ≠ sk.climb j (some end_bone) := by
  obtain ⟨_, _, _, hcw, _, _⟩ := chainLength_done sk hI fuel start_bone end_bone N h
  obtain ⟨k, hk, hstop, hmin⟩ := chainWalk_done_stop sk start_bone (sk.ptr 0) fuel
    (some end_bone) 1 N hcw
  intro i j hij hj
  exact climb_distinct sk (some end_bone) start_bone (sk.ptr 0) k hstop hmin i j hij (by omega)

/-- A bone read in a reposed skeleton is the bone of the original skeleton at the same
place, with its transient fields rewritten. -/
theorem reposed_read {S R : Type} (sk sk1 : Skeleton S R) (h : Reposed sk sk1)
    (p : Option Ptr) (b1 : Bone S R) (hb1 : sk1.derefOpt p = Run.done b1) :
    ∃ b t, sk.derefOpt p = Run.done b ∧ b1 = setTransient b t := by
  rcases reposed_derefOpt sk sk1 h p with ⟨b, t, hb, hb2⟩ | ⟨_, hf⟩
  · rw [hb2] at hb1
    cases hb1
    exact ⟨b, t, hb, rfl⟩
  · rw [hf] at hb1
    cases hb1

/-- The posture after the Jacobian step of one iteration on a skeleton `sk1` with the links
of `sk`: an entry at an index that is the `idx` of no chain bone keeps its value, and, when
the chain visits no bone twice and `idx` is the array position, the entry of the bone read
at step `k` has the three coefficients `3 * k + a` of the solve added, each multiplied by
`step` and then by `180 / M_PI`. -/
theorem ikUpdate_entries {S R : Type} (K : Kernel S R) (sk sk1 : Skeleton S R) (t d : Vec4 S)
    (end_bone : Ptr) (N : Nat) (posture p1 : Posture S) (hrep : Reposed sk sk1)
    (h : ikUpdate K sk1 t d end_bone N posture = Run.done p1) :
    ∃ J, buildJacobian K sk1 t end_bone N = Run.done J ∧
      p1.bone_translations = posture.bone_translations ∧
      p1.bone_rotations.length = posture.bone_rotations.length ∧
      (∀ q : Nat, (∀ k, k < N → ∀ b, sk.derefOpt (sk.climb k (some end_bone)) = Run.done b →
          b.idx ≠ (q : Int)) → p1.bone_rotations[q]? = posture.bone_rotations[q]?) ∧
      (sk.Indexed →
        (∀ i j, i < j → j < N → sk.climb i (some end_bone) ≠ sk.climb j (some end_bone)) →
        ∀ k, k < N → ∃ b x0 x1 x2 r,
          sk1.derefOpt (sk.climb k (some end_bone)) = Run.done b ∧ 0 ≤ b.idx ∧
          (pseudoInverseLinearSolver K J d)[3 * k]? = some x0 ∧
          (pseudoInverseLinearSolver K J d)[3 * k + 1]? = some x1 ∧
          (pseudoInverseLinearSolver K J d)[3 * k + 2]? = some x2 ∧
          posture.bone_rotations[b.idx.toNat]? = some r ∧
          p1.bone_rotations[b.idx.toNat]? = some (K.add4 r
            ⟨K.mul (K.mul (step K) x0) (K.div (K.lit 180) (M_PI K)),
             K.mul (K.mul (step K) x1) (K.div (K.lit 180) (M_PI K)),
             K.mul (K.mul (step K) x2) (K.div (K.lit 180) (M_PI K)), K.lit 0⟩)) := by
  unfold ikUpdate at h
  obtain ⟨J, hJ, hup⟩ := Run.bind_eq_done h
  obtain ⟨htr, hlen, hframe, hent⟩ := updateLoop_entries K sk1 _ N 0 (some end_bone) posture p1 hup
  have hcl := reposed_climb sk sk1 hrep
  refine ⟨J, hJ, htr, hlen, ?_, ?_⟩
  · intro q hq
    refine hframe q (fun j hj b1 hb1 => ?_)
    rw [hcl] at hb1
    obtain ⟨b, tr, hb, rfl⟩ := reposed_read sk sk1 hrep _ b1 hb1
    exact hq j hj b hb
  · intro hI hdist k hk
    obtain ⟨b, d0, d1, d2, hb, h0, hd0, hd1, hd2, himp⟩ := hent k hk
    rw [hcl] at hb
    have e : (0 + k) * 3 = 3 * k := by omega
    rw [e] at hd0 hd1 hd2
    rw [List.getElem?_map] at hd0 hd1 hd2
    obtain ⟨x0, hx0, rfl⟩ := Option.map_eq_some'.mp hd0
    obtain ⟨x1, hx1, rfl⟩ := Option.map_eq_some'.mp hd1
    obtain ⟨x2, hx2, rfl⟩ := Option.map_eq_some'.mp hd2
    have hI1 := reposed_indexed sk sk1 hrep hI
    obtain ⟨r, hr, hp⟩ := himp (fun j1 hj1 hne b1 hb1 => by
      rw [hcl] at hb1
      refine idx_distinct sk1 hI1 _ _ b1 b hb1 hb (fun hc => ?_)
      rcases Nat.lt_or_gt_of_ne hne with hlt | hgt
      · exact hdist j1 k hlt hk hc
      · exact hdist k j1 hgt hj1 hc.symm)
    exact ⟨b, x0, x1, x2, r, hb, h0, hx0, hx1, hx2, hr, hp⟩

/-- The posture keeps its number of rotation entries through the iterations. -/
theorem afterIterations_length {S R : Type} (K : Kernel S R) (fk : ForwardMap S R) (t : Vec4 S)
    (root_bone end_bone : Ptr) (n : Nat) :
    ∀ (k : Nat) (st st1 : Skeleton S R × Posture S),
      afterIterations K fk t root_bone end_bone n k st = Run.done st1 →
      st1.2.bone_rotations.length = st.2.bone_rotations.length := by
  intro k
  induction k with
  | zero =>
    intro st st1 h
    cases h
    rfl
  | succ k ih =>
    intro st st1 h
    unfold afterIterations at h
    obtain ⟨st2, h2, h3⟩ := Run.bind_eq_done h
    rw [ih st2 st1 h3]
    unfold ikStep at h2
    obtain ⟨eb, _, h4⟩ := Run.bind_eq_done h2
    obtain ⟨p1, hp1, h5⟩ := Run.bind_eq_done h4
    cases h5
    obtain ⟨_, _, _, hl, _⟩ := ikUpdate_entries K _ _ t _ end_bone n st.2 p1
      (reposed_refl _) hp1
    exact hl

end kinematics

namespace kinematics
open acclaim

/-- C14 (as amended): in each iteration that does not return, with `x` the vector the solve
returns for that iteration's Jacobian and error, the rotation entry of the bone read at
step `k` of the chain has `(0.1 * x[3k+a]) * (180 / 3.1415)` added to its coefficient `a`
(for `a` = 0, 1, 2) and 0 added to its fourth coefficient: the conversion uses the file's own
constant `M_PI`, which is 3.1415. -/
theorem posture_step_uses_file_constant {S R : Type} (K : Kernel S R) (fk : ForwardMap S R)
    (target_pos : Vec4 S) (start_bone end_bone : Ptr) (sk : Skeleton S R) (posture : Posture S)
    (fuel N : Nat) (hI : sk.Indexed) (hA : posture.Aligned sk)
    (hN : chainLength sk fuel start_bone end_bone = Run.done N) :
    ∀ (m : Nat) (st : Skeleton S R × Posture S),
      afterIterations K fk target_pos (sk.ptr 0) end_bone N m (sk, posture) = Run.done st →
      ∃ eb J p1,
        (forwardSolver fk st.2 st.1 (sk.ptr 0)).deref end_bone = Run.done eb ∧
        buildJacobian K (forwardSolver fk st.2 st.1 (sk.ptr 0)) target_pos end_bone N
          = Run.done J ∧
        ikStep K fk target_pos (sk.ptr 0) end_bone N st
          = Run.done (forwardSolver fk st.2 st.1 (sk.ptr 0), p1) ∧
        ∀ k, k < N → ∃ b x0 x1 x2 r,
          (forwardSolver fk st.2 st.1 (sk.ptr 0)).derefOpt (sk.climb k (some end_bone))
            = Run.done b ∧
          0 ≤ b.idx ∧
          (pseudoInverseLinearSolver K J (K.sub4 target_pos eb.end_position))[3 * k]?
            = some x0 ∧
          (pseudoInverseLinearSolver K J (K.sub4 target_pos eb.end_position))[3 * k + 1]?
            = some x1 ∧
          (pseudoInverseLinearSolver K J (K.sub4 target_pos eb.end_position))[3 * k + 2]?
            = some x2 ∧
          st.2.bone_rotations[b.idx.toNat]? = some r ∧
          p1.bone_rotations[b.idx.toNat]? = some
            ⟨K.add r.x (K.mul (K.mul (K.lit (1 / 10)) x0)
              (K.div (K.lit 180) (K.lit (31415 / 10000)))),
             K.add r.y (K.mul (K.mul (K.lit (1 / 10)) x1)
              (K.div (K.lit 180) (K.lit (31415 / 10000)))),
             K.add r.z (K.mul (K.mul (K.lit (1 / 10)) x2)
              (K.div (K.lit 180) (K.lit (31415 / 10000)))),
             K.add r.w (K.lit 0)⟩ := by
  intro m st hst
  obtain ⟨_, _, _, _, hpos, hw⟩ := chainLength_done sk hI fuel start_bone end_bone N hN
  obtain ⟨n, rfl⟩ : ∃ n, N = n + 1 := ⟨N - 1, by omega⟩
  obtain ⟨hrep, _⟩ := iteration_skeleton K fk target_pos end_bone sk posture (n + 1) hw m st hst
  have hw0 := afterIterations_walkable K fk target_pos (sk.ptr 0) end_bone (n + 1)
    sk.bones.length (n + 1) (some end_bone) m (sk, posture) st hw hst
  have hlen : st.2.bone_rotations.length = sk.bones.length := by
    rw [afterIterations_length K fk target_pos (sk.ptr 0) end_bone (n + 1) m (sk, posture) st hst]
    exact hA
  obtain ⟨eb, p1, heb, hup, hstep, _, _, _⟩ :=
    ikStep_done K fk target_pos (sk.ptr 0) end_bone n sk.bones.length st.1 st.2 hw0 hlen
  obtain ⟨J, hJ, _, _, _, hent⟩ := ikUpdate_entries K sk _ target_pos _ end_bone (n + 1)
    st.2 p1 hrep hup
  refine ⟨eb, J, p1, heb, hJ, hstep, fun k hk => ?_⟩
  obtain ⟨b, x0, x1, x2, r, hb, h0, hx0, hx1, hx2, hr, hp⟩ :=
    hent hI (chainLength_distinct sk hI fuel start_bone end_bone (n + 1) hN) k hk
  exact ⟨b, x0, x1, x2, r, hb, h0, hx0, hx1, hx2, hr, hp⟩

theorem posture_step_uses_file_constant_witness :
    (demoSkeleton.Indexed ∧ demoPosture.Aligned demoSkeleton ∧
      chainLength demoSkeleton 3 ⟨0, 1⟩ ⟨0, 2⟩ = Run.done 2) ∧
    ∀ (m : Nat) (st : Skeleton Exact Unit × Posture Exact),
      afterIterations demoKernel demoForward ⟨some 5, some 0, some 0, some 0⟩
        (demoSkeleton.ptr 0) ⟨0, 2⟩ 2 m (demoSkeleton, demoPosture) = Run.done st →
      ∃ eb J p1,
        (forwardSolver demoForward st.2 st.1 (demoSkeleton.ptr 0)).deref ⟨0, 2⟩ = Run.done eb ∧
        buildJacobian demoKernel (forwardSolver demoForward st.2 st.1 (demoSkeleton.ptr 0))
          ⟨some 5, some 0, some 0, some 0⟩ ⟨0, 2⟩ 2 = Run.done J ∧
        ikStep demoKernel demoForward ⟨some 5, some 0, some 0, some 0⟩ (demoSkeleton.ptr 0)
          ⟨0, 2⟩ 2 st
          = Run.done (forwardSolver demoForward st.2 st.1 (demoSkeleton.ptr 0), p1) ∧
        ∀ k, k < 2 → ∃ b x0 x1 x2 r,
          (forwardSolver demoForward st.2 st.1 (demoSkeleton.ptr 0)).derefOpt
            (demoSkeleton.climb k (some ⟨0, 2⟩)) = Run.done b ∧
          0 ≤ b.idx ∧
          (pseudoInverseLinearSolver demoKernel J
            (demoKernel.sub4 ⟨some 5, some 0, some 0, some 0⟩ eb.end_position))[3 * k]?
            = some x0 ∧
          (pseudoInverseLinearSolver demoKernel J
            (demoKernel.sub4 ⟨some 5, some 0, some 0, some 0⟩ eb.end_position))[3 * k + 1]?
            = some x1 ∧
          (pseudoInverseLinearSolver demoKernel J
            (demoKernel.sub4 ⟨some 5, some 0, some 0, some 0⟩ eb.end_position))[3 * k + 2]?
            = some x2 ∧
          st.2.bone_rotations[b.idx.toNat]? = some r ∧
          p1.bone_rotations[b.idx.toNat]? = some
            ⟨demoKernel.add r.x (demoKernel.mul (demoKernel.mul (demoKernel.lit (1 / 10)) x0)
              (demoKernel.div (demoKernel.lit 180) (demoKernel.lit (31415 / 10000)))),
             demoKernel.add r.y (demoKernel.mul (demoKernel.mul (demoKernel.lit (1 / 10)) x1)
              (demoKernel.div (demoKernel.lit 180) (demoKernel.lit (31415 / 10000)))),
             demoKernel.add r.z (demoKernel.mul (demoKernel.mul (demoKernel.lit (1 / 10)) x2)
              (demoKernel.div (demoKernel.lit 180) (demoKernel.lit (31415 / 10000)))),
             demoKernel.add r.w (demoKernel.lit 0)⟩ :=
  ⟨⟨demoSkeleton_indexed, rfl, by decide⟩,
   posture_step_uses_file_constant demoKernel demoForward ⟨some 5, some 0, some 0, some 0⟩
    ⟨0, 1⟩ ⟨0, 2⟩ demoSkeleton demoPosture 3 2 demoSkeleton_indexed rfl (by decide)⟩

/-- C14 (counterexample): in the first iteration on the demonstration chain for the target
(5, 0, 0) the solve returns `x[1] = -5` for the y axis of the end bone (position 2), and
the y rotation of that bone goes from 0 to `-180000/6283 = 0.1 * (-5) * (180 / 3.1415)`,
which is not `0.1 * (-5) * (180 / π)`. -/
theorem radians_to_degrees_counterexample :
    buildJacobian demoKernel
        (forwardSolver demoForward demoPosture demoSkeleton (demoSkeleton.ptr 0))
        ⟨some 5, some 0, some 0, some 0⟩ ⟨0, 2⟩ 2 = Run.done demoJacobian ∧
    pseudoInverseLinearSolver demoKernel demoJacobian ⟨some 5, some 0, some (-2), some 0⟩
      = [some 0, some (-5), some 0, some 0, some (27 / 5), some 0] ∧
    ikStep demoKernel demoForward ⟨some 5, some 0, some 0, some 0⟩ (demoSkeleton.ptr 0)
        ⟨0, 2⟩ 2 (demoSkeleton, demoPosture) =
      Run.done (forwardSolver demoForward demoPosture demoSkeleton (demoSkeleton.ptr 0),
        steppedPosture) ∧
    demoPosture.bone_rotations[2]? = some ⟨some 0, some 0, some 0, some 0⟩ ∧
    steppedPosture.bone_rotations[2]? = some ⟨some 0, some (-180000 / 6283), some 0, some 0⟩ ∧
    ((-180000 / 6283 : ℚ) : ℝ) ≠ 0 + (1 / 10) * (-5) * (180 / Real.pi) := by
  refine ⟨by decide!, by decide!, by decide!, rfl, rfl, ?_⟩
  intro h
  have hpi := Real.pi_gt_d6
  have hpos := Real.pi_pos
  push_cast at h
  field_simp at h
  nlinarith

/-- C15 (the code at the failing input): with the chain made of the one bone whose `dofrz`
is false, the solver returns false and the z rotation entry of that bone, 0 before the
call, is not a finite number after it. -/
theorem disabled_axis_rotation_overwritten :
    hingeSkeleton.bones[2]?.map (fun b => b.dofrz) = some false ∧
    demoPosture.bone_rotations[2]? = some ⟨some 0, some 0, some 0, some 0⟩ ∧
    IKResult.summary (inverseJacobianIKSolver demoKernel demoForward 10
        ⟨some 5, some 0, some 0, some 0⟩ ⟨0, 2⟩ ⟨0, 2⟩ hingeSkeleton demoPosture) =
      Run.done (false, hingePoisoned) ∧
    hingePoisoned.bone_rotations[2]? = some ⟨none, none, none, some 0⟩ := by
  refine ⟨rfl, rfl, ?_, rfl⟩
  rw [solver_unfold demoKernel demoForward 10 ⟨some 5, some 0, some 0, some 0⟩ ⟨0, 2⟩ ⟨0, 2⟩
    ⟨0, 0⟩ hingeSkeleton demoPosture (hingeBone "b" 2 (some ⟨0, 1⟩) none) 1
    (by decide!) (by decide!) (by decide!)]
  have hmax : max_iteration = 999 + 1 := rfl
  rw [hmax, ikLoop_step demoKernel demoForward ⟨some 5, some 0, some 0, some 0⟩ ⟨0, 0⟩ ⟨0, 2⟩ 1
    999 0 0 hingeSkeleton (forwardSolver demoForward demoPosture hingeSkeleton ⟨0, 0⟩)
    demoPosture hingePoisoned (by decide!) (by decide!),
    ikLoop_fixed demoKernel demoForward ⟨some 5, some 0, some 0, some 0⟩ ⟨0, 0⟩ ⟨0, 2⟩ 1
      (forwardSolver demoForward demoPosture hingeSkeleton ⟨0, 0⟩) hingePoisoned
      (by decide!) (by decide!)]
  rfl

end kinematics

namespace kinematics
open acclaim

/-- The main loop writes the rotation entries of the chain bones only. -/
theorem ikLoop_frame {S R : Type} (K : Kernel S R) (fk : ForwardMap S R) (t : Vec4 S)
    (root_bone end_bone : Ptr) (n : Nat) (sk : Skeleton S R) :
    ∀ (m iter calls : Nat) (sk1 : Skeleton S R) (posture : Posture S) (r : IKResult S R),
      Reposed sk sk1 →
      ikLoop K fk t root_bone end_bone n m iter calls sk1 posture = Run.done r →
      r.posture.bone_translations = posture.bone_translations ∧
      r.posture.bone_rotations.length = posture.bone_rotations.length ∧
      ∀ q : Nat, (∀ k, k < n → ∀ b, sk.derefOpt (sk.climb k (some end_bone)) = Run.done b →
          b.idx ≠ (q : Int)) →
        r.posture.bone_rotations[q]? = posture.bone_rotations[q]? := by
  intro m
  induction m with
  | zero =>
    intro iter calls sk1 posture r _ h
    cases h
    exact ⟨rfl, rfl, fun _ _ => rfl⟩
  | succ m ih =>
    intro iter calls sk1 posture r hrep h
    unfold ikLoop at h
    have hrep1 : Reposed sk (forwardSolver fk posture sk1 root_bone) :=
      reposed_trans _ _ _ hrep (reposed_forward fk posture sk1 root_bone)
    cases heb : (forwardSolver fk posture sk1 root_bone).deref end_bone with
    | done eb =>
      simp only [heb] at h
      by_cases hlt : K.lt (K.norm4 (K.sub4 t eb.end_position)) (epsilon K) = true
      · rw [if_pos hlt] at h
        cases h
        exact ⟨rfl, rfl, fun _ _ => rfl⟩
      · rw [if_neg hlt] at h
        cases hup : ikUpdate K (forwardSolver fk posture sk1 root_bone) t
            (K.sub4 t eb.end_position) end_bone n posture with
        | done p1 =>
          simp only [hup] at h
          obtain ⟨htr, hlen, hframe⟩ := ih (iter + 1) (calls + 1) _ p1 r hrep1 h
          obtain ⟨_, _, htr1, hlen1, hframe1, _⟩ := ikUpdate_entries K sk _ t _ end_bone n
            posture p1 hrep1 hup
          exact ⟨htr.trans htr1, hlen.trans hlen1,
            fun q hq => (hframe q hq).trans (hframe1 q hq)⟩
        | fault => simp only [hup] at h; cases h
        | timeout => simp only [hup] at h; cases h
    | fault => simp only [heb] at h; cases h
    | timeout => simp only [heb] at h; cases h

/-- C19: in a well-formed hierarchy the call returns and, converging or not, the posture
it leaves differs from the posture it was given at most in the rotation entries whose index
is the `idx` of one of the `bone_num` bones reached from the end bone by parent links: the
translations are the same, the number of rotation entries is the same, and every rotation
entry at another index is the same. -/
theorem solver_writes_chain_rotations_only {S R : Type} (K : Kernel S R) (fk : ForwardMap S R)
    (target_pos : Vec4 S) (start_bone end_bone : Ptr) (sk : Skeleton S R) (posture : Posture S)
    (hW : sk.WellFormed) (hA : posture.Aligned sk) (hs : sk.owns start_bone)
    (he : sk.owns end_bone) :
    ∃ fuel0 bone_num, ∀ fuel, fuel0 ≤ fuel →
      chainLength sk fuel start_bone end_bone = Run.done bone_num ∧
      ∃ r, inverseJacobianIKSolver K fk fuel target_pos start_bone end_bone sk posture
          = Run.done r ∧
        r.posture.bone_translations = posture.bone_translations ∧
        r.posture.bone_rotations.length = posture.bone_rotations.length ∧
        ∀ q : Nat,
          (∀ k, k < bone_num → ∀ b, sk.derefOpt (sk.climb k (some end_bone)) = Run.done b →
            b.idx ≠ (q : Int)) →
          r.posture.bone_rotations[q]? = posture.bone_rotations[q]? := by
  obtain ⟨k, hk⟩ := hW.reaches_root end_bone he
  obtain ⟨fuel0, n, _, h⟩ := solver_spec K fk target_pos start_bone end_bone sk posture
    hW.indexed hA hs ⟨k, Or.inr hk⟩
  refine ⟨fuel0, n, fun fuel hf => ?_⟩
  obtain ⟨hc, r, hr, _⟩ := h fuel hf
  refine ⟨hc, r, hr, ?_⟩
  obtain ⟨sb, hsb, hrb, hcw, _, _⟩ :=
    chainLength_done sk hW.indexed fuel start_bone end_bone n hc
  rw [solver_unfold K fk fuel target_pos start_bone end_bone (sk.ptr 0) sk posture sb n hsb hrb
    hcw] at hr
  exact ikLoop_frame K fk target_pos (sk.ptr 0) end_bone n sk max_iteration 0 0 sk posture r
    (reposed_refl sk) hr

theorem solver_writes_chain_rotations_only_witness :
    (demoSkeleton.WellFormed ∧ demoPosture.Aligned demoSkeleton ∧ demoSkeleton.owns ⟨0, 1⟩ ∧
      demoSkeleton.owns ⟨0, 2⟩) ∧
    ∃ fuel0 bone_num, ∀ fuel, fuel0 ≤ fuel →
      chainLength demoSkeleton fuel ⟨0, 1⟩ ⟨0, 2⟩ = Run.done bone_num ∧
      ∃ r, inverseJacobianIKSolver demoKernel demoForward fuel ⟨some 5, some 0, some 0, some 0⟩
          ⟨0, 1⟩ ⟨0, 2⟩ demoSkeleton demoPosture = Run.done r ∧
        r.posture.bone_translations = demoPosture.bone_translations ∧
        r.posture.bone_rotations.length = demoPosture.bone_rotations.length ∧
        ∀ q : Nat,
          (∀ k, k < bone_num → ∀ b,
            demoSkeleton.derefOpt (demoSkeleton.climb k (some ⟨0, 2⟩)) = Run.done b →
            b.idx ≠ (q : Int)) →
          r.posture.bone_rotations[q]? = demoPosture.bone_rotations[q]? :=
  ⟨⟨demoSkeleton_wellFormed, rfl, by decide, by decide⟩,
   solver_writes_chain_rotations_only demoKernel demoForward ⟨some 5, some 0, some 0, some 0⟩
    ⟨0, 1⟩ ⟨0, 2⟩ demoSkeleton demoPosture demoSkeleton_wellFormed rfl (by decide) (by decide)⟩

/-- The filling loop reads only the bones of its walk: on a second skeleton that holds the
same bones at the places of the walk it returns the same Jacobian. -/
theorem jacobianLoop_congr {S R : Type} (K : Kernel S R) (sk sk2 : Skeleton S R) (t : Vec4 S) :
    ∀ (n i : Nat) (temp : Option Ptr) (J : Matrix4Xd S),
      (∀ j, j < n → sk2.derefOpt (sk.climb j temp) = sk.derefOpt (sk.climb j temp)) →
      jacobianLoop K sk2 t n i temp J = jacobianLoop K sk t n i temp J := by
  intro n
  induction n with
  | zero => intro i temp J _; rfl
  | succ n ih =>
    intro i temp J h
    have h0 : sk2.derefOpt temp = sk.derefOpt temp := h 0 (by omega)
    unfold jacobianLoop
    rw [h0]
    cases hb : sk.derefOpt temp with
    | done b =>
      simp only [Run.bind_done]
      exact ih (i + 1) b.parent _ (fun j hj => by
        have := h (j + 1) (by omega)
        rwa [climb_succ sk j temp b hb] at this)
    | fault => rfl
    | timeout => rfl

/-- The update loop reads only the bones of its walk. -/
theorem updateLoop_congr {S R : Type} (K : Kernel S R) (sk sk2 : Skeleton S R)
    (dt : VectorXd S) :
    ∀ (n i : Nat) (temp : Option Ptr) (posture : Posture S),
      (∀ j, j < n → sk2.derefOpt (sk.climb j temp) = sk.derefOpt (sk.climb j temp)) →
      updateLoop K sk2 dt n i temp posture = updateLoop K sk dt n i temp posture := by
  intro n
  induction n with
  | zero => intro i temp posture _; rfl
  | succ n ih =>
    intro i temp posture h
    have h0 : sk2.derefOpt temp = sk.derefOpt temp := h 0 (by omega)
    unfold updateLoop
    rw [h0]
    cases hb : sk.derefOpt temp with
    | done b =>
      simp only [Run.bind_done]
      have hrec : ∀ p, updateLoop K sk2 dt n (i + 1) b.parent p =
          updateLoop K sk dt n (i + 1) b.parent p := fun p =>
        ih (i + 1) b.parent p (fun j hj => by
          have := h (j + 1) (by omega)
          rwa [climb_succ sk j temp b hb] at this)
      simp only [hrec]
    | fault => rfl
    | timeout => rfl

/-- The Jacobian step of an iteration reads only the bones of the chain. -/
theorem ikUpdate_congr {S R : Type} (K : Kernel S R) (sk sk2 : Skeleton S R) (t d : Vec4 S)
    (end_bone : Ptr) (n : Nat) (posture : Posture S)
    (h : ∀ j, j < n → sk2.derefOpt (sk.climb j (some end_bone)) =
      sk.derefOpt (sk.climb j (some end_bone))) :
    ikUpdate K sk2 t d end_bone n posture = ikUpdate K sk t d end_bone n posture := by
  unfold ikUpdate buildJacobian
  rw [jacobianLoop_congr K sk sk2 t n 0 (some end_bone) _ h]
  have hrec : ∀ dt, updateLoop K sk2 dt n 0 (some end_bone) posture =
      updateLoop K sk dt n 0 (some end_bone) posture := fun dt =>
    updateLoop_congr K sk sk2 dt n 0 (some end_bone) posture h
  simp only [hrec]

/-- C20: when the end bone is not a descendant of the start bone in a well-formed hierarchy
whose root has no parent, the chain count stops at the root: with `d` the number of parent
links from the end bone to the root, `bone_num` is `d + 1`, the cursor after `d + 1` steps
is the root's null parent, the call returns (no null pointer is dereferenced), and the
Jacobian step of an iteration reads only the `d + 1` bones of that chain: on any skeleton
holding the same bones at those places it computes the same posture. -/
theorem chain_stops_at_root {S R : Type} (K : Kernel S R) (fk : ForwardMap S R)
    (target_pos : Vec4 S) (start_bone end_bone : Ptr) (sk : Skeleton S R) (posture : Posture S)
    (hW : sk.WellFormed) (hroot : sk.RootTop) (hA : posture.Aligned sk)
    (hs : sk.owns start_bone) (he : sk.owns end_bone)
    (hnd : ¬ sk.Descends start_bone end_bone) :
    ∃ d, sk.climb d (some end_bone) = some (sk.ptr 0) ∧
      (∀ j, j < d → sk.climb j (some end_bone) ≠ some (sk.ptr 0)) ∧
      sk.climb (d + 1) (some end_bone) = none ∧
      (∃ fuel0, ∀ fuel, fuel0 ≤ fuel →
        chainLength sk fuel start_bone end_bone = Run.done (d + 1) ∧
        ∃ r, inverseJacobianIKSolver K fk fuel target_pos start_bone end_bone sk posture
          = Run.done r) ∧
      ∀ (sk1 sk2 : Skeleton S R) (desiredVector : Vec4 S) (p : Posture S), Reposed sk sk1 →
        (∀ j, j < d + 1 → sk2.derefOpt (sk.climb j (some end_bone)) =
          sk1.derefOpt (sk.climb j (some end_bone))) →
        ikUpdate K sk2 target_pos desiredVector end_bone (d + 1) p =
          ikUpdate K sk1 target_pos desiredVector end_bone (d + 1) p := by
  obtain ⟨k0, hk0⟩ := hW.reaches_root end_bone he
  obtain ⟨d, hd, hmin⟩ := climb_first sk (some end_bone) start_bone (sk.ptr 0)
    ⟨k0, Or.inr hk0⟩
  have hd1 : sk.climb d (some end_bone) = some (sk.ptr 0) := by
    rcases hd with h | h
    · exact absurd ⟨d, h⟩ hnd
    · exact h
  obtain ⟨sb, hsb, hrb, rb, hrbd⟩ := solver_preamble sk hW.indexed start_bone hs
  refine ⟨d, hd1, fun j hj => (hmin j hj).2, ?_, ?_, ?_⟩
  · have hp : rb.parent = none := hroot rb ((Skeleton.deref_eq_done.mp hrbd).2)
    have hrbo : sk.derefOpt (some (sk.ptr 0)) = Run.done rb := hrbd
    rw [climb_add, hd1, climb_succ sk 0 _ rb hrbo, hp]
    rfl
  · obtain ⟨fuel0, n, _, h⟩ := solver_spec K fk target_pos start_bone end_bone sk posture
      hW.indexed hA hs ⟨k0, Or.inr hk0⟩
    refine ⟨max fuel0 (d + 1), fun fuel hf => ?_⟩
    obtain ⟨_, r, hr, _⟩ := h fuel (le_trans (le_max_left _ _) hf)
    have hcw := chainWalk_stop sk start_bone (sk.ptr 0) ⟨rb, hrbd⟩ d (some end_bone) 1 hd hmin
      fuel (lt_of_lt_of_le (Nat.lt_succ_self d) (le_trans (le_max_right _ _) hf))
    refine ⟨?_, r, hr⟩
    simp only [chainLength, hsb, hrb, Run.bind_done, hcw]
    congr 1
    omega
  · intro sk1 sk2 dv p hrep h
    have hcl := reposed_climb sk sk1 hrep
    refine ikUpdate_congr K sk1 sk2 target_pos dv end_bone (d + 1) p (fun j hj => ?_)
    rw [hcl]
    exact h j hj

theorem demoSkeleton_not_descends : ¬ demoSkeleton.Descends ⟨0, 2⟩ ⟨0, 1⟩ := by
  rintro ⟨k, hk⟩
  match k with
  | 0 => simp [Skeleton.climb] at hk
  | 1 => revert hk; decide
  | k + 2 =>
    have h2 : demoSkeleton.climb 2 (some ⟨0, 1⟩) = none := by decide
    have : k + 2 = 2 + k := by omega
    rw [this, climb_add, h2, climb_none] at hk
    cases hk

theorem chain_stops_at_root_witness :
    (demoSkeleton.WellFormed ∧ demoSkeleton.RootTop ∧ demoPosture.Aligned demoSkeleton ∧
      demoSkeleton.owns ⟨0, 2⟩ ∧ demoSkeleton.owns ⟨0, 1⟩ ∧
      ¬ demoSkeleton.Descends ⟨0, 2⟩ ⟨0, 1⟩) ∧
    ∃ d, demoSkeleton.climb d (some ⟨0, 1⟩) = some (demoSkeleton.ptr 0) ∧
      (∀ j, j < d → demoSkeleton.climb j (some ⟨0, 1⟩) ≠ some (demoSkeleton.ptr 0)) ∧
      demoSkeleton.climb (d + 1) (some ⟨0, 1⟩) = none ∧
      (∃ fuel0, ∀ fuel, fuel0 ≤ fuel →
        chainLength demoSkeleton fuel ⟨0, 2⟩ ⟨0, 1⟩ = Run.done (d + 1) ∧
        ∃ r, inverseJacobianIKSolver demoKernel demoForward fuel
          ⟨some 5, some 0, some 0, some 0⟩ ⟨0, 2⟩ ⟨0, 1⟩ demoSkeleton demoPosture
          = Run.done r) ∧
      ∀ (sk1 sk2 : Skeleton Exact Unit) (desiredVector : Vec4 Exact) (p : Posture Exact),
        Reposed demoSkeleton sk1 →
        (∀ j, j < d + 1 → sk2.derefOpt (demoSkeleton.climb j (some ⟨0, 1⟩)) =
          sk1.derefOpt (demoSkeleton.climb j (some ⟨0, 1⟩))) →
        ikUpdate demoKernel sk2 ⟨some 5, some 0, some 0, some 0⟩ desiredVector ⟨0, 1⟩ (d + 1) p =
          ikUpdate demoKernel sk1 ⟨some 5, some 0, some 0, some 0⟩ desiredVector ⟨0, 1⟩
            (d + 1) p :=
  ⟨⟨demoSkeleton_wellFormed, demoSkeleton_rootTop, rfl, by decide, by decide,
      demoSkeleton_not_descends⟩,
   chain_stops_at_root demoKernel demoForward ⟨some 5, some 0, some 0, some 0⟩ ⟨0, 2⟩ ⟨0, 1⟩
    demoSkeleton demoPosture demoSkeleton_wellFormed demoSkeleton_rootTop rfl (by decide)
    (by decide) demoSkeleton_not_descends⟩

end kinematics

namespace acclaim

theorem dofToken_none {S R : Type} (b : Bone S R) (token : String)
    (h : dofAxis token = none) : dofToken b token = b := by
  unfold dofAxis at h
  unfold dofToken
  split_ifs at h ⊢
  rfl

theorem dofToken_some {S R : Type} (b : Bone S R) (token : String) (a : Fin 6)
    (h : dofAxis token = some a) :
    (dofToken b token).dof = b.dof + 1 ∧ (dofToken b token).dofFlag a = true ∧
    ∀ c, c ≠ a → (dofToken b token).dofFlag c = b.dofFlag c := by
  unfold dofAxis at h
  unfold dofToken
  split_ifs at h ⊢ <;> cases h <;>
    exact ⟨rfl, rfl, fun c hc => by fin_cases c <;> first | rfl | exact absurd rfl hc⟩

/-- The tokens of a `dof` line, one after the other: a flag is set afterwards exactly when
it was set before or a token selects it, and the count grows by the number of tokens that
select a flag. -/
theorem dofTokens_effect {S R : Type} (tokens : List String) :
    ∀ b : Bone S R,
      (∀ a, (tokens.foldl dofToken b).dofFlag a =
        (b.dofFlag a || tokens.any fun t => decide (dofAxis t = some a))) ∧
      (tokens.foldl dofToken b).dof =
        b.dof + ((tokens.filter fun t => (dofAxis t).isSome).length : Int) := by
  induction tokens with
  | nil => intro b; simp
  | cons t ts ih =>
    intro b
    obtain ⟨hf, hd⟩ := ih (dofToken b t)
    simp only [List.foldl_cons]
    cases ha : dofAxis t with
    | none =>
      rw [dofToken_none b t ha] at hf hd ⊢
      refine ⟨fun a => ?_, ?_⟩
      · rw [hf a]
        simp [ha]
      · rw [hd]
        simp [ha]
    | some a0 =>
      obtain ⟨h1, h2, h3⟩ := dofToken_some b t a0 ha
      refine ⟨fun a => ?_, ?_⟩
      · rw [hf a]
        by_cases hc : a = a0
        · subst hc
          simp [h2, ha]
        · rw [h3 a hc]
          have : ¬ a0 = a := fun h => hc h.symm
          simp [ha, this]
      · rw [hd, h1]
        simp [ha]
        omega

theorem filter_isSome_length {α β : Type} (f : α → Option β) (l : List α) :
    (l.filter fun t => (f t).isSome).length = (l.filterMap f).length := by
  induction l with
  | nil => rfl
  | cons t ts ih =>
    cases h : f t with
    | none => simp [List.filter_cons, List.filterMap_cons, h, ih]
    | some a => simp [List.filter_cons, List.filterMap_cons, h, ih]

theorem finRange_filter_mem_length (l : List (Fin 6)) (hl : l.Nodup) :
    ((List.finRange 6).filter fun a => decide (a ∈ l)).length = l.length := by
  have hp : ((List.finRange 6).filter fun a => decide (a ∈ l)).Perm l :=
    (List.perm_ext_iff_of_nodup (List.Nodup.filter _ (List.nodup_finRange 6)) hl).mpr
      (by intro a; simp [List.mem_filter, List.mem_finRange])
  exact hp.length_eq

/-- When no flag was set before the line and no two tokens select the same flag, the count
of the line is the number of flags set. -/
theorem dofTokens_count_flags {S R : Type} (tokens : List String) (b : Bone S R)
    (hb : ∀ a, b.dofFlag a = false) (hnd : (tokens.filterMap dofAxis).Nodup) :
    (tokens.foldl dofToken { b with dof := 0 }).dof =
      ((tokens.foldl dofToken { b with dof := 0 }).flagCount : Int) := by
  obtain ⟨hf, hd⟩ := dofTokens_effect tokens ({ b with dof := 0 } : Bone S R)
  rw [hd, filter_isSome_length]
  have hfl : ∀ a, (tokens.foldl dofToken ({ b with dof := 0 } : Bone S R)).dofFlag a =
      decide (a ∈ tokens.filterMap dofAxis) := by
    intro a
    rw [hf a]
    have hb1 : ({ b with dof := 0 } : Bone S R).dofFlag a = false := by
      rw [← hb a]
      fin_cases a <;> rfl
    rw [hb1, Bool.false_or]
    rw [Bool.eq_iff_iff]
    simp [List.mem_filterMap]
  have : (tokens.foldl dofToken ({ b with dof := 0 } : Bone S R)).flagCount =
      (tokens.filterMap dofAxis).length := by
    unfold Bone.flagCount
    simp only [hfl]
    exact finRange_filter_mem_length _ hnd
  rw [this]
  simp

/-- The `dof` line of a record, with the bone it leaves. -/
theorem recordStep_dof_bone {S R : Type} (K : Kernel S R) (scan : List Char → Option S)
    (scale : S) (pre line r : List Char) (str kw : String)
    (bones : List (Bone S R)) (mb : Int) (cur : Bone S R)
    (hpre : ∀ a ∈ pre, IStream.isSpace a = true)
    (hline : ∀ x ∈ line, (x != '\n') = true)
    (hhead : ∀ a t, line = a :: t → IStream.isSpace a = true) :
    recordStep K scan scale
        ⟨⟨pre ++ ("dof".data ++ (line ++ '\n' :: r)), false, false⟩, str, kw, bones, mb⟩ cur =
      Step.next (⟨⟨r, false, false⟩, String.mk line, "dof", bones, mb + 1⟩,
        (IStream.words (String.mk line)).foldl dofToken { cur with dof := 0 }) := by
  obtain ⟨c, t, hct, hcs⟩ : ∃ c t, line ++ '\n' :: r = c :: t ∧ IStream.isSpace c = true := by
    cases line with
    | nil => exact ⟨'\n', r, rfl, by decide⟩
    | cons a t => exact ⟨a, t ++ '\n' :: r, rfl, hhead a t rfl⟩
  have h1 := IStream.readWord_literal pre "dof".data c t kw hpre
    isWord_keyword.2.2.2.2.2.1 hcs
  rw [← hct] at h1
  have h2 := IStream.getline_line line r str hline
  simp only [recordStep, h1]
  simp [h2]

/-- C18 (as amended): a `dof` line of a bone record is read to its end and parsing goes on
behind it.  Each token whose first two characters are `rx`, `ry`, `rz`, `tx`, `ty` or `tz`
(the six tokens themselves among them) sets the matching DOF flag and adds one to the DOF
count, which the line starts from 0; every other token changes nothing.  So a flag is set
after the line exactly when it was set before or a token of the line selects it, the count
is the number of tokens that select a flag, and the count is the number of flags set when no
flag was set before the line and no two of its tokens select the same flag. -/
theorem dof_line_sets_flags_and_counts {S R : Type} (K : Kernel S R)
    (scan : List Char → Option S) (scale : S) (pre line r : List Char) (str kw : String)
    (bones : List (Bone S R)) (mb : Int) (cur : Bone S R)
    (hpre : ∀ a ∈ pre, IStream.isSpace a = true)
    (hline : ∀ x ∈ line, (x != '\n') = true)
    (hhead : ∀ a t, line = a :: t → IStream.isSpace a = true) :
    (dofAxis "rx" = some 0 ∧ dofAxis "ry" = some 1 ∧ dofAxis "rz" = some 2 ∧
      dofAxis "tx" = some 3 ∧ dofAxis "ty" = some 4 ∧ dofAxis "tz" = some 5) ∧
    (∀ (b : Bone S R) (token : String), dofAxis token = none → dofToken b token = b) ∧
    ∃ b1 : Bone S R,
      recordStep K scan scale
          ⟨⟨pre ++ ("dof".data ++ (line ++ '\n' :: r)), false, false⟩, str, kw, bones, mb⟩ cur =
        Step.next (⟨⟨r, false, false⟩, String.mk line, "dof", bones, mb + 1⟩, b1) ∧
      (∀ a, b1.dofFlag a = (cur.dofFlag a ||
        (IStream.words (String.mk line)).any fun t => decide (dofAxis t = some a))) ∧
      b1.dof = (((IStream.words (String.mk line)).filter fun t => (dofAxis t).isSome).length
        : Int) ∧
      ((∀ a, cur.dofFlag a = false) →
        ((IStream.words (String.mk line)).filterMap dofAxis).Nodup →
        b1.dof = (b1.flagCount : Int)) := by
  refine ⟨by decide, fun b token h => dofToken_none b token h, _,
    recordStep_dof_bone K scan scale pre line r str kw bones mb cur hpre hline hhead, ?_, ?_, ?_⟩
  · intro a
    rw [(dofTokens_effect _ _).1 a]
    congr 1
  · rw [(dofTokens_effect _ _).2]
    simp
  · intro hb hnd
    exact dofTokens_count_flags _ cur hb hnd

theorem dof_line_sets_flags_and_counts_witness :
    ((∀ a ∈ ([] : List Char), IStream.isSpace a = true) ∧
      (∀ x ∈ " rx ry tz l".data, (x != '\n') = true) ∧
      (∀ a t, " rx ry tz l".data = a :: t → IStream.isSpace a = true)) ∧
    (dofAxis "rx" = some 0 ∧ dofAxis "ry" = some 1 ∧ dofAxis "rz" = some 2 ∧
      dofAxis "tx" = some 3 ∧ dofAxis "ty" = some 4 ∧ dofAxis "tz" = some 5) ∧
    (∀ (b : Bone Exact Unit) (token : String), dofAxis token = none → dofToken b token = b) ∧
    ∃ b1 : Bone Exact Unit,
      recordStep demoKernel scanDemo (some 1)
          ⟨⟨[] ++ ("dof".data ++ (" rx ry tz l".data ++ '\n' :: "end\n".data)), false, false⟩,
            "", "", [], 1⟩ blankBone =
        Step.next (⟨⟨"end\n".data, false, false⟩, String.mk " rx ry tz l".data, "dof", [],
          1 + 1⟩, b1) ∧
      (∀ a, b1.dofFlag a = (blankBone.dofFlag a ||
        (IStream.words (String.mk " rx ry tz l".data)).any fun t =>
          decide (dofAxis t = some a))) ∧
      b1.dof = (((IStream.words (String.mk " rx ry tz l".data)).filter
        fun t => (dofAxis t).isSome).length : Int) ∧
      ((∀ a, blankBone.dofFlag a = false) →
        ((IStream.words (String.mk " rx ry tz l".data)).filterMap dofAxis).Nodup →
        b1.dof = (b1.flagCount : Int)) :=
  ⟨⟨by decide, by decide, fun a t h => by cases h; decide⟩,
   dof_line_sets_flags_and_counts demoKernel scanDemo (some 1) [] " rx ry tz l".data
    "end\n".data "" "" [] 1 blankBone (by decide) (by decide)
    (fun a t h => by cases h; decide)⟩

/-- C18 (counterexample): on the `dof` line `rx rx rzz` the DOF count is 3 although only the
two flags `dofrx` and `dofrz` are set, and the token `rzz`, which is none of the six tokens,
is not ignored: it sets `dofrz` and is counted. -/
theorem dof_count_counterexample :
    dofOfRecord (recordLoop demoKernel scanDemo (some 1) 5
        ⟨IStream.ofText repeatedDofText.data, "", "", [], 1⟩ blankBone) =
      Run.done (3, [true, false, true, false, false, false]) ∧
    dofOfRecord (recordLoop demoKernel scanDemo (some 1) 5
        ⟨IStream.ofText "dof rx rx\nend\n".data, "", "", [], 1⟩ blankBone) =
      Run.done (2, [true, false, false, false, false, false]) ∧
    dofOfRecord (recordLoop demoKernel scanDemo (some 1) 5
        ⟨IStream.ofText "dof rzz\nend\n".data, "", "", [], 1⟩ blankBone) =
      Run.done (1, [false, false, true, false, false, false]) := by
  decide!

end acclaim

namespace acclaim

/-- A write through a pointer to a bone of the skeleton: the bone is replaced, every other
bone is read as before. -/
theorem update_spec {S R : Type} (sk : Skeleton S R) (q : Ptr) (b : Bone S R)
    (g : Bone S R → Bone S R) (h : sk.deref q = Run.done b) :
    ∃ sk1, sk.update q g = Run.done sk1 ∧ sk1.deref q = Run.done (g b) ∧
      ∀ q1, q1 ≠ q → sk1.deref q1 = sk.deref q1 := by
  refine ⟨{ sk with bones := sk.bones.set q.pos (g b) }, ?_, ?_, ?_⟩
  · simp only [Skeleton.update, h, Run.bind_done]
  · rw [Skeleton.deref_eq_done] at h ⊢
    refine ⟨h.1, ?_⟩
    have hlt : q.pos < sk.bones.length := by
      by_contra hc
      rw [List.getElem?_eq_none (by omega)] at h
      cases h.2
    simp only
    rw [List.getElem?_set_self hlt]
  · intro q1 hne
    rw [Skeleton.deref_eq_done] at h
    unfold Skeleton.deref
    simp only
    by_cases hs : q1.store = sk.store
    · rw [if_pos hs, if_pos hs]
      have hp : q.pos ≠ q1.pos := by
        intro hc
        apply hne
        cases q
        cases q1
        simp only at hs hc
        have := h.1
        simp only at this
        subst hc
        rw [hs, this]
      rw [List.getElem?_set_ne hp]
    · rw [if_neg hs, if_neg hs]

theorem siblingChain_frame {S R : Type} (sk sk1 : Skeleton S R) (p : Ptr) :
    ∀ l : List Ptr, SiblingChain sk p l → (∀ c ∈ l, sk1.deref c = sk.deref c) →
      SiblingChain sk1 p l := by
  intro l
  induction l with
  | nil => intro _ _; trivial
  | cons c rest ih =>
    intro h hf
    obtain ⟨⟨b, hb, hp, hs⟩, hrest⟩ := h
    exact ⟨⟨b, by rw [hf c (List.mem_cons_self _ _)]; exact hb, hp, hs⟩,
      ih hrest (fun x hx => hf x (List.mem_cons_of_mem _ hx))⟩

/-- The last bone of a sibling chain has no sibling. -/
theorem siblingChain_last {S R : Type} (sk : Skeleton S R) (p : Ptr) :
    ∀ (l : List Ptr) (last : Ptr), SiblingChain sk p l → l.getLast? = some last →
      ∃ b, sk.deref last = Run.done b ∧ b.parent = some p ∧ b.sibling = none := by
  intro l
  induction l with
  | nil => intro last _ h; cases h
  | cons c rest ih =>
    intro last h hl
    obtain ⟨⟨b, hb, hp, hs⟩, hrest⟩ := h
    cases rest with
    | nil =>
      simp only [List.getLast?_singleton, Option.some.injEq] at hl
      subst hl
      exact ⟨b, hb, hp, hs⟩
    | cons d rest2 =>
      rw [List.getLast?_cons_cons] at hl
      exact ih last hrest hl

/-- The walk along the sibling links of a chain ends at its last bone. -/
theorem siblingEnd_chain {S R : Type} (sk : Skeleton S R) (p : Ptr) :
    ∀ (rest : List Ptr) (c last : Ptr), SiblingChain sk p (c :: rest) →
      (c :: rest).getLast? = some last →
      ∀ fuel, rest.length < fuel → siblingEnd sk fuel c = Run.done last := by
  intro rest
  induction rest with
  | nil =>
    intro c last h hl fuel hf
    obtain ⟨f, rfl⟩ : ∃ f, fuel = f + 1 := ⟨fuel - 1, by omega⟩
    obtain ⟨⟨b, hb, _, hs⟩, _⟩ := h
    simp only [List.getLast?_singleton, Option.some.injEq] at hl
    subst hl
    simp only [siblingEnd, hb, Run.bind_done]
    simp only [List.head?_nil] at hs
    rw [hs]
  | cons d rest ih =>
    intro c last h hl fuel hf
    simp only [List.length_cons] at hf
    obtain ⟨f, rfl⟩ : ∃ f, fuel = f + 1 := ⟨fuel - 1, by omega⟩
    obtain ⟨⟨b, hb, _, hs⟩, hrest⟩ := h
    rw [List.getLast?_cons_cons] at hl
    simp only [siblingEnd, hb, Run.bind_done]
    simp only [List.head?_cons] at hs
    rw [hs]
    exact ih d last hrest hl f (by omega)

/-- Appending a bone to a sibling chain by setting the sibling link of its last bone. -/
theorem siblingChain_snoc {S R : Type} (sk sk1 : Skeleton S R) (p c last : Ptr)
    (bl bc : Bone S R) (hl1 : sk1.deref last = Run.done { bl with sibling := some c })
    (hbl : sk.deref last = Run.done bl)
    (hother : ∀ q, q ≠ last → sk1.deref q = sk.deref q)
    (hc : sk.deref c = Run.done bc) (hcp : bc.parent = some p) (hcs : bc.sibling = none) :
    ∀ l : List Ptr, SiblingChain sk p l → l.getLast? = some last → (l ++ [c]).Nodup →
      SiblingChain sk1 p (l ++ [c]) := by
  intro l
  induction l with
  | nil => intro _ h _; cases h
  | cons x rest ih =>
    intro h hl hnd
    obtain ⟨⟨b, hb, hp, hs⟩, hrest⟩ := h
    cases rest with
    | nil =>
      simp only [List.getLast?_singleton, Option.some.injEq] at hl
      subst hl
      rw [hbl] at hb
      cases hb
      have hne : c ≠ x := by
        intro hc2
        subst hc2
        simp at hnd
      refine ⟨⟨_, hl1, hp, rfl⟩, ⟨bc, ?_, hcp, hcs⟩, trivial⟩
      rw [hother c hne]
      exact hc
    | cons d rest2 =>
      rw [List.getLast?_cons_cons] at hl
      have hnd1 : ((d :: rest2) ++ [c]).Nodup := by
        simp only [List.cons_append, List.nodup_cons] at hnd ⊢
        exact hnd.2
      have hx : x ≠ last := by
        intro hx
        subst hx
        have hmem : x ∈ d :: rest2 := List.mem_of_mem_getLast? hl
        simp only [List.cons_append, List.nodup_cons, List.mem_cons, List.mem_append] at hnd
        simp only [List.mem_cons] at hmem
        rcases hmem with h1 | h1
        · exact hnd.1 (Or.inl h1)
        · exact hnd.1 (Or.inr (Or.inl h1))
      refine ⟨⟨b, ?_, hp, ?_⟩, ih hrest hl hnd1⟩
      · rw [hother x hx]
        exact hb
      · simpa using hs

/-- The links of a sibling chain, bone by bone. -/
theorem siblingChain_get {S R : Type} (sk : Skeleton S R) (p : Ptr) :
    ∀ (l : List Ptr), SiblingChain sk p l → ∀ (i : Nat) (c : Ptr), l[i]? = some c →
      ∃ b, sk.deref c = Run.done b ∧ b.parent = some p ∧ b.sibling = l[i + 1]? := by
  intro l
  induction l with
  | nil => intro _ i c h; simp at h
  | cons x rest ih =>
    intro h i c hi
    obtain ⟨⟨b, hb, hp, hs⟩, hrest⟩ := h
    cases i with
    | zero =>
      simp only [List.getElem?_cons_zero, Option.some.injEq] at hi
      subst hi
      refine ⟨b, hb, hp, ?_⟩
      rw [hs]
      cases rest <;> simp
    | succ i =>
      simp only [List.getElem?_cons_succ] at hi
      obtain ⟨b1, hb1, hp1, hs1⟩ := ih hrest i c hi
      exact ⟨b1, hb1, hp1, by simpa using hs1⟩

/-- One call `setBoneHierarchy(p, c)` on a parent whose children so far form a sibling chain:
the new child is appended to the chain, and every other bone keeps its sibling link. -/
theorem setBoneHierarchy_step {S R : Type} (sk : Skeleton S R) (p c : Ptr) (linked : List Ptr)
    (pb bc : Bone S R) (hp : sk.deref p = Run.done pb) (hpc : pb.child = linked.head?)
    (hch : SiblingChain sk p linked) (hc : sk.deref c = Run.done bc) (hcs : bc.sibling = none)
    (hnd : (linked ++ [c]).Nodup) (fuel : Nat) (hf : linked.length < fuel) :
    ∃ sk1, setBoneHierarchy fuel sk (some p) (some c) = Run.done sk1 ∧
      (∃ pb1, sk1.deref p = Run.done pb1 ∧ pb1.child = (linked ++ [c]).head?) ∧
      SiblingChain sk1 p (linked ++ [c]) ∧
      ∀ q, q ≠ c → q ∉ linked → ∀ b, sk.deref q = Run.done b →
        ∃ b1, sk1.deref q = Run.done b1 ∧ b1.sibling = b.sibling := by
  obtain ⟨skA, hA, hAc, hAo⟩ := update_spec sk c bc (fun b => { b with parent := some p }) hc
  have hcnot : c ∉ linked := by
    intro hmem
    rw [List.nodup_append] at hnd
    exact hnd.2.2 hmem (List.mem_singleton_self c)
  have hlnd : linked.Nodup := (List.nodup_append.mp hnd).1
  obtain ⟨pbA, hpA, hpAc, hpAs⟩ : ∃ pbA, skA.deref p = Run.done pbA ∧ pbA.child = pb.child ∧
      pbA.sibling = pb.sibling := by
    by_cases hpc2 : p = c
    · subst hpc2
      rw [hp] at hc
      cases hc
      exact ⟨_, hAc, rfl, rfl⟩
    · exact ⟨pb, by rw [hAo p hpc2]; exact hp, rfl, rfl⟩
  cases linked with
  | nil =>
    have hch0 : pbA.child = none := by rw [hpAc, hpc]; rfl
    obtain ⟨skB, hB, hBp, hBo⟩ := update_spec skA p pbA (fun b => { b with child := some c }) hpA
    refine ⟨skB, ?_, ⟨_, hBp, rfl⟩, ⟨?_, trivial⟩, ?_⟩
    · simp only [setBoneHierarchy, hA, Run.bind_done, hpA, hch0]
      exact hB
    · by_cases hpc2 : c = p
      · subst hpc2
        rw [hAc] at hpA
        cases hpA
        exact ⟨_, hBp, rfl, hcs⟩
      · exact ⟨({ bc with parent := some p } : Bone S R), by rw [hBo c hpc2]; exact hAc, rfl, hcs⟩
    · intro q hqc _ b hb
      by_cases hqp : q = p
      · subst hqp
        rw [hp] at hb
        cases hb
        exact ⟨_, hBp, hpAs⟩
      · exact ⟨b, by rw [hBo q hqp, hAo q hqc]; exact hb, rfl⟩
  | cons first rest =>
    have hch1 : pbA.child = some first := by rw [hpAc, hpc]; rfl
    have hchA : SiblingChain skA p (first :: rest) :=
      siblingChain_frame sk skA p _ hch (fun x hx => hAo x (fun h => hcnot (h ▸ hx)))
    obtain ⟨last, hlast⟩ : ∃ last, (first :: rest).getLast? = some last :=
      ⟨(first :: rest).getLast (by simp), List.getLast?_eq_getLast _ _⟩
    have hse := siblingEnd_chain skA p rest first last hchA hlast fuel
      (by simp only [List.length_cons] at hf; omega)
    obtain ⟨bl, hbl, _, _⟩ := siblingChain_last skA p _ last hchA hlast
    obtain ⟨skB, hB, hBl, hBo⟩ := update_spec skA last bl
      (fun b => { b with sibling := some c }) hbl
    have hlmem : last ∈ first :: rest := List.mem_of_mem_getLast? hlast
    refine ⟨skB, ?_, ?_, ?_, ?_⟩
    · simp only [setBoneHierarchy, hA, Run.bind_done, hpA, hch1, hse]
      exact hB
    · by_cases hpl : p = last
      · subst hpl
        rw [hbl] at hpA
        cases hpA
        exact ⟨_, hBl, hch1⟩
      · exact ⟨pbA, by rw [hBo p hpl]; exact hpA, hch1⟩
    · exact siblingChain_snoc skA skB p c last bl ({ bc with parent := some p } : Bone S R) hBl hbl
        hBo hAc rfl hcs _ hchA hlast hnd
    · intro q hqc hql b hb
      have hqlast : q ≠ last := fun h => hql (h ▸ hlmem)
      exact ⟨b, by rw [hBo q hqlast, hAo q hqc]; exact hb, rfl⟩

/-- The calls for a list of children, given the children linked so far. -/
theorem setBoneHierarchyAll_spec {S R : Type} (p : Ptr) :
    ∀ (cs linked : List Ptr) (sk : Skeleton S R), (linked ++ cs).Nodup →
      (∃ pb, sk.deref p = Run.done pb ∧ pb.child = linked.head?) →
      SiblingChain sk p linked →
      (∀ c ∈ cs, ∃ b, sk.deref c = Run.done b ∧ b.sibling = none) →
      ∀ fuel, linked.length + cs.length < fuel →
      ∃ sk1, setBoneHierarchyAll fuel (some p) cs sk = Run.done sk1 ∧
        (∃ pb1, sk1.deref p = Run.done pb1 ∧ pb1.child = (linked ++ cs).head?) ∧
        SiblingChain sk1 p (linked ++ cs) := by
  intro cs
  induction cs with
  | nil =>
    intro linked sk _ hp hch _ fuel _
    refine ⟨sk, rfl, ?_, ?_⟩
    · simpa using hp
    · simpa using hch
  | cons c cs ih =>
    intro linked sk hnd hp hch hcs fuel hf
    obtain ⟨pb, hpb, hpc⟩ := hp
    obtain ⟨bc, hbc, hbcs⟩ := hcs c (List.mem_cons_self _ _)
    have hnd1 : (linked ++ [c]).Nodup := by
      have : linked ++ c :: cs = (linked ++ [c]) ++ cs := by simp
      rw [this] at hnd
      exact (List.nodup_append.mp hnd).1
    have hnd2 : ((linked ++ [c]) ++ cs).Nodup := by
      have : linked ++ c :: cs = (linked ++ [c]) ++ cs := by simp
      rw [← this]
      exact hnd
    obtain ⟨sk1, h1, hp1, hch1, hkeep⟩ := setBoneHierarchy_step sk p c linked pb bc hpb hpc hch hbc
      hbcs hnd1 fuel (by simp only [List.length_cons] at hf; omega)
    obtain ⟨sk2, h2, hp2, hch2⟩ := ih (linked ++ [c]) sk1 hnd2 hp1 hch1
      (fun x hx => by
        obtain ⟨b, hb, hbs⟩ := hcs x (List.mem_cons_of_mem _ hx)
        have hxc : x ≠ c := by
          rintro rfl
          have := (List.nodup_append.mp hnd).2.1
          simp only [List.nodup_cons] at this
          exact this.1 hx
        have hxl : x ∉ linked := by
          intro hmem
          exact (List.nodup_append.mp hnd).2.2 hmem (List.mem_cons_of_mem _ hx)
        obtain ⟨b1, hb1, hs1⟩ := hkeep x hxc hxl b hb
        exact ⟨b1, hb1, hs1.trans hbs⟩)
      fuel (by simp only [List.length_append, List.length_cons, List.length_nil] at hf ⊢; omega)
    have e : linked ++ c :: cs = (linked ++ [c]) ++ cs := by simp
    refine ⟨sk2, ?_, ?_, ?_⟩
    · simp only [setBoneHierarchyAll, h1, Run.bind_done]
      exact h2
    · rw [e]; exact hp2
    · rw [e]; exact hch2

/-- C16: for a parent bone with no child and a list of distinct bones without sibling, the
calls `setBoneHierarchy(parent, c)` for the bones of the list in order return (for every
sufficient bound on the sibling walks) and leave the first bone of the list as the parent's
child, every bone of the list with the parent as its parent and the next bone of the list as
its sibling, the last one with no sibling; a call with a null parent returns the skeleton
unchanged. -/
theorem children_linked_in_order {S R : Type} (sk : Skeleton S R) (p : Ptr) (cs : List Ptr)
    (pb : Bone S R) (hp : sk.deref p = Run.done pb) (hpc : pb.child = none)
    (hcs : ∀ c ∈ cs, ∃ b, sk.deref c = Run.done b ∧ b.sibling = none) (hnd : cs.Nodup) :
    (∀ (fuel : Nat) (sk0 : Skeleton S R) (child : Option Ptr),
      setBoneHierarchy fuel sk0 none child = Run.done sk0) ∧
    ∃ fuel0, ∀ fuel, fuel0 ≤ fuel →
      ∃ sk1, setBoneHierarchyAll fuel (some p) cs sk = Run.done sk1 ∧
        (∃ pb1, sk1.deref p = Run.done pb1 ∧ pb1.child = cs.head?) ∧
        ∀ (i : Nat) (c : Ptr), cs[i]? = some c →
          ∃ b, sk1.deref c = Run.done b ∧ b.parent = some p ∧ b.sibling = cs[i + 1]? := by
  refine ⟨fun _ _ _ => rfl, cs.length + 1, fun fuel hf => ?_⟩
  obtain ⟨sk1, h1, hp1, hch1⟩ := setBoneHierarchyAll_spec p cs [] sk (by simpa using hnd)
    ⟨pb, hp, hpc⟩ trivial hcs fuel (by simp only [List.length_nil]; omega)
  simp only [List.nil_append] at hp1 hch1
  exact ⟨sk1, h1, hp1, siblingChain_get sk1 p cs hch1⟩

theorem looseSkeleton_children :
    ∀ c ∈ ([⟨0, 2⟩, ⟨0, 1⟩, ⟨0, 3⟩] : List Ptr),
      ∃ b, looseSkeleton.deref c = Run.done b ∧ b.sibling = none := by
  intro c hc
  simp only [List.mem_cons, List.mem_singleton, List.not_mem_nil, or_false] at hc
  rcases hc with rfl | rfl | rfl <;> exact ⟨_, rfl, rfl⟩

theorem children_linked_in_order_witness :
    (looseSkeleton.deref ⟨0, 0⟩ = Run.done (demoBone "root" 0 none none) ∧
      (demoBone "root" 0 none none).child = none ∧
      (∀ c ∈ ([⟨0, 2⟩, ⟨0, 1⟩, ⟨0, 3⟩] : List Ptr),
        ∃ b, looseSkeleton.deref c = Run.done b ∧ b.sibling = none) ∧
      ([⟨0, 2⟩, ⟨0, 1⟩, ⟨0, 3⟩] : List Ptr).Nodup) ∧
    (∀ (fuel : Nat) (sk0 : Skeleton Exact Unit) (child : Option Ptr),
      setBoneHierarchy fuel sk0 none child = Run.done sk0) ∧
    ∃ fuel0, ∀ fuel, fuel0 ≤ fuel →
      ∃ sk1, setBoneHierarchyAll fuel (some ⟨0, 0⟩) [⟨0, 2⟩, ⟨0, 1⟩, ⟨0, 3⟩] looseSkeleton
          = Run.done sk1 ∧
        (∃ pb1, sk1.deref ⟨0, 0⟩ = Run.done pb1 ∧
          pb1.child = ([⟨0, 2⟩, ⟨0, 1⟩, ⟨0, 3⟩] : List Ptr).head?) ∧
        ∀ (i : Nat) (c : Ptr), ([⟨0, 2⟩, ⟨0, 1⟩, ⟨0, 3⟩] : List Ptr)[i]? = some c →
          ∃ b, sk1.deref c = Run.done b ∧ b.parent = some ⟨0, 0⟩ ∧
            b.sibling = ([⟨0, 2⟩, ⟨0, 1⟩, ⟨0, 3⟩] : List Ptr)[i + 1]? :=
  ⟨⟨rfl, rfl, looseSkeleton_children, by decide⟩,
   children_linked_in_order looseSkeleton ⟨0, 0⟩ [⟨0, 2⟩, ⟨0, 1⟩, ⟨0, 3⟩]
    (demoBone "root" 0 none none) rfl rfl looseSkeleton_children (by decide)⟩

/-- The links after the three calls on the skeleton without links: the parent's child is
the first bone of the list and the sibling links follow the list. -/
theorem children_linked_in_order_example :
    (setBoneHierarchyAll 4 (some ⟨0, 0⟩) [⟨0, 2⟩, ⟨0, 1⟩, ⟨0, 3⟩] looseSkeleton).bind
        (fun sk => Run.done (sk.bones.map fun b => (b.parent, b.child, b.sibling))) =
      Run.done [(none, some ⟨0, 2⟩, none), (some ⟨0, 0⟩, none, some ⟨0, 3⟩),
        (some ⟨0, 0⟩, none, some ⟨0, 1⟩), (some ⟨0, 0⟩, none, none)] := by
  decide

end acclaim

namespace IStream

theorem lines_head (r : List Char) :
    ∃ ls, lines r = r.takeWhile (fun c => c != '\n') :: ls ∧
      ∀ x r1, r.dropWhile (fun c => c != '\n') = x :: r1 → ls = lines r1 := by
  induction r with
  | nil => exact ⟨[], rfl, fun x r1 h => by simp at h⟩
  | cons c r ih =>
    obtain ⟨ls, hls, hrest⟩ := ih
    by_cases hc : c = '\n'
    · subst hc
      refine ⟨lines r, by simp [lines], fun x r1 h => ?_⟩
      simp only [bne_self_eq_false, Bool.false_eq_true, not_false_eq_true,
        List.dropWhile_cons_of_neg, List.cons.injEq] at h
      rw [h.2]
    · have hne : (c != '\n') = true := by simpa using hc
      refine ⟨ls, ?_, fun x r1 h => ?_⟩
      · simp only [lines, if_neg hc, hls, List.takeWhile_cons, hne, if_true]
      · simp only [List.dropWhile_cons, hne, if_true] at h
        exact hrest x r1 h

/-- What `getline` reads is a line of the text left in the stream, or the string it was
given when the stream is not good; the lines left afterwards are lines of the text. -/
theorem getline_lines (P : String → Prop) (hP : P (String.mk [])) (s : IStream) (str : String)
    (hl : ∀ L ∈ lines s.rest, P (String.mk L)) (hs : s.good = false → P str) :
    P (s.getline str).2 ∧ ∀ L ∈ lines (s.getline str).1.rest, P (String.mk L) := by
  obtain ⟨ls, hls, hrest⟩ := lines_head s.rest
  unfold getline
  by_cases hg : s.good = true
  · rw [if_pos hg]
    cases hd : s.rest.dropWhile (fun c => c != '\n') with
    | nil =>
      refine ⟨hl _ (by rw [hls]; exact List.mem_cons_self _ _), ?_⟩
      intro L hL
      simp only [lines, List.mem_singleton] at hL
      rw [hL]
      exact hP
    | cons x r1 =>
      refine ⟨hl _ (by rw [hls]; exact List.mem_cons_self _ _), ?_⟩
      intro L hL
      simp only at hL
      rw [← hrest x r1 hd] at hL
      exact hl L (by rw [hls]; exact List.mem_cons_of_mem _ hL)
  · rw [if_neg hg]
    exact ⟨hs (by simpa using hg), hl⟩

end IStream

namespace acclaim

theorem findName_ge {S R : Type} (name : String) :
    ∀ (l : List (Bone S R)) (j i : Nat), findName name l j = some i → j ≤ i := by
  intro l
  induction l with
  | nil => intro j i h; cases h
  | cons b r ih =>
    intro j i h
    unfold findName at h
    split_ifs at h
    · cases h; exact le_refl _
    · have := ih (j + 1) i h
      omega

/-- A name other than `root` is not found at position 0 when the bone there is named
`root`. -/
theorem getBonePointer_not_root {S R : Type} (sk : Skeleton S R) (hr : sk.RootFirst)
    (name : String) (hn : name ≠ "root") (c : Ptr) (h : sk.getBonePointer name = some c) :
    c.pos ≠ 0 := by
  obtain ⟨rb, hrb, hname, _⟩ := hr
  unfold Skeleton.getBonePointer at h
  cases hb : sk.bones with
  | nil => rw [hb] at hrb; cases hrb
  | cons b rest =>
    rw [hb] at hrb h
    simp only [List.getElem?_cons_zero, Option.some.injEq] at hrb
    subst hrb
    unfold findName at h
    rw [if_neg (by rw [hname]; exact hn)] at h
    cases hf : findName name rest (0 + 1) with
    | none => rw [hf] at h; cases h
    | some i =>
      rw [hf] at h
      cases h
      have := findName_ge name rest (0 + 1) i hf
      simp only
      omega

theorem update_root {S R : Type} (sk sk1 : Skeleton S R) (q : Ptr) (g : Bone S R → Bone S R)
    (h : sk.update q g = Run.done sk1)
    (hg : q.pos ≠ 0 ∨ ∀ b, (g b).name = b.name ∧ (g b).parent = b.parent)
    (hr : sk.RootFirst) : sk1.RootFirst := by
  unfold Skeleton.update at h
  obtain ⟨b, hb, h1⟩ := Run.bind_eq_done h
  cases h1
  rw [Skeleton.deref_eq_done] at hb
  obtain ⟨rb, hrb, hname, hpar⟩ := hr
  have hlt : 0 < sk.bones.length := by
    by_contra hc
    rw [List.getElem?_eq_none (by omega)] at hrb
    cases hrb
  by_cases hq : q.pos = 0
  · have hg1 : ∀ b, (g b).name = b.name ∧ (g b).parent = b.parent := by
      rcases hg with h | h
      · exact absurd hq h
      · exact h
    have hbb := hb.2
    rw [hq, hrb] at hbb
    have hbeq : b = rb := (Option.some.inj hbb).symm
    refine ⟨g b, ?_, ?_, ?_⟩
    · simp only [hq]
      rw [List.getElem?_set_self hlt]
    · rw [(hg1 b).1, hbeq]; exact hname
    · rw [(hg1 b).2, hbeq]; exact hpar
  · refine ⟨rb, ?_, hname, hpar⟩
    simp only
    rw [List.getElem?_set_ne hq]
    exact hrb

/-- A call of `setBoneHierarchy` whose child is not the bone at position 0 leaves the root
as it was. -/
theorem setBoneHierarchy_root {S R : Type} (f : Nat) (sk sk1 : Skeleton S R)
    (parent child : Option Ptr) (h : setBoneHierarchy f sk parent child = Run.done sk1)
    (hc : ∀ c, child = some c → c.pos ≠ 0) (hr : sk.RootFirst) : sk1.RootFirst := by
  cases parent with
  | none => cases h; exact hr
  | some p =>
    cases child with
    | none => cases h
    | some c =>
      simp only [setBoneHierarchy] at h
      obtain ⟨sk2, h2, h3⟩ := Run.bind_eq_done h
      have k2 := update_root sk sk2 c _ h2 (Or.inl (hc c rfl)) hr
      obtain ⟨pb, _, h4⟩ := Run.bind_eq_done h3
      cases hch : pb.child with
      | none =>
        rw [hch] at h4
        simp only at h4
        exact update_root sk2 sk1 p _ h4 (Or.inr fun b => ⟨rfl, rfl⟩) k2
      | some first =>
        rw [hch] at h4
        simp only at h4
        obtain ⟨cur, _, h5⟩ := Run.bind_eq_done h4
        exact update_root sk2 sk1 cur _ h5 (Or.inr fun b => ⟨rfl, rfl⟩) k2

theorem linkChildren_root {S R : Type} (f : Nat) (parent : Option Ptr) :
    ∀ (names : List String) (sk sk1 : Skeleton S R),
      linkChildren f parent names sk = Run.done sk1 → "root" ∉ names →
      sk.RootFirst → sk1.RootFirst := by
  intro names
  induction names with
  | nil => intro sk sk1 h _ hr; cases h; exact hr
  | cons n rest ih =>
    intro sk sk1 h hn hr
    simp only [linkChildren] at h
    obtain ⟨sk2, h2, h3⟩ := Run.bind_eq_done h
    have hne : n ≠ "root" := fun hc => hn (hc ▸ List.mem_cons_self _ _)
    have k2 := setBoneHierarchy_root f sk sk2 parent _ h2
      (fun c hc => getBonePointer_not_root sk hr n hne c hc) hr
    exact ih sk2 sk1 h3 (fun hc => hn (List.mem_cons_of_mem _ hc)) k2

/-- The hierarchy section leaves the root at position 0 without a parent when none of its
lines names `root` as a child. -/
theorem hierarchyLoop_root {S R : Type} :
    ∀ (f : Nat) (s : IStream) (str kw : String) (sk sk1 : Skeleton S R),
      hierarchyLoop f s str kw sk = Run.done sk1 →
      (∀ L ∈ IStream.lines s.rest, listsRootAsChild (String.mk L) = false) →
      (s.good = false → listsRootAsChild str = false) →
      sk.RootFirst → sk1.RootFirst := by
  intro f
  induction f with
  | zero => intro s str kw sk sk1 h; cases h
  | succ f ih =>
    intro s str kw sk sk1 h hl hs hr
    obtain ⟨hline, hnext⟩ := IStream.getline_lines (fun l => listsRootAsChild l = false)
      (by decide) s str hl hs
    simp only [hierarchyLoop] at h
    split_ifs at h with hend
    · cases h; exact hr
    · obtain ⟨sk2, h2, h3⟩ := Run.bind_eq_done h
      have hnot : "root" ∉ (IStream.words (s.getline str).2).tail := by
        intro hc
        have : listsRootAsChild (s.getline str).2 = true := by
          unfold listsRootAsChild
          simpa using hc
        rw [hline] at this
        cases this
      have k2 := linkChildren_root f _ _ sk sk2 h2 hnot hr
      exact ih _ _ _ sk2 sk1 h3 hnext (fun _ => hline) k2

theorem recordStep_bones {S R : Type} (K : Kernel S R) (scan : List Char → Option S)
    (scale : S) (st : ReadState S R) (cur : Bone S R) :
    (∀ s, recordStep K scan scale st cur = Step.next s → s.1.bones = st.bones) ∧
    (∀ r, recordStep K scan scale st cur = Step.exit r → r.1.bones = st.bones) := by
  unfold recordStep
  by_cases h1 : (st.input.readWord st.keyword).2 = "end"
  · simp only [if_pos h1]
    exact ⟨fun s h => (by cases h), fun r h => (by cases h; rfl)⟩
  simp only [if_neg h1]
  by_cases h2 : (st.input.readWord st.keyword).2 = ":hierarchy"
  · simp only [if_pos h2]
    exact ⟨fun s h => (by cases h), fun r h => (by cases h; rfl)⟩
  simp only [if_neg h2]
  by_cases h3 : (st.input.readWord st.keyword).2 = "id"
  · simp only [if_pos h3]
    exact ⟨fun s h => (by cases h; rfl), fun r h => (by cases h)⟩
  simp only [if_neg h3]
  by_cases h4 : (st.input.readWord st.keyword).2 = "name"
  · simp only [if_pos h4]
    exact ⟨fun s h => (by cases h; rfl), fun r h => (by cases h)⟩
  simp only [if_neg h4]
  by_cases h5 : (st.input.readWord st.keyword).2 = "direction"
  · simp only [if_pos h5]
    exact ⟨fun s h => (by cases h; rfl), fun r h => (by cases h)⟩
  simp only [if_neg h5]
  by_cases h6 : (st.input.readWord st.keyword).2 = "length"
  · simp only [if_pos h6]
    exact ⟨fun s h => (by cases h; rfl), fun r h => (by cases h)⟩
  simp only [if_neg h6]
  by_cases h7 : (st.input.readWord st.keyword).2 = "axis"
  · simp only [if_pos h7]
    exact ⟨fun s h => (by cases h; rfl), fun r h => (by cases h)⟩
  simp only [if_neg h7]
  by_cases h8 : (st.input.readWord st.keyword).2 = "dof"
  · simp only [if_pos h8]
    exact ⟨fun s h => (by cases h; rfl), fun r h => (by cases h)⟩
  simp only [if_neg h8]
  exact ⟨fun s h => (by cases h; rfl), fun r h => (by cases h)⟩

theorem recordLoop_bones {S R : Type} (K : Kernel S R) (scan : List Char → Option S)
    (scale : S) :
    ∀ (f : Nat) (st : ReadState S R) (cur : Bone S R) (r : ReadState S R × Bone S R × Bool),
      recordLoop K scan scale f st cur = Run.done r → r.1.bones = st.bones := by
  intro f
  induction f with
  | zero => intro st cur r h; cases h
  | succ f ih =>
    intro st cur r h
    unfold recordLoop at h
    cases hs : recordStep K scan scale st cur with
    | next s =>
      rw [hs] at h
      simp only at h
      rw [ih s.1 s.2 r h]
      exact (recordStep_bones K scan scale st cur).1 s hs
    | exit r1 =>
      rw [hs] at h
      simp only [Run.done.injEq] at h
      rw [← h]
      exact (recordStep_bones K scan scale st cur).2 r1 hs

/-- The loop over the bone records only appends bones. -/
theorem boneDataLoop_prefix {S R : Type} (K : Kernel S R) (scan : List Char → Option S)
    (scale : S) (blank : Bone S R) :
    ∀ (f : Nat) (st res : ReadState S R), boneDataLoop K scan scale blank f st = Run.done res →
      ∃ extra, res.bones = st.bones ++ extra := by
  intro f
  induction f with
  | zero => intro st res h; cases h
  | succ f ih =>
    intro st res h
    unfold boneDataLoop at h
    cases hr : recordLoop K scan scale f st blank with
    | done r =>
      obtain ⟨st1, cur, fin⟩ := r
      rw [hr] at h
      simp only at h
      have hb := recordLoop_bones K scan scale f st blank _ hr
      simp only at hb
      split_ifs at h
      · cases h
        exact ⟨[], by simp [hb]⟩
      · obtain ⟨extra, he⟩ := ih _ res h
        refine ⟨cur :: extra, ?_⟩
        rw [he]
        simp [hb]
    | fault => rw [hr] at h; cases h
    | timeout => rw [hr] at h; cases h

theorem computeLocalDirection_root {S R : Type} (toLocal : Vec4 S → Vec4 S → Vec4 S)
    (sk : Skeleton S R) :
    (computeLocalDirection toLocal sk).bones[0]? = sk.bones[0]? := by
  simp only [computeLocalDirection, List.getElem?_mapIdx]
  cases sk.bones[0]? with
  | none => rfl
  | some b => simp

/-- The loop over the records of a description with at least one record, with the stream
it leaves: the text behind the `:hierarchy` keyword. -/
theorem boneData_first_input {S R : Type} (K : Kernel S R) (scan : List Char → Option S)
    (scale : S) (blank : Bone S R) (c : Char) (tail : List Char)
    (hc : IStream.isSpace c = true) (d : BoneDecl) (ds : List BoneDecl)
    (hwf : ∀ x ∈ d :: ds, x.WellFormed scan) (str kw : String) (bones : List (Bone S R))
    (mb : Int) :
    ∃ f0, ∀ f, f0 ≤ f → ∃ res : ReadState S R,
      boneDataLoop K scan scale blank f
        ⟨⟨d.fields (renderRecords ds (":hierarchy".data ++ c :: tail)), false, false⟩,
          str, kw, bones, mb⟩ = Run.done res ∧
      res.input = ⟨c :: tail, false, false⟩ ∧
      res.bones.map (fun b => b.idx) =
        bones.map (fun b => b.idx) ++ (d :: ds).map BoneDecl.idValue := by
  have hd : d.WellFormed scan := hwf d (List.mem_cons_self _ _)
  have hds : ∀ x ∈ ds, x.WellFormed scan := fun x hx => hwf x (List.mem_cons_of_mem _ hx)
  obtain ⟨f0, hf0⟩ := boneDataLoop_spec K scan scale blank c tail hc ds hds
  refine ⟨f0 + 9, fun f hf => ?_⟩
  obtain ⟨g, rfl⟩ : ∃ g, f = g + 9 := ⟨f - 9, by omega⟩
  obtain ⟨str1, mb1, cur1, _, hi, hrec⟩ := record_fields_spec K scan scale d hd []
    (renderRecords ds (":hierarchy".data ++ c :: tail)) nil_pre g str kw bones mb blank
  simp only [List.nil_append] at hrec
  obtain ⟨res, hres, hin, _, hidx⟩ := hf0 ['\n'] newline_pre str1 "end" (bones ++ [cur1])
    mb1 (g + 8) (by omega)
  simp only [List.singleton_append] at hres
  refine ⟨res, ?_, hin, ?_⟩
  · have e1 : g + 9 = (g + 8) + 1 := rfl
    rw [e1]
    simp only [boneDataLoop, hrec]
    simpa using hres
  · rw [hidx]; simp [hi]

theorem ignoreLine_newline (X : List Char) :
    IStream.ignoreLine ⟨'\n' :: X, false, false⟩ = ⟨X, false, false⟩ := by
  simp [IStream.ignoreLine, IStream.good, IStream.ignoreAux]

/-- Where the loader does establish the invariant: after a description in the canonical
layout has been loaded, the bone at array position 0 is the root, with `idx` 0, and the bone
at position `k`, for `k` from 1 on, carries the id declared by the `k`-th bone record in
file order as its `idx`.  Hence every bone at position `i` has `idx` equal to `i` when the
records declare the ids 1, 2, ... in file order; and the root has no parent when no line of
the hierarchy section names `root` as a child. -/
theorem load_idx_follows_declared_ids {S R : Type} (K : Kernel S R)
    (scan : List Char → Option S) (toLocal : Vec4 S → Vec4 S → Vec4 S) (blank : Bone S R)
    (d : BoneDecl) (ds : List BoneDecl) (body : List Char) (fuel : Nat) (scale : S)
    (store : Nat) (sk : Skeleton S R)
    (hwf : ∀ x ∈ d :: ds, x.WellFormed scan)
    (hload : Skeleton.load K scan toLocal blank fuel
      (some (renderDescription (d :: ds) ('\n' :: ("begin".data ++ '\n' :: body)))) scale store
        = Run.done sk) :
    sk.bones.map (fun b => b.idx) = 0 :: (d :: ds).map BoneDecl.idValue ∧
    (∃ rb, sk.bones[0]? = some rb ∧ rb.name = "root" ∧ rb.idx = 0) ∧
    ((∀ (i : Nat) (x : BoneDecl), (d :: ds)[i]? = some x → x.idValue = (i : Int) + 1) →
      sk.Indexed) ∧
    ((∀ L ∈ IStream.lines body, listsRootAsChild (String.mk L) = false) →
      sk.RootFirst ∧ sk.RootTop) := by
  -- the constructor
  unfold Skeleton.load at hload
  obtain ⟨r, hread, h1⟩ := Run.bind_eq_done hload
  obtain ⟨_, _, h2⟩ := Run.bind_eq_done h1
  cases h2
  -- the reader
  have hhead := header_of_description ds ('\n' :: ("begin".data ++ '\n' :: body)) d
  cases fuel with
  | zero => cases hread
  | succ f =>
    rw [readASFFile_after_header K scan blank f _ _ (by rw [hhead]; rfl)] at hread
    obtain ⟨st, hbd, h3⟩ := Run.bind_eq_done hread
    obtain ⟨sk1, hh, h4⟩ := Run.bind_eq_done h3
    cases h4
    rw [hhead] at hbd
    have hbd1 : boneDataLoop K scan scale blank (f + 1)
        ⟨⟨d.fields (renderRecords ds
            (":hierarchy".data ++ '\n' :: ("begin".data ++ '\n' :: body))), false, false⟩,
          ":bonedata", "", [rootBone K blank], 1⟩ = Run.done st := by
      rw [← ignoreLine_begin (d.fields (renderRecords ds
        (":hierarchy".data ++ '\n' :: ("begin".data ++ '\n' :: body))))]
      exact hbd
    -- the bone-data section
    obtain ⟨f0, hf0⟩ := boneData_first_input K scan scale blank '\n'
      ("begin".data ++ '\n' :: body) (by decide) d ds hwf ":bonedata" "" [rootBone K blank] 1
    obtain ⟨res, hres, hin, hidx⟩ := hf0 f0 (le_refl _)
    have hst : st = res := by
      rcases boneDataLoop_fuel K scan scale blank f0 _ res hres (f + 1) with h | h
      · rw [h] at hbd1; cases hbd1
      · rw [h] at hbd1; cases hbd1; rfl
    subst hst
    obtain ⟨extra, hextra⟩ := boneDataLoop_prefix K scan scale blank (f + 1) _ st hbd1
    simp only at hextra
    -- the hierarchy section and the local directions
    have hk := hierarchyLoop_keeps (f + 1) _ _ _ _ sk1 hh
    have hcd := computeLocalDirection_keeps toLocal sk1
    have hall : (computeLocalDirection toLocal sk1).bones.map (fun b => b.idx) =
        0 :: (d :: ds).map BoneDecl.idValue := by
      rw [hcd.2.1, hk.2]
      simpa [rootBone] using hidx
    have hnames : (computeLocalDirection toLocal sk1).bones.map (fun b => b.name) =
        "root" :: extra.map (fun b => b.name) := by
      rw [hcd.1, hk.1]
      simp only
      rw [hextra]
      simp [rootBone]
    refine ⟨hall, ?_, ?_, ?_⟩
    · cases hb : (computeLocalDirection toLocal sk1).bones with
      | nil => rw [hb] at hall; cases hall
      | cons rb rest =>
        rw [hb] at hall
        have hn := hnames
        rw [hb] at hn
        simp only [List.map_cons, List.cons.injEq] at hall hn
        exact ⟨rb, by simp, hn.1, hall.1⟩
    · intro hids i b hb
      have h1 : ((computeLocalDirection toLocal sk1).bones.map (fun b => b.idx))[i]? =
          some b.idx := by
        rw [List.getElem?_map, hb]
        rfl
      rw [hall] at h1
      cases i with
      | zero =>
        simp only [List.getElem?_cons_zero, Option.some.injEq] at h1
        rw [← h1]
        rfl
      | succ j =>
        simp only [List.getElem?_cons_succ] at h1
        rw [List.getElem?_map] at h1
        cases hx : (d :: ds)[j]? with
        | none => rw [hx] at h1; cases h1
        | some x =>
          rw [hx] at h1
          simp only [Option.map_some', Option.some.injEq] at h1
          rw [← h1, hids j x hx]
          push_cast
          rfl
    · intro hlines
      have hr0 : Skeleton.RootFirst
          ({ store := store, scale := scale, movableBones := st.movableBones, bones := st.bones }
            : Skeleton S R) := by
        refine ⟨rootBone K blank, ?_, rfl, rfl⟩
        simp only
        rw [hextra]
        simp
      rw [hin, ignoreLine_newline, ignoreLine_begin] at hh
      have hr1 := hierarchyLoop_root (f + 1) _ _ _ _ sk1 hh hlines
        (fun hg => by simp [IStream.good] at hg) hr0
      obtain ⟨rb, hrb, hname, hpar⟩ := hr1
      have hrb2 : (computeLocalDirection toLocal sk1).bones[0]? = some rb := by
        rw [computeLocalDirection_root]
        exact hrb
      refine ⟨⟨rb, hrb2, hname, hpar⟩, ?_⟩
      intro rb2 h2
      rw [hrb2] at h2
      cases h2
      exact hpar

theorem demoDecls_ids :
    ∀ (i : Nat) (x : BoneDecl), [declA, declB][i]? = some x → x.idValue = (i : Int) + 1 := by
  intro i x hx
  match i with
  | 0 => simp at hx; subst hx; decide
  | 1 => simp at hx; subst hx; decide
  | _ + 2 => simp at hx

theorem load_idx_follows_declared_ids_witness :
    ((∀ x ∈ [declA, declB], x.WellFormed scanDemo) ∧
      (Skeleton.load demoKernel scanDemo (fun _ v => v) blankBone 40
        (some (renderDescription [declA, declB]
          ('\n' :: ("begin".data ++ '\n' :: "root a\na b\nend\n".data)))) (some 1) 0).returns
        = true ∧
      (∀ (i : Nat) (x : BoneDecl), [declA, declB][i]? = some x → x.idValue = (i : Int) + 1) ∧
      (∀ L ∈ IStream.lines "root a\na b\nend\n".data,
        listsRootAsChild (String.mk L) = false)) ∧
    ((Skeleton.load demoKernel scanDemo (fun _ v => v) blankBone 40
        (some (renderDescription [declA, declB]
          ('\n' :: ("begin".data ++ '\n' :: "root a\na b\nend\n".data)))) (some 1) 0).getD
        rootOnly).bones.map (fun b => b.idx) = 0 :: [declA, declB].map BoneDecl.idValue ∧
    ((Skeleton.load demoKernel scanDemo (fun _ v => v) blankBone 40
        (some (renderDescription [declA, declB]
          ('\n' :: ("begin".data ++ '\n' :: "root a\na b\nend\n".data)))) (some 1) 0).getD
        rootOnly).Indexed ∧
    ((Skeleton.load demoKernel scanDemo (fun _ v => v) blankBone 40
        (some (renderDescription [declA, declB]
          ('\n' :: ("begin".data ++ '\n' :: "root a\na b\nend\n".data)))) (some 1) 0).getD
        rootOnly).RootTop := by
  have hwf : ∀ x ∈ [declA, declB], x.WellFormed scanDemo := by
    intro x hx
    simp only [List.mem_cons, List.mem_singleton, List.not_mem_nil, or_false] at hx
    rcases hx with rfl | rfl
    · exact declA_wellFormed
    · exact declB_wellFormed
  have hlines : ∀ L ∈ IStream.lines "root a\na b\nend\n".data,
      listsRootAsChild (String.mk L) = false := by decide
  have h := load_idx_follows_declared_ids demoKernel scanDemo (fun _ v => v) blankBone declA
    [declB] "root a\na b\nend\n".data 40 (some 1) 0 _ hwf
    (Run.eq_done_of_returns _ rootOnly (by decide!))
  exact ⟨⟨hwf, by decide!, demoDecls_ids, hlines⟩, h.1, h.2.2.1 demoDecls_ids,
    (h.2.2.2 hlines).2⟩

/-- C17 (the code at the failing inputs): a description that declares the ids 2 and 1, in
this order, loads with `idx` 2 at array position 1 and `idx` 1 at position 2, so that
`bone - bone->idx` is the bone at position 1, not the root, for the bone at position 2, and
points before the array for the bone at position 1; and a description whose hierarchy
section has the line `a root` loads with the bone `a` as parent of the root. -/
theorem load_stores_declared_id_as_idx :
    idxList (Skeleton.load demoKernel scanDemo (fun _ d => d) blankBone 100
      (some swappedIdsText.data) (some 1) 0) = Run.done [0, 2, 1] ∧
    ((Skeleton.load demoKernel scanDemo (fun _ d => d) blankBone 100
      (some swappedIdsText.data) (some 1) 0).bind fun sk =>
        (sk.deref ⟨0, 2⟩).bind fun b => sk.ptrSub ⟨0, 2⟩ b.idx) = Run.done ⟨0, 1⟩ ∧
    ((Skeleton.load demoKernel scanDemo (fun _ d => d) blankBone 100
      (some swappedIdsText.data) (some 1) 0).bind fun sk =>
        (sk.deref ⟨0, 1⟩).bind fun b => sk.ptrSub ⟨0, 1⟩ b.idx) = Run.fault ∧
    parentLinks (Skeleton.load demoKernel scanDemo (fun _ d => d) blankBone 100
      (some rootChildText.data) (some 1) 0) = Run.done [some ⟨0, 1⟩, some ⟨0, 0⟩] := by
  decide!

end acclaim

namespace kinematics

/-- In exact arithmetic a vector of norm 1 is returned unchanged by `normalized()`: the
Jacobian columns of the code are the columns of the specification whenever the world
rotation keeps the unit axes unit. -/
theorem normalized4_unit (R : Type) (root : ℚ → ℚ) (rot : R → Vec4 Exact → Vec4 Exact)
    (hroot : root 1 = 1) (v : Vec4 ℚ)
    (hv : v.x * v.x + v.y * v.y + v.z * v.z + v.w * v.w = 1) :
    (exactKernel R root rot).normalized4 v.lift = v.lift := by
  have h1 : ¬ ((1 : ℚ) < 0) := by norm_num
  simp [Kernel.normalized4, Kernel.squaredNorm4, Kernel.dot4, exactKernel, Vec4.lift, hv, hroot,
    h1]

/-- When `J3 J3ᵀ` is invertible, the coefficient the solve returns for a zero column of the
Jacobian is 0. -/
theorem zero_column_coefficient (R : Type) (root : ℚ → ℚ) (rot : R → Vec4 Exact → Vec4 Exact)
    (J : List (Vec4 ℚ)) (t : Vec4 ℚ) (hdet : gramDet J ≠ 0) (c : Nat) (col : Vec4 ℚ)
    (hc : J[c]? = some col) (h0 : col.x = 0 ∧ col.y = 0 ∧ col.z = 0) :
    (pseudoInverseLinearSolver (exactKernel R root rot) (J.map Vec4.lift) t.lift)[c]?
      = some (some 0) := by
  have h : det3 (ratKernel R root (fun _ v => v))
      (gram (ratKernel R root (fun _ v => v)) (Matrix4Xd.topRows3 J)) ≠ 0 := by
    rw [gramDet_eq]
    exact hdet
  rw [pseudoInverse_lift R root rot (fun _ v => v) J t h,
    solver_as_dot R root (fun _ v => v) J t]
  simp only [List.getElem?_map, hc, Option.map_some', h0.1, h0.2.1, h0.2.2]
  simp

/-- In exact arithmetic, adding the converted step of a coefficient 0 leaves a rotation
entry as it was: with a finite solve the update loop keeps the entries of disabled axes. -/
theorem zero_step_keeps_entry (R : Type) (root : ℚ → ℚ) (rot : R → Vec4 Exact → Vec4 Exact)
    (r : Exact) :
    (exactKernel R root rot).add r
      ((exactKernel R root rot).mul
        ((exactKernel R root rot).mul ((exactKernel R root rot).lit (1 / 10)) (some 0))
        ((exactKernel R root rot).div ((exactKernel R root rot).lit 180)
          ((exactKernel R root rot).lit (31415 / 10000)))) = r := by
  cases r with
  | none => rfl
  | some q =>
    simp only [exactKernel]
    norm_num

end kinematics
